import Mathlib

/-!
# CppConsUI::TextEdit — gap buffer and screen-line layout

A shallow embedding of `cppconsui/TextEdit.cpp`.  Pointers into the backing
array are byte offsets from `buffer` (so `buffer` itself is offset `0`), the
backing array is a map from offsets to bytes together with its size `bufend`,
and every `while` loop is a structurally recursive function on a counter that
bounds the number of iterations.  A `g_assert` is a precondition of the
embedded function: the theorems state it as a hypothesis or derive it from the
buffer invariant.
-/

set_option maxRecDepth 100000

namespace CppConsUI

/-! ## Constants and types -/

/-- The gap expand size used when the gap becomes filled (`#define GAP_SIZE_EXPAND 4096`). -/
def GAP_SIZE_EXPAND : Nat := 4096

/-- The number of values of a `size_t`. -/
def SIZE_MOD : Nat := 18446744073709551616

/-- The value `static_cast<size_t>(-1)`. -/
def SIZE_MAX : Nat := 18446744073709551615

/-- Unsigned `size_t` subtraction, wrapping around below zero. -/
def szSub (a b : Nat) : Nat := (a % SIZE_MOD + SIZE_MOD - b % SIZE_MOD) % SIZE_MOD

/-- Unsigned `size_t` addition. -/
def szAdd (a b : Nat) : Nat := (a + b) % SIZE_MOD

/-- Conversion of a `size_t` difference to `int` (two's complement, 32 bits). -/
def toInt32 (a : Nat) : Int :=
  if a % 4294967296 < 2147483648 then (a % 4294967296 : Nat) else ((a % 4294967296 : Nat) : Int) - 4294967296

/-- The line feed byte. -/
def LF : Nat := 10

/-- The tab byte. -/
def TAB : Nat := 9

/-- Character classification (glib `g_unichar_*`) and the terminal cell width
(`Curses::onscreen_width`) are supplied by libraries outside `TextEdit.cpp`; the
embedding takes them as parameters. -/
structure Glib where
  g_unichar_isalpha : Nat → Bool
  g_unichar_isdigit : Nat → Bool
  g_unichar_isspace : Nat → Bool
  g_unichar_ispunct : Nat → Bool
  onscreen_width : Nat → Nat → Nat

/-- glib `g_unichar_isspace`: tab, line feed, carriage return and form feed, and the
codepoints of the Unicode categories Zs, Zl and Zp. -/
def unichar_isspace (uc : Nat) : Bool :=
  uc == 9 || uc == 10 || uc == 13 || uc == 12 || uc == 32 || uc == 160 || uc == 5760
  || (8192 ≤ uc && uc ≤ 8202) || uc == 8232 || uc == 8233 || uc == 8239 || uc == 8287
  || uc == 12288

/-- Modelled from the spec: `Curses::onscreen_width` (`CursesWrapper.cpp` is not among the
sources): a tab expands to the next stop of eight columns, a wide codepoint takes two
cells, every other codepoint one.  The wide codepoints are the East Asian wide blocks. -/
def curses_onscreen_width (uc w : Nat) : Nat :=
  if uc = 9 then 8 - w % 8
  else if (4352 ≤ uc && uc ≤ 4447) || (11904 ≤ uc && uc ≤ 42191) || (44032 ≤ uc && uc ≤ 55203)
      || (63744 ≤ uc && uc ≤ 64255) || (65072 ≤ uc && uc ≤ 65135) || (65280 ≤ uc && uc ≤ 65376)
      || (65504 ≤ uc && uc ≤ 65510) then 2
  else 1

/-- The library functions on which the concrete examples are evaluated: the classification
of glib restricted to ASCII for letters, digits and punctuation (punctuation and symbols),
glib's white space, and the cell widths of `curses_onscreen_width`. -/
def stdGlib : Glib where
  g_unichar_isalpha := fun uc => (65 ≤ uc && uc ≤ 90) || (97 ≤ uc && uc ≤ 122)
  g_unichar_isdigit := fun uc => 48 ≤ uc && uc ≤ 57
  g_unichar_isspace := unichar_isspace
  g_unichar_ispunct := fun uc =>
    (33 ≤ uc && uc ≤ 47) || (58 ≤ uc && uc ≤ 64) || (91 ≤ uc && uc ≤ 96) || (123 ≤ uc && uc ≤ 126)
  onscreen_width := curses_onscreen_width

/-- Modelled from the spec: `TextEdit.h` is not among the sources, the four content-filter
flags (alphabetic-only, numeric-only, no-space, no-punctuation) are distinct bit masks. -/
def FLAG_ALPHABETIC : Nat := 1

/-- Modelled from the spec: the numeric-only flag of `TextEdit.h`. -/
def FLAG_NUMERIC : Nat := 2

/-- Modelled from the spec: the no-space flag of `TextEdit.h`. -/
def FLAG_NOSPACE : Nat := 4

/-- Modelled from the spec: the no-punctuation flag of `TextEdit.h`. -/
def FLAG_NOPUNCTUATION : Nat := 8

/-- The C test `flags & mask`. -/
def hasFlag (flags mask : Nat) : Bool := flags &&& mask != 0

inductive Direction where
  | DIR_BACK
  | DIR_FORWARD
deriving DecidableEq, Repr

inductive CursorMovement where
  | MOVE_LOGICAL_POSITIONS
  | MOVE_WORDS
  | MOVE_DISPLAY_LINES
  | MOVE_DISPLAY_LINE_ENDS
deriving DecidableEq, Repr

inductive DeleteType where
  | DELETE_CHARS
  | DELETE_WORD_ENDS
deriving DecidableEq, Repr

/-- One screen line: `ScreenLine(start, end, length)`. -/
structure ScreenLine where
  start : Nat
  end_ : Nat
  length : Nat
deriving DecidableEq, Repr, Inhabited

/-- The drawing area of the widget: `area->getmaxx()` and `area->getmaxy()`. -/
structure Area where
  maxx : Nat
  maxy : Nat
deriving DecidableEq, Repr

/-- The key event handed to `processInputText`: `key.code.codepoint` and `key.utf8`. -/
structure TermKeyKey where
  codepoint : Nat
  utf8 : List Nat
deriving DecidableEq, Repr

/-- The fields of a `TextEdit`.  `text_changes` counts the emissions of
`signal_text_change`. -/
structure TextEdit where
  flags : Nat
  editable : Bool
  overwrite_mode : Bool
  single_line_mode : Bool
  accept_tabs : Bool
  masked : Bool
  buffer : Nat → Nat
  bufend : Nat
  gapstart : Nat
  gapend : Nat
  point : Nat
  text_length : Nat
  current_pos : Nat
  current_sc_line : Nat
  current_sc_linepos : Nat
  view_top : Nat
  screen_lines : List ScreenLine
  screen_lines_dirty : Bool
  area : Option Area
  text_changes : Nat

/-! ## glib UTF-8 helpers -/

/-- The C test `(b & 0xc0) == 0x80` on a byte: `b` is a UTF-8 continuation byte. -/
def isCont (b : Nat) : Bool := b % 256 / 64 == 2

/-- The loop of `g_utf8_find_next_char`: `for (++p; p < end && (*p & 0xc0) == 0x80; ++p)`. -/
def find_next_scan (buf : Nat → Nat) (stop : Nat) : Nat → Nat → Nat
  | 0, p => p
  | n + 1, p => if p < stop && isCont (buf p) then find_next_scan buf stop n (p + 1) else p

/-- glib `g_utf8_find_next_char (p, end)`: `none` is the `NULL` result. -/
def g_utf8_find_next_char (buf : Nat → Nat) (p stop : Nat) : Option Nat :=
  let q := find_next_scan buf stop (stop - p) (p + 1)
  if stop ≤ q then none else some q

/-- glib `g_utf8_find_prev_char (str, p)`: `for (--p; p >= str; --p) if ((*p & 0xc0) != 0x80) return p;`
and `NULL` (`none`) when the scan passes `str`. -/
def g_utf8_find_prev_char (buf : Nat → Nat) (str : Nat) : Nat → Option Nat
  | 0 => none
  | n + 1 => if n < str then none else if !isCont (buf n) then some n
      else g_utf8_find_prev_char buf str n

/-- The continuation loop of glib `UTF8_GET`; the result `-1` is `4294967295`. -/
def utf8_get_loop (buf : Nat → Nat) (p : Nat) : Nat → Nat → Nat → Nat
  | 0, _, acc => acc
  | n + 1, i, acc =>
    if !isCont (buf (p + i)) then 4294967295
    else utf8_get_loop buf p n (i + 1) (acc * 64 + buf (p + i) % 64)

/-- glib `g_utf8_get_char (p)`: decode the sequence that starts at `p`. -/
def g_utf8_get_char (buf : Nat → Nat) (p : Nat) : Nat :=
  let c := buf p % 256
  if c < 128 then utf8_get_loop buf p 0 1 (c % 128)
  else if c / 32 = 6 then utf8_get_loop buf p 1 1 (c % 32)
  else if c / 16 = 14 then utf8_get_loop buf p 2 1 (c % 16)
  else if c / 8 = 30 then utf8_get_loop buf p 3 1 (c % 8)
  else if c / 4 = 62 then utf8_get_loop buf p 4 1 (c % 4)
  else if c / 2 = 126 then utf8_get_loop buf p 5 1 (c % 2)
  else 4294967295

/-- glib `g_utf8_skip[b]`, the sequence length announced by a lead byte. -/
def g_utf8_skip (b : Nat) : Nat :=
  if b % 256 < 192 then 1 else if b % 256 < 224 then 2 else if b % 256 < 240 then 3
  else if b % 256 < 248 then 4 else if b % 256 < 252 then 5 else if b % 256 < 254 then 6 else 1

/-- The loop of glib `g_utf8_strlen`: `while (p - start < max && *p) { ++len; p = g_utf8_next_char (p); }`. -/
def g_utf8_strlen_loop (text : List Nat) (max : Nat) : Nat → Nat → Nat → Nat × Nat
  | 0, p, len => (p, len)
  | n + 1, p, len =>
    if p < max && text.getD p 0 != 0 then
      g_utf8_strlen_loop text max n (p + g_utf8_skip (text.getD p 0)) (len + 1)
    else (p, len)

/-- glib `g_utf8_strlen (p, max)` for `max >= 0`; a partial last character is not counted. -/
def g_utf8_strlen (text : List Nat) (max : Nat) : Nat :=
  if max = 0 || text.getD 0 0 = 0 then 0
  else
    let r := g_utf8_strlen_loop text max max (g_utf8_skip (text.getD 0 0)) 0
    if r.1 ≤ max then r.2 + 1 else r.2

/-- C `strlen`. -/
def strlen (s : List Nat) : Nat := (s.takeWhile (fun b => b != 0)).length

/-- C `memmove (dst, src, n)` on the backing array. -/
def g_memmove (buf : Nat → Nat) (dst src n : Nat) : Nat → Nat :=
  fun i => if dst ≤ i ∧ i < dst + n then buf (src + (i - dst)) else buf i

/-- The store `*p = b`. -/
def poke (buf : Nat → Nat) (p b : Nat) : Nat → Nat :=
  fun i => if i = p then b else buf i

/-- The NUL-terminated string that starts at the beginning of the backing array, read
within the first `n` bytes. -/
def cstring (buf : Nat → Nat) (n : Nat) : List Nat :=
  ((List.range n).map buf).takeWhile (fun b => b != 0)

/-! ## TextEdit -/

namespace TextEdit

/-- `TextEdit::getGapSize`: the pointer difference `gapend - gapstart - 1`, which is not
negative while `gapstart < gapend`. -/
def getGapSize (te : TextEdit) : Nat := te.gapend - te.gapstart - 1

/-- `TextEdit::getTextStart`. -/
def getTextStart (te : TextEdit) : Nat :=
  if 0 = te.gapstart then te.gapend else 0

/-- `TextEdit::prevChar`. -/
def prevChar (te : TextEdit) (p : Nat) : Nat :=
  if te.gapend ≤ p then
    match g_utf8_find_prev_char te.buffer te.gapend p with
    | some q => q
    | none =>
      match g_utf8_find_prev_char te.buffer 0 te.gapstart with
      | some q => q
      | none => 0
  else
    match g_utf8_find_prev_char te.buffer 0 p with
    | some q => q
    | none => 0

/-- `TextEdit::nextChar`. -/
def nextChar (te : TextEdit) (p : Nat) : Nat :=
  let p := if p = te.gapstart then te.gapend else p
  if p < te.gapstart then
    match g_utf8_find_next_char te.buffer p te.gapstart with
    | some q => q
    | none => te.gapend
  else
    match g_utf8_find_next_char te.buffer p te.bufend with
    | some q => q
    | none => te.bufend

/-- `TextEdit::onScreenWidth`. -/
def onScreenWidth (G : Glib) (te : TextEdit) (uc w : Nat) : Nat :=
  if te.masked then 1 else G.onscreen_width uc w

/-- The loop of `TextEdit::width`, `while (chars--)`, with the accumulated width. -/
def width_loop (G : Glib) (te : TextEdit) : Nat → Nat → Nat → Nat
  | 0, _, w => w
  | chars + 1, start, w =>
    width_loop G te chars (nextChar te start) (w + onScreenWidth G te (g_utf8_get_char te.buffer start) w)

/-- `TextEdit::width`. -/
def width (G : Glib) (te : TextEdit) (start chars : Nat) : Nat :=
  width_loop G te chars start 0

/-- The code after the loop of `TextEdit::getScreenLine`: the fix for characters wider than
`max_width`. -/
def getScreenLine_finish (te : TextEdit) (text res res_length : Nat) : Nat × Nat :=
  if res = text then (nextChar te text, 1) else (res, res_length)

/-- The `while (cur < bufend)` loop of `TextEdit::getScreenLine`; the arguments after the
counter are `cur`, `res`, `cur_width`, `cur_length`, `space` and `*res_length`. -/
def getScreenLine_loop (G : Glib) (te : TextEdit) (text max_width : Nat) :
    Nat → Nat → Nat → Nat → Nat → Bool → Nat → Nat × Nat
  | 0, _, res, _, _, _, res_length => getScreenLine_finish te text res res_length
  | n + 1, cur, res, cur_width, cur_length, space, res_length =>
    if cur < te.bufend then
      let prev_width := cur_width
      let uc := g_utf8_get_char te.buffer cur
      let cur_width := cur_width + onScreenWidth G te uc cur_width
      let cur_length := cur_length + 1
      if prev_width > max_width then getScreenLine_finish te text res res_length
      else
        let long := decide (cur_width > max_width) && res_length == 0
        let res_length := if long then cur_length - 1 else res_length
        let res := if long then cur else res
        if te.buffer cur % 256 = LF then (nextChar te cur, cur_length)
        else if G.g_unichar_isspace uc then
          getScreenLine_loop G te text max_width n (nextChar te cur) res cur_width cur_length true
            res_length
        else if space then
          getScreenLine_loop G te text max_width n (nextChar te cur) cur cur_width cur_length false
            (cur_length - 1)
        else
          getScreenLine_loop G te text max_width n (nextChar te cur) res cur_width cur_length space
            res_length
    else getScreenLine_finish te text res res_length

/-- `TextEdit::getScreenLine (text, max_width, &res_length)`: the returned pointer and
`*res_length`.  Every iteration moves `cur` forward, so `bufend - text + 1` iterations reach
`bufend`. -/
def getScreenLine (G : Glib) (te : TextEdit) (text max_width : Nat) : Nat × Nat :=
  getScreenLine_loop G te text max_width (te.bufend - text + 1) text text 0 0 false 0

/-- The loop `while (p < bufend)` of `TextEdit::updateScreenLines ()`, which appends one
screen line per iteration. -/
def updateScreenLines_loop (G : Glib) (te : TextEdit) (realw : Nat) : Nat → Nat → List ScreenLine
  | 0, _ => []
  | n + 1, p =>
    if p < te.bufend then
      let r := getScreenLine G te p (realw - 1)
      ⟨p, r.1, r.2⟩ :: updateScreenLines_loop G te realw n r.1
    else []

/-- The screen lines that `TextEdit::updateScreenLines ()` leaves in `screen_lines`. -/
def fullScreenLines (G : Glib) (te : TextEdit) : List ScreenLine :=
  match te.area with
  | none => []
  | some a =>
    if a.maxx ≤ 1 then []
    else updateScreenLines_loop G te a.maxx (te.bufend + 1) (getTextStart te)

/-- `TextEdit::updateScreenLines ()`. -/
def updateScreenLines (G : Glib) (te : TextEdit) : TextEdit :=
  { te with screen_lines := fullScreenLines G te }

/-- `std::lower_bound (first, last, tag, CmpScreenLineEnd ())`: the index of the first line
whose `end` is not below `tag`. -/
def lower_bound : List ScreenLine → Nat → Nat
  | [], _ => 0
  | l :: ls, tag => if l.end_ < tag then lower_bound ls tag + 1 else 0

/-- The inner loop `while (i != end && (i->end <= end || i->start < s || i->end < p)) i++`
of the incremental update; `old` is the part of the old lines from `i` on and the result is
the new `i`. -/
def skipOld (stop s p : Nat) : List ScreenLine → Nat → Nat
  | [], i => i
  | l :: ls, i =>
    if l.end_ ≤ stop || l.start < s || l.end_ < p then skipOld stop s p ls (i + 1) else i

/-- The main loop of `TextEdit::updateScreenLines (begin, end)`: it returns the new screen
lines and the final position of the iterator `i`. -/
def incr_loop (G : Glib) (te : TextEdit) (realw stop : Nat) :
    Nat → Nat → Nat → List ScreenLine × Nat
  | 0, _, i => ([], i)
  | n + 1, p, i =>
    if p < te.bufend then
      let s := p
      let r := getScreenLine G te p (realw - 1)
      let sline : ScreenLine := ⟨s, r.1, r.2⟩
      let i := skipOld stop s r.1 (te.screen_lines.drop i) i
      if i < te.screen_lines.length ∧ sline = te.screen_lines.getD i default then
        ([sline], i)
      else
        let rest := incr_loop G te realw stop n r.1 i
        (sline :: rest.1, rest.2)
    else ([], i)

/-- `TextEdit::updateScreenLines (begin, end)`: the lines from `b` up to `i` are replaced
by the new screen lines. -/
def updateScreenLinesRange (G : Glib) (te : TextEdit) (begin_ stop : Nat) : TextEdit :=
  match te.area with
  | none => te
  | some a =>
    if a.maxx ≤ 1 then te
    else
      let f := lower_bound te.screen_lines begin_
      let b := if f ≠ 0 then f - 1 else f
      let p := if b = 0 then getTextStart te else (te.screen_lines.getD b default).start
      let r := incr_loop G te a.maxx stop (te.bufend + 1) p b
      let i := if r.2 < te.screen_lines.length then r.2 + 1 else r.2
      { te with screen_lines := te.screen_lines.take b ++ r.1 ++ te.screen_lines.drop i }

/-- `TextEdit::assertUpdatedScreenLines`. -/
def assertUpdatedScreenLines (G : Glib) (te : TextEdit) : TextEdit :=
  if !te.screen_lines_dirty then te
  else { updateScreenLines G te with screen_lines_dirty := false }

/-- The `for` loop of `TextEdit::updateScreenCursor` over the screen lines; the arguments are
the remaining lines, `acu_length` and `current_sc_line`, the result is
`(current_sc_line, current_sc_linepos)`. -/
def locate_loop (current_pos : Nat) : List ScreenLine → Nat → Nat → Nat × Nat
  | [], _, line => (line, 0)
  | l :: ls, acu_length, line =>
    if acu_length ≤ current_pos ∧ current_pos < acu_length + l.length then
      (line, current_pos - acu_length)
    else locate_loop current_pos ls (acu_length + l.length) (line + 1)

/-- The loop `while (view_top > current_sc_line) view_top--;` of `updateScreenCursor`. -/
def viewTopDown_loop (current_sc_line : Nat) : Nat → Nat → Nat
  | 0, view_top => view_top
  | n + 1, view_top =>
    if view_top > current_sc_line then viewTopDown_loop current_sc_line n (view_top - 1)
    else view_top

/-- The loop `while (view_top + realh <= current_sc_line) view_top++;` of `updateScreenCursor`. -/
def viewTopUp_loop (realh current_sc_line : Nat) : Nat → Nat → Nat
  | 0, view_top => view_top
  | n + 1, view_top =>
    if view_top + realh ≤ current_sc_line then viewTopUp_loop realh current_sc_line n (view_top + 1)
    else view_top

/-- The cursor visibility fix at the end of `TextEdit::updateScreenCursor`. -/
def fixViewTop (view_top realh current_sc_line : Nat) : Nat :=
  if view_top ≤ current_sc_line ∧ current_sc_line < view_top + realh then view_top
  else
    let v := viewTopDown_loop current_sc_line view_top view_top
    viewTopUp_loop realh current_sc_line (current_sc_line + 1) v

/-- `TextEdit::updateScreenCursor`. -/
def updateScreenCursor (G : Glib) (te : TextEdit) : TextEdit :=
  let te := { te with current_sc_line := 0, current_sc_linepos := 0 }
  match te.area with
  | none => te
  | some a =>
    let te := assertUpdatedScreenLines G te
    let r := locate_loop te.current_pos te.screen_lines 0 0
    { te with current_sc_line := r.1, current_sc_linepos := r.2,
              view_top := fixViewTop te.view_top a.maxy r.1 }

/-- `TextEdit::initBuffer (size)`; the new array is zero-filled. -/
def initBuffer (G : Glib) (te : TextEdit) (size : Nat) : TextEdit :=
  let te := { te with
    buffer := poke (fun _ => 0) (size - 1) LF
    bufend := size
    current_pos := 0
    point := 0
    gapstart := 0
    gapend := size - 1
    text_length := 0
    current_sc_line := 0
    current_sc_linepos := 0
    view_top := 0 }
  updateScreenLines G te

/-- `TextEdit::expandGap (size)`. -/
def expandGap (te : TextEdit) (size : Nat) : TextEdit :=
  if size ≤ getGapSize te then te
  else
    let size := size + GAP_SIZE_EXPAND
    let point_after_gap := decide (te.point ≥ te.gapend)
    { te with
      buffer := g_memmove te.buffer (te.gapend + size) te.gapend (te.bufend - te.gapend)
      point := if point_after_gap then te.point + size else te.point
      gapend := te.gapend + size
      bufend := te.bufend + size }

/-- `TextEdit::moveGapToCursor`. -/
def moveGapToCursor (te : TextEdit) : TextEdit :=
  if te.point = te.gapstart then te
  else if te.point = te.gapend then { te with point := te.gapstart }
  else if te.point < te.gapstart then
    { te with
      buffer := g_memmove te.buffer (te.point + (te.gapend - te.gapstart)) te.point
        (te.gapstart - te.point)
      gapend := te.gapend - (te.gapstart - te.point)
      gapstart := te.point }
  else
    { te with
      buffer := g_memmove te.buffer te.gapstart te.gapend (te.point - te.gapend)
      gapstart := te.gapstart + (te.point - te.gapend)
      gapend := te.point
      point := te.gapstart + (te.point - te.gapend) }

/-- The copy loop `while (new_text_bytes) { *gapstart++ = *new_text++; new_text_bytes--; }`
of `insertTextAtCursor`: the array and `gapstart` after it. -/
def copy_loop (new_text : List Nat) : Nat → Nat → (Nat → Nat) → Nat → (Nat → Nat) × Nat
  | 0, _, buf, gapstart => (buf, gapstart)
  | n + 1, k, buf, gapstart =>
    copy_loop new_text n (k + 1) (poke buf gapstart (new_text.getD k 0)) (gapstart + 1)

/-- `TextEdit::insertTextAtCursor (new_text, new_text_bytes)`. -/
def insertTextAtCursor (G : Glib) (te : TextEdit) (new_text : List Nat) (new_text_bytes : Nat) :
    TextEdit :=
  let te := assertUpdatedScreenLines G te
  let min := te.gapstart
  let max := te.gapend
  let te := moveGapToCursor te
  let min2 := te.gapstart
  let full_screen_lines_update := decide (new_text_bytes > getGapSize te)
  let te := if new_text_bytes > getGapSize te then expandGap te new_text_bytes else te
  let n_chars := g_utf8_strlen new_text new_text_bytes
  let c := copy_loop new_text new_text_bytes 0 te.buffer te.gapstart
  let te := { te with
    text_length := te.text_length + n_chars
    current_pos := te.current_pos + n_chars
    buffer := c.1
    gapstart := c.2
    point := c.2 }
  let te := if full_screen_lines_update then updateScreenLines G te
    else updateScreenLinesRange G te (Nat.min min min2) (Nat.max max te.gapend)
  let te := updateScreenCursor G te
  { te with text_changes := te.text_changes + 1 }

/-- `TextEdit::insertTextAtCursor (new_text)` for a NUL-terminated string. -/
def insertTextAtCursorStr (G : Glib) (te : TextEdit) (new_text : List Nat) : TextEdit :=
  insertTextAtCursor G te new_text (strlen new_text)

/-- `TextEdit::clear`. -/
def clear (G : Glib) (te : TextEdit) : TextEdit :=
  initBuffer G te GAP_SIZE_EXPAND

/-- `TextEdit::setText`; `none` is the `NULL` argument. -/
def setText (G : Glib) (te : TextEdit) (new_text : Option (List Nat)) : TextEdit :=
  match new_text with
  | none => clear G te
  | some t =>
    let size := strlen t
    insertTextAtCursor G (initBuffer G te (size + GAP_SIZE_EXPAND)) t size

/-- `TextEdit::getText`: the state it leaves and the returned string (read from `buffer`). -/
def getText (te : TextEdit) : TextEdit × List Nat :=
  let point_after_gap := decide (te.point ≥ te.gapend)
  let buf := g_memmove te.buffer te.gapstart te.gapend (te.bufend - te.gapend - 1)
  let gapstart := te.gapstart + (te.bufend - te.gapend - 1)
  let te := { te with
    screen_lines_dirty := true
    buffer := poke buf gapstart 0
    point := if point_after_gap then te.point - (te.gapend - te.gapstart) else te.point
    gapstart := gapstart
    gapend := te.bufend - 1 }
  (te, cstring te.buffer te.bufend)

/-- The four flag tests applied to one codepoint in `processInputText` and `setFlags`:
`true` when some active flag rejects `uc`. -/
def flagsReject (G : Glib) (flags uc : Nat) : Bool :=
  (hasFlag flags FLAG_ALPHABETIC && !G.g_unichar_isalpha uc)
  || (hasFlag flags FLAG_NUMERIC && !G.g_unichar_isdigit uc)
  || (hasFlag flags FLAG_NOSPACE && G.g_unichar_isspace uc)
  || (hasFlag flags FLAG_NOPUNCTUATION && G.g_unichar_ispunct uc)

/-- `TextEdit::processInputText`: the returned `bool` and the state. -/
def processInputText (G : Glib) (te : TextEdit) (key : TermKeyKey) : Bool × TextEdit :=
  if !te.editable then (false, te)
  else if te.single_line_mode && key.codepoint == LF then (false, te)
  else if !te.accept_tabs && key.codepoint == TAB then (false, te)
  else if te.flags != 0 && flagsReject G te.flags key.codepoint then (false, te)
  else (true, insertTextAtCursorStr G te key.utf8)

/-- The validation loop `while (p < bufend - 1)` of `TextEdit::setFlags`: the final value of
`valid`. -/
def setFlags_loop (G : Glib) (te : TextEdit) : Nat → Nat → Bool
  | 0, _ => true
  | n + 1, p =>
    if p < te.bufend - 1 then
      if flagsReject G te.flags (g_utf8_get_char te.buffer p) then false
      else setFlags_loop G te n (nextChar te p)
    else true

/-- `TextEdit::setFlags`. -/
def setFlags (G : Glib) (te : TextEdit) (new_flags : Nat) (revalidate : Bool) : TextEdit :=
  if new_flags = te.flags then te
  else
    let te := { te with flags := new_flags }
    if te.flags != 0 && revalidate then
      let valid := setFlags_loop G te te.bufend (getTextStart te)
      if !valid then clear G te else te
    else te

/-- `TextEdit::moveLogicallyFromCursor`. -/
def moveLogicallyFromCursor (te : TextEdit) (dir : Direction) : Nat :=
  if dir = Direction.DIR_FORWARD ∧ te.current_pos < te.text_length then te.current_pos + 1
  else if dir = Direction.DIR_BACK ∧ te.current_pos > 0 then te.current_pos - 1
  else te.current_pos

/-- The test `!g_unichar_isspace (g_utf8_get_char (cur)) && *cur != '\n'` of
`moveWordFromCursor`. -/
def nonwhiteAt (G : Glib) (te : TextEdit) (cur : Nat) : Bool :=
  !G.g_unichar_isspace (g_utf8_get_char te.buffer cur) && te.buffer cur % 256 != LF

/-- The forward loop of `moveWordFromCursor` for `word_end`: search for the first white
character after nonwhite characters. -/
def wordEndFwd_loop (G : Glib) (te : TextEdit) : Nat → Nat → Nat → Bool → Nat
  | 0, _, new_pos, _ => new_pos
  | n + 1, cur, new_pos, nonwhite =>
    if new_pos < te.text_length then
      if nonwhiteAt G te cur then wordEndFwd_loop G te n (nextChar te cur) (new_pos + 1) true
      else if nonwhite then new_pos
      else wordEndFwd_loop G te n (nextChar te cur) (new_pos + 1) nonwhite
    else new_pos

/-- The forward loop of `moveWordFromCursor` without `word_end`: search for the first
nonwhite character after white characters. -/
def wordStartFwd_loop (G : Glib) (te : TextEdit) : Nat → Nat → Nat → Bool → Nat
  | 0, _, new_pos, _ => new_pos
  | n + 1, cur, new_pos, white =>
    if new_pos < te.text_length then
      if !nonwhiteAt G te cur then wordStartFwd_loop G te n (nextChar te cur) (new_pos + 1) true
      else if white then new_pos
      else wordStartFwd_loop G te n (nextChar te cur) (new_pos + 1) white
    else new_pos

/-- The backward loop `while (new_pos != static_cast<size_t>(-1))` of `moveWordFromCursor`:
the value of `new_pos` when the loop is left. -/
def wordBack_loop (G : Glib) (te : TextEdit) : Nat → Nat → Nat → Bool → Nat
  | 0, _, new_pos, _ => new_pos
  | n + 1, cur, new_pos, nonwhite =>
    if new_pos ≠ SIZE_MAX then
      if nonwhiteAt G te cur then
        wordBack_loop G te n (if new_pos > 0 then prevChar te cur else cur) (szSub new_pos 1) true
      else if nonwhite then new_pos
      else
        wordBack_loop G te n (if new_pos > 0 then prevChar te cur else cur) (szSub new_pos 1)
          nonwhite
    else new_pos

/-- `TextEdit::moveWordFromCursor`. -/
def moveWordFromCursor (G : Glib) (te : TextEdit) (dir : Direction) (word_end : Bool) : Nat :=
  let new_pos := te.current_pos
  let cur := if te.point = te.gapstart then te.gapend else te.point
  match dir with
  | Direction.DIR_FORWARD =>
    if word_end then wordEndFwd_loop G te (te.text_length - new_pos) cur new_pos false
    else wordStartFwd_loop G te (te.text_length - new_pos) cur new_pos false
  | Direction.DIR_BACK =>
    if new_pos = 0 then 0
    else
      let cur := prevChar te cur
      let new_pos := szSub new_pos 1
      szAdd (wordBack_loop G te (new_pos + 2) cur new_pos false) 1

/-- The loop `while (count > 0) { gapend = nextChar (gapend); text_length--; count--; }` of
`deleteFromCursor`. -/
def deleteFwd_loop : Nat → TextEdit → TextEdit
  | 0, te => te
  | n + 1, te =>
    deleteFwd_loop n { te with gapend := nextChar te te.gapend, text_length := szSub te.text_length 1 }

/-- The loop `while (count < 0) { gapstart = prevChar (gapstart); current_pos--; text_length--;
count++; }` of `deleteFromCursor`. -/
def deleteBack_loop : Nat → TextEdit → TextEdit
  | 0, te => te
  | n + 1, te =>
    deleteBack_loop n { te with
      gapstart := prevChar te te.gapstart
      current_pos := szSub te.current_pos 1
      text_length := szSub te.text_length 1 }

/-- `TextEdit::deleteFromCursor`. -/
def deleteFromCursor (G : Glib) (te : TextEdit) (type : DeleteType) (dir : Direction) : TextEdit :=
  if !te.editable then te
  else
    let te := assertUpdatedScreenLines G te
    let count : Int :=
      match type with
      | DeleteType.DELETE_CHARS => toInt32 (szSub (moveLogicallyFromCursor te dir) te.current_pos)
      | DeleteType.DELETE_WORD_ENDS =>
        toInt32 (szSub (moveWordFromCursor G te dir true) te.current_pos)
    if count ≠ 0 then
      let min := te.gapstart
      let max := te.gapend
      let te := moveGapToCursor te
      let te := deleteFwd_loop count.toNat te
      let te := deleteBack_loop (-count).toNat te
      let te := { te with point := te.gapstart }
      let te := updateScreenLinesRange G te (Nat.min min te.gapstart) (Nat.max max te.gapend)
      let te := updateScreenCursor G te
      { te with text_changes := te.text_changes + 1 }
    else te

/-- The loop of `moveCursor (MOVE_DISPLAY_LINES, ...)` that finds a character close to the
original position: `while (w < oldw && i < length - 1)`; the result is `i`. -/
def closeColumn_loop (G : Glib) (te : TextEdit) (oldw bound : Nat) : Nat → Nat → Nat → Nat → Nat
  | 0, _, i, _ => i
  | n + 1, ch, i, w =>
    if w < oldw ∧ i < bound then
      closeColumn_loop G te oldw bound n (nextChar te ch) (i + 1)
        (w + onScreenWidth G te (g_utf8_get_char te.buffer ch) w)
    else i

/-- The new `current_pos` computed by the `switch` of `TextEdit::moveCursor`. -/
def moveCursorTarget (G : Glib) (te : TextEdit) (step : CursorMovement) (dir : Direction) : Nat :=
  let line := fun (k : Nat) => te.screen_lines.getD k default
  match step with
  | CursorMovement.MOVE_LOGICAL_POSITIONS => moveLogicallyFromCursor te dir
  | CursorMovement.MOVE_WORDS => moveWordFromCursor G te dir false
  | CursorMovement.MOVE_DISPLAY_LINES =>
    match dir with
    | Direction.DIR_FORWARD =>
      if te.current_sc_line + 1 < te.screen_lines.length then
        let oldw := width G te (line te.current_sc_line).start te.current_sc_linepos
        let pos := szAdd te.current_pos (szSub (line te.current_sc_line).length te.current_sc_linepos)
        let bound := szSub (line (te.current_sc_line + 1)).length 1
        szAdd pos (closeColumn_loop G te oldw bound bound (line (te.current_sc_line + 1)).start 0 0)
      else te.current_pos
    | Direction.DIR_BACK =>
      if te.current_sc_line > 0 then
        let oldw := width G te (line te.current_sc_line).start te.current_sc_linepos
        let pos := szSub te.current_pos te.current_sc_linepos
        let pos := szSub pos (line (te.current_sc_line - 1)).length
        let bound := szSub (line (te.current_sc_line - 1)).length 1
        szAdd pos (closeColumn_loop G te oldw bound bound (line (te.current_sc_line - 1)).start 0 0)
      else te.current_pos
  | CursorMovement.MOVE_DISPLAY_LINE_ENDS =>
    match dir with
    | Direction.DIR_FORWARD =>
      szAdd te.current_pos
        (szSub (szSub (line te.current_sc_line).length te.current_sc_linepos) 1)
    | Direction.DIR_BACK => szSub te.current_pos te.current_sc_linepos

/-- `TextEdit::moveCursor`. -/
def moveCursor (G : Glib) (te : TextEdit) (step : CursorMovement) (dir : Direction) : TextEdit :=
  let te := assertUpdatedScreenLines G te
  let old_pos := te.current_pos
  let current_pos := moveCursorTarget G te step dir
  let point := (prevChar te)^[old_pos - current_pos] te.point
  let point := (nextChar te)^[current_pos - old_pos] point
  updateScreenCursor G { te with current_pos := current_pos, point := point }

/-- The number of codepoints between the offsets `p` and `q`: the number of `nextChar` steps
that lead from `p` to `q` (or past it), the gap being skipped by `nextChar`. -/
def charsBetween (te : TextEdit) : Nat → Nat → Nat → Nat
  | 0, _, _ => 0
  | n + 1, p, q => if p < q then charsBetween te n (nextChar te p) q + 1 else 0

/-- A document in the state used by the concrete examples: nothing allocated yet, editable,
tabs accepted, no flags, with the drawing area `a`. -/
def blank (a : Option Area) (masked : Bool) : TextEdit :=
  ⟨0, true, false, false, true, masked, fun _ => 0, 0, 0, 0, 0, 0, 0, 0, 0, 0, [], false, a, 0⟩

end TextEdit

open TextEdit

/-! ## The document as a list of codepoints -/

/-- The UTF-8 encoding of a codepoint below `0x110000`. -/
def utf8enc (uc : Nat) : List Nat :=
  if uc < 128 then [uc]
  else if uc < 2048 then [192 + uc / 64, 128 + uc % 64]
  else if uc < 65536 then [224 + uc / 4096, 128 + uc / 64 % 64, 128 + uc % 64]
  else [240 + uc / 262144, 128 + uc / 4096 % 64, 128 + uc / 64 % 64, 128 + uc % 64]

/-- The codepoints a document can hold: not NUL and below `0x110000`. -/
def validCp (uc : Nat) : Prop := 0 < uc ∧ uc < 1114112

instance (uc : Nat) : Decidable (validCp uc) := by unfold validCp; infer_instance

/-- The UTF-8 encoding of a list of codepoints. -/
def encodeUtf8 (cs : List Nat) : List Nat := cs.flatMap utf8enc

/-- The bytes `l` are stored in the array from offset `lo` on. -/
def Seg (buf : Nat → Nat) (lo : Nat) (l : List Nat) : Prop :=
  ∀ i, i < l.length → buf (lo + i) = l.getD i 0

/-- The byte offset of the codepoint with index `k` inside the encoding of `cs`. -/
def off (cs : List Nat) (k : Nat) : Nat := (encodeUtf8 (cs.take k)).length

/-- The representation invariant of the gap buffer: the head holds the encoding of the
codepoints `hd`, the tail the encoding of `tl` followed by the line feed sentinel, and the gap
between them is not empty. -/
structure Rep (te : TextEdit) (hd tl : List Nat) : Prop where
  head : Seg te.buffer 0 (encodeUtf8 hd)
  gs : te.gapstart = (encodeUtf8 hd).length
  gap : te.gapstart < te.gapend
  tail : Seg te.buffer te.gapend (encodeUtf8 (tl ++ [LF]))
  be : te.bufend = te.gapend + (encodeUtf8 (tl ++ [LF])).length
  vhd : ∀ c, c ∈ hd → validCp c
  vtl : ∀ c, c ∈ tl → validCp c

/-- The offset in the backing array of the codepoint with index `k` of the document (the
sentinel has index `N`, and index `N + 1` is `bufend`). -/
def posOf (te : TextEdit) (hd tl : List Nat) (k : Nat) : Nat :=
  if k < hd.length then off hd k else te.gapend + off (tl ++ [LF]) (k - hd.length)

/-- The cell width of a codepoint at column `w` (`onScreenWidth` on codepoints). -/
def oswL (G : Glib) (masked : Bool) (c w : Nat) : Nat :=
  if masked then 1 else G.onscreen_width c w

/-- The end of the line breaker on codepoints: at least one codepoint is consumed. -/
def brkFinish (rl : Nat) : Nat := if rl = 0 then 1 else rl

/-- The line breaker on a list of codepoints: the loop of `getScreenLine` with the
accumulated width, the number of codepoints scanned, the `space` flag and the recorded
length. -/
def brkLoop (G : Glib) (masked : Bool) (mw : Nat) : List Nat → Nat → Nat → Bool → Nat → Nat
  | [], _, _, _, rl => brkFinish rl
  | c :: cs, cw, cl, sp, rl =>
    if cw > mw then brkFinish rl
    else if c = 10 then cl + 1
    else if G.g_unichar_isspace c then
      brkLoop G masked mw cs (cw + oswL G masked c cw) (cl + 1) true
        (if decide (cw + oswL G masked c cw > mw) && rl == 0 then cl else rl)
    else if sp then brkLoop G masked mw cs (cw + oswL G masked c cw) (cl + 1) false cl
    else
      brkLoop G masked mw cs (cw + oswL G masked c cw) (cl + 1) sp
        (if decide (cw + oswL G masked c cw > mw) && rl == 0 then cl else rl)

/-- The number of codepoints of the first screen line of the codepoints `l`. -/
def brk (G : Glib) (masked : Bool) (mw : Nat) (l : List Nat) : Nat :=
  brkLoop G masked mw l 0 0 false 0

/-- The cell widths are monotone in the column: a codepoint that starts further left does
not end further right (tab stops, fixed widths). -/
def WidthMono (G : Glib) : Prop :=
  ∀ (uc w w2 : Nat), w ≤ w2 → w + G.onscreen_width uc w ≤ w2 + G.onscreen_width uc w2

/-- The number of codepoints that the line breaker examines from the accumulated width `cw`
on. -/
def need (G : Glib) (masked : Bool) (mw : Nat) : List Nat → Nat → Nat
  | [], _ => 0
  | c :: cs, cw =>
    if cw > mw then 0
    else if c = 10 then 1
    else need G masked mw cs (cw + oswL G masked c cw) + 1

/-- The lengths of the screen lines of the codepoints `l`, at most `n` of them. -/
def layoutAux (G : Glib) (masked : Bool) (mw : Nat) : Nat → List Nat → List Nat
  | 0, _ => []
  | n + 1, l =>
    if l = [] then []
    else brk G masked mw l :: layoutAux G masked mw n (l.drop (brk G masked mw l))

/-- The lengths of the screen lines of the codepoints `l` (the document with its sentinel). -/
def layout (G : Glib) (masked : Bool) (mw : Nat) (l : List Nat) : List Nat :=
  layoutAux G masked mw l.length l

/-- The screen lines with the lengths `lens`, starting at the codepoint with index `k`. -/
def render (te : TextEdit) (hd tl : List Nat) : Nat → List Nat → List ScreenLine
  | _, [] => []
  | k, n :: ns => ⟨posOf te hd tl k, posOf te hd tl (k + n), n⟩ :: render te hd tl (k + n) ns

/-- The condition under which the incremental update skips an old screen line. -/
def skipCond (stop s p : Nat) (l : ScreenLine) : Bool :=
  decide (l.end_ ≤ stop) || decide (l.start < s) || decide (l.end_ < p)

/-- The codepoints end with the line feed sentinel. -/
def EndsLF (l : List Nat) : Prop := ∃ pre, l = pre ++ [10]

/-- The relation between the document before an edit (`teO`) and after it (`teN`) on which
the incremental update relies: the first `a` codepoints, stored below `begin_`, and the last
`c` codepoints (the sentinel included), stored above `stop`, are the same and in the same
place. -/
structure EditRel (teO teN : TextEdit) (hdO tlO hdN tlN : List Nat) (begin_ stop a c : Nat) :
    Prop where
  repO : Rep teO hdO tlO
  repN : Rep teN hdN tlN
  bufend_eq : teO.bufend = teN.bufend
  a_leN : a ≤ hdN.length + tlN.length
  pre_doc : (hdO ++ tlO ++ [LF]).take a = (hdN ++ tlN ++ [LF]).take a
  pre_pos : ∀ k, k < a → posOf teO hdO tlO k = posOf teN hdN tlN k
  pre_lt : ∀ k, k ≤ hdO.length + tlO.length + 1 → posOf teO hdO tlO k < begin_ → k < a
  c_leO : c ≤ hdO.length + tlO.length + 1
  c_leN : c ≤ hdN.length + tlN.length + 1
  suf_doc : (hdO ++ tlO ++ [LF]).drop (hdO.length + tlO.length + 1 - c)
    = (hdN ++ tlN ++ [LF]).drop (hdN.length + tlN.length + 1 - c)
  suf_pos : ∀ e, e ≤ c → posOf teO hdO tlO (hdO.length + tlO.length + 1 - c + e)
    = posOf teN hdN tlN (hdN.length + tlN.length + 1 - c + e)
  suf_gt : ∀ k, k ≤ hdO.length + tlO.length + 1 → stop < posOf teO hdO tlO k →
    hdO.length + tlO.length + 1 - c ≤ k

/-- The part of `insertTextAtCursor` that changes the store: the gap is moved to the cursor
and expanded if needed, the counters are advanced and the bytes are copied. -/
def insertStore (te : TextEdit) (new_text : List Nat) (new_text_bytes : Nat) : TextEdit :=
  let te := moveGapToCursor te
  let te := if new_text_bytes > getGapSize te then expandGap te new_text_bytes else te
  let n_chars := g_utf8_strlen new_text new_text_bytes
  let c := copy_loop new_text new_text_bytes 0 te.buffer te.gapstart
  { te with
    text_length := te.text_length + n_chars
    current_pos := te.current_pos + n_chars
    buffer := c.1
    gapstart := c.2
    point := c.2 }

/-- The fields outside the store are the same in two states. -/
structure Frame (te te2 : TextEdit) : Prop where
  area : te2.area = te.area
  masked : te2.masked = te.masked
  flags : te2.flags = te.flags
  editable : te2.editable = te.editable
  single_line_mode : te2.single_line_mode = te.single_line_mode
  accept_tabs : te2.accept_tabs = te.accept_tabs
  text_changes : te2.text_changes = te.text_changes
  screen_lines : te2.screen_lines = te.screen_lines
  screen_lines_dirty : te2.screen_lines_dirty = te.screen_lines_dirty
  current_sc_line : te2.current_sc_line = te.current_sc_line
  current_sc_linepos : te2.current_sc_linepos = te.current_sc_linepos
  view_top : te2.view_top = te.view_top

/-- The loop of `updateScreenCursor` on the lengths of the screen lines. -/
def locLens (pos : Nat) : List Nat → Nat → Nat → Nat × Nat
  | [], _, line => (line, 0)
  | n :: ns, acu, line =>
    if acu ≤ pos ∧ pos < acu + n then (line, pos - acu)
    else locLens pos ns (acu + n) (line + 1)

/-- The store of two states is the same: the backing array, its end and the gap. -/
structure SameStore (te te2 : TextEdit) : Prop where
  buffer : te2.buffer = te.buffer
  bufend : te2.bufend = te.bufend
  gapstart : te2.gapstart = te.gapstart
  gapend : te2.gapend = te.gapend

/-- The invariant of a document with a viewport `ar` of width at least 2: the buffer holds
the codepoints `hd` before the gap and `tl` after it, the cursor is an index into them and
the point is at the cursor, the screen-line cache (unless marked dirty) is the layout of the
document and the screen position of the cursor is the position of the cursor in that
layout. -/
structure Inv (G : Glib) (te : TextEdit) (hd tl : List Nat) (ar : Area) : Prop where
  rep : Rep te hd tl
  len : te.text_length = hd.length + tl.length
  cur : te.current_pos ≤ hd.length + tl.length
  pt : te.point = posOf te hd tl te.current_pos
    ∨ (te.current_pos = hd.length ∧ te.point = te.gapstart)
  area : te.area = some ar
  wide : 2 ≤ ar.maxx
  lines : te.screen_lines_dirty = false →
    te.screen_lines = render te hd tl 0 (layout G te.masked (ar.maxx - 1) (hd ++ tl ++ [LF]))
  sc : (te.current_sc_line, te.current_sc_linepos)
    = locLens te.current_pos (layout G te.masked (ar.maxx - 1) (hd ++ tl ++ [LF])) 0 0

/-- The document part of the invariant, which needs no viewport: the buffer holds the
codepoints `hd` before the gap and `tl` after it, `text_length` is their number, the cursor
is an index into them and the point is at the cursor. -/
structure Doc (te : TextEdit) (hd tl : List Nat) : Prop where
  rep : Rep te hd tl
  len : te.text_length = hd.length + tl.length
  cur : te.current_pos ≤ hd.length + tl.length
  pt : te.point = posOf te hd tl te.current_pos
    ∨ (te.current_pos = hd.length ∧ te.point = te.gapstart)

/-- A document with a viewport `ar` of width at least 2 whose screen-line cache (unless marked
dirty) is the layout of the document. -/
structure Lay (G : Glib) (te : TextEdit) (hd tl : List Nat) (ar : Area) : Prop where
  rep : Rep te hd tl
  len : te.text_length = hd.length + tl.length
  cur : te.current_pos ≤ hd.length + tl.length
  pt : te.point = posOf te hd tl te.current_pos
    ∨ (te.current_pos = hd.length ∧ te.point = te.gapstart)
  area : te.area = some ar
  wide : 2 ≤ ar.maxx
  lines : te.screen_lines_dirty = false →
    te.screen_lines = render te hd tl 0 (layout G te.masked (ar.maxx - 1) (hd ++ tl ++ [LF]))

/-- Two states differ at most in the screen-line cache, its dirty mark, the screen position of
the cursor and the first visible line. -/
structure SameDoc (te te2 : TextEdit) : Prop where
  buffer : te2.buffer = te.buffer
  bufend : te2.bufend = te.bufend
  gapstart : te2.gapstart = te.gapstart
  gapend : te2.gapend = te.gapend
  point : te2.point = te.point
  current_pos : te2.current_pos = te.current_pos
  text_length : te2.text_length = te.text_length
  text_changes : te2.text_changes = te.text_changes
  area : te2.area = te.area
  masked : te2.masked = te.masked
  flags : te2.flags = te.flags
  editable : te2.editable = te.editable
  single_line_mode : te2.single_line_mode = te.single_line_mode
  accept_tabs : te2.accept_tabs = te.accept_tabs

/-- The target index computed by the `switch` of `deleteFromCursor`. -/
def deleteTarget (G : Glib) (te : TextEdit) (type : DeleteType) (dir : Direction) : Nat :=
  match type with
  | DeleteType.DELETE_CHARS => moveLogicallyFromCursor te dir
  | DeleteType.DELETE_WORD_ENDS => moveWordFromCursor G te dir true

/-- The store and the counters after the two loops of `deleteFromCursor` for the signed
`count`. -/
def deleteStore (te : TextEdit) (count : Int) : TextEdit :=
  let te := moveGapToCursor te
  let te := deleteFwd_loop count.toNat te
  let te := deleteBack_loop (-count).toNat te
  { te with point := te.gapstart }

/-- The constructor `TextEdit::TextEdit (w, h, text_, flags_, single_line, accept_tabs_,
masked_)`: the member initialisers followed by `setText (text_)`; `a` is the drawing area of
the widget. -/
def construct (G : Glib) (a : Option Area) (text_ : Option (List Nat)) (flags_ : Nat)
    (single_line accept_tabs_ masked_ : Bool) : TextEdit :=
  setText G ⟨flags_, true, false, single_line, accept_tabs_, masked_, fun _ => 0,
    0, 0, 0, 0, 0, 0, 0, 0, 0, [], false, a, 0⟩ text_

/-- The store set up by `initBuffer`, before its call of `updateScreenLines`. -/
def initStore (te : TextEdit) (size : Nat) : TextEdit :=
  { te with
    buffer := poke (fun _ => 0) (size - 1) LF
    bufend := size
    current_pos := 0
    point := 0
    gapstart := 0
    gapend := size - 1
    text_length := 0
    current_sc_line := 0
    current_sc_linepos := 0
    view_top := 0 }

/-- The screen lines `L` tile the stored text of `te` (the codepoints `hd` before the gap,
`tl` after it, and the final line feed): `L` is not empty, the first line starts at the start
of the text, each line ends where the next one starts, the last line ends at `bufend`, every
stored byte lies in exactly one line, every line holds at least one codepoint, and every line
starts and ends at the offset of a codepoint, `length` codepoints apart. -/
def Tiles (te : TextEdit) (hd tl : List Nat) (L : List ScreenLine) : Prop :=
  L ≠ []
  ∧ (L.getD 0 default).start = getTextStart te
  ∧ (∀ i, i + 1 < L.length → (L.getD i default).end_ = (L.getD (i + 1) default).start)
  ∧ (L.getD (L.length - 1) default).end_ = te.bufend
  ∧ (∀ p, (p < te.gapstart ∨ (te.gapend ≤ p ∧ p < te.bufend)) →
      ∃ i, i < L.length ∧ (L.getD i default).start ≤ p ∧ p < (L.getD i default).end_
        ∧ ∀ j, j < L.length → (L.getD j default).start ≤ p → p < (L.getD j default).end_ → j = i)
  ∧ (∀ i, i < L.length →
      1 ≤ (L.getD i default).length ∧ (L.getD i default).start < (L.getD i default).end_)
  ∧ (∀ i, i < L.length → ∃ k, k + (L.getD i default).length ≤ hd.length + tl.length + 1
      ∧ (L.getD i default).start = posOf te hd tl k
      ∧ (L.getD i default).end_ = posOf te hd tl (k + (L.getD i default).length))

/-- A call of one of the editing operations: `insertTextAtCursor` with the UTF-8 encoding of
the codepoints `cps`, `deleteFromCursor` or `moveCursor`. -/
inductive Action where
  | insert (cps : List Nat)
  | delete (type : DeleteType) (dir : Direction)
  | move (step : CursorMovement) (dir : Direction)

/-- The inserted text of the call is valid UTF-8: the encoding of codepoints that are not NUL
and below `0x110000`. -/
def Action.valid : Action → Bool
  | Action.insert cps => cps.all (fun x => decide (validCp x))
  | _ => true

/-- The call is not a cursor movement by display lines, which reads the screen lines. -/
def Action.simple : Action → Bool
  | Action.move CursorMovement.MOVE_DISPLAY_LINES _ => false
  | Action.move CursorMovement.MOVE_DISPLAY_LINE_ENDS _ => false
  | _ => true

/-- The number of codepoints inserted by the calls. -/
def insertedCount : List Action → Nat
  | [] => 0
  | Action.insert cps :: as => cps.length + insertedCount as
  | _ :: as => insertedCount as

/-- The call `a` made on the document `te`. -/
def applyAction (G : Glib) (te : TextEdit) : Action → TextEdit
  | Action.insert cps => insertTextAtCursor G te (encodeUtf8 cps) (encodeUtf8 cps).length
  | Action.delete type dir => deleteFromCursor G te type dir
  | Action.move step dir => moveCursor G te step dir

/-- The reference model of the content, a plain list of codepoints `s`: a call made with the
cursor at index `te.current_pos` inserts the codepoints at that index, or removes the
codepoints between that index and the delete target. -/
def refAction (G : Glib) (te : TextEdit) (s : List Nat) : Action → List Nat
  | Action.insert cps => s.take te.current_pos ++ cps ++ s.drop te.current_pos
  | Action.delete type dir =>
    s.take (min te.current_pos (deleteTarget G te type dir))
      ++ s.drop (max te.current_pos (deleteTarget G te type dir))
  | Action.move _ _ => s

/-- The calls `acts` made one after the other on the document `te`, and the same logical
edits applied to the reference string `s`. -/
def runActions (G : Glib) : TextEdit → List Nat → List Action → TextEdit × List Nat
  | te, s, [] => (te, s)
  | te, s, a :: as => runActions G (applyAction G te a) (refAction G te s a) as

/-- The document "hi" in a viewport of width 10, the cursor at its end. -/
def docHi : TextEdit := setText stdGlib (blank (some ⟨10, 3⟩) false) (some (encodeUtf8 [104, 105]))

/-- The document "ab" in a viewport of width 10 with the cursor moved back to index 1. -/
def docAb : TextEdit :=
  moveCursor stdGlib (setText stdGlib (blank (some ⟨10, 3⟩) false) (some (encodeUtf8 [97, 98])))
    CursorMovement.MOVE_LOGICAL_POSITIONS Direction.DIR_BACK

/-- The document "abc" constructed with the numeric-only flag. -/
def docAbcNumeric : TextEdit :=
  construct stdGlib (some ⟨10, 3⟩) (some (encodeUtf8 [97, 98, 99])) FLAG_NUMERIC false true false

/-- The calls of the example run: type "ab c", go one display line end back, delete a word
forward, go one position forward, type "!", delete one character backward. -/
def exampleActions : List Action :=
  [Action.insert [97, 98, 32, 99],
   Action.move CursorMovement.MOVE_DISPLAY_LINE_ENDS Direction.DIR_BACK,
   Action.delete DeleteType.DELETE_WORD_ENDS Direction.DIR_FORWARD,
   Action.move CursorMovement.MOVE_LOGICAL_POSITIONS Direction.DIR_FORWARD,
   Action.insert [33],
   Action.delete DeleteType.DELETE_CHARS Direction.DIR_BACK]

/-- The document that holds one double-width codepoint (U+4E16) in a viewport of width 2. -/
def docWide : TextEdit :=
  setText stdGlib (blank (some ⟨2, 3⟩) false) (some (encodeUtf8 [19990]))

/-- The empty document in a viewport of width 10 after the insertion of the sixteen bytes of
"hello world wrap". -/
def docHello : TextEdit :=
  insertTextAtCursor stdGlib (construct stdGlib (some ⟨10, 3⟩) none 0 false true false)
    (encodeUtf8 [104, 101, 108, 108, 111, 32, 119, 111, 114, 108, 100, 32, 119, 114, 97, 112]) 16

/-- The test `!g_unichar_isspace (uc) && *cur != '\n'` of `moveWordFromCursor` on the codepoint
`c` that begins at `cur`: the codepoint is neither whitespace nor a line feed. -/
def nonwhiteCp (G : Glib) (c : Nat) : Bool :=
  !G.g_unichar_isspace c && c != LF

/-- The forward loops of `moveWordFromCursor` on codepoint indices: `t` is the test of the
first branch, `N` the text length. -/
def scanFwd (t : Nat → Bool) (N : Nat) : Nat → Nat → Bool → Nat
  | 0, c, _ => c
  | n + 1, c, b =>
    if c < N then
      if t c then scanFwd t N n (c + 1) true
      else if b then c
      else scanFwd t N n (c + 1) b
    else c

/-- The backward loop of `moveWordFromCursor` on codepoint indices, followed by the final
`++new_pos`: `q` is `new_pos + 1`. -/
def scanBack (t : Nat → Bool) : Nat → Bool → Nat
  | 0, _ => 0
  | q + 1, b =>
    if t q then scanBack t q true
    else if b then q + 1
    else scanBack t q b

/-- The document "ab cd ef" with the cursor moved back two words, to index 3. -/
def docWords : TextEdit :=
  moveCursor stdGlib
    (moveCursor stdGlib
      (setText stdGlib (blank (some ⟨10, 3⟩) false)
        (some (encodeUtf8 [97, 98, 32, 99, 100, 32, 101, 102])))
      CursorMovement.MOVE_WORDS Direction.DIR_BACK)
    CursorMovement.MOVE_WORDS Direction.DIR_BACK

/-- The document "ab cd ef" with the cursor moved back three codepoints, to index 5. -/
def docWordsAt5 : TextEdit :=
  (fun t => moveCursor stdGlib t CursorMovement.MOVE_LOGICAL_POSITIONS Direction.DIR_BACK)^[3]
    (setText stdGlib (blank (some ⟨10, 3⟩) false)
      (some (encodeUtf8 [97, 98, 32, 99, 100, 32, 101, 102])))

/-- The document "hello world wrap" set in a viewport of width 10: three screen lines, the
cursor at the end, on line 2 at position 4. -/
def docLines : TextEdit :=
  setText stdGlib (blank (some ⟨10, 3⟩) false)
    (some (encodeUtf8 [104, 101, 108, 108, 111, 32, 119, 111, 114, 108, 100, 32, 119, 114, 97,
      112]))

/-- The bindable `"newline"` of `declareBindables`: the one-argument `insertTextAtCursor`
bound to the string `"\n"`. -/
def bindableNewline (G : Glib) (te : TextEdit) : TextEdit :=
  insertTextAtCursorStr G te [LF]

/-- The document "abc", constructed without flags. -/
def docAbc : TextEdit :=
  construct stdGlib (some ⟨10, 3⟩) (some (encodeUtf8 [97, 98, 99])) 0 false true false

/-- The empty document constructed in single-line mode. -/
def docSingleLine : TextEdit :=
  construct stdGlib (some ⟨10, 3⟩) none 0 true true false

/-- The document "secret" constructed in masked mode. -/
def docSecret : TextEdit :=
  construct stdGlib (some ⟨10, 3⟩) (some (encodeUtf8 [115, 101, 99, 114, 101, 116])) 0 false
    true true

/-- The document that holds a tab and the double-width codepoint U+4E16, in masked mode. -/
def docMaskedWide : TextEdit :=
  construct stdGlib (some ⟨10, 3⟩) (some (encodeUtf8 [9, 19990])) 0 false true true

/-- The loop of `TextEdit::width` on a list of codepoints: the width accumulated from the
column `w`. -/
def widthL (G : Glib) (masked : Bool) : List Nat → Nat → Nat
  | [], w => w
  | c :: cs, w => widthL G masked cs (w + oswL G masked c w)

/-- The codepoint with index `i` of `t` is a word start that the line breaker records: it is
not white space, the codepoint before it is (`sp` tells it for index 0), and the codepoints
before it are not wider than `mw`, counted from the column `cw`. -/
def wordStartAt (G : Glib) (masked : Bool) (mw : Nat) (t : List Nat) (cw : Nat) (sp : Bool)
    (i : Nat) : Prop :=
  (if i = 0 then sp = true else G.g_unichar_isspace (t.getD (i - 1) 0) = true)
  ∧ G.g_unichar_isspace (t.getD i 0) = false
  ∧ widthL G masked (t.take i) cw ≤ mw

/-- The document "abcdefghijkl", one word of twelve letters. -/
def docLongWord : TextEdit :=
  setText stdGlib (blank (some ⟨10, 3⟩) false)
    (some (encodeUtf8 [97, 98, 99, 100, 101, 102, 103, 104, 105, 106, 107, 108]))

/-- The states reachable from construction through `initBuffer`, `setText`, `clear`,
`insertTextAtCursor`, `deleteFromCursor`, `moveCursor` and `getText`, each with its logical
content `s`, the list of codepoints kept by the same edits on a plain list.  The texts are
encodings of valid codepoints, the content stays below 2^31 codepoints, `initBuffer` gets a
size of at least 2, and a movement by display lines is made only with a viewport of width at
least 2. -/
inductive ReachableWith (G : Glib) : TextEdit → List Nat → Prop
  | construct_null (a : Option Area) (flags_ : Nat) (single_line accept_tabs_ masked_ : Bool) :
    ReachableWith G (construct G a none flags_ single_line accept_tabs_ masked_) []
  | construct_text (a : Option Area) (cps : List Nat) (flags_ : Nat)
      (single_line accept_tabs_ masked_ : Bool) :
    (∀ x, x ∈ cps → validCp x) → cps.length < 2147483648 →
    ReachableWith G
      (construct G a (some (encodeUtf8 cps)) flags_ single_line accept_tabs_ masked_) cps
  | initBuffer (te : TextEdit) (s : List Nat) (size : Nat) : ReachableWith G te s → 2 ≤ size →
    ReachableWith G (initBuffer G te size) []
  | setText_null (te : TextEdit) (s : List Nat) : ReachableWith G te s →
    ReachableWith G (setText G te none) []
  | setText_text (te : TextEdit) (s cps : List Nat) : ReachableWith G te s →
    (∀ x, x ∈ cps → validCp x) → cps.length < 2147483648 →
    ReachableWith G (setText G te (some (encodeUtf8 cps))) cps
  | clear (te : TextEdit) (s : List Nat) : ReachableWith G te s →
    ReachableWith G (clear G te) []
  | insert (te : TextEdit) (s cps : List Nat) : ReachableWith G te s →
    (∀ x, x ∈ cps → validCp x) → s.length + cps.length < 2147483648 →
    ReachableWith G (insertTextAtCursor G te (encodeUtf8 cps) (encodeUtf8 cps).length)
      (s.take te.current_pos ++ cps ++ s.drop te.current_pos)
  | delete (te : TextEdit) (s : List Nat) (type : DeleteType) (dir : Direction) :
    ReachableWith G te s →
    ReachableWith G (deleteFromCursor G te type dir)
      (s.take (min te.current_pos (deleteTarget G te type dir))
        ++ s.drop (max te.current_pos (deleteTarget G te type dir)))
  | move (te : TextEdit) (s : List Nat) (step : CursorMovement) (dir : Direction) :
    ReachableWith G te s →
    (step = CursorMovement.MOVE_LOGICAL_POSITIONS ∨ step = CursorMovement.MOVE_WORDS
      ∨ ∃ ar, te.area = some ar ∧ 2 ≤ ar.maxx) →
    ReachableWith G (moveCursor G te step dir) s
  | getText (te : TextEdit) (s : List Nat) : ReachableWith G te s →
    ReachableWith G (getText te).1 s

/-- The invariant of a reachable state with the logical content `s`: the buffer stores `s`,
and with a viewport of width at least 2 the screen lines and the screen cursor are those of
`s`. -/
def ContentInv (G : Glib) (te : TextEdit) (s : List Nat) : Prop :=
  ∃ hd tl, Doc te hd tl ∧ hd ++ tl = s ∧ s.length < 2147483648 ∧ te.editable = true
    ∧ ∀ ar, te.area = some ar → 2 ≤ ar.maxx → Inv G te hd tl ar

/-- The bytes stored before the gap. -/
def headBytes (te : TextEdit) : List Nat :=
  (List.range te.gapstart).map te.buffer

/-- The bytes stored after the gap, without the sentinel. -/
def tailBytes (te : TextEdit) : List Nat :=
  (List.range (te.bufend - 1 - te.gapend)).map (fun i => te.buffer (te.gapend + i))

/-- The document in which the two bytes `'a' 0x80`, which are not well-formed UTF-8, were
inserted, the cursor was moved back twice and two codepoints were deleted forward. -/
def docConsumed : TextEdit :=
  deleteFromCursor stdGlib
    (deleteFromCursor stdGlib
      (moveCursor stdGlib
        (moveCursor stdGlib
          (insertTextAtCursor stdGlib
            (construct stdGlib (some ⟨10, 3⟩) none 0 false true false) [97, 128] 2)
          CursorMovement.MOVE_LOGICAL_POSITIONS Direction.DIR_BACK)
        CursorMovement.MOVE_LOGICAL_POSITIONS Direction.DIR_BACK)
      DeleteType.DELETE_CHARS Direction.DIR_FORWARD)
    DeleteType.DELETE_CHARS Direction.DIR_FORWARD

/-- The document in which "hi" was inserted and the last codepoint deleted. -/
def docEdited : TextEdit :=
  deleteFromCursor stdGlib
    (insertTextAtCursor stdGlib (construct stdGlib (some ⟨10, 3⟩) none 0 false true false)
      (encodeUtf8 [104, 105]) (encodeUtf8 [104, 105]).length)
    DeleteType.DELETE_CHARS Direction.DIR_BACK

/-- The document constructed with the two bytes `0x80 0x80`, two stray continuation bytes,
in a viewport of width 10. -/
def docTwoStray : TextEdit :=
  construct stdGlib (some ⟨10, 3⟩) (some [128, 128]) 0 false true false

/-- The screen lines `L` and the content `hd ++ tl` of `te`: every line starts with a
codepoint of the content, except that the last line may be the line that holds the sentinel
line feed alone, `[bufend - 1, bufend)`; and the last line is that line when the content is
empty and when the content ends with a line feed. -/
def ContentLines (te : TextEdit) (hd tl : List Nat) (L : List ScreenLine) : Prop :=
  (∀ i, i < L.length →
      (∃ k, k < hd.length + tl.length ∧ (L.getD i default).start = posOf te hd tl k)
      ∨ (i + 1 = L.length ∧ L.getD i default = ⟨te.bufend - 1, te.bufend, 1⟩))
  ∧ ((hd ++ tl = [] ∨ ∃ pre, hd ++ tl = pre ++ [10]) →
      L.getD (L.length - 1) default = ⟨te.bufend - 1, te.bufend, 1⟩)

/-- The document "a\n" in a viewport of width 10: the content ends with a line feed. -/
def docTrailingLF : TextEdit :=
  setText stdGlib (blank (some ⟨10, 3⟩) false) (some [97, 10])

/-! ## Theorems -/

namespace TextEdit


/-! ### Codepoint navigation makes progress -/

theorem find_next_scan_ge (buf : Nat → Nat) (stop n p : Nat) :
    p ≤ find_next_scan buf stop n p := by
  induction n generalizing p with
  | zero => simp [find_next_scan]
  | succ n ih =>
    simp only [find_next_scan]
    split
    · exact Nat.le_trans (Nat.le_succ p) (ih (p + 1))
    · exact Nat.le_refl p

theorem find_next_char_some {buf : Nat → Nat} {p stop q : Nat}
    (h : g_utf8_find_next_char buf p stop = some q) : p < q ∧ q < stop := by
  unfold g_utf8_find_next_char at h
  simp only at h
  split at h
  · cases h
  · have := find_next_scan_ge buf stop (stop - p) (p + 1)
    cases h
    omega

theorem nextChar_gt (te : TextEdit) (p : Nat) (hg : te.gapstart < te.gapend)
    (hp : p < te.bufend) : p < nextChar te p := by
  unfold nextChar
  simp only
  by_cases h1 : p = te.gapstart
  · simp only [h1, if_true]
    rw [if_neg (by omega)]
    split
    · rename_i q hq
      have := find_next_char_some hq
      omega
    · omega
  · simp only [if_neg h1]
    split
    · split
      · rename_i q hq
        have := find_next_char_some hq
        omega
      · omega
    · split
      · rename_i q hq
        have := find_next_char_some hq
        omega
      · omega

theorem iterate_nextChar_ge (te : TextEdit) (hg : te.gapstart < te.gapend) :
    ∀ (n p : Nat), (∀ i, i < n → (nextChar te)^[i] p < te.bufend) →
      p + n ≤ (nextChar te)^[n] p := by
  intro n
  induction n with
  | zero => intro p _; simp
  | succ n ih =>
    intro p hb
    have h0 : p < te.bufend := by simpa using hb 0 (Nat.succ_pos n)
    have h1 := nextChar_gt te p hg h0
    have h2 := ih (nextChar te p) (fun i hi => by
      have := hb (i + 1) (by omega)
      rwa [Function.iterate_succ_apply] at this)
    rw [Function.iterate_succ_apply]
    omega

theorem charsBetween_iterate (te : TextEdit) (hg : te.gapstart < te.gapend) :
    ∀ (n fuel p : Nat), n ≤ fuel → (∀ i, i < n → (nextChar te)^[i] p < te.bufend) →
      charsBetween te fuel p ((nextChar te)^[n] p) = n := by
  intro n
  induction n with
  | zero =>
    intro fuel p _ _
    cases fuel <;> simp [charsBetween]
  | succ n ih =>
    intro fuel p hf hb
    obtain ⟨f, rfl⟩ : ∃ f, fuel = f + 1 := ⟨fuel - 1, by omega⟩
    have hlt : p < (nextChar te)^[n + 1] p := by
      have := iterate_nextChar_ge te hg (n + 1) p hb
      omega
    simp only [charsBetween, if_pos hlt]
    rw [Function.iterate_succ_apply]
    rw [ih f (nextChar te p) (by omega) (fun i hi => by
      have := hb (i + 1) (by omega)
      rwa [Function.iterate_succ_apply] at this)]

/-! ### The line breaker counts the codepoints it consumes -/

theorem getScreenLine_finish_spec (te : TextEdit) (text res rl cl : Nat)
    (hres : (nextChar te)^[rl] text = res) (hrl : rl ≤ cl)
    (hb : ∀ i, i < cl → (nextChar te)^[i] text < te.bufend) (ht : text < te.bufend) :
    (nextChar te)^[(getScreenLine_finish te text res rl).2] text
        = (getScreenLine_finish te text res rl).1
    ∧ 1 ≤ (getScreenLine_finish te text res rl).2
    ∧ ∀ i, i < (getScreenLine_finish te text res rl).2 →
        (nextChar te)^[i] text < te.bufend := by
  unfold getScreenLine_finish
  split
  · refine ⟨rfl, Nat.le_refl 1, ?_⟩
    intro i hi
    have : i = 0 := by simp at hi; omega
    subst this
    simpa using ht
  · rename_i hne
    have h0 : rl ≠ 0 := by
      intro h
      subst h
      exact hne hres.symm
    refine ⟨hres, by simp; omega, ?_⟩
    intro i hi
    exact hb i (by simp at hi; omega)

theorem getScreenLine_loop_spec (G : Glib) (te : TextEdit) (text mw : Nat)
    (ht : text < te.bufend) :
    ∀ (n cur res cw cl : Nat) (sp : Bool) (rl : Nat),
      (nextChar te)^[cl] text = cur → (nextChar te)^[rl] text = res → rl ≤ cl →
      (∀ i, i < cl → (nextChar te)^[i] text < te.bufend) →
      (nextChar te)^[(getScreenLine_loop G te text mw n cur res cw cl sp rl).2] text
          = (getScreenLine_loop G te text mw n cur res cw cl sp rl).1
      ∧ 1 ≤ (getScreenLine_loop G te text mw n cur res cw cl sp rl).2
      ∧ ∀ i, i < (getScreenLine_loop G te text mw n cur res cw cl sp rl).2 →
          (nextChar te)^[i] text < te.bufend := by
  intro n
  induction n with
  | zero =>
    intro cur res cw cl sp rl _ hres hrl hb
    simp only [getScreenLine_loop]
    exact getScreenLine_finish_spec te text res rl cl hres hrl hb ht
  | succ n ih =>
    intro cur res cw cl sp rl hcur hres hrl hb
    simp only [getScreenLine_loop]
    split
    · rename_i hlt
      have hb2 : ∀ i, i < cl + 1 → (nextChar te)^[i] text < te.bufend := by
        intro i hi
        by_cases h : i < cl
        · exact hb i h
        · have : i = cl := by omega
          subst this
          rw [hcur]; exact hlt
      have hnext : (nextChar te)^[cl + 1] text = nextChar te cur := by
        rw [Function.iterate_succ_apply', hcur]
      split
      · exact getScreenLine_finish_spec te text res rl cl hres hrl hb ht
      · split
        · exact ⟨hnext, by simp, fun i hi => hb2 i hi⟩
        · have hres2 : (nextChar te)^[if (decide (cw + onScreenWidth G te
              (g_utf8_get_char te.buffer cur) cw > mw) && rl == 0) = true then cl + 1 - 1
              else rl] text
              = (if (decide (cw + onScreenWidth G te (g_utf8_get_char te.buffer cur) cw > mw)
                  && rl == 0) = true then cur else res) := by
            split
            · simpa using hcur
            · exact hres
          have hrl2 : (if (decide (cw + onScreenWidth G te (g_utf8_get_char te.buffer cur) cw
              > mw) && rl == 0) = true then cl + 1 - 1 else rl) ≤ cl + 1 := by
            split <;> omega
          split
          · exact ih _ _ _ _ _ _ hnext hres2 hrl2 hb2
          · split
            · exact ih _ _ _ _ _ _ hnext (by simpa using hcur) (by omega) hb2
            · exact ih _ _ _ _ _ _ hnext hres2 hrl2 hb2
    · exact getScreenLine_finish_spec te text res rl cl hres hrl hb ht

theorem getScreenLine_iterate (G : Glib) (te : TextEdit) (text mw : Nat)
    (ht : text < te.bufend) :
    (nextChar te)^[(getScreenLine G te text mw).2] text = (getScreenLine G te text mw).1
    ∧ 1 ≤ (getScreenLine G te text mw).2
    ∧ ∀ i, i < (getScreenLine G te text mw).2 → (nextChar te)^[i] text < te.bufend :=
  getScreenLine_loop_spec G te text mw ht _ text text 0 0 false 0 rfl rfl (Nat.le_refl 0)
    (fun _ hi => absurd hi (Nat.not_lt_zero _))

/-- C10: for every start offset before the buffer end, the count that `getScreenLine` stores
in `*res_length` is the number of codepoints (`nextChar` steps, the gap skipped) between the
start offset and the returned end offset, whichever return path is taken. -/
theorem getScreenLine_length_counts (G : Glib) (te : TextEdit) (text max_width : Nat)
    (hgap : te.gapstart < te.gapend) (htext : text < te.bufend) :
    charsBetween te te.bufend text (getScreenLine G te text max_width).1
      = (getScreenLine G te text max_width).2 := by
  obtain ⟨h1, _, h3⟩ := getScreenLine_iterate G te text max_width htext
  have hge := iterate_nextChar_ge te hgap
  have hfuel : (getScreenLine G te text max_width).2 ≤ te.bufend := by
    by_contra hcon
    have hlt := h3 te.bufend (by omega)
    have := hge te.bufend text (fun i hi => h3 i (by omega))
    omega
  rw [← h1]
  exact charsBetween_iterate te hgap _ _ text hfuel h3

/-- The document "hello world wrap" in a viewport of width 10: evaluated, the first screen
line ends at offset 6 after 6 codepoints, and that is the count between the offsets. -/
theorem getScreenLine_length_counts_witness :
    getScreenLine stdGlib (setText stdGlib (blank (some ⟨10, 3⟩) false)
      (some [104, 101, 108, 108, 111, 32, 119, 111, 114, 108, 100, 32, 119, 114, 97, 112])) 0 9
      = (6, 6)
    ∧ charsBetween (setText stdGlib (blank (some ⟨10, 3⟩) false)
        (some [104, 101, 108, 108, 111, 32, 119, 111, 114, 108, 100, 32, 119, 114, 97, 112]))
        4112 0 6 = 6 := by
  refine ⟨by decide, ?_⟩
  have h := getScreenLine_length_counts stdGlib (setText stdGlib (blank (some ⟨10, 3⟩) false)
      (some [104, 101, 108, 108, 111, 32, 119, 111, 114, 108, 100, 32, 119, 114, 97, 112])) 0 9
      (by decide) (by decide)
  exact h

theorem flagsReject_zero (G : Glib) (uc : Nat) : flagsReject G 0 uc = false := by
  simp [flagsReject, hasFlag]

end TextEdit

section

theorem isCont_iff (b : Nat) : isCont b = true ↔ 128 ≤ b % 256 ∧ b % 256 < 192 := by
  unfold isCont
  simp only [beq_iff_eq]
  omega

theorem isCont_false_iff (b : Nat) : isCont b = false ↔ (b % 256 < 128 ∨ 192 ≤ b % 256) := by
  rw [← Bool.not_eq_true, isCont_iff]
  omega

theorem Seg_nil (buf : Nat → Nat) (lo : Nat) : Seg buf lo [] := by
  intro i hi; simp at hi

theorem Seg_cons (buf : Nat → Nat) (lo b : Nat) (l : List Nat) :
    Seg buf lo (b :: l) ↔ buf lo = b ∧ Seg buf (lo + 1) l := by
  constructor
  · intro h
    refine ⟨by simpa using h 0 (by simp), ?_⟩
    intro i hi
    have := h (i + 1) (by simpa using hi)
    simpa [Nat.add_assoc, Nat.add_comm 1 i] using this
  · rintro ⟨h0, h1⟩ i hi
    cases i with
    | zero => simpa using h0
    | succ i =>
      have := h1 i (by simpa using hi)
      simpa [Nat.add_assoc, Nat.add_comm 1 i] using this

theorem Seg_append (buf : Nat → Nat) (lo : Nat) (a b : List Nat) :
    Seg buf lo (a ++ b) ↔ Seg buf lo a ∧ Seg buf (lo + a.length) b := by
  induction a generalizing lo with
  | nil => simp [Seg_nil]
  | cons x a ih =>
    simp only [List.cons_append, Seg_cons, ih, List.length_cons]
    have : lo + 1 + a.length = lo + (a.length + 1) := by omega
    rw [this]
    tauto

theorem Seg_congr {buf buf2 : Nat → Nat} {lo : Nat} {l : List Nat}
    (h : ∀ i, lo ≤ i → i < lo + l.length → buf2 i = buf i) (hs : Seg buf lo l) : Seg buf2 lo l := by
  intro i hi
  rw [h (lo + i) (by omega) (by omega)]
  exact hs i hi

theorem utf8enc_length_pos (c : Nat) : 0 < (utf8enc c).length := by
  unfold utf8enc; split_ifs <;> simp

theorem utf8enc_length_le (c : Nat) : (utf8enc c).length ≤ 4 := by
  unfold utf8enc; split_ifs <;> simp

theorem encodeUtf8_nil : encodeUtf8 [] = [] := rfl

theorem encodeUtf8_cons (c : Nat) (cs : List Nat) :
    encodeUtf8 (c :: cs) = utf8enc c ++ encodeUtf8 cs := by
  simp [encodeUtf8]

theorem encodeUtf8_append (a b : List Nat) :
    encodeUtf8 (a ++ b) = encodeUtf8 a ++ encodeUtf8 b := by
  simp [encodeUtf8]

theorem encodeUtf8_length_ge (cs : List Nat) : cs.length ≤ (encodeUtf8 cs).length := by
  induction cs with
  | nil => simp [encodeUtf8]
  | cons c cs ih =>
    rw [encodeUtf8_cons]
    have := utf8enc_length_pos c
    simp only [List.length_append, List.length_cons]
    omega

/-- The lead byte of an encoded codepoint is no continuation byte, the other bytes are. -/
theorem utf8enc_shape (buf : Nat → Nat) (p c : Nat) (hv : validCp c)
    (hs : Seg buf p (utf8enc c)) :
    isCont (buf p) = false
    ∧ (∀ i, 1 ≤ i → i < (utf8enc c).length → isCont (buf (p + i)) = true)
    ∧ g_utf8_skip (buf p) = (utf8enc c).length
    ∧ buf p ≠ 0 ∧ (buf p % 256 = LF ↔ c = 10) ∧ (buf p = LF ↔ c = 10) := by
  obtain ⟨hv0, hv1⟩ := hv
  unfold utf8enc at hs ⊢
  split_ifs at hs ⊢ with h1 h2 h3
  · simp only [Seg_cons] at hs
    obtain ⟨h0, -⟩ := hs
    rw [isCont_false_iff, h0]
    refine ⟨by omega, ?_, ?_, by omega, ?_, ?_⟩
    · intro i hi1 hi2; simp at hi2; omega
    · simp only [g_utf8_skip, List.length_singleton]
      rw [if_pos (by omega)]
    · simp only [LF]; omega
    · simp only [LF]
  · simp only [Seg_cons] at hs
    obtain ⟨h0, h1', -⟩ := hs
    rw [isCont_false_iff, h0]
    refine ⟨by omega, ?_, ?_, by omega, ?_, ?_⟩
    · intro i hi1 hi2
      have : i = 1 := by simp at hi2; omega
      subst this
      rw [isCont_iff, h1']; omega
    · simp only [g_utf8_skip, List.length_cons, List.length_nil]
      rw [if_neg (by omega), if_pos (by omega)]
    · simp only [LF]; omega
    · simp only [LF]; omega
  · simp only [Seg_cons] at hs
    obtain ⟨h0, h1', h2', -⟩ := hs
    rw [isCont_false_iff, h0]
    refine ⟨by omega, ?_, ?_, by omega, ?_, ?_⟩
    · intro i hi1 hi2
      have : i = 1 ∨ i = 2 := by simp at hi2; omega
      rcases this with rfl | rfl
      · rw [isCont_iff, h1']; omega
      · rw [isCont_iff, show p + 2 = p + 1 + 1 by omega, h2']; omega
    · simp only [g_utf8_skip, List.length_cons, List.length_nil]
      rw [if_neg (by omega), if_neg (by omega), if_pos (by omega)]
    · simp only [LF]; omega
    · simp only [LF]; omega
  · simp only [Seg_cons] at hs
    obtain ⟨h0, h1', h2', h3', -⟩ := hs
    rw [isCont_false_iff, h0]
    refine ⟨by omega, ?_, ?_, by omega, ?_, ?_⟩
    · intro i hi1 hi2
      have : i = 1 ∨ i = 2 ∨ i = 3 := by simp at hi2; omega
      rcases this with rfl | rfl | rfl
      · rw [isCont_iff, h1']; omega
      · rw [isCont_iff, show p + 2 = p + 1 + 1 by omega, h2']; omega
      · rw [isCont_iff, show p + 3 = p + 1 + 1 + 1 by omega, h3']; omega
    · simp only [g_utf8_skip, List.length_cons, List.length_nil]
      rw [if_neg (by omega), if_neg (by omega), if_neg (by omega), if_pos (by omega)]
    · simp only [LF]; omega
    · simp only [LF]; omega

theorem utf8_get_loop_step (buf : Nat → Nat) (p n i acc : Nat)
    (h : isCont (buf (p + i)) = true) :
    utf8_get_loop buf p (n + 1) i acc = utf8_get_loop buf p n (i + 1) (acc * 64 + buf (p + i) % 64) := by
  simp [utf8_get_loop, h]

/-- `g_utf8_get_char` decodes an encoded codepoint. -/
theorem g_utf8_get_char_enc (buf : Nat → Nat) (p c : Nat) (hv : validCp c)
    (hs : Seg buf p (utf8enc c)) : g_utf8_get_char buf p = c := by
  obtain ⟨hv0, hv1⟩ := hv
  unfold utf8enc at hs
  unfold g_utf8_get_char
  split_ifs at hs with h1 h2 h3
  · simp only [Seg_cons] at hs
    obtain ⟨h0, -⟩ := hs
    simp only [h0]
    rw [if_pos (by omega)]
    simp only [utf8_get_loop]
    omega
  · simp only [Seg_cons] at hs
    obtain ⟨h0, h1', -⟩ := hs
    simp only [h0]
    rw [if_neg (by omega), if_pos (by omega)]
    have hc : isCont (buf (p + 1)) = true := by rw [isCont_iff, h1']; omega
    rw [utf8_get_loop_step _ _ _ _ _ hc]
    simp only [utf8_get_loop, h1']
    omega
  · simp only [Seg_cons] at hs
    obtain ⟨h0, h1', h2', -⟩ := hs
    simp only [h0]
    rw [if_neg (by omega), if_neg (by omega), if_pos (by omega)]
    have hc1 : isCont (buf (p + 1)) = true := by rw [isCont_iff, h1']; omega
    have hc2 : isCont (buf (p + (1 + 1))) = true := by
      rw [isCont_iff, ← Nat.add_assoc, h2']; omega
    rw [utf8_get_loop_step _ _ _ _ _ hc1, utf8_get_loop_step _ _ _ _ _ hc2]
    simp only [utf8_get_loop, h1', ← Nat.add_assoc, h2']
    omega
  · simp only [Seg_cons] at hs
    obtain ⟨h0, h1', h2', h3', -⟩ := hs
    simp only [h0]
    rw [if_neg (by omega), if_neg (by omega), if_neg (by omega), if_pos (by omega)]
    have hc1 : isCont (buf (p + 1)) = true := by rw [isCont_iff, h1']; omega
    have hc2 : isCont (buf (p + (1 + 1))) = true := by
      rw [isCont_iff, ← Nat.add_assoc, h2']; omega
    have hc3 : isCont (buf (p + (1 + 1 + 1))) = true := by
      rw [isCont_iff, ← Nat.add_assoc, ← Nat.add_assoc, h3']; omega
    rw [utf8_get_loop_step _ _ _ _ _ hc1, utf8_get_loop_step _ _ _ _ _ hc2,
      utf8_get_loop_step _ _ _ _ _ hc3]
    simp only [utf8_get_loop, h1', ← Nat.add_assoc, h2', h3']
    omega

/-! ### Scanning over encoded codepoints -/

theorem find_next_scan_run (buf : Nat → Nat) (stop : Nat) :
    ∀ (j n p : Nat), (∀ i, i < j → p + i < stop ∧ isCont (buf (p + i)) = true) →
      (p + j < stop → isCont (buf (p + j)) = false) → j ≤ n →
      find_next_scan buf stop n p = p + j := by
  intro j
  induction j with
  | zero =>
    intro n p _ hend _
    cases n with
    | zero => simp [find_next_scan]
    | succ n =>
      simp only [find_next_scan]
      by_cases hp : p < stop
      · have := hend (by simpa using hp)
        simp at this
        simp [this]
      · simp [hp]
  | succ j ih =>
    intro n p hall hend hn
    obtain ⟨m, rfl⟩ : ∃ m, n = m + 1 := ⟨n - 1, by omega⟩
    have h0 := hall 0 (Nat.succ_pos j)
    simp only [Nat.add_zero] at h0
    simp only [find_next_scan, h0.1, h0.2, decide_True, Bool.and_self, if_true]
    rw [ih m (p + 1) (fun i hi => by
      have := hall (i + 1) (by omega)
      rwa [show p + 1 + i = p + (i + 1) by omega]) (by
      rw [show p + 1 + j = p + (j + 1) by omega]; exact hend) (by omega)]
    omega

theorem find_prev_run (buf : Nat → Nat) (str p : Nat) (hstr : str ≤ p)
    (hlead : isCont (buf p) = false) :
    ∀ (L : Nat), 1 ≤ L → (∀ i, 1 ≤ i → i < L → isCont (buf (p + i)) = true) →
      g_utf8_find_prev_char buf str (p + L) = some p := by
  intro L
  induction L with
  | zero => intro h; omega
  | succ L ih =>
    intro _ hall
    rw [show p + (L + 1) = (p + L) + 1 by omega]
    simp only [g_utf8_find_prev_char]
    rw [if_neg (by omega)]
    by_cases hL : L = 0
    · subst hL
      simp [hlead]
    · have hc := hall L (by omega) (by omega)
      simp only [hc, Bool.not_true, Bool.false_eq_true, if_false]
      exact ih (by omega) (fun i h1 h2 => hall i h1 (by omega))

theorem find_prev_at_str (buf : Nat → Nat) (str : Nat) :
    g_utf8_find_prev_char buf str str = none := by
  cases str with
  | zero => simp [g_utf8_find_prev_char]
  | succ n => simp [g_utf8_find_prev_char]

theorem off_zero (cs : List Nat) : off cs 0 = 0 := by simp [off, encodeUtf8]

theorem off_succ (cs : List Nat) (k : Nat) (hk : k < cs.length) :
    off cs (k + 1) = off cs k + (utf8enc (cs.getD k 0)).length := by
  unfold off
  rw [List.take_succ, encodeUtf8_append]
  simp [List.getElem?_eq_getElem hk, List.getD_eq_getElem _ _ hk, encodeUtf8]

theorem off_length (cs : List Nat) : off cs cs.length = (encodeUtf8 cs).length := by
  simp [off]

theorem off_ge_length (cs : List Nat) (k : Nat) (hk : cs.length ≤ k) :
    off cs k = (encodeUtf8 cs).length := by
  simp [off, List.take_of_length_le hk]

theorem off_mono (cs : List Nat) (k : Nat) : off cs k ≤ off cs (k + 1) := by
  by_cases hk : k < cs.length
  · rw [off_succ cs k hk]; omega
  · rw [off_ge_length cs k (by omega), off_ge_length cs (k + 1) (by omega)]

theorem off_lt_succ (cs : List Nat) (k : Nat) (hk : k < cs.length) : off cs k < off cs (k + 1) := by
  rw [off_succ cs k hk]
  have := utf8enc_length_pos (cs.getD k 0)
  omega

theorem off_le_of_le (cs : List Nat) {j k : Nat} (h : j ≤ k) : off cs j ≤ off cs k := by
  induction k with
  | zero =>
    have : j = 0 := by omega
    subst this; exact Nat.le_refl _
  | succ k ih =>
    by_cases hj : j = k + 1
    · subst hj; exact Nat.le_refl _
    · exact Nat.le_trans (ih (by omega)) (off_mono cs k)

theorem off_lt_of_lt (cs : List Nat) {j k : Nat} (h : j < k) (hk : k ≤ cs.length) :
    off cs j < off cs k :=
  Nat.lt_of_lt_of_le (off_lt_succ cs j (by omega)) (off_le_of_le cs h)

theorem off_le_total (cs : List Nat) (k : Nat) : off cs k ≤ (encodeUtf8 cs).length := by
  by_cases hk : k ≤ cs.length
  · rw [← off_length]; exact off_le_of_le cs hk
  · rw [off_ge_length cs k (by omega)]

theorem off_append_left (a b : List Nat) (k : Nat) (hk : k ≤ a.length) :
    off (a ++ b) k = off a k := by
  unfold off
  rw [List.take_append_of_le_length hk]

theorem off_append_right (a b : List Nat) (k : Nat) :
    off (a ++ b) (a.length + k) = (encodeUtf8 a).length + off b k := by
  unfold off
  rw [List.take_append, encodeUtf8_append]
  simp

/-- The codepoint with index `k` of an encoded run is stored at offset `lo + off cs k`. -/
theorem Seg_char (buf : Nat → Nat) (lo : Nat) (cs : List Nat) (k : Nat) (hk : k < cs.length)
    (hs : Seg buf lo (encodeUtf8 cs)) : Seg buf (lo + off cs k) (utf8enc (cs.getD k 0)) := by
  have hsplit : cs = cs.take k ++ (cs.getD k 0 :: cs.drop (k + 1)) := by
    rw [List.getD_eq_getElem _ _ hk]
    simp
  rw [hsplit, encodeUtf8_append, encodeUtf8_cons, Seg_append, Seg_append] at hs
  exact hs.2.1

theorem getD_valid {cs : List Nat} (hv : ∀ c, c ∈ cs → validCp c) {k : Nat} (hk : k < cs.length) :
    validCp (cs.getD k 0) := by
  rw [List.getD_eq_getElem _ _ hk]
  exact hv _ (List.getElem_mem _)

theorem run_get (buf : Nat → Nat) (lo : Nat) (cs : List Nat) (k : Nat) (hk : k < cs.length)
    (hv : ∀ c, c ∈ cs → validCp c) (hs : Seg buf lo (encodeUtf8 cs)) :
    g_utf8_get_char buf (lo + off cs k) = cs.getD k 0 :=
  g_utf8_get_char_enc buf _ _ (getD_valid hv hk) (Seg_char buf lo cs k hk hs)

theorem run_lf (buf : Nat → Nat) (lo : Nat) (cs : List Nat) (k : Nat) (hk : k < cs.length)
    (hv : ∀ c, c ∈ cs → validCp c) (hs : Seg buf lo (encodeUtf8 cs)) :
    (buf (lo + off cs k) % 256 = LF ↔ cs.getD k 0 = 10) :=
  (utf8enc_shape buf _ _ (getD_valid hv hk) (Seg_char buf lo cs k hk hs)).2.2.2.2.1

theorem run_lead (buf : Nat → Nat) (lo : Nat) (cs : List Nat) (k : Nat) (hk : k < cs.length)
    (hv : ∀ c, c ∈ cs → validCp c) (hs : Seg buf lo (encodeUtf8 cs)) :
    isCont (buf (lo + off cs k)) = false :=
  (utf8enc_shape buf _ _ (getD_valid hv hk) (Seg_char buf lo cs k hk hs)).1

theorem run_next (buf : Nat → Nat) (lo : Nat) (cs : List Nat) (k : Nat) (hk : k < cs.length)
    (hv : ∀ c, c ∈ cs → validCp c) (hs : Seg buf lo (encodeUtf8 cs)) :
    g_utf8_find_next_char buf (lo + off cs k) (lo + (encodeUtf8 cs).length)
      = if k + 1 < cs.length then some (lo + off cs (k + 1)) else none := by
  have hsh := utf8enc_shape buf _ _ (getD_valid hv hk) (Seg_char buf lo cs k hk hs)
  have hsucc := off_succ cs k hk
  have hpos := utf8enc_length_pos (cs.getD k 0)
  have htot := off_le_total cs (k + 1)
  have hscan : find_next_scan buf (lo + (encodeUtf8 cs).length)
      (lo + (encodeUtf8 cs).length - (lo + off cs k)) (lo + off cs k + 1) = lo + off cs (k + 1) := by
    rw [find_next_scan_run buf _ ((utf8enc (cs.getD k 0)).length - 1)]
    · omega
    · intro i hi
      refine ⟨by omega, ?_⟩
      have := hsh.2.1 (i + 1) (by omega) (by omega)
      rwa [show lo + off cs k + 1 + i = lo + off cs k + (i + 1) by omega]
    · intro hlt
      have hk1 : k + 1 < cs.length := by
        by_contra hcon
        have : off cs (k + 1) = (encodeUtf8 cs).length := off_ge_length cs _ (by omega)
        omega
      have := run_lead buf lo cs (k + 1) hk1 hv hs
      rwa [show lo + off cs k + 1 + ((utf8enc (cs.getD k 0)).length - 1) = lo + off cs (k + 1) by
        omega]
    · omega
  unfold g_utf8_find_next_char
  simp only [hscan]
  by_cases hk1 : k + 1 < cs.length
  · have := off_lt_of_lt cs (show k + 1 < cs.length from hk1) (Nat.le_refl _)
    rw [off_length] at this
    rw [if_neg (by omega), if_pos hk1]
  · have : off cs (k + 1) = (encodeUtf8 cs).length := off_ge_length cs _ (by omega)
    rw [if_pos (by omega), if_neg hk1]

theorem run_prev (buf : Nat → Nat) (lo str : Nat) (cs : List Nat) (k : Nat) (hk : k < cs.length)
    (hv : ∀ c, c ∈ cs → validCp c) (hs : Seg buf lo (encodeUtf8 cs))
    (hstr : str ≤ lo + off cs k) :
    g_utf8_find_prev_char buf str (lo + off cs (k + 1)) = some (lo + off cs k) := by
  have hsh := utf8enc_shape buf _ _ (getD_valid hv hk) (Seg_char buf lo cs k hk hs)
  rw [off_succ cs k hk, ← Nat.add_assoc]
  exact find_prev_run buf str _ hstr hsh.1 _ (utf8enc_length_pos _) hsh.2.1

namespace Rep

variable {te : TextEdit} {hd tl : List Nat}

theorem vtl1 (h : Rep te hd tl) : ∀ c, c ∈ tl ++ [LF] → validCp c := by
  intro c hc
  rcases List.mem_append.1 hc with h1 | h1
  · exact h.vtl c h1
  · simp at h1; subst h1; simp [validCp, LF]

theorem posOf_end (_h : Rep te hd tl) : posOf te hd tl (hd.length + tl.length + 1) = te.bufend := by
  unfold posOf
  rw [if_neg (by omega), _h.be, ← off_length]
  simp
  congr 1
  omega

theorem posOf_head (k : Nat) (hk : k < hd.length) : posOf te hd tl k = off hd k := by
  unfold posOf; rw [if_pos hk]

theorem posOf_tail (k : Nat) : posOf te hd tl (hd.length + k) = te.gapend + off (tl ++ [LF]) k := by
  unfold posOf; rw [if_neg (by omega)]; simp

theorem posOf_lt_succ (h : Rep te hd tl) (k : Nat) (hk : k < hd.length + tl.length + 1) :
    posOf te hd tl k < posOf te hd tl (k + 1) := by
  by_cases h1 : k + 1 < hd.length
  · rw [posOf_head k (by omega), posOf_head (k + 1) h1]
    exact off_lt_succ hd k (by omega)
  · by_cases h2 : k < hd.length
    · rw [posOf_head k h2]
      have : k + 1 = hd.length + 0 := by omega
      rw [this, posOf_tail]
      have := off_le_total hd k
      have := h.gs
      have := h.gap
      have := off_lt_of_lt hd (show k < hd.length from h2) (Nat.le_refl _)
      rw [off_length] at this
      omega
    · obtain ⟨j, rfl⟩ : ∃ j, k = hd.length + j := ⟨k - hd.length, by omega⟩
      rw [posOf_tail, show hd.length + j + 1 = hd.length + (j + 1) by omega, posOf_tail]
      have := off_lt_succ (tl ++ [LF]) j (by simp; omega)
      omega

theorem posOf_lt (h : Rep te hd tl) {j k : Nat} (hjk : j < k) (hk : k ≤ hd.length + tl.length + 1) :
    posOf te hd tl j < posOf te hd tl k := by
  induction k with
  | zero => omega
  | succ k ih =>
    have h1 := h.posOf_lt_succ k (by omega)
    by_cases hj : j = k
    · subst hj; exact h1
    · exact Nat.lt_trans (ih (by omega) (by omega)) h1

theorem posOf_lt_bufend (h : Rep te hd tl) {k : Nat} (hk : k < hd.length + tl.length + 1) :
    posOf te hd tl k < te.bufend := by
  rw [← h.posOf_end]
  exact h.posOf_lt hk (Nat.le_refl _)

theorem posOf_inj (h : Rep te hd tl) {j k : Nat} (hj : j ≤ hd.length + tl.length + 1)
    (hk : k ≤ hd.length + tl.length + 1) (he : posOf te hd tl j = posOf te hd tl k) : j = k := by
  rcases Nat.lt_trichotomy j k with h1 | h1 | h1
  · have := h.posOf_lt h1 hk; omega
  · exact h1
  · have := h.posOf_lt h1 hj; omega

theorem posOf_ge_gapend (_h : Rep te hd tl) {k : Nat} (hk : hd.length ≤ k) :
    te.gapend ≤ posOf te hd tl k := by
  unfold posOf; rw [if_neg (by omega)]; omega

theorem posOf_lt_gapstart (h : Rep te hd tl) {k : Nat} (hk : k < hd.length) :
    posOf te hd tl k < te.gapstart := by
  rw [posOf_head k hk, h.gs, ← off_length]
  exact off_lt_of_lt hd hk (Nat.le_refl _)

theorem getTextStart_eq (h : Rep te hd tl) : getTextStart te = posOf te hd tl 0 := by
  unfold getTextStart posOf
  by_cases h0 : hd = []
  · subst h0
    have := h.gs
    simp [encodeUtf8] at this
    simp [this, off_zero]
  · have hl : 0 < hd.length := List.length_pos.2 h0
    have := h.gs
    have h2 := encodeUtf8_length_ge hd
    rw [if_neg (by omega), if_pos hl, off_zero]

theorem doc_getD_head (k : Nat) (hk : k < hd.length) :
    (hd ++ tl ++ [LF]).getD k 0 = hd.getD k 0 := by
  rw [List.append_assoc, List.getD_append _ _ _ _ hk]

theorem doc_getD_tail (k : Nat) :
    (hd ++ tl ++ [LF]).getD (hd.length + k) 0 = (tl ++ [LF]).getD k 0 := by
  rw [List.append_assoc, List.getD_append_right _ _ _ _ (by omega)]
  simp

theorem get_char_posOf (h : Rep te hd tl) (k : Nat) (hk : k < hd.length + tl.length + 1) :
    g_utf8_get_char te.buffer (posOf te hd tl k) = (hd ++ tl ++ [LF]).getD k 0 := by
  by_cases h1 : k < hd.length
  · rw [posOf_head k h1, doc_getD_head k h1]
    have := run_get te.buffer 0 hd k h1 h.vhd h.head
    simpa using this
  · obtain ⟨j, rfl⟩ : ∃ j, k = hd.length + j := ⟨k - hd.length, by omega⟩
    rw [posOf_tail, doc_getD_tail]
    exact run_get te.buffer te.gapend _ j (by simp; omega) h.vtl1 h.tail

theorem lf_posOf (h : Rep te hd tl) (k : Nat) (hk : k < hd.length + tl.length + 1) :
    (te.buffer (posOf te hd tl k) % 256 = LF ↔ (hd ++ tl ++ [LF]).getD k 0 = 10) := by
  by_cases h1 : k < hd.length
  · rw [posOf_head k h1, doc_getD_head k h1]
    have := run_lf te.buffer 0 hd k h1 h.vhd h.head
    simpa using this
  · obtain ⟨j, rfl⟩ : ∃ j, k = hd.length + j := ⟨k - hd.length, by omega⟩
    rw [posOf_tail, doc_getD_tail]
    exact run_lf te.buffer te.gapend _ j (by simp; omega) h.vtl1 h.tail

theorem nextChar_posOf (h : Rep te hd tl) (k : Nat) (hk : k < hd.length + tl.length + 1) :
    nextChar te (posOf te hd tl k) = posOf te hd tl (k + 1) := by
  by_cases h1 : k < hd.length
  · have hlt := h.posOf_lt_gapstart h1
    unfold nextChar
    simp only [if_neg (Nat.ne_of_lt hlt), if_pos hlt]
    have := run_next te.buffer 0 hd k h1 h.vhd h.head
    simp only [Nat.zero_add] at this
    rw [posOf_head k h1, h.gs, this]
    by_cases h2 : k + 1 < hd.length
    · rw [if_pos h2, posOf_head (k + 1) h2]
    · rw [if_neg h2]
      have : k + 1 = hd.length + 0 := by omega
      rw [this, posOf_tail, off_zero]
      simp
  · obtain ⟨j, rfl⟩ : ∃ j, k = hd.length + j := ⟨k - hd.length, by omega⟩
    have hge := h.posOf_ge_gapend (show hd.length ≤ hd.length + j by omega)
    have hgap := h.gap
    unfold nextChar
    simp only [if_neg (show posOf te hd tl (hd.length + j) ≠ te.gapstart by omega),
      if_neg (show ¬ posOf te hd tl (hd.length + j) < te.gapstart by omega)]
    have := run_next te.buffer te.gapend (tl ++ [LF]) j (by simp; omega) h.vtl1 h.tail
    rw [posOf_tail, h.be, this]
    by_cases h2 : j + 1 < (tl ++ [LF]).length
    · rw [if_pos h2, show hd.length + j + 1 = hd.length + (j + 1) by omega, posOf_tail]
    · rw [if_neg h2, show hd.length + j + 1 = hd.length + (j + 1) by omega, posOf_tail,
        off_ge_length _ _ (by omega)]

theorem nextChar_gapstart (h : Rep te hd tl) :
    nextChar te te.gapstart = posOf te hd tl (hd.length + 1) := by
  have h1 := h.nextChar_posOf hd.length (by omega)
  have h2 : posOf te hd tl hd.length = te.gapend := by
    have := @posOf_tail te hd tl 0
    simpa [off_zero] using this
  rw [← h1, h2]
  have hgap := h.gap
  unfold nextChar
  simp only [if_true, if_neg (show te.gapend ≠ te.gapstart by omega)]

theorem posOf_gap (_h : Rep te hd tl) : posOf te hd tl hd.length = te.gapend := by
  have := @posOf_tail te hd tl 0
  simpa [off_zero] using this

theorem prevChar_posOf (h : Rep te hd tl) (k : Nat) (hk : k < hd.length + tl.length + 1) :
    prevChar te (posOf te hd tl (k + 1)) = posOf te hd tl k := by
  have hgap := h.gap
  by_cases h1 : k + 1 < hd.length
  · have hlt := h.posOf_lt_gapstart h1
    unfold prevChar
    rw [if_neg (by omega), posOf_head (k + 1) h1]
    have := run_prev te.buffer 0 0 hd k (by omega) h.vhd h.head (Nat.zero_le _)
    simp only [Nat.zero_add] at this
    rw [this, posOf_head k (by omega)]
  · by_cases h2 : k < hd.length
    · have hk1 : k + 1 = hd.length := by omega
      rw [hk1, h.posOf_gap]
      unfold prevChar
      rw [if_pos (Nat.le_refl _), find_prev_at_str]
      simp only
      have := run_prev te.buffer 0 0 hd k h2 h.vhd h.head (Nat.zero_le _)
      simp only [Nat.zero_add] at this
      rw [hk1, off_length, ← h.gs] at this
      rw [this, posOf_head k h2]
    · obtain ⟨j, rfl⟩ : ∃ j, k = hd.length + j := ⟨k - hd.length, by omega⟩
      rw [show hd.length + j + 1 = hd.length + (j + 1) by omega, posOf_tail, posOf_tail]
      unfold prevChar
      rw [if_pos (by omega)]
      have := run_prev te.buffer te.gapend te.gapend (tl ++ [LF]) j (by simp; omega) h.vtl1 h.tail
        (by omega)
      rw [this]

theorem prevChar_gapstart (h : Rep te hd tl) (k : Nat) (hk : k + 1 = hd.length) :
    prevChar te te.gapstart = posOf te hd tl k := by
  have hgap := h.gap
  unfold prevChar
  rw [if_neg (by omega)]
  have := run_prev te.buffer 0 0 hd k (by omega) h.vhd h.head (Nat.zero_le _)
  simp only [Nat.zero_add] at this
  rw [hk, off_length, ← h.gs] at this
  rw [this, posOf_head k (by omega)]

end Rep

end

section

namespace Rep

variable {te : TextEdit} {hd tl : List Nat}

theorem drop_doc (l : List Nat) (i : Nat) (hi : i < l.length) :
    l.drop i = l.getD i 0 :: l.drop (i + 1) := by
  rw [List.getD_eq_getElem _ _ hi]
  exact List.drop_eq_getElem_cons hi

theorem posOf_add_le (h : Rep te hd tl) {j k : Nat} (hjk : j ≤ k) (hk : k ≤ hd.length + tl.length + 1) :
    posOf te hd tl j + (k - j) ≤ posOf te hd tl k := by
  induction k with
  | zero =>
    have : j = 0 := by omega
    subst this
    simp
  | succ k ih =>
    by_cases hj : j = k + 1
    · subst hj; simp
    · have := ih (by omega) (by omega)
      have := h.posOf_lt_succ k (by omega)
      omega

theorem getScreenLine_finish_posOf (h : Rep te hd tl) (k rl : Nat)
    (hk : k < hd.length + tl.length + 1) (hrl : k + rl ≤ hd.length + tl.length + 1) :
    getScreenLine_finish te (posOf te hd tl k) (posOf te hd tl (k + rl)) rl
      = (posOf te hd tl (k + brkFinish rl), brkFinish rl) := by
  unfold getScreenLine_finish brkFinish
  by_cases h0 : rl = 0
  · subst h0
    simp [h.nextChar_posOf k hk]
  · have : posOf te hd tl (k + rl) ≠ posOf te hd tl k := by
      intro he
      have := h.posOf_inj hrl (by omega) he
      omega
    rw [if_neg this, if_neg h0]

theorem getScreenLine_loop_posOf (G : Glib) (h : Rep te hd tl) (mw k : Nat)
    (hk : k < hd.length + tl.length + 1) :
    ∀ (n cl cw rl : Nat) (sp : Bool), rl ≤ cl → k + cl ≤ hd.length + tl.length + 1 →
      hd.length + tl.length + 1 - (k + cl) ≤ n →
      getScreenLine_loop G te (posOf te hd tl k) mw n (posOf te hd tl (k + cl))
        (posOf te hd tl (k + rl)) cw cl sp rl
      = (posOf te hd tl (k + brkLoop G te.masked mw ((hd ++ tl ++ [LF]).drop (k + cl)) cw cl sp rl),
          brkLoop G te.masked mw ((hd ++ tl ++ [LF]).drop (k + cl)) cw cl sp rl) := by
  intro n
  induction n with
  | zero =>
    intro cl cw rl sp hrl hcl hn
    have hlen : (hd ++ tl ++ [LF]).length = hd.length + tl.length + 1 := by simp; omega
    have : (hd ++ tl ++ [LF]).drop (k + cl) = [] := List.drop_of_length_le (by omega)
    rw [this]
    simp only [getScreenLine_loop, brkLoop]
    exact h.getScreenLine_finish_posOf k rl hk (by omega)
  | succ n ih =>
    intro cl cw rl sp hrl hcl hn
    have hlen : (hd ++ tl ++ [LF]).length = hd.length + tl.length + 1 := by simp; omega
    by_cases hend : k + cl = hd.length + tl.length + 1
    · have : (hd ++ tl ++ [LF]).drop (k + cl) = [] := List.drop_of_length_le (by omega)
      rw [this]
      simp only [getScreenLine_loop, brkLoop]
      rw [hend, h.posOf_end, if_neg (Nat.lt_irrefl _)]
      exact h.getScreenLine_finish_posOf k rl hk (by omega)
    · have hlt : k + cl < hd.length + tl.length + 1 := by omega
      rw [drop_doc _ (k + cl) (by omega)]
      simp only [getScreenLine_loop, brkLoop]
      rw [if_pos (h.posOf_lt_bufend hlt), h.get_char_posOf (k + cl) hlt, h.nextChar_posOf (k + cl) hlt]
      have hosw : ∀ c w, onScreenWidth G te c w = oswL G te.masked c w := fun _ _ => rfl
      simp only [hosw]
      by_cases hw : cw > mw
      · rw [if_pos hw, if_pos hw]
        exact h.getScreenLine_finish_posOf k rl hk (by omega)
      · rw [if_neg hw, if_neg hw]
        by_cases hlf : (hd ++ tl ++ [LF]).getD (k + cl) 0 = 10
        · rw [if_pos ((h.lf_posOf (k + cl) hlt).2 hlf), if_pos hlf, Nat.add_assoc]
        · rw [if_neg (fun hh => hlf ((h.lf_posOf (k + cl) hlt).1 hh)), if_neg hlf]
          have key : ∀ (b : Bool),
              posOf te hd tl (k + (if b = true then cl else rl))
                = (if b = true then posOf te hd tl (k + cl) else posOf te hd tl (k + rl)) := by
            intro b; cases b <;> simp
          have key2 : ∀ (b : Bool), (if b = true then cl + 1 - 1 else rl) = (if b = true then cl else rl) := by
            intro b; cases b <;> simp
          have key3 : ∀ (b : Bool), (if b = true then cl else rl) ≤ cl + 1 := by
            intro b
            cases b
            · simp only [Bool.false_eq_true, if_false]; omega
            · simp
          simp only [key2, ← key, Nat.add_sub_cancel]
          split
          · rw [show k + cl + 1 = k + (cl + 1) by omega]
            exact ih _ _ _ _ (key3 _) (by omega) (by omega)
          · split
            · rw [show k + cl + 1 = k + (cl + 1) by omega]
              exact ih _ _ _ _ (by omega) (by omega) (by omega)
            · rw [show k + cl + 1 = k + (cl + 1) by omega]
              exact ih _ _ _ _ (key3 _) (by omega) (by omega)

/-- On a well-formed buffer `getScreenLine` is the line breaker on codepoints. -/
theorem getScreenLine_posOf (G : Glib) (h : Rep te hd tl) (mw k : Nat)
    (hk : k < hd.length + tl.length + 1) :
    getScreenLine G te (posOf te hd tl k) mw
      = (posOf te hd tl (k + brk G te.masked mw ((hd ++ tl ++ [LF]).drop k)),
          brk G te.masked mw ((hd ++ tl ++ [LF]).drop k)) := by
  have := h.getScreenLine_loop_posOf G mw k hk (te.bufend - posOf te hd tl k + 1) 0 0 0 false
    (Nat.le_refl 0) (by omega) (by
      have := h.posOf_add_le (show k ≤ hd.length + tl.length + 1 by omega) (Nat.le_refl _)
      rw [h.posOf_end] at this
      omega)
  simpa [getScreenLine, brk] using this

end Rep

end

section

variable (G : Glib) (masked : Bool) (mw : Nat)

theorem oswL_mono (hm : WidthMono G) (c w w2 : Nat) (h : w ≤ w2) :
    w + oswL G masked c w ≤ w2 + oswL G masked c w2 := by
  unfold oswL
  cases masked
  · simpa using hm c w w2 h
  · simpa using h

theorem brkFinish_pos (rl : Nat) : 1 ≤ brkFinish rl := by
  unfold brkFinish; split <;> omega

theorem brkFinish_ge (rl : Nat) : rl ≤ brkFinish rl := by
  unfold brkFinish; split <;> omega

theorem brkFinish_le (rl cl : Nat) (h : rl ≤ cl) : brkFinish rl ≤ max 1 cl := by
  unfold brkFinish; split <;> omega

theorem brkLoop_ge : ∀ (t : List Nat) (cw cl rl : Nat) (sp : Bool), rl ≤ cl →
    1 ≤ brkLoop G masked mw t cw cl sp rl ∧ rl ≤ brkLoop G masked mw t cw cl sp rl := by
  intro t
  induction t with
  | nil =>
    intro cw cl rl sp _
    simp only [brkLoop]
    exact ⟨brkFinish_pos rl, brkFinish_ge rl⟩
  | cons c cs ih =>
    intro cw cl rl sp hrl
    simp only [brkLoop]
    split
    · exact ⟨brkFinish_pos rl, brkFinish_ge rl⟩
    · split
      · omega
      · split
        · split
          · have := ih (cw + oswL G masked c cw) (cl + 1) cl true (by omega)
            omega
          · have := ih (cw + oswL G masked c cw) (cl + 1) rl true (by omega)
            omega
        · split
          · have := ih (cw + oswL G masked c cw) (cl + 1) cl false (by omega)
            omega
          · split
            · have := ih (cw + oswL G masked c cw) (cl + 1) cl sp (by omega)
              omega
            · have := ih (cw + oswL G masked c cw) (cl + 1) rl sp (by omega)
              omega

theorem brkLoop_le : ∀ (t : List Nat) (cw cl rl : Nat) (sp : Bool), rl ≤ cl →
    brkLoop G masked mw t cw cl sp rl ≤ max 1 (cl + t.length) := by
  intro t
  induction t with
  | nil =>
    intro cw cl rl sp h
    simp only [brkLoop, List.length_nil, Nat.add_zero]
    exact brkFinish_le rl cl h
  | cons c cs ih =>
    intro cw cl rl sp hrl
    simp only [brkLoop, List.length_cons]
    have hf := brkFinish_le rl cl hrl
    split
    · omega
    · split
      · omega
      · split
        · split
          · have := ih (cw + oswL G masked c cw) (cl + 1) cl true (by omega)
            omega
          · have := ih (cw + oswL G masked c cw) (cl + 1) rl true (by omega)
            omega
        · split
          · have := ih (cw + oswL G masked c cw) (cl + 1) cl false (by omega)
            omega
          · split
            · have := ih (cw + oswL G masked c cw) (cl + 1) cl sp (by omega)
              omega
            · have := ih (cw + oswL G masked c cw) (cl + 1) rl sp (by omega)
              omega

theorem brk_pos (l : List Nat) : 1 ≤ brk G masked mw l :=
  (brkLoop_ge G masked mw l 0 0 0 false (Nat.le_refl 0)).1

theorem brk_le (l : List Nat) (hl : l ≠ []) : brk G masked mw l ≤ l.length := by
  have := brkLoop_le G masked mw l 0 0 0 false (Nat.le_refl 0)
  have : 0 < l.length := List.length_pos.2 hl
  unfold brk
  omega

/-- Without a recorded break and with room left, the result lies at or after the current
codepoint. -/
theorem brkLoop_ge_cl : ∀ (t : List Nat) (cw cl : Nat) (sp : Bool), cw ≤ mw → 10 ∈ t →
    cl ≤ brkLoop G masked mw t cw cl sp 0 := by
  intro t
  induction t with
  | nil => intro cw cl sp _ h; simp at h
  | cons c cs ih =>
    intro cw cl sp hcw hmem
    simp only [brkLoop]
    rw [if_neg (by omega)]
    by_cases hc : c = 10
    · rw [if_pos hc]; omega
    · rw [if_neg hc]
      have hmem2 : 10 ∈ cs := by
        rcases List.mem_cons.1 hmem with h | h
        · exact absurd h.symm hc
        · exact h
      by_cases hlong : cw + oswL G masked c cw > mw
      · -- a break is recorded at `cl`
        simp only [hlong, decide_True, Bool.true_and, beq_self_eq_true, if_true]
        split
        · have := (brkLoop_ge G masked mw cs (cw + oswL G masked c cw) (cl + 1) cl true (by omega))
          by_cases h0 : cl = 0
          · omega
          · omega
        · split
          · have := (brkLoop_ge G masked mw cs (cw + oswL G masked c cw) (cl + 1) cl false (by omega))
            omega
          · have := (brkLoop_ge G masked mw cs (cw + oswL G masked c cw) (cl + 1) cl sp (by omega))
            omega
      · simp only [hlong, decide_False, Bool.false_and, Bool.false_eq_true, if_false]
        split
        · have := ih (cw + oswL G masked c cw) (cl + 1) true (by omega) hmem2
          omega
        · split
          · have := (brkLoop_ge G masked mw cs (cw + oswL G masked c cw) (cl + 1) cl false (by omega))
            omega
          · have := ih (cw + oswL G masked c cw) (cl + 1) sp (by omega) hmem2
            omega

/-- The result of the line breaker depends only on the codepoints it examines. -/
theorem brkLoop_take : ∀ (l l2 : List Nat) (cw cl rl : Nat) (sp : Bool), 10 ∈ l →
    l.take (need G masked mw l cw) = l2.take (need G masked mw l cw) →
    brkLoop G masked mw l2 cw cl sp rl = brkLoop G masked mw l cw cl sp rl := by
  intro l
  induction l with
  | nil => intro l2 cw cl rl sp h; simp at h
  | cons c cs ih =>
    intro l2 cw cl rl sp hmem htake
    by_cases hcw : cw > mw
    · cases l2 with
      | nil => simp [brkLoop, hcw]
      | cons c2 cs2 => simp [brkLoop, hcw]
    · simp only [need, if_neg hcw] at htake
      by_cases hc : c = 10
      · rw [if_pos hc] at htake
        cases l2 with
        | nil => simp at htake
        | cons c2 cs2 =>
          simp at htake
          subst htake
          simp [brkLoop, hcw, hc]
      · rw [if_neg hc] at htake
        have hmem2 : 10 ∈ cs := by
          rcases List.mem_cons.1 hmem with h | h
          · exact absurd h.symm hc
          · exact h
        cases l2 with
        | nil => simp at htake
        | cons c2 cs2 =>
          simp only [List.take_succ_cons, List.cons.injEq] at htake
          obtain ⟨h1, h2⟩ := htake
          subst h1
          simp only [brkLoop, if_neg hcw, if_neg hc]
          split
          · exact ih cs2 _ _ _ _ hmem2 h2
          · split
            · exact ih cs2 _ _ _ _ hmem2 h2
            · exact ih cs2 _ _ _ _ hmem2 h2

theorem mem_tail_of_ne {c : Nat} {cs : List Nat} (hmem : 10 ∈ c :: cs) (hc : ¬ c = 10) : 10 ∈ cs := by
  rcases List.mem_cons.1 hmem with h | h
  · exact absurd h.symm hc
  · exact h

/-- The result is the recorded break or lies at or after the current codepoint. -/
theorem brkLoop_cases : ∀ (t : List Nat) (cw cl rl : Nat) (sp : Bool), rl ≤ cl →
    brkLoop G masked mw t cw cl sp rl = brkFinish rl ∨ cl ≤ brkLoop G masked mw t cw cl sp rl := by
  intro t
  induction t with
  | nil => intro cw cl rl sp _; left; simp [brkLoop]
  | cons c cs ih =>
    intro cw cl rl sp hrl
    simp only [brkLoop]
    have hcl : ∀ (cw2 : Nat) (sp2 : Bool), cl ≤ brkLoop G masked mw cs cw2 (cl + 1) sp2 cl := by
      intro cw2 sp2
      exact (brkLoop_ge G masked mw cs cw2 (cl + 1) cl sp2 (by omega)).2
    have hrl2 : ∀ (cw2 : Nat) (sp2 : Bool),
        brkLoop G masked mw cs cw2 (cl + 1) sp2 rl = brkFinish rl
        ∨ cl ≤ brkLoop G masked mw cs cw2 (cl + 1) sp2 rl := by
      intro cw2 sp2
      rcases ih cw2 (cl + 1) rl sp2 (by omega) with h | h
      · left; exact h
      · right; omega
    split
    · left; rfl
    · split
      · right; omega
      · split
        · split
          · right; exact hcl _ _
          · exact hrl2 _ _
        · split
          · right; exact hcl _ _
          · split
            · right; exact hcl _ _
            · exact hrl2 _ _

/-- Two scans of the same codepoints, the second started later (so further left): while the
first keeps its recorded break, the second examines at least the same codepoints and does
not break before the last of them. -/
theorem brkLoop_sim (hm : WidthMono G) : ∀ (t : List Nat) (cwA clA cwB clB rlA rlB : Nat) (sp : Bool),
    10 ∈ t → cwB ≤ cwA → 1 ≤ rlA → rlA < clA → rlB ≤ clB →
    (rlB = 0 → cwB ≤ mw ∨ clB ≤ 1) → (rlB ≠ 0 → mw < cwB ∧ clB ≤ rlB + 1) →
    brkLoop G masked mw t cwA clA sp rlA = rlA →
    clB + need G masked mw t cwA ≤ brkLoop G masked mw t cwB clB sp rlB + 1 := by
  intro t
  induction t with
  | nil => intro cwA clA cwB clB rlA rlB sp h; simp at h
  | cons c cs ih =>
    intro cwA clA cwB clB rlA rlB sp hmem hcw hrlA hlt hrlB inv1 inv2 hres
    by_cases hA : cwA > mw
    · simp only [need, if_pos hA, Nat.add_zero]
      have hge := brkLoop_ge G masked mw (c :: cs) cwB clB rlB sp hrlB
      by_cases h0 : rlB = 0
      · rcases inv1 h0 with h1 | h1
        · subst h0
          have := brkLoop_ge_cl G masked mw (c :: cs) cwB clB sp h1 hmem
          omega
        · omega
      · have := inv2 h0
        omega
    · have hB : ¬ cwB > mw := by omega
      have h0 : rlB = 0 := by
        by_contra hne
        have := inv2 hne
        omega
      subst h0
      have hA0 : (rlA == 0) = false := by simp; omega
      simp only [need, if_neg hA]
      simp only [brkLoop, if_neg hA, hA0, Bool.and_false, Bool.false_eq_true, if_false] at hres
      simp only [brkLoop, if_neg hB, beq_self_eq_true, Bool.and_true]
      by_cases hc : c = 10
      · rw [if_pos hc] at hres; omega
      · rw [if_neg hc] at hres ⊢
        rw [if_neg hc]
        have hmem2 := mem_tail_of_ne hmem hc
        have hmono := oswL_mono G masked hm c cwB cwA hcw
        have step : ∀ (sp2 : Bool),
            brkLoop G masked mw cs (cwA + oswL G masked c cwA) (clA + 1) sp2 rlA = rlA →
            clB + (need G masked mw cs (cwA + oswL G masked c cwA) + 1)
              ≤ brkLoop G masked mw cs (cwB + oswL G masked c cwB) (clB + 1) sp2
                (if decide (cwB + oswL G masked c cwB > mw) = true then clB else 0) + 1 := by
          intro sp2 hr
          have := ih (cwA + oswL G masked c cwA) (clA + 1) (cwB + oswL G masked c cwB) (clB + 1) rlA
            (if decide (cwB + oswL G masked c cwB > mw) = true then clB else 0) sp2 hmem2 hmono hrlA
            (by omega) (by split <;> omega)
            (by
              intro h
              by_cases hl : cwB + oswL G masked c cwB > mw
              · simp only [hl, decide_True, if_true] at h
                right; omega
              · left; omega)
            (by
              intro h
              by_cases hl : cwB + oswL G masked c cwB > mw
              · refine ⟨hl, ?_⟩
                simp only [hl, decide_True, if_true]
                exact Nat.le_refl _
              · simp [hl] at h)
            hr
          omega
        by_cases hs : G.g_unichar_isspace c = true
        · rw [if_pos hs] at hres ⊢
          exact step true hres
        · rw [if_neg hs] at hres ⊢
          by_cases hsp : sp = true
          · rw [if_pos hsp] at hres
            have := (brkLoop_ge G masked mw cs (cwA + oswL G masked c cwA) (clA + 1) clA false
              (by omega)).2
            omega
          · rw [if_neg hsp] at hres ⊢
            exact step sp hres

/-- The codepoints examined for one screen line end at the latest one codepoint after the
end of the following screen line. -/
theorem brkLoop_extent (hm : WidthMono G) : ∀ (t : List Nat) (cw cl rl : Nat) (sp : Bool),
    10 ∈ t → rl ≤ cl → (rl = 0 → cw ≤ mw ∨ cl ≤ 1) →
    cl ≤ brkLoop G masked mw t cw cl sp rl →
    cl + need G masked mw t cw
      ≤ brkLoop G masked mw t cw cl sp rl
        + brk G masked mw (t.drop (brkLoop G masked mw t cw cl sp rl - cl)) + 1 := by
  intro t
  induction t with
  | nil => intro cw cl rl sp h; simp at h
  | cons c cs ih =>
    intro cw cl rl sp hmem hrl inv hge
    by_cases hcw : cw > mw
    · simp only [need, if_pos hcw]
      omega
    · simp only [need, if_neg hcw]
      by_cases hc : c = 10
      · rw [if_pos hc]
        simp only [brkLoop, if_neg hcw, if_pos hc]
        omega
      · rw [if_neg hc]
        have hmem2 := mem_tail_of_ne hmem hc
        -- the state after `c` and the common argument
        have key : ∀ (sp2 : Bool) (rl2 : Nat), (rl2 = cl ∨ (rl2 = rl ∧ (rl = 0 → cw + oswL G masked c cw ≤ mw))) →
            sp2 = G.g_unichar_isspace c →
            brkLoop G masked mw (c :: cs) cw cl sp rl
              = brkLoop G masked mw cs (cw + oswL G masked c cw) (cl + 1) sp2 rl2 →
            cl + (need G masked mw cs (cw + oswL G masked c cw) + 1)
              ≤ brkLoop G masked mw (c :: cs) cw cl sp rl
                + brk G masked mw ((c :: cs).drop (brkLoop G masked mw (c :: cs) cw cl sp rl - cl)) + 1 := by
          intro sp2 rl2 hrl2 hsp2 heq
          have hrl2le : rl2 ≤ cl + 1 := by rcases hrl2 with h | h <;> omega
          have hcases := brkLoop_cases G masked mw cs (cw + oswL G masked c cw) (cl + 1) rl2 sp2 hrl2le
          have hpos := (brkLoop_ge G masked mw cs (cw + oswL G masked c cw) (cl + 1) rl2 sp2 hrl2le).1
          rw [heq] at hge ⊢
          by_cases hbig : cl + 1 ≤ brkLoop G masked mw cs (cw + oswL G masked c cw) (cl + 1) sp2 rl2
          · have := ih (cw + oswL G masked c cw) (cl + 1) rl2 sp2 hmem2 hrl2le (by
              intro h0
              rcases hrl2 with h | h
              · right; omega
              · left; exact h.2 (by omega)) hbig
            obtain ⟨d, hd⟩ : ∃ d, brkLoop G masked mw cs (cw + oswL G masked c cw) (cl + 1) sp2 rl2 - cl = d + 1 :=
              ⟨brkLoop G masked mw cs (cw + oswL G masked c cw) (cl + 1) sp2 rl2 - cl - 1, by omega⟩
            rw [hd, List.drop_succ_cons]
            have hd2 : brkLoop G masked mw cs (cw + oswL G masked c cw) (cl + 1) sp2 rl2 - (cl + 1) = d := by
              omega
            rw [hd2] at this
            omega
          · -- the result is `cl`, recorded at `c`
            have hr : brkLoop G masked mw cs (cw + oswL G masked c cw) (cl + 1) sp2 rl2 = cl := by omega
            have hcl1 : 1 ≤ cl := by omega
            have hrl2cl : rl2 = cl := by
              rcases hrl2 with h | h
              · exact h
              · rcases hcases with h1 | h1
                · by_cases h0 : rl = 0
                  · have h3 := h.2 h0
                    have h4 := brkLoop_ge_cl G masked mw cs (cw + oswL G masked c cw) (cl + 1) sp2 h3 hmem2
                    rw [h.1, h0] at hr
                    omega
                  · rw [h.1] at h1 hr
                    unfold brkFinish at h1
                    rw [if_neg h0] at h1
                    omega
                · omega
            rw [hrl2cl] at hr
            rw [hrl2cl, hr]
            simp only [Nat.sub_self, List.drop_zero]
            have hB : brk G masked mw (c :: cs)
                = brkLoop G masked mw cs (0 + oswL G masked c 0) 1 sp2 0 := by
              unfold brk
              simp only [brkLoop, if_neg (Nat.not_lt_zero mw), if_neg hc, Nat.zero_add]
              rw [hsp2]
              by_cases hs : G.g_unichar_isspace c = true
              · simp [hs]
              · simp [hs]
            have hS := brkLoop_sim G masked mw hm cs (cw + oswL G masked c cw) (cl + 1)
              (0 + oswL G masked c 0) 1 cl 0 sp2 hmem2
              (oswL_mono G masked hm c 0 cw (Nat.zero_le _)) hcl1 (by omega) (by omega)
              (fun _ => Or.inr (Nat.le_refl 1)) (fun h => absurd rfl h) hr
            rw [hB]
            omega
        simp only [brkLoop, if_neg hcw, if_neg hc] at key ⊢
        by_cases hs : G.g_unichar_isspace c = true
        · simp only [hs, if_true] at key ⊢
          refine key true _ ?_ rfl rfl
          by_cases hl : (decide (cw + oswL G masked c cw > mw) && rl == 0) = true
          · left; simp [hl]
          · right
            refine ⟨by simp [hl], ?_⟩
            intro h0
            simp [h0] at hl
            omega
        · simp only [hs, Bool.false_eq_true, if_false] at key ⊢
          cases sp with
          | true =>
            simp only [if_true] at key ⊢
            exact key false cl (Or.inl rfl) (by simp [hs]) rfl
          | false =>
            simp only [Bool.false_eq_true, if_false] at key ⊢
            refine key false _ ?_ (by simp [hs]) rfl
            by_cases hl : (decide (cw + oswL G masked c cw > mw) && rl == 0) = true
            · left; simp [hl]
            · right
              refine ⟨by simp [hl], ?_⟩
              intro h0
              simp [h0] at hl
              omega

/-- Prefix stability of the line breaker: the first screen line of `l` is also the first
screen line of every list that agrees with `l` up to one codepoint after the end of the
second screen line of `l`. -/
theorem brk_stable (hm : WidthMono G) (l l2 : List Nat) (m : Nat) (hmem : 10 ∈ l)
    (hm1 : brk G masked mw l + brk G masked mw (l.drop (brk G masked mw l)) + 1 ≤ m)
    (htake : l.take m = l2.take m) : brk G masked mw l2 = brk G masked mw l := by
  have hext := brkLoop_extent G masked mw hm l 0 0 0 false hmem (Nat.le_refl 0)
    (fun _ => Or.inl (Nat.zero_le _)) (Nat.zero_le _)
  simp only [Nat.zero_add, Nat.sub_zero] at hext
  have hneed : need G masked mw l 0 ≤ m := by
    simp only [brk] at hm1 hext
    omega
  unfold brk
  apply brkLoop_take G masked mw l l2 0 0 0 false hmem
  have := congrArg (List.take (need G masked mw l 0)) htake
  simpa [List.take_take, Nat.min_eq_left hneed] using this

end

section

variable (G : Glib) (masked : Bool) (mw : Nat)

theorem layoutAux_nil (n : Nat) : layoutAux G masked mw n [] = [] := by
  cases n <;> simp [layoutAux]

theorem layoutAux_fuel : ∀ (n m : Nat) (l : List Nat), l.length ≤ n → l.length ≤ m →
    layoutAux G masked mw n l = layoutAux G masked mw m l := by
  intro n
  induction n with
  | zero =>
    intro m l h _
    have : l = [] := List.length_eq_zero.1 (by omega)
    subst this
    simp [layoutAux_nil]
  | succ n ih =>
    intro m l hn hm
    by_cases hl : l = []
    · subst hl; simp [layoutAux_nil]
    · obtain ⟨m2, rfl⟩ : ∃ m2, m = m2 + 1 := by
        have : 0 < l.length := List.length_pos.2 hl
        exact ⟨m - 1, by omega⟩
      simp only [layoutAux, if_neg hl]
      have hb := brk_pos G masked mw l
      have hlen : (l.drop (brk G masked mw l)).length < l.length := by
        have : 0 < l.length := List.length_pos.2 hl
        simp only [List.length_drop]
        omega
      rw [ih m2 _ (by omega) (by omega)]

theorem layout_cons (l : List Nat) (hl : l ≠ []) :
    layout G masked mw l = brk G masked mw l :: layout G masked mw (l.drop (brk G masked mw l)) := by
  have hpos : 0 < l.length := List.length_pos.2 hl
  unfold layout
  obtain ⟨n, hn⟩ : ∃ n, l.length = n + 1 := ⟨l.length - 1, by omega⟩
  rw [hn]
  simp only [layoutAux, if_neg hl]
  have hb := brk_pos G masked mw l
  rw [layoutAux_fuel G masked mw n _ _ (by simp only [List.length_drop]; omega) (Nat.le_refl _)]

theorem layout_nil : layout G masked mw [] = [] := by
  simp [layout, layoutAux]

/-- The screen lines consume all codepoints. -/
theorem layout_sum : ∀ (n : Nat) (l : List Nat), l.length ≤ n → (layout G masked mw l).sum = l.length := by
  intro n
  induction n with
  | zero =>
    intro l h
    have : l = [] := List.length_eq_zero.1 (by omega)
    subst this
    simp [layout_nil]
  | succ n ih =>
    intro l h
    by_cases hl : l = []
    · subst hl; simp [layout_nil]
    · rw [layout_cons G masked mw l hl]
      have hb := brk_pos G masked mw l
      have hb2 := brk_le G masked mw l hl
      simp only [List.sum_cons]
      rw [ih _ (by simp only [List.length_drop]; omega)]
      simp only [List.length_drop]
      omega

theorem layout_pos : ∀ (n : Nat) (l : List Nat), l.length ≤ n → ∀ x, x ∈ layout G masked mw l → 1 ≤ x := by
  intro n
  induction n with
  | zero =>
    intro l h x hx
    have : l = [] := List.length_eq_zero.1 (by omega)
    subst this
    simp [layout_nil] at hx
  | succ n ih =>
    intro l h x hx
    by_cases hl : l = []
    · subst hl; simp [layout_nil] at hx
    · rw [layout_cons G masked mw l hl] at hx
      have hb := brk_pos G masked mw l
      rcases List.mem_cons.1 hx with h1 | h1
      · omega
      · exact ih _ (by simp only [List.length_drop]; omega) x h1

/-- The screen lines after the first `j` are the screen lines of the remaining codepoints. -/
theorem layout_drop : ∀ (j : Nat) (l : List Nat),
    (layout G masked mw l).drop j
      = layout G masked mw (l.drop ((layout G masked mw l).take j).sum) := by
  intro j
  induction j with
  | zero => intro l; simp
  | succ j ih =>
    intro l
    by_cases hl : l = []
    · subst hl; simp [layout_nil]
    · rw [layout_cons G masked mw l hl]
      simp only [List.drop_succ_cons, List.take_succ_cons, List.sum_cons]
      rw [ih, List.drop_drop]

theorem layout_ne_nil (l : List Nat) (hl : l ≠ []) : layout G masked mw l ≠ [] := by
  rw [layout_cons G masked mw l hl]; simp

theorem take_sum_le (L : List Nat) (j : Nat) : (L.take j).sum ≤ L.sum := by
  have := congrArg List.sum (List.take_append_drop j L)
  rw [List.sum_append] at this
  omega

theorem take_sum_succ (L : List Nat) (j : Nat) (hj : j < L.length) :
    (L.take (j + 1)).sum = (L.take j).sum + L.getD j 0 := by
  rw [List.take_succ, List.sum_append]
  simp [List.getElem?_eq_getElem hj, List.getD_eq_getElem _ _ hj]

theorem layout_getD (l : List Nat) (j : Nat) (hj : j < (layout G masked mw l).length) :
    (layout G masked mw l).getD j 0
      = brk G masked mw (l.drop ((layout G masked mw l).take j).sum) := by
  have h1 := layout_drop G masked mw j l
  have h2 : (layout G masked mw l).drop j ≠ [] := by
    intro h
    have := congrArg List.length h
    simp only [List.length_drop, List.length_nil] at this
    omega
  have h3 : l.drop ((layout G masked mw l).take j).sum ≠ [] := by
    intro h
    rw [h, layout_nil] at h1
    exact h2 h1
  rw [layout_cons G masked mw _ h3] at h1
  have := congrArg (fun x => x.getD 0 0) h1
  simpa [List.getD_eq_getElem?_getD] using this

/-! ### Rendering -/

variable {te : TextEdit} {hd tl : List Nat}

theorem render_length (k : Nat) (lens : List Nat) : (render te hd tl k lens).length = lens.length := by
  induction lens generalizing k with
  | nil => simp [render]
  | cons n ns ih => simp [render, ih]

theorem render_append (k : Nat) (a b : List Nat) :
    render te hd tl k (a ++ b) = render te hd tl k a ++ render te hd tl (k + a.sum) b := by
  induction a generalizing k with
  | nil => simp [render]
  | cons n ns ih =>
    rw [List.cons_append]
    simp only [render, List.sum_cons]
    rw [ih, Nat.add_assoc]
    rfl

theorem render_take (k j : Nat) (lens : List Nat) :
    (render te hd tl k lens).take j = render te hd tl k (lens.take j) := by
  induction lens generalizing k j with
  | nil => simp [render]
  | cons n ns ih =>
    cases j with
    | zero => simp [render]
    | succ j => simp [render, ih]

theorem render_drop (k j : Nat) (lens : List Nat) :
    (render te hd tl k lens).drop j = render te hd tl (k + (lens.take j).sum) (lens.drop j) := by
  induction lens generalizing k j with
  | nil => simp [render]
  | cons n ns ih =>
    cases j with
    | zero => simp
    | succ j => simp [render, ih, Nat.add_assoc]

theorem render_getD (k j : Nat) (lens : List Nat) (hj : j < lens.length) :
    (render te hd tl k lens).getD j default
      = ⟨posOf te hd tl (k + (lens.take j).sum), posOf te hd tl (k + (lens.take (j + 1)).sum),
          lens.getD j 0⟩ := by
  induction lens generalizing k j with
  | nil => simp at hj
  | cons n ns ih =>
    cases j with
    | zero => simp [render]
    | succ j =>
      have := ih (k + n) j (by simpa using hj)
      simp only [render, List.getD_cons_succ, this, List.take_succ_cons, List.sum_cons, Nat.add_assoc]

/-- The loop of the full rebuild produces the rendering of the list-level screen lines. -/
theorem updateScreenLines_loop_render (h : Rep te hd tl) (realw : Nat) :
    ∀ (n k : Nat), k ≤ hd.length + tl.length + 1 → hd.length + tl.length + 1 - k ≤ n →
      updateScreenLines_loop G te realw n (posOf te hd tl k)
        = render te hd tl k (layout G te.masked (realw - 1) ((hd ++ tl ++ [LF]).drop k)) := by
  intro n
  induction n with
  | zero =>
    intro k hk hn
    have : (hd ++ tl ++ [LF]).drop k = [] := List.drop_of_length_le (by simp; omega)
    rw [this, layout_nil]
    simp [updateScreenLines_loop, render]
  | succ n ih =>
    intro k hk hn
    by_cases hend : k = hd.length + tl.length + 1
    · have : (hd ++ tl ++ [LF]).drop k = [] := List.drop_of_length_le (by simp; omega)
      rw [this, layout_nil, hend, h.posOf_end]
      simp [updateScreenLines_loop, render]
    · have hlt : k < hd.length + tl.length + 1 := by omega
      have hne : (hd ++ tl ++ [LF]).drop k ≠ [] := by
        intro hh
        have := congrArg List.length hh
        simp at this
        omega
      have hb := brk_pos G te.masked (realw - 1) ((hd ++ tl ++ [LF]).drop k)
      have hb2 := brk_le G te.masked (realw - 1) _ hne
      simp only [List.length_drop, List.length_append, List.length_singleton] at hb2
      simp only [updateScreenLines_loop, if_pos (h.posOf_lt_bufend hlt)]
      rw [h.getScreenLine_posOf G (realw - 1) k hlt, layout_cons G te.masked (realw - 1) _ hne]
      simp only [render, List.drop_drop]
      rw [ih _ (by omega) (by omega)]

/-- The full rebuild in terms of the list-level screen lines. -/
theorem fullScreenLines_render (h : Rep te hd tl) (a : Area) (ha : te.area = some a)
    (hw : 2 ≤ a.maxx) :
    fullScreenLines G te = render te hd tl 0 (layout G te.masked (a.maxx - 1) (hd ++ tl ++ [LF])) := by
  unfold fullScreenLines
  rw [ha]
  simp only
  rw [if_neg (by omega), h.getTextStart_eq]
  have := h.posOf_add_le (show 0 ≤ hd.length + tl.length + 1 by omega) (Nat.le_refl _)
  rw [h.posOf_end] at this
  have := updateScreenLines_loop_render G h a.maxx (te.bufend + 1) 0 (by omega) (by omega)
  simpa using this

end

section

theorem EndsLF.mem {l : List Nat} (h : EndsLF l) : 10 ∈ l := by
  obtain ⟨pre, rfl⟩ := h
  simp

theorem EndsLF.ne_nil {l : List Nat} (h : EndsLF l) : l ≠ [] := by
  obtain ⟨pre, rfl⟩ := h
  simp

theorem EndsLF.drop {l : List Nat} (h : EndsLF l) (n : Nat) (hn : n < l.length) :
    EndsLF (l.drop n) := by
  obtain ⟨pre, rfl⟩ := h
  refine ⟨pre.drop n, ?_⟩
  simp only [List.length_append, List.length_singleton] at hn
  rw [List.drop_append_of_le_length (by omega)]

theorem lower_bound_spec : ∀ (L : List ScreenLine) (tag : Nat),
    lower_bound L tag ≤ L.length
    ∧ ∀ j, j < lower_bound L tag → (L.getD j default).end_ < tag := by
  intro L
  induction L with
  | nil => intro tag; simp [lower_bound]
  | cons l ls ih =>
    intro tag
    simp only [lower_bound]
    split
    · rename_i hlt
      obtain ⟨h1, h2⟩ := ih tag
      refine ⟨by simp only [List.length_cons]; omega, ?_⟩
      intro j hj
      cases j with
      | zero => simpa using hlt
      | succ j => simpa using h2 j (by omega)
    · exact ⟨Nat.zero_le _, fun j hj => absurd hj (Nat.not_lt_zero _)⟩

theorem skipOld_spec (stop s p : Nat) : ∀ (old : List ScreenLine) (i : Nat),
    i ≤ skipOld stop s p old i
    ∧ skipOld stop s p old i ≤ i + old.length
    ∧ (skipOld stop s p old i < i + old.length →
        skipCond stop s p (old.getD (skipOld stop s p old i - i) default) = false)
    ∧ ((∀ j, j + 1 < old.length → skipCond stop s p (old.getD j default) = true) →
        i + old.length ≤ skipOld stop s p old i + 1) := by
  intro old
  induction old with
  | nil => intro i; simp [skipOld]
  | cons l ls ih =>
    intro i
    simp only [skipOld, List.length_cons]
    by_cases hc : skipCond stop s p l = true
    · have hc2 : (decide (l.end_ ≤ stop) || decide (l.start < s) || decide (l.end_ < p)) = true := hc
      rw [if_pos hc2]
      obtain ⟨h1, h2, h3, h4⟩ := ih (i + 1)
      refine ⟨by omega, by omega, ?_, ?_⟩
      · intro hlt
        have := h3 (by omega)
        obtain ⟨d, hd⟩ : ∃ d, skipOld stop s p ls (i + 1) - i = d + 1 :=
          ⟨skipOld stop s p ls (i + 1) - i - 1, by omega⟩
        rw [hd, List.getD_cons_succ]
        rw [show skipOld stop s p ls (i + 1) - (i + 1) = d by omega] at this
        exact this
      · intro hall
        have := h4 (fun j hj => by
          have := hall (j + 1) (by omega)
          simpa using this)
        omega
    · have hc2 : ¬ (decide (l.end_ ≤ stop) || decide (l.start < s) || decide (l.end_ < p)) = true := hc
      rw [if_neg hc2]
      refine ⟨Nat.le_refl _, by omega, ?_, ?_⟩
      · intro _
        simpa using hc
      · intro hall
        by_cases hl : ls = []
        · subst hl; simp
        · have := hall 0 (by
            have : 0 < ls.length := List.length_pos.2 hl
            omega)
          simp at this
          exact absurd this hc

variable (G : Glib) (masked : Bool) (mw : Nat)

/-- The first screen lines of two documents with a common beginning coincide, up to the
line before the last one that ends inside the common part. -/
theorem layout_take_stable (hm : WidthMono G) : ∀ (j : Nat) (l l2 : List Nat) (a : Nat),
    EndsLF l → j < (layout G masked mw l).length →
    ((layout G masked mw l).take (j + 1)).sum < a → l.take a = l2.take a →
    (layout G masked mw l2).take j = (layout G masked mw l).take j := by
  intro j
  induction j with
  | zero => intro l l2 a _ _ _ _; simp
  | succ j ih =>
    intro l l2 a hlf hj hsum htake
    have hl : l ≠ [] := hlf.ne_nil
    have hb := brk_pos G masked mw l
    have hb2 := brk_le G masked mw l hl
    rw [layout_cons G masked mw l hl] at hj hsum ⊢
    simp only [List.length_cons] at hj
    simp only [List.take_succ_cons, List.sum_cons] at hsum
    have hrest : layout G masked mw (l.drop (brk G masked mw l)) ≠ [] := by
      intro h
      rw [h] at hj
      simp at hj
    have hdne : l.drop (brk G masked mw l) ≠ [] := by
      intro h
      rw [h, layout_nil] at hrest
      exact hrest rfl
    have hlt : brk G masked mw l < l.length := by
      by_contra hcon
      exact hdne (List.drop_of_length_le (by omega))
    have hsum1 : brk G masked mw (l.drop (brk G masked mw l))
        ≤ ((layout G masked mw (l.drop (brk G masked mw l))).take (j + 1)).sum := by
      rw [layout_cons G masked mw _ hdne]
      simp
    have hstab := brk_stable G masked mw hm l l2 a hlf.mem (by omega) htake
    have hl2 : l2 ≠ [] := by
      intro h
      rw [h] at htake
      have h3 := congrArg List.length htake
      simp only [List.length_take, List.take_nil, List.length_nil] at h3
      have h4 : 0 < l.length := List.length_pos.2 hl
      omega
    rw [layout_cons G masked mw l2 hl2, hstab]
    simp only [List.take_succ_cons]
    congr 1
    apply ih (l.drop (brk G masked mw l)) (l2.drop (brk G masked mw l)) (a - brk G masked mw l)
      (hlf.drop _ hlt) (by omega) (by omega)
    have := congrArg (List.drop (brk G masked mw l)) htake
    simpa [List.drop_take] using this

variable {teO teN : TextEdit} {hdO tlO hdN tlN : List Nat}

/-- Renderings with the same lengths coincide where the offsets do. -/
theorem render_congr : ∀ (lens : List Nat) (s u : Nat),
    (∀ x, x ≤ lens.sum → posOf teO hdO tlO (s + x) = posOf teN hdN tlN (u + x)) →
    render teO hdO tlO s lens = render teN hdN tlN u lens := by
  intro lens
  induction lens with
  | nil => intro s u _; simp [render]
  | cons n ns ih =>
    intro s u h
    simp only [render]
    have h0 := h 0 (Nat.zero_le _)
    have h1 := h n (by simp)
    simp only [Nat.add_zero] at h0
    rw [h0, h1]
    congr 1
    apply ih
    intro x hx
    have := h (n + x) (by simp; omega)
    simpa [Nat.add_assoc] using this

theorem doc_length (hd tl : List Nat) : (hd ++ tl ++ [LF]).length = hd.length + tl.length + 1 := by
  simp [Nat.add_assoc]

theorem doc_endsLF (hd tl : List Nat) : EndsLF (hd ++ tl ++ [LF]) := ⟨hd ++ tl, rfl⟩

theorem getD_drop {α : Type} (L : List α) (i j : Nat) (d : α) :
    (L.drop i).getD j d = L.getD (i + j) d := by
  simp [List.getD_eq_getElem?_getD, List.getElem?_drop]

theorem layout_take_sum_le (l : List Nat) (j : Nat) :
    ((layout G masked mw l).take j).sum ≤ l.length := by
  have h1 := take_sum_le (layout G masked mw l) j
  have h2 := layout_sum G masked mw l.length l (Nat.le_refl _)
  omega

theorem layout_take_sum_lt (l : List Nat) (j : Nat) (hj : j < (layout G masked mw l).length) :
    ((layout G masked mw l).take j).sum < l.length := by
  have h1 := layout_take_sum_le G masked mw l (j + 1)
  have h2 := take_sum_succ (layout G masked mw l) j hj
  have h3 : (layout G masked mw l).getD j 0 ∈ layout G masked mw l := by
    rw [List.getD_eq_getElem _ _ hj]
    exact List.getElem_mem _
  have h4 := layout_pos G masked mw l.length l (Nat.le_refl _) _ h3
  omega

namespace EditRel

variable {begin_ stop a c : Nat}

/-- The old screen lines after a line that ends above `stop` are the new screen lines from
the same offset on. -/
theorem old_drop_eq (er : EditRel teO teN hdO tlO hdN tlN begin_ stop a c) (i1 u2 : Nat)
    (hstop : stop < posOf teO hdO tlO
      ((layout G masked mw (hdO ++ tlO ++ [LF])).take (i1 + 1)).sum)
    (hu2 : u2 ≤ hdN.length + tlN.length + 1)
    (hpos : posOf teO hdO tlO ((layout G masked mw (hdO ++ tlO ++ [LF])).take (i1 + 1)).sum
      = posOf teN hdN tlN u2) :
    (render teO hdO tlO 0 (layout G masked mw (hdO ++ tlO ++ [LF]))).drop (i1 + 1)
      = render teN hdN tlN u2 (layout G masked mw ((hdN ++ tlN ++ [LF]).drop u2)) := by
  have hS := layout_take_sum_le G masked mw (hdO ++ tlO ++ [LF]) (i1 + 1)
  rw [doc_length] at hS
  have hge := er.suf_gt _ hS hstop
  have hcO := er.c_leO
  have hcN := er.c_leN
  obtain ⟨e, he⟩ : ∃ e, ((layout G masked mw (hdO ++ tlO ++ [LF])).take (i1 + 1)).sum
      = hdO.length + tlO.length + 1 - c + e :=
    ⟨((layout G masked mw (hdO ++ tlO ++ [LF])).take (i1 + 1)).sum
      - (hdO.length + tlO.length + 1 - c), by omega⟩
  have hec : e ≤ c := by omega
  have hp := er.suf_pos e hec
  rw [← he, hpos] at hp
  have hu : u2 = hdN.length + tlN.length + 1 - c + e := er.repN.posOf_inj hu2 (by omega) hp
  have hdoc : (hdO ++ tlO ++ [LF]).drop (hdO.length + tlO.length + 1 - c + e)
      = (hdN ++ tlN ++ [LF]).drop u2 := by
    rw [hu, ← List.drop_drop, ← List.drop_drop, er.suf_doc]
  rw [render_drop, layout_drop, Nat.zero_add, he, hdoc]
  apply render_congr
  intro x hx
  rw [layout_sum G masked mw _ _ (Nat.le_refl _)] at hx
  simp only [List.length_drop, doc_length] at hx
  have := er.suf_pos (e + x) (by omega)
  rw [hu]
  simpa [Nat.add_assoc] using this

theorem incr_loop_bufend (te : TextEdit) (realw n i : Nat) :
    incr_loop G te realw stop n te.bufend i = ([], i) := by
  cases n <;> simp [incr_loop]

/-- The main loop of the incremental update, started at the codepoint `u`: the new screen
lines followed by the old screen lines that are kept are the screen lines of the new
document from `u` on. -/
theorem incr_loop_spec (er : EditRel teO teN hdO tlO hdN tlN begin_ stop a c) (realw : Nat)
    (hlines : teN.screen_lines
      = render teO hdO tlO 0 (layout G teN.masked (realw - 1) (hdO ++ tlO ++ [LF]))) :
    ∀ (n u i : Nat), u < hdN.length + tlN.length + 1 → hdN.length + tlN.length + 1 - u ≤ n →
      (incr_loop G teN realw stop n (posOf teN hdN tlN u) i).1
        ++ teN.screen_lines.drop
          (if (incr_loop G teN realw stop n (posOf teN hdN tlN u) i).2 < teN.screen_lines.length
            then (incr_loop G teN realw stop n (posOf teN hdN tlN u) i).2 + 1
            else (incr_loop G teN realw stop n (posOf teN hdN tlN u) i).2)
      = render teN hdN tlN u (layout G teN.masked (realw - 1) ((hdN ++ tlN ++ [LF]).drop u)) := by
  intro n
  induction n with
  | zero => intro u i hu hn; omega
  | succ n ih =>
    intro u i hu hn
    have hp := er.repN.posOf_lt_bufend hu
    have hgs := er.repN.getScreenLine_posOf G (realw - 1) u hu
    have hne : (hdN ++ tlN ++ [LF]).drop u ≠ [] := by
      intro hh
      have := congrArg List.length hh
      simp only [List.length_drop, doc_length, List.length_nil] at this
      omega
    have hm1 := brk_pos G teN.masked (realw - 1) ((hdN ++ tlN ++ [LF]).drop u)
    have hm2 := brk_le G teN.masked (realw - 1) _ hne
    simp only [List.length_drop, doc_length] at hm2
    have hlen : teN.screen_lines.length
        = (layout G teN.masked (realw - 1) (hdO ++ tlO ++ [LF])).length := by
      rw [hlines, render_length]
    obtain ⟨hs1, hs2, hs3, hs4⟩ := skipOld_spec stop (posOf teN hdN tlN u)
      (posOf teN hdN tlN (u + brk G teN.masked (realw - 1) ((hdN ++ tlN ++ [LF]).drop u)))
      (teN.screen_lines.drop i) i
    simp only [incr_loop, if_pos hp, hgs]
    rw [layout_cons G teN.masked (realw - 1) _ hne]
    simp only [render, List.drop_drop]
    generalize hmdef : brk G teN.masked (realw - 1) ((hdN ++ tlN ++ [LF]).drop u) = m
      at hm1 hm2 hs1 hs2 hs3 hs4 ⊢
    generalize hi1 : skipOld stop (posOf teN hdN tlN u) (posOf teN hdN tlN (u + m))
      (teN.screen_lines.drop i) i = i1 at hs1 hs2 hs3 hs4 ⊢
    by_cases hmatch : i1 < teN.screen_lines.length
        ∧ (⟨posOf teN hdN tlN u, posOf teN hdN tlN (u + m), m⟩ : ScreenLine)
          = teN.screen_lines.getD i1 default
    · rw [if_pos hmatch]
      simp only [if_pos hmatch.1, List.singleton_append, List.cons.injEq, true_and]
      obtain ⟨hlt, heq⟩ := hmatch
      have hcond := hs3 (by simp only [List.length_drop]; omega)
      rw [getD_drop, Nat.add_sub_cancel' hs1] at hcond
      rw [hlines, render_getD _ _ _ (by rw [← hlen]; exact hlt)] at heq
      rw [hlines, render_getD _ _ _ (by rw [← hlen]; exact hlt)] at hcond
      simp only [Nat.zero_add, ScreenLine.mk.injEq] at heq
      simp only [skipCond, Nat.zero_add, Bool.or_eq_false_iff, decide_eq_false_iff_not] at hcond
      rw [hlines]
      exact er.old_drop_eq G teN.masked (realw - 1) _ _ (by omega) (by omega) heq.2.1.symm
    · rw [if_neg hmatch]
      simp only [List.cons_append, List.cons.injEq, true_and]
      by_cases hend : u + m = hdN.length + tlN.length + 1
      · rw [hend, er.repN.posOf_end, incr_loop_bufend]
        have hnil : (hdN ++ tlN ++ [LF]).drop (hdN.length + tlN.length + 1) = [] :=
          List.drop_of_length_le (by rw [doc_length])
        rw [hnil, layout_nil]
        simp only [render, List.nil_append]
        apply List.drop_of_length_le
        have hall := hs4 (by
          intro j hj
          simp only [List.length_drop] at hj
          rw [getD_drop, hlines, render_getD _ _ _ (by rw [← hlen]; omega)]
          have := layout_take_sum_lt G teN.masked (realw - 1) (hdO ++ tlO ++ [LF]) (i + j + 1)
            (by rw [← hlen]; omega)
          rw [doc_length] at this
          have h2 := er.repO.posOf_lt this (Nat.le_refl _)
          rw [er.repO.posOf_end, er.bufend_eq] at h2
          simp only [skipCond, Nat.zero_add, hend, er.repN.posOf_end, h2, decide_True,
            Bool.or_true])
        simp only [List.length_drop] at hall
        split <;> omega
      · have := ih (u + m) i1 (by omega) (by omega)
        rw [this]

/-- Correctness of the incremental update: started on the screen lines of the document
before the edit, `updateScreenLines (begin, end)` leaves the screen lines of the document
after the edit. -/
theorem range_correct (er : EditRel teO teN hdO tlO hdN tlN begin_ stop a c) (hm : WidthMono G)
    (ar : Area) (harea : teN.area = some ar) (hw : 2 ≤ ar.maxx)
    (hlines : teN.screen_lines
      = render teO hdO tlO 0 (layout G teN.masked (ar.maxx - 1) (hdO ++ tlO ++ [LF]))) :
    (updateScreenLinesRange G teN begin_ stop).screen_lines
      = render teN hdN tlN 0 (layout G teN.masked (ar.maxx - 1) (hdN ++ tlN ++ [LF])) := by
  have hlen : teN.screen_lines.length
      = (layout G teN.masked (ar.maxx - 1) (hdO ++ tlO ++ [LF])).length := by
    rw [hlines, render_length]
  have hLOne := layout_ne_nil G teN.masked (ar.maxx - 1) (hdO ++ tlO ++ [LF]) (by simp)
  have hLOpos : 0 < (layout G teN.masked (ar.maxx - 1) (hdO ++ tlO ++ [LF])).length :=
    List.length_pos.2 hLOne
  obtain ⟨hf1, hf2⟩ := lower_bound_spec teN.screen_lines begin_
  unfold updateScreenLinesRange
  rw [harea]
  simp only
  rw [if_neg (by omega)]
  simp only
  generalize hfdef : lower_bound teN.screen_lines begin_ = f at hf1 hf2 ⊢
  have haN := er.a_leN
  have hbuf : hdN.length + tlN.length + 1 ≤ teN.bufend := by
    have := er.repN.posOf_add_le (show 0 ≤ hdN.length + tlN.length + 1 by omega) (Nat.le_refl _)
    rw [er.repN.posOf_end] at this
    omega
  by_cases hf0 : f = 0
  · subst hf0
    simp only [ne_eq, not_true_eq_false, if_false, if_true, List.take_zero, List.nil_append]
    rw [er.repN.getTextStart_eq]
    have := er.incr_loop_spec G ar.maxx hlines (teN.bufend + 1) 0 0 (by omega) (by omega)
    simpa using this
  · have hb : f - 1 < (layout G teN.masked (ar.maxx - 1) (hdO ++ tlO ++ [LF])).length := by omega
    have hline := hf2 (f - 1) (by omega)
    rw [hlines, render_getD _ _ _ hb] at hline
    simp only [Nat.zero_add, show f - 1 + 1 = f by omega] at hline
    have hSf := er.pre_lt _ (by
      have := layout_take_sum_le G teN.masked (ar.maxx - 1) (hdO ++ tlO ++ [LF]) f
      rwa [doc_length] at this) hline
    have hSb : ((layout G teN.masked (ar.maxx - 1) (hdO ++ tlO ++ [LF])).take (f - 1)).sum < a := by
      have := take_sum_succ (layout G teN.masked (ar.maxx - 1) (hdO ++ tlO ++ [LF])) (f - 1) hb
      rw [show f - 1 + 1 = f by omega] at this
      omega
    have htake := layout_take_stable G teN.masked (ar.maxx - 1) hm (f - 1) (hdO ++ tlO ++ [LF])
      (hdN ++ tlN ++ [LF]) a (doc_endsLF hdO tlO) hb (by
        rw [show f - 1 + 1 = f by omega]; exact hSf) er.pre_doc
    have hp : (if (if f ≠ 0 then f - 1 else f) = 0 then getTextStart teN
        else (teN.screen_lines.getD (if f ≠ 0 then f - 1 else f) default).start)
        = posOf teN hdN tlN
          ((layout G teN.masked (ar.maxx - 1) (hdO ++ tlO ++ [LF])).take (f - 1)).sum := by
      rw [if_pos hf0]
      by_cases hb0 : f - 1 = 0
      · rw [if_pos hb0, hb0, er.repN.getTextStart_eq]
        simp
      · rw [if_neg hb0, hlines, render_getD _ _ _ hb]
        simp only [Nat.zero_add]
        exact er.pre_pos _ hSb
    rw [hp]
    simp only [if_pos hf0]
    have hloop := er.incr_loop_spec G ar.maxx hlines (teN.bufend + 1)
      ((layout G teN.masked (ar.maxx - 1) (hdO ++ tlO ++ [LF])).take (f - 1)).sum (f - 1)
      (by omega) (by omega)
    rw [List.append_assoc, hloop]
    have hpre : teN.screen_lines.take (f - 1)
        = render teN hdN tlN 0
          ((layout G teN.masked (ar.maxx - 1) (hdN ++ tlN ++ [LF])).take (f - 1)) := by
      rw [hlines, render_take, htake]
      apply render_congr
      intro x hx
      simpa using er.pre_pos x (by omega)
    rw [hpre]
    have hsplit := List.take_append_drop (f - 1)
      (layout G teN.masked (ar.maxx - 1) (hdN ++ tlN ++ [LF]))
    conv_rhs => rw [← hsplit]
    rw [render_append, layout_drop, htake, Nat.zero_add]

end EditRel

end

section

/-! ### Moving bytes -/

theorem Seg_memmove_dst {buf : Nat → Nat} {src : Nat} {l : List Nat} (dst n : Nat)
    (hs : Seg buf src l) (hn : l.length ≤ n) : Seg (g_memmove buf dst src n) dst l := by
  intro i hi
  unfold g_memmove
  rw [if_pos ⟨by omega, by omega⟩, Nat.add_sub_cancel_left]
  exact hs i hi

theorem Seg_memmove_other {buf : Nat → Nat} {lo : Nat} {l : List Nat} (dst src n : Nat)
    (hs : Seg buf lo l) (hd : lo + l.length ≤ dst ∨ dst + n ≤ lo) :
    Seg (g_memmove buf dst src n) lo l := by
  intro i hi
  unfold g_memmove
  rw [if_neg (by omega)]
  exact hs i hi

theorem Seg_poke_other {buf : Nat → Nat} {lo : Nat} {l : List Nat} (p b : Nat)
    (hs : Seg buf lo l) (hd : p < lo ∨ lo + l.length ≤ p) : Seg (poke buf p b) lo l := by
  intro i hi
  unfold poke
  rw [if_neg (by omega)]
  exact hs i hi

theorem Seg_take {buf : Nat → Nat} {lo : Nat} {l : List Nat} (n : Nat) (hs : Seg buf lo l) :
    Seg buf lo (l.take n) := by
  have := (Seg_append buf lo (l.take n) (l.drop n)).1 (by rwa [List.take_append_drop])
  exact this.1

theorem encodeUtf8_take_drop (l : List Nat) (k : Nat) :
    encodeUtf8 l = encodeUtf8 (l.take k) ++ encodeUtf8 (l.drop k) := by
  rw [← encodeUtf8_append, List.take_append_drop]

theorem valid_take {l : List Nat} (h : ∀ c, c ∈ l → validCp c) (k : Nat) :
    ∀ c, c ∈ l.take k → validCp c := fun c hc => h c (List.mem_of_mem_take hc)

theorem valid_drop {l : List Nat} (h : ∀ c, c ∈ l → validCp c) (k : Nat) :
    ∀ c, c ∈ l.drop k → validCp c := fun c hc => h c (List.mem_of_mem_drop hc)

theorem valid_append {l l2 : List Nat} (h : ∀ c, c ∈ l → validCp c) (h2 : ∀ c, c ∈ l2 → validCp c) :
    ∀ c, c ∈ l ++ l2 → validCp c := by
  intro c hc
  rcases List.mem_append.1 hc with h1 | h1
  · exact h c h1
  · exact h2 c h1

namespace Rep

variable {te : TextEdit} {hd tl : List Nat}

/-- The fields that `moveGapToCursor` leaves alone. -/
theorem moveGap_frame (te : TextEdit) :
    (moveGapToCursor te).bufend = te.bufend
    ∧ (moveGapToCursor te).text_length = te.text_length
    ∧ (moveGapToCursor te).current_pos = te.current_pos
    ∧ (moveGapToCursor te).screen_lines = te.screen_lines
    ∧ (moveGapToCursor te).screen_lines_dirty = te.screen_lines_dirty
    ∧ (moveGapToCursor te).area = te.area
    ∧ (moveGapToCursor te).masked = te.masked
    ∧ (moveGapToCursor te).flags = te.flags
    ∧ (moveGapToCursor te).editable = te.editable
    ∧ (moveGapToCursor te).text_changes = te.text_changes
    ∧ (moveGapToCursor te).current_sc_line = te.current_sc_line
    ∧ (moveGapToCursor te).current_sc_linepos = te.current_sc_linepos
    ∧ (moveGapToCursor te).view_top = te.view_top
    ∧ (moveGapToCursor te).single_line_mode = te.single_line_mode
    ∧ (moveGapToCursor te).accept_tabs = te.accept_tabs := by
  unfold moveGapToCursor
  split_ifs <;> simp

/-- `moveGapToCursor` moves the gap to the cursor: the head becomes the codepoints before the
cursor, the tail the codepoints after it. -/
theorem moveGap (h : Rep te hd tl) (c : Nat) (hc : c ≤ hd.length + tl.length)
    (hpt : te.point = posOf te hd tl c ∨ (c = hd.length ∧ te.point = te.gapstart)) :
    Rep (moveGapToCursor te) ((hd ++ tl).take c) ((hd ++ tl).drop c)
    ∧ (moveGapToCursor te).point = (moveGapToCursor te).gapstart
    ∧ (moveGapToCursor te).gapend - (moveGapToCursor te).gapstart = te.gapend - te.gapstart
    ∧ (moveGapToCursor te).gapstart = (encodeUtf8 ((hd ++ tl).take c)).length := by
  have hgap := h.gap
  have hgs := h.gs
  by_cases hch : c = hd.length
  · -- the gap is at the cursor already
    have hpt2 : te.point = te.gapstart ∨ te.point = te.gapend := by
      rcases hpt with h1 | h1
      · right; rw [h1, hch, h.posOf_gap]
      · left; exact h1.2
    have htake : (hd ++ tl).take c = hd := by rw [hch]; simp
    have hdrop : (hd ++ tl).drop c = tl := by rw [hch]; simp
    rw [htake, hdrop]
    unfold moveGapToCursor
    by_cases hp : te.point = te.gapstart
    · rw [if_pos hp]
      exact ⟨h, hp, rfl, hgs⟩
    · have hp2 : te.point = te.gapend := by tauto
      rw [if_neg hp, if_pos hp2]
      exact ⟨⟨h.head, h.gs, h.gap, h.tail, h.be, h.vhd, h.vtl⟩, rfl, rfl, hgs⟩
  · have hpt1 : te.point = posOf te hd tl c := by
      rcases hpt with h1 | h1
      · exact h1
      · exact absurd h1.1 hch
    by_cases hlt : c < hd.length
    · -- the cursor is in the head: move the gap towards the left
      have hp : te.point = off hd c := by rw [hpt1, posOf_head c hlt]
      have hplt : off hd c < te.gapstart := by
        rw [hgs, ← off_length]; exact off_lt_of_lt hd hlt (Nat.le_refl _)
      have htake : (hd ++ tl).take c = hd.take c := List.take_append_of_le_length (by omega)
      have hdrop : (hd ++ tl).drop c = hd.drop c ++ tl := List.drop_append_of_le_length (by omega)
      have henc := encodeUtf8_take_drop hd c
      have hlen : (encodeUtf8 hd).length = off hd c + (encodeUtf8 (hd.drop c)).length := by
        rw [henc, List.length_append]; rfl
      have hhead := h.head
      rw [henc, Seg_append] at hhead
      rw [htake, hdrop]
      unfold moveGapToCursor
      rw [if_neg (by omega), if_neg (by omega), if_pos (by omega)]
      refine ⟨⟨?_, ?_, ?_, ?_, ?_, valid_take h.vhd c, valid_append (valid_drop h.vhd c) h.vtl⟩,
        ?_, ?_, ?_⟩
      · exact Seg_memmove_other _ _ _ hhead.1 (Or.inl (by
          simp only [Nat.zero_add]
          have : (encodeUtf8 (hd.take c)).length = off hd c := rfl
          omega))
      · simp only [hp]; rfl
      · simp only [hp]; omega
      · simp only [hp]
        rw [List.append_assoc, encodeUtf8_append, Seg_append]
        constructor
        · have := Seg_memmove_dst (off hd c + (te.gapend - te.gapstart)) (te.gapstart - off hd c)
            (by simpa using hhead.2 : Seg te.buffer (off hd c) (encodeUtf8 (hd.drop c))) (by omega)
          have heq : te.gapend - (te.gapstart - off hd c) = off hd c + (te.gapend - te.gapstart) := by
            omega
          rw [heq]
          exact this
        · refine Seg_memmove_other _ _ _ ?_ (Or.inr (by omega))
          have heq : te.gapend - (te.gapstart - off hd c) + (encodeUtf8 (hd.drop c)).length
              = te.gapend := by omega
          rw [heq]
          exact h.tail
      · simp only [hp]
        rw [List.append_assoc, encodeUtf8_append, List.length_append]
        have := h.be
        omega
      · simp only [hp]
      · simp only [hp]; omega
      · simp only [hp]; rfl
    · -- the cursor is in the tail: move the gap towards the right
      obtain ⟨j, hj⟩ : ∃ j, c = hd.length + j := ⟨c - hd.length, by omega⟩
      have hj1 : 1 ≤ j := by omega
      have hj2 : j ≤ tl.length := by omega
      have hoff : off (tl ++ [LF]) j = (encodeUtf8 (tl.take j)).length := by
        unfold off
        rw [List.take_append_of_le_length hj2]
      have hp : te.point = te.gapend + (encodeUtf8 (tl.take j)).length := by
        rw [hpt1, hj, posOf_tail, hoff]
      have hpos : 0 < (encodeUtf8 (tl.take j)).length := by
        have := encodeUtf8_length_ge (tl.take j)
        simp only [List.length_take] at this
        omega
      have htake : (hd ++ tl).take c = hd ++ tl.take j := by
        rw [hj, List.take_append]
      have hdrop : (hd ++ tl).drop c = tl.drop j := by
        rw [hj, List.drop_append]
      have henc : encodeUtf8 (tl ++ [LF])
          = encodeUtf8 (tl.take j) ++ encodeUtf8 (tl.drop j ++ [LF]) := by
        rw [← encodeUtf8_append, ← List.append_assoc, List.take_append_drop]
      have htail := h.tail
      rw [henc, Seg_append] at htail
      rw [htake, hdrop]
      unfold moveGapToCursor
      rw [if_neg (by omega), if_neg (by omega), if_neg (by omega)]
      refine ⟨⟨?_, ?_, ?_, ?_, ?_, valid_append h.vhd (valid_take h.vtl j), valid_drop h.vtl j⟩,
        ?_, ?_, ?_⟩
      · simp only [hp, Nat.add_sub_cancel_left]
        rw [encodeUtf8_append, Seg_append]
        constructor
        · exact Seg_memmove_other _ _ _ h.head (Or.inl (by omega))
        · rw [Nat.zero_add, ← hgs]
          exact Seg_memmove_dst _ _ htail.1 (Nat.le_refl _)
      · simp only [hp, Nat.add_sub_cancel_left]
        rw [encodeUtf8_append, List.length_append]
        omega
      · simp only [hp, Nat.add_sub_cancel_left]; omega
      · simp only [hp, Nat.add_sub_cancel_left]
        exact Seg_memmove_other _ _ _ htail.2 (Or.inr (by omega))
      · simp only [hp]
        have := h.be
        rw [henc, List.length_append] at this
        omega
      · simp only [hp]
      · simp only [hp, Nat.add_sub_cancel_left]; omega
      · simp only [hp, Nat.add_sub_cancel_left]
        rw [encodeUtf8_append, List.length_append]
        omega

/-- `expandGap` keeps the document when the gap has to grow. -/
theorem expandGap_rep (h : Rep te hd tl) (size : Nat) (hsz : getGapSize te < size)
    (hpt : te.point = te.gapstart) :
    Rep (expandGap te size) hd tl
    ∧ (expandGap te size).point = (expandGap te size).gapstart
    ∧ (expandGap te size).gapstart = te.gapstart
    ∧ size ≤ getGapSize (expandGap te size) := by
  have hgap := h.gap
  have hbe := h.be
  unfold expandGap
  rw [if_neg (by omega)]
  refine ⟨⟨?_, h.gs, ?_, ?_, ?_, h.vhd, h.vtl⟩, ?_, rfl, ?_⟩
  · exact Seg_memmove_other _ _ _ h.head (Or.inl (by
      have := h.gs
      simp only [Nat.zero_add]
      omega))
  · simp only; omega
  · exact Seg_memmove_dst _ _ h.tail (by omega)
  · simp only; omega
  · simp only [hpt]
    rw [if_neg (by simp; omega)]
  · simp only [getGapSize]
    omega

theorem expandGap_frame (te : TextEdit) (size : Nat) :
    (expandGap te size).text_length = te.text_length
    ∧ (expandGap te size).current_pos = te.current_pos
    ∧ (expandGap te size).screen_lines = te.screen_lines
    ∧ (expandGap te size).screen_lines_dirty = te.screen_lines_dirty
    ∧ (expandGap te size).area = te.area
    ∧ (expandGap te size).masked = te.masked
    ∧ (expandGap te size).flags = te.flags
    ∧ (expandGap te size).editable = te.editable
    ∧ (expandGap te size).text_changes = te.text_changes
    ∧ (expandGap te size).current_sc_line = te.current_sc_line
    ∧ (expandGap te size).current_sc_linepos = te.current_sc_linepos
    ∧ (expandGap te size).view_top = te.view_top
    ∧ (expandGap te size).single_line_mode = te.single_line_mode
    ∧ (expandGap te size).accept_tabs = te.accept_tabs := by
  unfold expandGap
  split_ifs <;> simp

end Rep

/-- The copy loop of `insertTextAtCursor` stores the bytes of the text from the old
`gapstart` on. -/
theorem copy_loop_spec (text : List Nat) : ∀ (n k : Nat) (buf : Nat → Nat) (gs : Nat),
    copy_loop text n k buf gs
      = (fun i => if gs ≤ i ∧ i < gs + n then text.getD (k + (i - gs)) 0 else buf i, gs + n) := by
  intro n
  induction n with
  | zero =>
    intro k buf gs
    simp only [copy_loop, Nat.add_zero, Prod.mk.injEq, and_true]
    funext i
    rw [if_neg (by omega)]
  | succ n ih =>
    intro k buf gs
    simp only [copy_loop, ih, Prod.mk.injEq]
    refine ⟨?_, by omega⟩
    funext i
    unfold poke
    by_cases h1 : gs + 1 ≤ i ∧ i < gs + 1 + n
    · rw [if_pos h1, if_pos (by omega)]
      congr 1
      omega
    · rw [if_neg h1]
      by_cases h2 : i = gs
      · rw [if_pos h2, if_pos (by omega), h2]
        simp
      · rw [if_neg h2, if_neg (by omega)]

theorem Seg_copy (text : List Nat) (buf : Nat → Nat) (gs : Nat) :
    Seg (copy_loop text text.length 0 buf gs).1 gs text := by
  rw [copy_loop_spec]
  intro i hi
  simp only
  rw [if_pos ⟨by omega, by omega⟩]
  congr 1
  omega

theorem Seg_copy_other (text : List Nat) (buf : Nat → Nat) (gs lo : Nat) (l : List Nat)
    (hs : Seg buf lo l) (hd : lo + l.length ≤ gs ∨ gs + text.length ≤ lo) :
    Seg (copy_loop text text.length 0 buf gs).1 lo l := by
  rw [copy_loop_spec]
  intro i hi
  simp only
  rw [if_neg (by omega)]
  exact hs i hi

/-! ### Counting the codepoints of a text -/

theorem Seg_list (l : List Nat) : Seg (fun i => l.getD i 0) 0 l := by
  intro i _
  simp

theorem g_utf8_strlen_loop_enc (cps : List Nat) (hv : ∀ c, c ∈ cps → validCp c) :
    ∀ (fuel k len : Nat), k ≤ cps.length → cps.length - k ≤ fuel →
      g_utf8_strlen_loop (encodeUtf8 cps) (encodeUtf8 cps).length fuel (off cps k) len
        = ((encodeUtf8 cps).length, len + (cps.length - k)) := by
  intro fuel
  induction fuel with
  | zero =>
    intro k len hk hf
    have : k = cps.length := by omega
    subst this
    simp [g_utf8_strlen_loop, off_length]
  | succ fuel ih =>
    intro k len hk hf
    by_cases hend : k = cps.length
    · subst hend
      simp [g_utf8_strlen_loop, off_length]
    · have hlt : k < cps.length := by omega
      have hsh := utf8enc_shape (fun i => (encodeUtf8 cps).getD i 0) _ _ (getD_valid hv hlt)
        (Seg_char _ 0 cps k hlt (Seg_list _))
      simp only [Nat.zero_add] at hsh
      have hofflt := off_lt_of_lt cps hlt (Nat.le_refl _)
      rw [off_length] at hofflt
      simp only [g_utf8_strlen_loop]
      rw [if_pos (by
        simp only [Bool.and_eq_true, decide_eq_true_eq, bne_iff_ne, ne_eq]
        exact ⟨hofflt, hsh.2.2.2.1⟩)]
      rw [hsh.2.2.1, ← off_succ cps k hlt, ih (k + 1) (len + 1) (by omega) (by omega)]
      congr 1
      omega

/-- `g_utf8_strlen` counts the codepoints of an encoded text. -/
theorem g_utf8_strlen_enc (cps : List Nat) (hv : ∀ c, c ∈ cps → validCp c) :
    g_utf8_strlen (encodeUtf8 cps) (encodeUtf8 cps).length = cps.length := by
  unfold g_utf8_strlen
  cases cps with
  | nil => simp [encodeUtf8]
  | cons c cs =>
    have hlt : 0 < (c :: cs).length := by simp
    have hsh := utf8enc_shape (fun i => (encodeUtf8 (c :: cs)).getD i 0) _ _ (getD_valid hv hlt)
      (Seg_char _ 0 (c :: cs) 0 hlt (Seg_list _))
    simp only [Nat.zero_add, off_zero] at hsh
    have hpos : 0 < (encodeUtf8 (c :: cs)).length := by
      have := encodeUtf8_length_ge (c :: cs)
      simp only [List.length_cons] at this
      omega
    rw [if_neg (by
      simp only [Bool.or_eq_true, decide_eq_true_eq, not_or]
      exact ⟨by omega, hsh.2.2.2.1⟩)]
    have h1 : g_utf8_skip ((encodeUtf8 (c :: cs)).getD 0 0) = off (c :: cs) 1 := by
      rw [hsh.2.2.1, off_succ _ 0 hlt, off_zero]
      simp
    rw [h1, g_utf8_strlen_loop_enc (c :: cs) hv _ 1 0 (by simp) (by
      have := encodeUtf8_length_ge (c :: cs)
      omega)]
    simp

end

section

/-! ### Inserting into the store -/

theorem insertTextAtCursor_eq (G : Glib) (te : TextEdit) (t : List Nat) (n : Nat) :
    insertTextAtCursor G te t n
      = { updateScreenCursor G
            (if n > getGapSize (moveGapToCursor (assertUpdatedScreenLines G te)) then
              updateScreenLines G (insertStore (assertUpdatedScreenLines G te) t n)
            else
              updateScreenLinesRange G (insertStore (assertUpdatedScreenLines G te) t n)
                (Nat.min (assertUpdatedScreenLines G te).gapstart
                  (moveGapToCursor (assertUpdatedScreenLines G te)).gapstart)
                (Nat.max (assertUpdatedScreenLines G te).gapend
                  (insertStore (assertUpdatedScreenLines G te) t n).gapend)) with
          text_changes := (updateScreenCursor G
            (if n > getGapSize (moveGapToCursor (assertUpdatedScreenLines G te)) then
              updateScreenLines G (insertStore (assertUpdatedScreenLines G te) t n)
            else
              updateScreenLinesRange G (insertStore (assertUpdatedScreenLines G te) t n)
                (Nat.min (assertUpdatedScreenLines G te).gapstart
                  (moveGapToCursor (assertUpdatedScreenLines G te)).gapstart)
                (Nat.max (assertUpdatedScreenLines G te).gapend
                  (insertStore (assertUpdatedScreenLines G te) t n).gapend))).text_changes + 1 } := by
  unfold insertTextAtCursor insertStore
  simp only [gt_iff_lt, decide_eq_true_eq]

namespace Rep

variable {te : TextEdit} {hd tl : List Nat}

theorem frame_moveGap (te : TextEdit) : Frame te (moveGapToCursor te) := by
  have := moveGap_frame te
  constructor <;> simp [this]

theorem frame_expandGap (te : TextEdit) (n : Nat) : Frame te (expandGap te n) := by
  have := expandGap_frame te n
  constructor <;> simp [this]

theorem frame_insertStore (te : TextEdit) (t : List Nat) (n : Nat) :
    Frame te (insertStore te t n) := by
  have h1 := moveGap_frame te
  have h2 := expandGap_frame (moveGapToCursor te) n
  unfold insertStore
  constructor <;> (simp only; split <;> simp [h1, h2])

/-- The store after `insertTextAtCursor`: the codepoints of the text stand before the gap,
between the codepoints before the cursor and those after it. -/
theorem insertStore_rep (h : Rep te hd tl) (c : Nat) (hc : c ≤ hd.length + tl.length)
    (hpt : te.point = posOf te hd tl c ∨ (c = hd.length ∧ te.point = te.gapstart))
    (cps : List Nat) (hv : ∀ x, x ∈ cps → validCp x) :
    Rep (insertStore te (encodeUtf8 cps) (encodeUtf8 cps).length)
        ((hd ++ tl).take c ++ cps) ((hd ++ tl).drop c)
    ∧ (insertStore te (encodeUtf8 cps) (encodeUtf8 cps).length).point
        = (insertStore te (encodeUtf8 cps) (encodeUtf8 cps).length).gapstart
    ∧ (insertStore te (encodeUtf8 cps) (encodeUtf8 cps).length).text_length
        = te.text_length + cps.length
    ∧ (insertStore te (encodeUtf8 cps) (encodeUtf8 cps).length).current_pos
        = te.current_pos + cps.length
    ∧ (¬ (encodeUtf8 cps).length > getGapSize (moveGapToCursor te) →
        (insertStore te (encodeUtf8 cps) (encodeUtf8 cps).length).bufend = te.bufend) := by
  obtain ⟨hrep, hpoint, hsize, hgs⟩ := h.moveGap c hc hpt
  have hfr := moveGap_frame te
  -- the state after the gap has been made large enough
  have key : ∀ (te3 : TextEdit), Rep te3 ((hd ++ tl).take c) ((hd ++ tl).drop c) →
      te3.point = te3.gapstart → (encodeUtf8 cps).length ≤ getGapSize te3 →
      Rep { te3 with
          text_length := te3.text_length
            + g_utf8_strlen (encodeUtf8 cps) (encodeUtf8 cps).length
          current_pos := te3.current_pos
            + g_utf8_strlen (encodeUtf8 cps) (encodeUtf8 cps).length
          buffer := (copy_loop (encodeUtf8 cps) (encodeUtf8 cps).length 0 te3.buffer te3.gapstart).1
          gapstart := (copy_loop (encodeUtf8 cps) (encodeUtf8 cps).length 0 te3.buffer te3.gapstart).2
          point := (copy_loop (encodeUtf8 cps) (encodeUtf8 cps).length 0 te3.buffer te3.gapstart).2 }
        ((hd ++ tl).take c ++ cps) ((hd ++ tl).drop c) := by
    intro te3 h3 _ hroom
    have hg3 := h3.gap
    simp only [getGapSize] at hroom
    have hc2 : (copy_loop (encodeUtf8 cps) (encodeUtf8 cps).length 0 te3.buffer te3.gapstart).2
        = te3.gapstart + (encodeUtf8 cps).length := by rw [copy_loop_spec]
    refine ⟨?_, ?_, ?_, ?_, ?_, valid_append h3.vhd hv, h3.vtl⟩
    · simp only
      rw [encodeUtf8_append, Seg_append]
      constructor
      · exact Seg_copy_other _ _ _ _ _ h3.head (Or.inl (by
          have := h3.gs
          simp only [Nat.zero_add]; omega))
      · rw [Nat.zero_add, ← h3.gs]
        exact Seg_copy _ _ _
    · simp only [hc2]
      rw [encodeUtf8_append, List.length_append, h3.gs]
    · simp only [hc2]; omega
    · simp only
      exact Seg_copy_other _ _ _ _ _ h3.tail (Or.inr (by omega))
    · exact h3.be
  unfold insertStore
  simp only [g_utf8_strlen_enc cps hv]
  simp only [g_utf8_strlen_enc cps hv] at key
  by_cases hex : (encodeUtf8 cps).length > getGapSize (moveGapToCursor te)
  · obtain ⟨hrep2, hpoint2, _, hroom⟩ :=
      hrep.expandGap_rep (encodeUtf8 cps).length hex hpoint
    have hfr2 := expandGap_frame (moveGapToCursor te) (encodeUtf8 cps).length
    simp only [if_pos hex]
    refine ⟨key _ hrep2 hpoint2 hroom, trivial, ?_, ?_, fun hn => absurd hex hn⟩
    · simp [hfr2, hfr]
    · simp [hfr2, hfr]
  · simp only [if_neg hex]
    refine ⟨key _ hrep hpoint (by omega), trivial, ?_, ?_, fun _ => ?_⟩
    · simp [hfr]
    · simp [hfr]
    · simp [hfr]

theorem off_add_drop (t : List Nat) (j : Nat) :
    off t j + (encodeUtf8 (t.drop j)).length = (encodeUtf8 t).length := by
  have := congrArg List.length (encodeUtf8_take_drop t j)
  rw [List.length_append] at this
  unfold off
  omega

/-- In the tail, the offset of a codepoint is determined by the bytes that follow it. -/
theorem posOf_add_rest (h : Rep te hd tl) (k : Nat) (hk : hd.length ≤ k) :
    posOf te hd tl k + (encodeUtf8 ((hd ++ tl ++ [LF]).drop k)).length = te.bufend := by
  obtain ⟨j, rfl⟩ : ∃ j, k = hd.length + j := ⟨k - hd.length, by omega⟩
  rw [posOf_tail, List.append_assoc, List.drop_append, h.be]
  have := off_add_drop (tl ++ [LF]) j
  omega

theorem enc_drop_mono (t : List Nat) {j k : Nat} (hjk : j ≤ k) :
    (encodeUtf8 (t.drop k)).length ≤ (encodeUtf8 (t.drop j)).length := by
  have h1 := off_add_drop t j
  have h2 := off_add_drop t k
  have h3 := off_le_of_le t hjk
  omega

end Rep

theorem drop_snoc (D : List Nat) (x hi : Nat) (h : hi ≤ D.length) :
    (D ++ [x]).drop hi = D.drop hi ++ [x] := List.drop_append_of_le_length h

theorem take_snoc (D : List Nat) (x a : Nat) (h : a ≤ D.length) :
    (D ++ [x]).take a = D.take a := List.take_append_of_le_length h

theorem replace_take (D ins : List Nat) (x lo hi a : Nat) (ha : a ≤ lo) (hlo : lo ≤ D.length) :
    (D.take lo ++ ins ++ D.drop hi ++ [x]).take a = D.take a := by
  rw [List.append_assoc, List.append_assoc,
    List.take_append_of_le_length (by rw [List.length_take]; omega),
    List.take_take, Nat.min_eq_left ha]

theorem replace_drop (D ins : List Nat) (x lo hi m : Nat) (hlo : lo ≤ D.length)
    (hhi : hi ≤ D.length) :
    (D.take lo ++ ins ++ D.drop hi ++ [x]).drop (lo + ins.length + m)
      = (D ++ [x]).drop (hi + m) := by
  have hl : (D.take lo ++ ins).length = lo + ins.length := by
    rw [List.length_append, List.length_take]; omega
  rw [List.append_assoc (D.take lo ++ ins), ← hl, List.drop_append, ← drop_snoc D x hi hhi,
    List.drop_drop]

theorem natMax_eq_max (a b : Nat) : Nat.max a b = max a b := rfl

theorem natMin_eq_min (a b : Nat) : Nat.min a b = min a b := rfl

/-- An edit that replaces the codepoints from index `lo` to index `hi` by `ins`, with the gap
left after the inserted codepoints, satisfies the relation on which the incremental update
relies. -/
theorem EditRel.of_replace {teO teN : TextEdit} {hd tl : List Nat} (ins : List Nat) (lo hi : Nat)
    (hO : Rep teO hd tl)
    (hN : Rep teN ((hd ++ tl).take lo ++ ins) ((hd ++ tl).drop hi))
    (hlo : lo ≤ hi) (hhi : hi ≤ hd.length + tl.length) (hbuf : teO.bufend = teN.bufend) :
    EditRel teO teN hd tl ((hd ++ tl).take lo ++ ins) ((hd ++ tl).drop hi)
      (Nat.min teO.gapstart (encodeUtf8 ((hd ++ tl).take lo)).length)
      (Nat.max teO.gapend teN.gapend)
      (Nat.min hd.length lo) (hd.length + tl.length + 1 - Nat.max hd.length hi) := by
  simp only [natMax_eq_max, natMin_eq_min]
  have hDlen : (hd ++ tl).length = hd.length + tl.length := by simp
  have hlenN1 : ((hd ++ tl).take lo ++ ins).length = lo + ins.length := by
    simp only [List.length_append, List.length_take]
    omega
  have hlenN2 : ((hd ++ tl).drop hi).length = hd.length + tl.length - hi := by
    simp only [List.length_drop, List.length_append]
  have hsufdoc : ∀ e, (hd ++ tl ++ [LF]).drop (max hd.length hi + e)
      = ((hd ++ tl).take lo ++ ins ++ (hd ++ tl).drop hi ++ [LF]).drop
          (lo + ins.length + (max hd.length hi - hi) + e) := by
    intro e
    rw [Nat.add_assoc (lo + ins.length), replace_drop (hd ++ tl) ins LF lo hi _ (by omega) (by omega)]
    congr 1
    omega
  have hidxO : hd.length + tl.length + 1 - (hd.length + tl.length + 1 - max hd.length hi)
      = max hd.length hi := by omega
  have hidxN : ((hd ++ tl).take lo ++ ins).length + ((hd ++ tl).drop hi).length + 1
      - (hd.length + tl.length + 1 - max hd.length hi)
      = lo + ins.length + (max hd.length hi - hi) := by
    rw [hlenN1, hlenN2]; omega
  refine ⟨hO, hN, hbuf, ?_, ?_, ?_, ?_, by omega, ?_, ?_, ?_, ?_⟩
  · rw [hlenN1]; omega
  · -- the common beginning
    rw [take_snoc _ _ _ (by omega), replace_take _ _ _ _ _ _ (by omega) (by omega)]
  · intro k hk
    have hk1 : k < hd.length := by omega
    have hk2 : k < lo := by omega
    rw [Rep.posOf_head k hk1, Rep.posOf_head k (by rw [hlenN1]; omega)]
    rw [off_append_left _ _ _ (by rw [List.length_take, hDlen]; omega)]
    unfold off
    rw [List.take_take, Nat.min_eq_left (by omega), List.take_append_of_le_length (by omega)]
  · intro k hk hlt
    have hgap := hO.gap
    have hk1 : k < hd.length := by
      by_contra hcon
      have := hO.posOf_ge_gapend (show hd.length ≤ k by omega)
      omega
    by_cases hlo2 : lo < hd.length
    · have h2 : (encodeUtf8 ((hd ++ tl).take lo)).length = off hd lo := by
        unfold off
        rw [List.take_append_of_le_length (by omega)]
      rw [Rep.posOf_head k hk1] at hlt
      have hklo : k < lo := by
        by_contra hcon
        have := off_le_of_le hd (show lo ≤ k by omega)
        omega
      omega
    · omega
  · rw [hlenN1, hlenN2]; omega
  · rw [hidxO, hidxN]
    simpa using hsufdoc 0
  · intro e he
    rw [hidxO, hidxN]
    have h1 := hO.posOf_add_rest (max hd.length hi + e) (by omega)
    have h2 := hN.posOf_add_rest (lo + ins.length + (max hd.length hi - hi) + e) (by
      rw [hlenN1]; omega)
    rw [hsufdoc e] at h1
    omega
  · intro k hk hlt
    rw [hidxO]
    have hgap := hO.gap
    have hk1 : hd.length ≤ k := by
      by_contra hcon
      have := hO.posOf_lt_gapstart (show k < hd.length by omega)
      omega
    by_contra hcon
    have hkhi : k < hi := by omega
    have h1 := hO.posOf_add_rest k hk1
    have h2 := hN.be
    rw [← drop_snoc _ _ _ (by omega)] at h2
    have h4 := Rep.enc_drop_mono (hd ++ tl ++ [LF]) (show k ≤ hi by omega)
    omega

end

section

/-! ### The invariant of a document -/

namespace SameStore

variable {te te2 : TextEdit} {hd tl : List Nat}

theorem refl (te : TextEdit) : SameStore te te := ⟨rfl, rfl, rfl, rfl⟩

theorem rep (s : SameStore te te2) (h : Rep te hd tl) : Rep te2 hd tl := by
  refine ⟨?_, ?_, ?_, ?_, ?_, h.vhd, h.vtl⟩
  · rw [s.buffer]; exact h.head
  · rw [s.gapstart]; exact h.gs
  · rw [s.gapstart, s.gapend]; exact h.gap
  · rw [s.buffer, s.gapend]; exact h.tail
  · rw [s.bufend, s.gapend]; exact h.be

theorem posOf_eq (s : SameStore te te2) (k : Nat) : posOf te2 hd tl k = posOf te hd tl k := by
  unfold posOf
  rw [s.gapend]

theorem render_eq (s : SameStore te te2) (k : Nat) (lens : List Nat) :
    render te2 hd tl k lens = render te hd tl k lens := by
  induction lens generalizing k with
  | nil => simp [render]
  | cons n ns ih => simp only [render, ih, s.posOf_eq]

end SameStore

theorem locate_render (te : TextEdit) (hd tl : List Nat) (pos : Nat) :
    ∀ (lens : List Nat) (k acu line : Nat),
      locate_loop pos (render te hd tl k lens) acu line = locLens pos lens acu line := by
  intro lens
  induction lens with
  | nil => intro k acu line; simp [render, locate_loop, locLens]
  | cons n ns ih =>
    intro k acu line
    simp only [render, locate_loop, locLens, ih]

/-- `updateScreenLines ()` changes the screen lines only. -/
theorem updateScreenLines_eq (G : Glib) (te : TextEdit) :
    updateScreenLines G te = { te with screen_lines := fullScreenLines G te } := rfl

/-- `updateScreenLines (begin, end)` changes the screen lines only. -/
theorem updateScreenLinesRange_eq (G : Glib) (te : TextEdit) (b s : Nat) :
    updateScreenLinesRange G te b s
      = { te with screen_lines := (updateScreenLinesRange G te b s).screen_lines } := by
  unfold updateScreenLinesRange
  split
  · rfl
  · split <;> rfl

/-- `assertUpdatedScreenLines` on a document whose cache is the layout unless it is marked
dirty: afterwards the cache is the layout and is not marked dirty, nothing else changes. -/
theorem assertUpdated_spec (G : Glib) {te : TextEdit} {hd tl : List Nat} {ar : Area}
    (h : Rep te hd tl) (harea : te.area = some ar) (hw : 2 ≤ ar.maxx)
    (hlines : te.screen_lines_dirty = false →
      te.screen_lines = render te hd tl 0 (layout G te.masked (ar.maxx - 1) (hd ++ tl ++ [LF]))) :
    assertUpdatedScreenLines G te
      = { te with
          screen_lines := render te hd tl 0 (layout G te.masked (ar.maxx - 1) (hd ++ tl ++ [LF]))
          screen_lines_dirty := false } := by
  unfold assertUpdatedScreenLines
  cases hd2 : te.screen_lines_dirty
  · simp only [Bool.not_false, if_true]
    have := hlines hd2
    cases te
    simp only at this hd2 ⊢
    simp only [TextEdit.mk.injEq, true_and, and_true]
    exact ⟨this, hd2⟩
  · simp only [Bool.not_true, Bool.false_eq_true, if_false]
    rw [updateScreenLines_eq, fullScreenLines_render G h ar harea hw]

/-- `updateScreenCursor` on a document whose cache is the layout unless it is marked dirty. -/
theorem updateScreenCursor_spec (G : Glib) {te : TextEdit} {hd tl : List Nat} {ar : Area}
    (h : Rep te hd tl) (harea : te.area = some ar) (hw : 2 ≤ ar.maxx)
    (hlines : te.screen_lines_dirty = false →
      te.screen_lines = render te hd tl 0 (layout G te.masked (ar.maxx - 1) (hd ++ tl ++ [LF]))) :
    updateScreenCursor G te
      = { te with
          screen_lines := render te hd tl 0 (layout G te.masked (ar.maxx - 1) (hd ++ tl ++ [LF]))
          screen_lines_dirty := false
          current_sc_line := (locLens te.current_pos
            (layout G te.masked (ar.maxx - 1) (hd ++ tl ++ [LF])) 0 0).1
          current_sc_linepos := (locLens te.current_pos
            (layout G te.masked (ar.maxx - 1) (hd ++ tl ++ [LF])) 0 0).2
          view_top := fixViewTop te.view_top ar.maxy (locLens te.current_pos
            (layout G te.masked (ar.maxx - 1) (hd ++ tl ++ [LF])) 0 0).1 } := by
  have s0 : SameStore te { te with current_sc_line := 0, current_sc_linepos := 0 } :=
    ⟨rfl, rfl, rfl, rfl⟩
  have key := @assertUpdated_spec G { te with current_sc_line := 0, current_sc_linepos := 0 } hd tl ar
    (s0.rep h) harea hw (fun hd2 => by rw [s0.render_eq]; exact hlines hd2)
  rw [s0.render_eq] at key
  unfold updateScreenCursor
  simp only
  split
  · rename_i heq
    have : te.area = none := heq
    rw [harea] at this
    cases this
  · rename_i a heq
    have h2 : te.area = some a := heq
    rw [harea] at h2
    cases h2
    rw [key]
    simp only [locate_render]

theorem assertUpdated_idem (G : Glib) (te : TextEdit) :
    assertUpdatedScreenLines G (assertUpdatedScreenLines G te) = assertUpdatedScreenLines G te := by
  unfold assertUpdatedScreenLines
  cases h : te.screen_lines_dirty <;> simp [h]

theorem assertUpdated_clean (G : Glib) (te : TextEdit) (h : te.screen_lines_dirty = false) :
    assertUpdatedScreenLines G te = te := by
  unfold assertUpdatedScreenLines
  simp [h]

theorem insertTextAtCursor_assert (G : Glib) (te : TextEdit) (t : List Nat) (n : Nat) :
    insertTextAtCursor G te t n = insertTextAtCursor G (assertUpdatedScreenLines G te) t n := by
  rw [insertTextAtCursor_eq, insertTextAtCursor_eq G (assertUpdatedScreenLines G te),
    assertUpdated_idem]

namespace SameDoc

variable {te te2 te3 : TextEdit} {hd tl : List Nat}

theorem same_refl (te : TextEdit) : SameDoc te te :=
  ⟨rfl, rfl, rfl, rfl, rfl, rfl, rfl, rfl, rfl, rfl, rfl, rfl, rfl, rfl⟩

theorem same_trans (a : SameDoc te te2) (b : SameDoc te2 te3) : SameDoc te te3 :=
  ⟨b.buffer.trans a.buffer, b.bufend.trans a.bufend, b.gapstart.trans a.gapstart,
    b.gapend.trans a.gapend, b.point.trans a.point, b.current_pos.trans a.current_pos,
    b.text_length.trans a.text_length, b.text_changes.trans a.text_changes, b.area.trans a.area,
    b.masked.trans a.masked, b.flags.trans a.flags, b.editable.trans a.editable,
    b.single_line_mode.trans a.single_line_mode, b.accept_tabs.trans a.accept_tabs⟩

theorem same_symm (a : SameDoc te te2) : SameDoc te2 te :=
  ⟨a.buffer.symm, a.bufend.symm, a.gapstart.symm, a.gapend.symm, a.point.symm,
    a.current_pos.symm, a.text_length.symm, a.text_changes.symm, a.area.symm, a.masked.symm,
    a.flags.symm, a.editable.symm, a.single_line_mode.symm, a.accept_tabs.symm⟩

theorem store (a : SameDoc te te2) : SameStore te te2 :=
  ⟨a.buffer, a.bufend, a.gapstart, a.gapend⟩

theorem same_doc (a : SameDoc te te2) (d : Doc te hd tl) : Doc te2 hd tl := by
  refine ⟨a.store.rep d.rep, by rw [a.text_length]; exact d.len,
    by rw [a.current_pos]; exact d.cur, ?_⟩
  rw [a.store.posOf_eq, a.point, a.current_pos, a.gapstart]
  exact d.pt

end SameDoc

theorem sameDoc_updateScreenLines (G : Glib) (te : TextEdit) :
    SameDoc te (updateScreenLines G te) :=
  ⟨rfl, rfl, rfl, rfl, rfl, rfl, rfl, rfl, rfl, rfl, rfl, rfl, rfl, rfl⟩

theorem sameDoc_updateScreenLinesRange (G : Glib) (te : TextEdit) (b s : Nat) :
    SameDoc te (updateScreenLinesRange G te b s) := by
  rw [updateScreenLinesRange_eq]
  exact ⟨rfl, rfl, rfl, rfl, rfl, rfl, rfl, rfl, rfl, rfl, rfl, rfl, rfl, rfl⟩

theorem sameDoc_assertUpdated (G : Glib) (te : TextEdit) :
    SameDoc te (assertUpdatedScreenLines G te) := by
  unfold assertUpdatedScreenLines
  split
  · exact SameDoc.same_refl _
  · exact ⟨rfl, rfl, rfl, rfl, rfl, rfl, rfl, rfl, rfl, rfl, rfl, rfl, rfl, rfl⟩

theorem sameDoc_updateScreenCursor (G : Glib) (te : TextEdit) :
    SameDoc te (updateScreenCursor G te) := by
  unfold updateScreenCursor
  simp only
  split
  · exact ⟨rfl, rfl, rfl, rfl, rfl, rfl, rfl, rfl, rfl, rfl, rfl, rfl, rfl, rfl⟩
  · have h := sameDoc_assertUpdated G { te with current_sc_line := 0, current_sc_linepos := 0 }
    exact ⟨h.buffer, h.bufend, h.gapstart, h.gapend, h.point, h.current_pos, h.text_length,
      h.text_changes, h.area, h.masked, h.flags, h.editable, h.single_line_mode, h.accept_tabs⟩

namespace Lay

variable {G : Glib} {te : TextEdit} {hd tl : List Nat} {ar : Area}

theorem lay_doc (lay : Lay G te hd tl ar) : Doc te hd tl := ⟨lay.rep, lay.len, lay.cur, lay.pt⟩

/-- `assertUpdatedScreenLines` leaves a cache that is the layout and is not marked dirty. -/
theorem lay_assertUpdated (lay : Lay G te hd tl ar) :
    Lay G (assertUpdatedScreenLines G te) hd tl ar
    ∧ (assertUpdatedScreenLines G te).screen_lines_dirty = false := by
  rw [assertUpdated_spec G lay.rep lay.area lay.wide lay.lines]
  have s0 : SameStore te { te with
      screen_lines := render te hd tl 0 (layout G te.masked (ar.maxx - 1) (hd ++ tl ++ [LF]))
      screen_lines_dirty := false } := ⟨rfl, rfl, rfl, rfl⟩
  refine ⟨⟨s0.rep lay.rep, lay.len, lay.cur, ?_, lay.area, lay.wide, ?_⟩, rfl⟩
  · rw [s0.posOf_eq]; exact lay.pt
  · intro _
    rw [s0.render_eq]

end Lay

namespace Inv

variable {G : Glib} {te : TextEdit} {hd tl : List Nat} {ar : Area}

/-- `assertUpdatedScreenLines` keeps the invariant and leaves a cache that is not dirty. -/
theorem inv_assertUpdated (inv : Inv G te hd tl ar) :
    Inv G (assertUpdatedScreenLines G te) hd tl ar
    ∧ (assertUpdatedScreenLines G te).screen_lines_dirty = false
    ∧ (assertUpdatedScreenLines G te).current_pos = te.current_pos
    ∧ (assertUpdatedScreenLines G te).text_changes = te.text_changes
    ∧ (assertUpdatedScreenLines G te).text_length = te.text_length
    ∧ (assertUpdatedScreenLines G te).editable = te.editable
    ∧ (assertUpdatedScreenLines G te).flags = te.flags
    ∧ (assertUpdatedScreenLines G te).masked = te.masked
    ∧ (assertUpdatedScreenLines G te).single_line_mode = te.single_line_mode
    ∧ (assertUpdatedScreenLines G te).accept_tabs = te.accept_tabs
    ∧ SameStore te (assertUpdatedScreenLines G te) := by
  rw [assertUpdated_spec G inv.rep inv.area inv.wide inv.lines]
  have s0 : SameStore te { te with
      screen_lines := render te hd tl 0 (layout G te.masked (ar.maxx - 1) (hd ++ tl ++ [LF]))
      screen_lines_dirty := false } := ⟨rfl, rfl, rfl, rfl⟩
  refine ⟨⟨s0.rep inv.rep, inv.len, inv.cur, ?_, inv.area, inv.wide, ?_, inv.sc⟩,
    rfl, rfl, rfl, rfl, rfl, rfl, rfl, rfl, rfl, s0⟩
  · rw [s0.posOf_eq]; exact inv.pt
  · intro _
    rw [s0.render_eq]

/-- The state left by the screen-line update and the cursor update after an edit of the
store. -/
theorem finish (hrep : Rep te hd tl) (harea : te.area = some ar) (hw : 2 ≤ ar.maxx)
    (hlen : te.text_length = hd.length + tl.length) (hcur : te.current_pos ≤ hd.length + tl.length)
    (hpt : te.point = posOf te hd tl te.current_pos
      ∨ (te.current_pos = hd.length ∧ te.point = te.gapstart))
    (te5 : TextEdit)
    (h5 : te5 = { te with
      screen_lines := render te hd tl 0 (layout G te.masked (ar.maxx - 1) (hd ++ tl ++ [LF])) })
 :
    Inv G (updateScreenCursor G te5) hd tl ar
    ∧ (updateScreenCursor G te5).screen_lines_dirty = false
    ∧ (updateScreenCursor G te5).current_pos = te.current_pos
    ∧ (updateScreenCursor G te5).text_changes = te.text_changes
    ∧ (updateScreenCursor G te5).text_length = te.text_length
    ∧ (updateScreenCursor G te5).editable = te.editable
    ∧ (updateScreenCursor G te5).flags = te.flags
    ∧ (updateScreenCursor G te5).masked = te.masked
    ∧ (updateScreenCursor G te5).single_line_mode = te.single_line_mode
    ∧ (updateScreenCursor G te5).accept_tabs = te.accept_tabs
    ∧ SameStore te (updateScreenCursor G te5) := by
  have s5 : SameStore te te5 := by subst h5; exact ⟨rfl, rfl, rfl, rfl⟩
  have harea5 : te5.area = some ar := by subst h5; exact harea
  have hmask : te5.masked = te.masked := by subst h5; rfl
  have hlines5 : te5.screen_lines_dirty = false →
      te5.screen_lines = render te5 hd tl 0 (layout G te5.masked (ar.maxx - 1) (hd ++ tl ++ [LF])) := by
    intro _
    rw [s5.render_eq, hmask]
    subst h5; rfl
  rw [updateScreenCursor_spec G (s5.rep hrep) harea5 hw hlines5]
  subst h5
  have s6 : SameStore te { te with
      screen_lines := render te hd tl 0 (layout G te.masked (ar.maxx - 1) (hd ++ tl ++ [LF]))
      screen_lines_dirty := false
      current_sc_line := (locLens te.current_pos
        (layout G te.masked (ar.maxx - 1) (hd ++ tl ++ [LF])) 0 0).1
      current_sc_linepos := (locLens te.current_pos
        (layout G te.masked (ar.maxx - 1) (hd ++ tl ++ [LF])) 0 0).2
      view_top := fixViewTop te.view_top ar.maxy (locLens te.current_pos
        (layout G te.masked (ar.maxx - 1) (hd ++ tl ++ [LF])) 0 0).1 } := ⟨rfl, rfl, rfl, rfl⟩
  simp only [s5.render_eq]
  refine ⟨⟨s6.rep hrep, hlen, hcur, ?_, harea, hw, ?_, rfl⟩,
    by first | rfl | trivial, by first | rfl | trivial, by first | rfl | trivial,
    by first | rfl | trivial, by first | rfl | trivial, by first | rfl | trivial,
    by first | rfl | trivial, by first | rfl | trivial, by first | rfl | trivial, s6⟩
  · rw [s6.posOf_eq]; exact hpt
  · intro _
    rw [s6.render_eq]

theorem inv_set_text_changes (inv : Inv G te hd tl ar) (x : Nat) :
    Inv G { te with text_changes := x } hd tl ar := by
  have s0 : SameStore te { te with text_changes := x } := ⟨rfl, rfl, rfl, rfl⟩
  refine ⟨s0.rep inv.rep, inv.len, inv.cur, ?_, inv.area, inv.wide, ?_, inv.sc⟩
  · rw [s0.posOf_eq]; exact inv.pt
  · intro hd2
    rw [s0.render_eq]
    exact inv.lines hd2

theorem take_drop_length (D cps : List Nat) (c : Nat) (hc : c ≤ D.length) :
    (D.take c ++ cps).length + (D.drop c).length = D.length + cps.length := by
  simp only [List.length_append, List.length_take, List.length_drop]
  omega

/-- `insertTextAtCursor` of the encoding of the codepoints `cps`: the invariant holds again
for the document with `cps` inserted at the cursor, the cursor stands after them, the cache
is up to date and one notification has been emitted. -/
theorem insert_inv (hm : WidthMono G) (lay : Lay G te hd tl ar) (cps : List Nat)
    (hv : ∀ x, x ∈ cps → validCp x) :
    Inv G (insertTextAtCursor G te (encodeUtf8 cps) (encodeUtf8 cps).length)
      ((hd ++ tl).take te.current_pos ++ cps) ((hd ++ tl).drop te.current_pos) ar
    ∧ (insertTextAtCursor G te (encodeUtf8 cps) (encodeUtf8 cps).length).current_pos
        = te.current_pos + cps.length
    ∧ (insertTextAtCursor G te (encodeUtf8 cps) (encodeUtf8 cps).length).text_length
        = te.text_length + cps.length
    ∧ (insertTextAtCursor G te (encodeUtf8 cps) (encodeUtf8 cps).length).text_changes
        = te.text_changes + 1
    ∧ (insertTextAtCursor G te (encodeUtf8 cps) (encodeUtf8 cps).length).screen_lines_dirty = false
    ∧ (insertTextAtCursor G te (encodeUtf8 cps) (encodeUtf8 cps).length).editable = te.editable
    ∧ (insertTextAtCursor G te (encodeUtf8 cps) (encodeUtf8 cps).length).flags = te.flags
    ∧ (insertTextAtCursor G te (encodeUtf8 cps) (encodeUtf8 cps).length).masked = te.masked
    ∧ (insertTextAtCursor G te (encodeUtf8 cps) (encodeUtf8 cps).length).single_line_mode
        = te.single_line_mode
    ∧ (insertTextAtCursor G te (encodeUtf8 cps) (encodeUtf8 cps).length).accept_tabs
        = te.accept_tabs := by
  obtain ⟨inv1, hd1⟩ := lay.lay_assertUpdated
  have sd := sameDoc_assertUpdated G te
  rw [insertTextAtCursor_eq]
  rw [← sd.current_pos, ← sd.text_changes, ← sd.text_length, ← sd.editable, ← sd.flags,
    ← sd.masked, ← sd.single_line_mode, ← sd.accept_tabs]
  generalize assertUpdatedScreenLines G te = te1 at *
  have hDlen : (hd ++ tl).length = hd.length + tl.length := by simp
  obtain ⟨hrep4, hpt4, hlen4, hcur4, hbuf4⟩ :=
    inv1.rep.insertStore_rep te1.current_pos inv1.cur inv1.pt cps hv
  have hfr := Rep.frame_insertStore te1 (encodeUtf8 cps) (encodeUtf8 cps).length
  obtain ⟨-, -, -, hgs2⟩ := inv1.rep.moveGap te1.current_pos inv1.cur inv1.pt
  have hlenN := take_drop_length (hd ++ tl) cps te1.current_pos (by rw [hDlen]; exact inv1.cur)
  have hlenN1 : ((hd ++ tl).take te1.current_pos ++ cps).length = te1.current_pos + cps.length := by
    simp only [List.length_append, List.length_take, hDlen]
    have := inv1.cur
    omega
  have harea4 : (insertStore te1 (encodeUtf8 cps) (encodeUtf8 cps).length).area = some ar := by
    rw [hfr.area]; exact inv1.area
  -- the screen lines after the update
  have h5 : (if (encodeUtf8 cps).length > getGapSize (moveGapToCursor te1) then
        updateScreenLines G (insertStore te1 (encodeUtf8 cps) (encodeUtf8 cps).length)
      else
        updateScreenLinesRange G (insertStore te1 (encodeUtf8 cps) (encodeUtf8 cps).length)
          (Nat.min te1.gapstart (moveGapToCursor te1).gapstart)
          (Nat.max te1.gapend (insertStore te1 (encodeUtf8 cps) (encodeUtf8 cps).length).gapend))
      = { insertStore te1 (encodeUtf8 cps) (encodeUtf8 cps).length with
          screen_lines := render (insertStore te1 (encodeUtf8 cps) (encodeUtf8 cps).length)
            ((hd ++ tl).take te1.current_pos ++ cps) ((hd ++ tl).drop te1.current_pos) 0
            (layout G (insertStore te1 (encodeUtf8 cps) (encodeUtf8 cps).length).masked
              (ar.maxx - 1)
              ((hd ++ tl).take te1.current_pos ++ cps ++ (hd ++ tl).drop te1.current_pos ++ [LF])) } := by
    by_cases hex : (encodeUtf8 cps).length > getGapSize (moveGapToCursor te1)
    · rw [if_pos hex, updateScreenLines_eq, fullScreenLines_render G hrep4 ar harea4 inv1.wide]
    · rw [if_neg hex, updateScreenLinesRange_eq]
      have er := EditRel.of_replace cps te1.current_pos te1.current_pos inv1.rep hrep4
        (Nat.le_refl _) inv1.cur (hbuf4 hex).symm
      rw [← hgs2] at er
      rw [er.range_correct G hm ar harea4 inv1.wide (by
        rw [hfr.screen_lines, hfr.masked]
        exact inv1.lines hd1)]
  rw [h5]
  obtain ⟨inv6, h6⟩ := Inv.finish (G := G) hrep4 harea4 inv1.wide (by rw [hlen4, inv1.len]; omega)
    (by rw [hcur4]; omega) (Or.inr ⟨by rw [hcur4, hlenN1], hpt4⟩) _ rfl
  obtain ⟨h6a, h6b, h6c, h6d, h6e, h6f, h6g, h6h, h6i, -⟩ := h6
  refine ⟨inv6.inv_set_text_changes _, ?_, ?_, ?_, ?_, ?_, ?_, ?_, ?_, ?_⟩
  · show (updateScreenCursor G _).current_pos = _
    rw [h6b, hcur4]
  · show (updateScreenCursor G _).text_length = _
    rw [h6d, hlen4]
  · show (updateScreenCursor G _).text_changes + 1 = _
    rw [h6c, hfr.text_changes]
  · exact h6a
  · show (updateScreenCursor G _).editable = _
    rw [h6e, hfr.editable]
  · show (updateScreenCursor G _).flags = _
    rw [h6f, hfr.flags]
  · show (updateScreenCursor G _).masked = _
    rw [h6g, hfr.masked]
  · show (updateScreenCursor G _).single_line_mode = _
    rw [h6h, hfr.single_line_mode]
  · show (updateScreenCursor G _).accept_tabs = _
    rw [h6i, hfr.accept_tabs]

end Inv

namespace Doc

variable {G : Glib} {te : TextEdit} {hd tl : List Nat}

theorem doc_set_text_changes (d : Doc te hd tl) (x : Nat) :
    Doc { te with text_changes := x } hd tl := by
  have s0 : SameStore te { te with text_changes := x } := ⟨rfl, rfl, rfl, rfl⟩
  refine ⟨s0.rep d.rep, d.len, d.cur, ?_⟩
  rw [s0.posOf_eq]; exact d.pt

/-- `insertTextAtCursor` of the encoding of the codepoints `cps`, with or without a viewport:
the document afterwards holds `cps` inserted at the cursor, the cursor stands after them. -/
theorem insert_doc (G : Glib) (d : Doc te hd tl) (cps : List Nat) (hv : ∀ x, x ∈ cps → validCp x) :
    Doc (insertTextAtCursor G te (encodeUtf8 cps) (encodeUtf8 cps).length)
      ((hd ++ tl).take te.current_pos ++ cps) ((hd ++ tl).drop te.current_pos)
    ∧ (insertTextAtCursor G te (encodeUtf8 cps) (encodeUtf8 cps).length).current_pos
        = te.current_pos + cps.length
    ∧ (insertTextAtCursor G te (encodeUtf8 cps) (encodeUtf8 cps).length).text_length
        = te.text_length + cps.length
    ∧ (insertTextAtCursor G te (encodeUtf8 cps) (encodeUtf8 cps).length).text_changes
        = te.text_changes + 1
    ∧ (insertTextAtCursor G te (encodeUtf8 cps) (encodeUtf8 cps).length).editable = te.editable
    ∧ (insertTextAtCursor G te (encodeUtf8 cps) (encodeUtf8 cps).length).flags = te.flags
    ∧ (insertTextAtCursor G te (encodeUtf8 cps) (encodeUtf8 cps).length).masked = te.masked
    ∧ (insertTextAtCursor G te (encodeUtf8 cps) (encodeUtf8 cps).length).single_line_mode
        = te.single_line_mode
    ∧ (insertTextAtCursor G te (encodeUtf8 cps) (encodeUtf8 cps).length).accept_tabs
        = te.accept_tabs
    ∧ (insertTextAtCursor G te (encodeUtf8 cps) (encodeUtf8 cps).length).area = te.area := by
  have sd := sameDoc_assertUpdated G te
  have d1 := sd.same_doc d
  rw [insertTextAtCursor_eq]
  rw [← sd.current_pos, ← sd.text_changes, ← sd.text_length, ← sd.editable, ← sd.flags,
    ← sd.masked, ← sd.single_line_mode, ← sd.accept_tabs, ← sd.area]
  generalize assertUpdatedScreenLines G te = te1 at *
  have hDlen : (hd ++ tl).length = hd.length + tl.length := by simp
  obtain ⟨hrep4, hpt4, hlen4, hcur4, -⟩ :=
    d1.rep.insertStore_rep te1.current_pos d1.cur d1.pt cps hv
  have hfr := Rep.frame_insertStore te1 (encodeUtf8 cps) (encodeUtf8 cps).length
  have hlenN := Inv.take_drop_length (hd ++ tl) cps te1.current_pos (by rw [hDlen]; exact d1.cur)
  have hlenN1 : ((hd ++ tl).take te1.current_pos ++ cps).length = te1.current_pos + cps.length := by
    simp only [List.length_append, List.length_take, hDlen]
    have := d1.cur
    omega
  have d4 : Doc (insertStore te1 (encodeUtf8 cps) (encodeUtf8 cps).length)
      ((hd ++ tl).take te1.current_pos ++ cps) ((hd ++ tl).drop te1.current_pos) :=
    ⟨hrep4, by rw [hlen4, d1.len]; omega, by rw [hcur4]; omega,
      Or.inr ⟨by rw [hcur4, hlenN1], hpt4⟩⟩
  have sd5 : SameDoc (insertStore te1 (encodeUtf8 cps) (encodeUtf8 cps).length)
      (if (encodeUtf8 cps).length > getGapSize (moveGapToCursor te1) then
        updateScreenLines G (insertStore te1 (encodeUtf8 cps) (encodeUtf8 cps).length)
      else
        updateScreenLinesRange G (insertStore te1 (encodeUtf8 cps) (encodeUtf8 cps).length)
          (Nat.min te1.gapstart (moveGapToCursor te1).gapstart)
          (Nat.max te1.gapend (insertStore te1 (encodeUtf8 cps) (encodeUtf8 cps).length).gapend)) := by
    split
    · exact sameDoc_updateScreenLines G _
    · exact sameDoc_updateScreenLinesRange G _ _ _
  have sd6 := sd5.same_trans (sameDoc_updateScreenCursor G _)
  refine ⟨(sd6.same_doc d4).doc_set_text_changes _, ?_, ?_, ?_, ?_, ?_, ?_, ?_, ?_, ?_⟩
  · show (updateScreenCursor G _).current_pos = _
    rw [sd6.current_pos, hcur4]
  · show (updateScreenCursor G _).text_length = _
    rw [sd6.text_length, hlen4]
  · show (updateScreenCursor G _).text_changes + 1 = _
    rw [sd6.text_changes, hfr.text_changes]
  · show (updateScreenCursor G _).editable = _
    rw [sd6.editable, hfr.editable]
  · show (updateScreenCursor G _).flags = _
    rw [sd6.flags, hfr.flags]
  · show (updateScreenCursor G _).masked = _
    rw [sd6.masked, hfr.masked]
  · show (updateScreenCursor G _).single_line_mode = _
    rw [sd6.single_line_mode, hfr.single_line_mode]
  · show (updateScreenCursor G _).accept_tabs = _
    rw [sd6.accept_tabs, hfr.accept_tabs]
  · show (updateScreenCursor G _).area = _
    rw [sd6.area, hfr.area]

end Doc

end

section

/-! ### Deleting from the store -/

theorem szSub_of_le {a b : Nat} (h : b ≤ a) (ha : a < SIZE_MOD) : szSub a b = a - b := by
  simp only [szSub, SIZE_MOD] at *
  omega

theorem szSub_zero_one : szSub 0 1 = SIZE_MAX := by decide

theorem szSub_wrap {a b : Nat} (h : a < b) (hb : b < SIZE_MOD) :
    szSub a b = SIZE_MOD - (b - a) := by
  simp only [szSub, SIZE_MOD] at *
  omega

theorem szAdd_of_lt {a b : Nat} (h : a + b < SIZE_MOD) : szAdd a b = a + b := by
  simp only [szAdd, SIZE_MOD] at *
  omega

theorem toInt32_small {a : Nat} (h : a < 2147483648) : toInt32 a = (a : Int) := by
  unfold toInt32
  have h1 : a % 4294967296 = a := Nat.mod_eq_of_lt (by omega)
  rw [h1, if_pos h]

theorem toInt32_neg {d : Nat} (h0 : 0 < d) (h : d < 2147483648) :
    toInt32 (SIZE_MOD - d) = -(d : Int) := by
  unfold toInt32
  have h1 : (SIZE_MOD - d) % 4294967296 = 4294967296 - d := by
    simp only [SIZE_MOD]
    omega
  rw [h1, if_neg (by omega)]
  omega

namespace Frame

variable {te te2 te3 : TextEdit}

theorem frame_refl (te : TextEdit) : Frame te te :=
  ⟨rfl, rfl, rfl, rfl, rfl, rfl, rfl, rfl, rfl, rfl, rfl, rfl⟩

theorem frame_trans (a : Frame te te2) (b : Frame te2 te3) : Frame te te3 :=
  ⟨b.area.trans a.area, b.masked.trans a.masked, b.flags.trans a.flags,
    b.editable.trans a.editable, b.single_line_mode.trans a.single_line_mode,
    b.accept_tabs.trans a.accept_tabs, b.text_changes.trans a.text_changes,
    b.screen_lines.trans a.screen_lines, b.screen_lines_dirty.trans a.screen_lines_dirty,
    b.current_sc_line.trans a.current_sc_line, b.current_sc_linepos.trans a.current_sc_linepos,
    b.view_top.trans a.view_top⟩

end Frame

namespace Rep

variable {te : TextEdit} {hd tl : List Nat}

/-- One round of the forward loop of `deleteFromCursor`: the gap swallows the first codepoint
after it. -/
theorem deleteFwd_step (x : Nat) (h : Rep te hd (x :: tl)) (n : Nat) :
    Rep { te with gapend := nextChar te te.gapend, text_length := n } hd tl := by
  have h1 := h.nextChar_posOf hd.length (by simp only [List.length_cons]; omega)
  rw [h.posOf_gap] at h1
  have h2 : posOf te hd (x :: tl) (hd.length + 1) = te.gapend + (utf8enc x).length := by
    rw [posOf_tail, off_succ _ 0 (by simp), off_zero]
    simp
  rw [h2] at h1
  have htail := h.tail
  rw [List.cons_append, encodeUtf8_cons, Seg_append] at htail
  have hbe := h.be
  rw [List.cons_append, encodeUtf8_cons, List.length_append] at hbe
  have hgap := h.gap
  refine ⟨h.head, h.gs, ?_, ?_, ?_, h.vhd, fun c hc => h.vtl c (List.mem_cons_of_mem _ hc)⟩
  · show te.gapstart < nextChar te te.gapend
    rw [h1]; omega
  · show Seg te.buffer (nextChar te te.gapend) _
    rw [h1]; exact htail.2
  · show te.bufend = nextChar te te.gapend + _
    rw [h1, hbe]; omega

theorem deleteFwd_loop_spec : ∀ (n : Nat) (te : TextEdit) (tl : List Nat), Rep te hd tl →
    n ≤ tl.length → n ≤ te.text_length → te.text_length < SIZE_MOD →
    Rep (deleteFwd_loop n te) hd (tl.drop n)
    ∧ (deleteFwd_loop n te).text_length = te.text_length - n
    ∧ (deleteFwd_loop n te).current_pos = te.current_pos
    ∧ (deleteFwd_loop n te).bufend = te.bufend
    ∧ (deleteFwd_loop n te).point = te.point
    ∧ Frame te (deleteFwd_loop n te) := by
  intro n
  induction n with
  | zero =>
    intro te tl h _ _ _
    exact ⟨h, rfl, rfl, rfl, rfl, Frame.frame_refl _⟩
  | succ n ih =>
    intro te tl h hn hl hs
    cases tl with
    | nil => simp at hn
    | cons x tl =>
      have h1 := deleteFwd_step x h (szSub te.text_length 1)
      have hsz : szSub te.text_length 1 = te.text_length - 1 := szSub_of_le (by omega) hs
      obtain ⟨r1, r2, r3, r4, r5, r6⟩ := ih _ tl h1 (by simpa using hn)
        (by show n ≤ szSub te.text_length 1; rw [hsz]; omega)
        (by show szSub te.text_length 1 < SIZE_MOD; rw [hsz]; omega)
      simp only [deleteFwd_loop, List.drop_succ_cons]
      refine ⟨r1, ?_, r3, r4, r5, ?_⟩
      · rw [r2]
        show szSub te.text_length 1 - n = _
        rw [hsz]; omega
      · exact ⟨r6.area, r6.masked, r6.flags, r6.editable, r6.single_line_mode, r6.accept_tabs,
          r6.text_changes, r6.screen_lines, r6.screen_lines_dirty, r6.current_sc_line,
          r6.current_sc_linepos, r6.view_top⟩

/-- One round of the backward loop of `deleteFromCursor`: the gap swallows the last codepoint
before it. -/
theorem deleteBack_step (x : Nat) (h : Rep te (hd ++ [x]) tl) (c n : Nat) :
    Rep { te with gapstart := prevChar te te.gapstart, current_pos := c, text_length := n }
      hd tl := by
  have h1 := h.prevChar_gapstart hd.length (by simp)
  rw [posOf_head _ (by simp), off_append_left _ _ _ (Nat.le_refl _), off_length] at h1
  have hhead := h.head
  rw [encodeUtf8_append, Seg_append] at hhead
  have hgs := h.gs
  rw [encodeUtf8_append, List.length_append] at hgs
  have hgap := h.gap
  refine ⟨hhead.1, h1, ?_, h.tail, h.be, fun c hc => h.vhd c (List.mem_append_left _ hc), h.vtl⟩
  show prevChar te te.gapstart < te.gapend
  rw [h1]; omega

theorem deleteBack_loop_spec : ∀ (n : Nat) (te : TextEdit) (hd : List Nat), Rep te hd tl →
    n ≤ hd.length → n ≤ te.text_length → te.text_length < SIZE_MOD →
    n ≤ te.current_pos → te.current_pos < SIZE_MOD →
    Rep (deleteBack_loop n te) (hd.take (hd.length - n)) tl
    ∧ (deleteBack_loop n te).text_length = te.text_length - n
    ∧ (deleteBack_loop n te).current_pos = te.current_pos - n
    ∧ (deleteBack_loop n te).bufend = te.bufend
    ∧ (deleteBack_loop n te).gapend = te.gapend
    ∧ Frame te (deleteBack_loop n te) := by
  intro n
  induction n with
  | zero =>
    intro te hd h _ _ _ _ _
    refine ⟨?_, rfl, rfl, rfl, rfl, Frame.frame_refl _⟩
    simp only [deleteBack_loop, Nat.sub_zero, List.take_length]
    exact h
  | succ n ih =>
    intro te hd h hn hl hs hc hcs
    rcases List.eq_nil_or_concat hd with h0 | ⟨hd2, x, rfl⟩
    · subst h0; simp at hn
    · rw [List.concat_eq_append] at *
      have h1 := deleteBack_step x h (szSub te.current_pos 1) (szSub te.text_length 1)
      have hsz : szSub te.text_length 1 = te.text_length - 1 := szSub_of_le (by omega) hs
      have hsc : szSub te.current_pos 1 = te.current_pos - 1 := szSub_of_le (by omega) hcs
      have hn2 : n ≤ hd2.length := by simpa using hn
      obtain ⟨r1, r2, r3, r4, r5, r6⟩ := ih _ hd2 h1 hn2
        (by show n ≤ szSub te.text_length 1; rw [hsz]; omega)
        (by show szSub te.text_length 1 < SIZE_MOD; rw [hsz]; omega)
        (by show n ≤ szSub te.current_pos 1; rw [hsc]; omega)
        (by show szSub te.current_pos 1 < SIZE_MOD; rw [hsc]; omega)
      have htk : (hd2 ++ [x]).take ((hd2 ++ [x]).length - (n + 1)) = hd2.take (hd2.length - n) := by
        rw [List.length_append, List.length_singleton, Nat.add_sub_add_right,
          List.take_append_of_le_length (Nat.sub_le _ _)]
      simp only [deleteBack_loop]
      rw [htk]
      refine ⟨r1, ?_, ?_, r4, r5, ?_⟩
      · rw [r2]
        show szSub te.text_length 1 - n = _
        rw [hsz]; omega
      · rw [r3]
        show szSub te.current_pos 1 - n = _
        rw [hsc]; omega
      · exact ⟨r6.area, r6.masked, r6.flags, r6.editable, r6.single_line_mode, r6.accept_tabs,
          r6.text_changes, r6.screen_lines, r6.screen_lines_dirty, r6.current_sc_line,
          r6.current_sc_linepos, r6.view_top⟩

end Rep

theorem deleteFromCursor_eq (G : Glib) (te : TextEdit) (type : DeleteType) (dir : Direction)
    (he : te.editable = true) :
    deleteFromCursor G te type dir
      = if toInt32 (szSub (deleteTarget G (assertUpdatedScreenLines G te) type dir)
            (assertUpdatedScreenLines G te).current_pos) ≠ 0 then
          { updateScreenCursor G
              (updateScreenLinesRange G
                (deleteStore (assertUpdatedScreenLines G te)
                  (toInt32 (szSub (deleteTarget G (assertUpdatedScreenLines G te) type dir)
                    (assertUpdatedScreenLines G te).current_pos)))
                (Nat.min (assertUpdatedScreenLines G te).gapstart
                  (deleteStore (assertUpdatedScreenLines G te)
                    (toInt32 (szSub (deleteTarget G (assertUpdatedScreenLines G te) type dir)
                      (assertUpdatedScreenLines G te).current_pos))).gapstart)
                (Nat.max (assertUpdatedScreenLines G te).gapend
                  (deleteStore (assertUpdatedScreenLines G te)
                    (toInt32 (szSub (deleteTarget G (assertUpdatedScreenLines G te) type dir)
                      (assertUpdatedScreenLines G te).current_pos))).gapend)) with
            text_changes := (updateScreenCursor G
              (updateScreenLinesRange G
                (deleteStore (assertUpdatedScreenLines G te)
                  (toInt32 (szSub (deleteTarget G (assertUpdatedScreenLines G te) type dir)
                    (assertUpdatedScreenLines G te).current_pos)))
                (Nat.min (assertUpdatedScreenLines G te).gapstart
                  (deleteStore (assertUpdatedScreenLines G te)
                    (toInt32 (szSub (deleteTarget G (assertUpdatedScreenLines G te) type dir)
                      (assertUpdatedScreenLines G te).current_pos))).gapstart)
                (Nat.max (assertUpdatedScreenLines G te).gapend
                  (deleteStore (assertUpdatedScreenLines G te)
                    (toInt32 (szSub (deleteTarget G (assertUpdatedScreenLines G te) type dir)
                      (assertUpdatedScreenLines G te).current_pos))).gapend))).text_changes + 1 }
        else assertUpdatedScreenLines G te := by
  unfold deleteFromCursor
  simp only [he, Bool.not_true, Bool.false_eq_true, if_false]
  cases type <;> rfl

namespace SameStore

variable {te te2 : TextEdit}

theorem nextChar_eq (s : SameStore te te2) (p : Nat) : nextChar te2 p = nextChar te p := by
  unfold nextChar
  rw [s.buffer, s.bufend, s.gapstart, s.gapend]

theorem prevChar_eq (s : SameStore te te2) (p : Nat) : prevChar te2 p = prevChar te p := by
  unfold prevChar
  rw [s.buffer, s.gapstart, s.gapend]

theorem nonwhiteAt_eq (G : Glib) (s : SameStore te te2) (p : Nat) :
    nonwhiteAt G te2 p = nonwhiteAt G te p := by
  unfold nonwhiteAt
  rw [s.buffer]

end SameStore

namespace SameDoc

variable {te te2 : TextEdit}

theorem wordEndFwd_eq (G : Glib) (s : SameDoc te te2) : ∀ (n cur np : Nat) (b : Bool),
    wordEndFwd_loop G te2 n cur np b = wordEndFwd_loop G te n cur np b := by
  intro n
  induction n with
  | zero => intro cur np b; rfl
  | succ n ih =>
    intro cur np b
    simp only [wordEndFwd_loop, ih, s.store.nextChar_eq, s.store.nonwhiteAt_eq, s.text_length]

theorem wordStartFwd_eq (G : Glib) (s : SameDoc te te2) : ∀ (n cur np : Nat) (b : Bool),
    wordStartFwd_loop G te2 n cur np b = wordStartFwd_loop G te n cur np b := by
  intro n
  induction n with
  | zero => intro cur np b; rfl
  | succ n ih =>
    intro cur np b
    simp only [wordStartFwd_loop, ih, s.store.nextChar_eq, s.store.nonwhiteAt_eq, s.text_length]

theorem wordBack_eq (G : Glib) (s : SameDoc te te2) : ∀ (n cur np : Nat) (b : Bool),
    wordBack_loop G te2 n cur np b = wordBack_loop G te n cur np b := by
  intro n
  induction n with
  | zero => intro cur np b; rfl
  | succ n ih =>
    intro cur np b
    simp only [wordBack_loop, ih, s.store.prevChar_eq, s.store.nonwhiteAt_eq]

theorem moveWord_eq (G : Glib) (s : SameDoc te te2) (dir : Direction) (we : Bool) :
    moveWordFromCursor G te2 dir we = moveWordFromCursor G te dir we := by
  unfold moveWordFromCursor
  simp only [s.wordEndFwd_eq, s.wordStartFwd_eq, s.wordBack_eq, s.store.prevChar_eq,
    s.text_length, s.current_pos, s.point, s.gapstart, s.gapend]

theorem moveLogically_eq (s : SameDoc te te2) (dir : Direction) :
    moveLogicallyFromCursor te2 dir = moveLogicallyFromCursor te dir := by
  unfold moveLogicallyFromCursor
  rw [s.text_length, s.current_pos]

theorem deleteTarget_eq (G : Glib) (s : SameDoc te te2) (ty : DeleteType) (dir : Direction) :
    deleteTarget G te2 ty dir = deleteTarget G te ty dir := by
  cases ty
  · exact s.moveLogically_eq dir
  · exact s.moveWord_eq G dir true

end SameDoc

theorem wordEndFwd_bounds (G : Glib) (te : TextEdit) : ∀ (n cur np : Nat) (b : Bool),
    np ≤ wordEndFwd_loop G te n cur np b
    ∧ (np ≤ te.text_length → wordEndFwd_loop G te n cur np b ≤ te.text_length) := by
  intro n
  induction n with
  | zero => intro cur np b; exact ⟨Nat.le_refl _, fun h => h⟩
  | succ n ih =>
    intro cur np b
    simp only [wordEndFwd_loop]
    split
    · rename_i hlt
      split
      · have := ih (nextChar te cur) (np + 1) true
        exact ⟨by omega, fun _ => this.2 (by omega)⟩
      · split
        · exact ⟨Nat.le_refl _, fun h => h⟩
        · have := ih (nextChar te cur) (np + 1) b
          exact ⟨by omega, fun _ => this.2 (by omega)⟩
    · exact ⟨Nat.le_refl _, fun h => h⟩

theorem wordStartFwd_bounds (G : Glib) (te : TextEdit) : ∀ (n cur np : Nat) (b : Bool),
    np ≤ wordStartFwd_loop G te n cur np b
    ∧ (np ≤ te.text_length → wordStartFwd_loop G te n cur np b ≤ te.text_length) := by
  intro n
  induction n with
  | zero => intro cur np b; exact ⟨Nat.le_refl _, fun h => h⟩
  | succ n ih =>
    intro cur np b
    simp only [wordStartFwd_loop]
    split
    · rename_i hlt
      split
      · have := ih (nextChar te cur) (np + 1) true
        exact ⟨by omega, fun _ => this.2 (by omega)⟩
      · split
        · exact ⟨Nat.le_refl _, fun h => h⟩
        · have := ih (nextChar te cur) (np + 1) b
          exact ⟨by omega, fun _ => this.2 (by omega)⟩
    · exact ⟨Nat.le_refl _, fun h => h⟩

theorem szSub_one_cases (np : Nat) (h : np < SIZE_MAX) :
    (np = 0 ∧ szSub np 1 = SIZE_MAX) ∨ (0 < np ∧ szSub np 1 = np - 1) := by
  simp only [szSub, SIZE_MOD, SIZE_MAX] at *
  omega

theorem wordBack_bounds (G : Glib) (te : TextEdit) : ∀ (n cur np : Nat) (b : Bool),
    np ≤ SIZE_MAX →
    wordBack_loop G te n cur np b = SIZE_MAX
    ∨ (np ≠ SIZE_MAX ∧ wordBack_loop G te n cur np b ≤ np) := by
  intro n
  induction n with
  | zero =>
    intro cur np b _
    by_cases h : np = SIZE_MAX
    · left; exact h
    · right; exact ⟨h, Nat.le_refl _⟩
  | succ n ih =>
    intro cur np b hle
    simp only [wordBack_loop]
    by_cases h : np = SIZE_MAX
    · left; rw [if_neg (by simpa using h)]; exact h
    · rw [if_pos h]
      have hc := szSub_one_cases np (by omega)
      have hs : szSub np 1 ≤ SIZE_MAX := by
        rcases hc with ⟨_, h2⟩ | ⟨_, h2⟩
        · rw [h2]
        · rw [h2]; omega
      split
      · rcases ih (if np > 0 then prevChar te cur else cur) (szSub np 1) true hs with h3 | h3
        · left; exact h3
        · right
          refine ⟨h, ?_⟩
          rcases hc with ⟨_, h2⟩ | ⟨_, h2⟩
          · exact absurd h2 h3.1
          · have := h3.2; rw [h2] at this; omega
      · split
        · right; exact ⟨h, Nat.le_refl _⟩
        · rcases ih (if np > 0 then prevChar te cur else cur) (szSub np 1) b hs with h3 | h3
          · left; exact h3
          · right
            refine ⟨h, ?_⟩
            rcases hc with ⟨_, h2⟩ | ⟨_, h2⟩
            · exact absurd h2 h3.1
            · have := h3.2; rw [h2] at this; omega

theorem moveWord_fwd_end (G : Glib) (te : TextEdit) :
    moveWordFromCursor G te Direction.DIR_FORWARD true
      = wordEndFwd_loop G te (te.text_length - te.current_pos)
          (if te.point = te.gapstart then te.gapend else te.point) te.current_pos false := rfl

theorem moveWord_fwd_start (G : Glib) (te : TextEdit) :
    moveWordFromCursor G te Direction.DIR_FORWARD false
      = wordStartFwd_loop G te (te.text_length - te.current_pos)
          (if te.point = te.gapstart then te.gapend else te.point) te.current_pos false := rfl

theorem moveWord_back (G : Glib) (te : TextEdit) (we : Bool) :
    moveWordFromCursor G te Direction.DIR_BACK we
      = if te.current_pos = 0 then 0
        else szAdd (wordBack_loop G te (szSub te.current_pos 1 + 2)
          (prevChar te (if te.point = te.gapstart then te.gapend else te.point))
          (szSub te.current_pos 1) false) 1 := rfl

/-- The word target stays inside the document: forward it lies between the cursor and the
end, backward between the start and the cursor. -/
theorem moveWord_bounds (G : Glib) (te : TextEdit) (dir : Direction) (we : Bool)
    (hc : te.current_pos ≤ te.text_length) (hs : te.text_length < SIZE_MAX) :
    moveWordFromCursor G te dir we ≤ te.text_length
    ∧ (dir = Direction.DIR_FORWARD → te.current_pos ≤ moveWordFromCursor G te dir we)
    ∧ (dir = Direction.DIR_BACK → moveWordFromCursor G te dir we ≤ te.current_pos) := by
  cases dir with
  | DIR_FORWARD =>
    cases we
    · rw [moveWord_fwd_start]
      have := wordStartFwd_bounds G te (te.text_length - te.current_pos)
        (if te.point = te.gapstart then te.gapend else te.point) te.current_pos false
      exact ⟨this.2 hc, fun _ => this.1, fun h => by cases h⟩
    · rw [moveWord_fwd_end]
      have := wordEndFwd_bounds G te (te.text_length - te.current_pos)
        (if te.point = te.gapstart then te.gapend else te.point) te.current_pos false
      exact ⟨this.2 hc, fun _ => this.1, fun h => by cases h⟩
  | DIR_BACK =>
    rw [moveWord_back]
    split
    · exact ⟨Nat.zero_le _, (fun h => by cases h), fun _ => Nat.zero_le _⟩
    · rename_i h0
      have hc1 := szSub_one_cases te.current_pos (by omega)
      have hsz : szSub te.current_pos 1 = te.current_pos - 1 := by
        rcases hc1 with ⟨h1, _⟩ | ⟨_, h2⟩
        · exact absurd h1 h0
        · exact h2
      rw [hsz]
      have hb := wordBack_bounds G te (te.current_pos - 1 + 2)
        (prevChar te (if te.point = te.gapstart then te.gapend else te.point))
        (te.current_pos - 1) false (by omega)
      have key : szAdd (wordBack_loop G te (te.current_pos - 1 + 2)
          (prevChar te (if te.point = te.gapstart then te.gapend else te.point))
          (te.current_pos - 1) false) 1 ≤ te.current_pos := by
        rcases hb with h3 | h3
        · rw [h3]
          have : szAdd SIZE_MAX 1 = 0 := by decide
          rw [this]; omega
        · rw [szAdd_of_lt (by simp only [SIZE_MOD, SIZE_MAX] at *; omega)]
          omega
      exact ⟨by omega, (fun h => by cases h), fun _ => key⟩

theorem moveLogically_fwd (te : TextEdit) :
    moveLogicallyFromCursor te Direction.DIR_FORWARD
      = if te.current_pos < te.text_length then te.current_pos + 1 else te.current_pos := by
  unfold moveLogicallyFromCursor
  by_cases h : te.current_pos < te.text_length <;> simp [h]

theorem moveLogically_back (te : TextEdit) :
    moveLogicallyFromCursor te Direction.DIR_BACK
      = if te.current_pos > 0 then te.current_pos - 1 else te.current_pos := by
  unfold moveLogicallyFromCursor
  by_cases h : te.current_pos > 0 <;> simp [h]

theorem moveLogically_bounds (te : TextEdit) (dir : Direction)
    (hc : te.current_pos ≤ te.text_length) :
    moveLogicallyFromCursor te dir ≤ te.text_length
    ∧ (dir = Direction.DIR_FORWARD → te.current_pos ≤ moveLogicallyFromCursor te dir
        ∧ moveLogicallyFromCursor te dir ≤ te.current_pos + 1)
    ∧ (dir = Direction.DIR_BACK → moveLogicallyFromCursor te dir ≤ te.current_pos
        ∧ te.current_pos ≤ moveLogicallyFromCursor te dir + 1) := by
  cases dir with
  | DIR_FORWARD =>
    rw [moveLogically_fwd]
    refine ⟨?_, fun _ => ⟨?_, ?_⟩, fun h => by cases h⟩ <;> split <;> omega
  | DIR_BACK =>
    rw [moveLogically_back]
    refine ⟨?_, (fun h => by cases h), fun _ => ⟨?_, ?_⟩⟩ <;> split <;> omega

theorem deleteTarget_le (G : Glib) (te : TextEdit) (ty : DeleteType) (dir : Direction)
    (hc : te.current_pos ≤ te.text_length) (hs : te.text_length < SIZE_MAX) :
    deleteTarget G te ty dir ≤ te.text_length := by
  cases ty
  · exact (moveLogically_bounds te dir hc).1
  · exact (moveWord_bounds G te dir true hc hs).1

theorem toInt32_szSub_zero (c : Nat) (hc : c < SIZE_MOD) : toInt32 (szSub c c) = 0 := by
  rw [szSub_of_le (Nat.le_refl _) hc, Nat.sub_self]
  rfl

namespace Rep

variable {te : TextEdit} {hd tl : List Nat}

/-- The store after the loops of `deleteFromCursor`: the codepoints between the cursor and
the target are gone, the gap stands where they were. -/
theorem deleteStore_rep (h : Rep te hd tl) (hlen : te.text_length = hd.length + tl.length)
    (hcur : te.current_pos ≤ hd.length + tl.length)
    (hpt : te.point = posOf te hd tl te.current_pos
      ∨ (te.current_pos = hd.length ∧ te.point = te.gapstart))
    (hsmall : hd.length + tl.length < 2147483648) (t : Nat) (ht : t ≤ hd.length + tl.length)
    (hne : t ≠ te.current_pos) :
    toInt32 (szSub t te.current_pos) ≠ 0
    ∧ Rep (deleteStore te (toInt32 (szSub t te.current_pos)))
        ((hd ++ tl).take (min te.current_pos t)) ((hd ++ tl).drop (max te.current_pos t))
    ∧ (deleteStore te (toInt32 (szSub t te.current_pos))).point
        = (deleteStore te (toInt32 (szSub t te.current_pos))).gapstart
    ∧ (deleteStore te (toInt32 (szSub t te.current_pos))).current_pos = min te.current_pos t
    ∧ (deleteStore te (toInt32 (szSub t te.current_pos))).text_length
        = hd.length + tl.length - (max te.current_pos t - min te.current_pos t)
    ∧ (deleteStore te (toInt32 (szSub t te.current_pos))).bufend = te.bufend
    ∧ Frame te (deleteStore te (toInt32 (szSub t te.current_pos))) := by
  obtain ⟨hrep2, -, -, -⟩ := h.moveGap te.current_pos hcur hpt
  have hfr2 := frame_moveGap te
  obtain ⟨hbe2, hlen2, hcur2, -⟩ := moveGap_frame te
  have hDlen : (hd ++ tl).length = hd.length + tl.length := by simp
  rcases Nat.lt_or_gt_of_ne hne with hlt | hgt
  · -- backward
    have hcount : toInt32 (szSub t te.current_pos) = -((te.current_pos - t : Nat) : Int) := by
      rw [szSub_wrap hlt (by simp only [SIZE_MOD]; omega)]
      exact toInt32_neg (by omega) (by omega)
    rw [hcount]
    have h1 : (-((te.current_pos - t : Nat) : Int)).toNat = 0 := by omega
    have h2 : (-(-((te.current_pos - t : Nat) : Int))).toNat = te.current_pos - t := by omega
    have hmin : min te.current_pos t = t := by omega
    have hmax : max te.current_pos t = te.current_pos := by omega
    rw [hmin, hmax]
    obtain ⟨r1, r2, r3, r4, r5, r6⟩ := deleteBack_loop_spec (te.current_pos - t)
      (moveGapToCursor te) ((hd ++ tl).take te.current_pos) hrep2
      (by rw [List.length_take, hDlen]; omega) (by rw [hlen2, hlen]; omega)
      (by rw [hlen2, hlen]; simp only [SIZE_MOD]; omega) (by rw [hcur2]; omega)
      (by rw [hcur2]; simp only [SIZE_MOD]; omega)
    have htk : ((hd ++ tl).take te.current_pos).take
        (((hd ++ tl).take te.current_pos).length - (te.current_pos - t)) = (hd ++ tl).take t := by
      rw [List.take_take, List.length_take, hDlen]
      congr 1
      omega
    rw [htk] at r1
    have s0 : SameStore (deleteBack_loop (te.current_pos - t) (moveGapToCursor te))
        (deleteStore te (-((te.current_pos - t : Nat) : Int))) := by
      unfold deleteStore
      simp only [h1, h2, deleteFwd_loop]
      exact ⟨rfl, rfl, rfl, rfl⟩
    have e0 : deleteStore te (-((te.current_pos - t : Nat) : Int))
        = { deleteBack_loop (te.current_pos - t) (moveGapToCursor te) with
            point := (deleteBack_loop (te.current_pos - t) (moveGapToCursor te)).gapstart } := by
      unfold deleteStore
      simp only [h1, h2, deleteFwd_loop]
    refine ⟨by omega, s0.rep r1, ?_, ?_, ?_, ?_, ?_⟩
    · rw [e0]
    · rw [e0]; show (deleteBack_loop _ _).current_pos = _
      rw [r3, hcur2]; omega
    · rw [e0]; show (deleteBack_loop _ _).text_length = _
      rw [r2, hlen2, hlen]
    · rw [e0]; show (deleteBack_loop _ _).bufend = _
      rw [r4, hbe2]
    · rw [e0]
      have f := hfr2.frame_trans r6
      exact ⟨f.area, f.masked, f.flags, f.editable, f.single_line_mode, f.accept_tabs,
        f.text_changes, f.screen_lines, f.screen_lines_dirty, f.current_sc_line,
        f.current_sc_linepos, f.view_top⟩
  · -- forward
    have hcount : toInt32 (szSub t te.current_pos) = ((t - te.current_pos : Nat) : Int) := by
      rw [szSub_of_le (by omega) (by simp only [SIZE_MOD]; omega)]
      exact toInt32_small (by omega)
    rw [hcount]
    have h1 : (((t - te.current_pos : Nat) : Int)).toNat = t - te.current_pos := by omega
    have h2 : (-((t - te.current_pos : Nat) : Int)).toNat = 0 := by omega
    have hmin : min te.current_pos t = te.current_pos := by omega
    have hmax : max te.current_pos t = t := by omega
    rw [hmin, hmax]
    obtain ⟨r1, r2, r3, r4, r5, r6⟩ := @deleteFwd_loop_spec ((hd ++ tl).take te.current_pos)
      (t - te.current_pos) (moveGapToCursor te) ((hd ++ tl).drop te.current_pos) hrep2
      (by rw [List.length_drop, hDlen]; omega) (by rw [hlen2, hlen]; omega)
      (by rw [hlen2, hlen]; simp only [SIZE_MOD]; omega)
    have hdr : ((hd ++ tl).drop te.current_pos).drop (t - te.current_pos) = (hd ++ tl).drop t := by
      rw [List.drop_drop]
      congr 1
      omega
    rw [hdr] at r1
    have e0 : deleteStore te ((t - te.current_pos : Nat) : Int)
        = { deleteFwd_loop (t - te.current_pos) (moveGapToCursor te) with
            point := (deleteFwd_loop (t - te.current_pos) (moveGapToCursor te)).gapstart } := by
      unfold deleteStore
      simp only [h1, h2, deleteBack_loop]
    have s0 : SameStore (deleteFwd_loop (t - te.current_pos) (moveGapToCursor te))
        (deleteStore te ((t - te.current_pos : Nat) : Int)) := by
      rw [e0]
      exact ⟨rfl, rfl, rfl, rfl⟩
    refine ⟨by omega, s0.rep r1, ?_, ?_, ?_, ?_, ?_⟩
    · rw [e0]
    · rw [e0]; show (deleteFwd_loop _ _).current_pos = _
      rw [r3, hcur2]
    · rw [e0]; show (deleteFwd_loop _ _).text_length = _
      rw [r2, hlen2, hlen]
    · rw [e0]; show (deleteFwd_loop _ _).bufend = _
      rw [r4, hbe2]
    · rw [e0]
      have f := hfr2.frame_trans r6
      exact ⟨f.area, f.masked, f.flags, f.editable, f.single_line_mode, f.accept_tabs,
        f.text_changes, f.screen_lines, f.screen_lines_dirty, f.current_sc_line,
        f.current_sc_linepos, f.view_top⟩

end Rep

theorem deleteFromCursor_locked (G : Glib) (te : TextEdit) (ty : DeleteType) (dir : Direction)
    (he : te.editable = false) : deleteFromCursor G te ty dir = te := by
  unfold deleteFromCursor
  simp [he]

theorem deleteFromCursor_noop (G : Glib) (te : TextEdit) (ty : DeleteType) (dir : Direction)
    (he : te.editable = true) (hc : te.current_pos < SIZE_MOD)
    (h : deleteTarget G te ty dir = te.current_pos) :
    deleteFromCursor G te ty dir = assertUpdatedScreenLines G te := by
  have sd := sameDoc_assertUpdated G te
  rw [deleteFromCursor_eq G te ty dir he, sd.deleteTarget_eq, sd.current_pos, h,
    toInt32_szSub_zero _ hc]
  simp

namespace Doc

variable {G : Glib} {te : TextEdit} {hd tl : List Nat}

/-- `deleteFromCursor` with a target different from the cursor, with or without a viewport:
the codepoints between the cursor and the target are removed, the cursor is the smaller of
the two. -/
theorem delete_doc (G : Glib) (d : Doc te hd tl) (hsmall : hd.length + tl.length < 2147483648)
    (he : te.editable = true) (ty : DeleteType) (dir : Direction)
    (hne : deleteTarget G te ty dir ≠ te.current_pos) :
    Doc (deleteFromCursor G te ty dir)
      ((hd ++ tl).take (min te.current_pos (deleteTarget G te ty dir)))
      ((hd ++ tl).drop (max te.current_pos (deleteTarget G te ty dir)))
    ∧ (deleteFromCursor G te ty dir).current_pos = min te.current_pos (deleteTarget G te ty dir)
    ∧ (deleteFromCursor G te ty dir).text_length
        = hd.length + tl.length
          - (max te.current_pos (deleteTarget G te ty dir)
            - min te.current_pos (deleteTarget G te ty dir))
    ∧ (deleteFromCursor G te ty dir).text_changes = te.text_changes + 1
    ∧ (deleteFromCursor G te ty dir).editable = te.editable
    ∧ (deleteFromCursor G te ty dir).flags = te.flags
    ∧ (deleteFromCursor G te ty dir).masked = te.masked
    ∧ (deleteFromCursor G te ty dir).single_line_mode = te.single_line_mode
    ∧ (deleteFromCursor G te ty dir).accept_tabs = te.accept_tabs
    ∧ (deleteFromCursor G te ty dir).area = te.area := by
  have sd := sameDoc_assertUpdated G te
  have d1 := sd.same_doc d
  have ht : deleteTarget G te ty dir ≤ hd.length + tl.length := by
    rw [← d.len]
    exact deleteTarget_le G te ty dir (by rw [d.len]; exact d.cur)
      (by rw [d.len]; simp only [SIZE_MAX]; omega)
  rw [deleteFromCursor_eq G te ty dir he, sd.deleteTarget_eq]
  rw [← sd.current_pos, ← sd.text_changes, ← sd.editable, ← sd.flags,
    ← sd.masked, ← sd.single_line_mode, ← sd.accept_tabs, ← sd.area] at *
  generalize deleteTarget G te ty dir = t at *
  generalize assertUpdatedScreenLines G te = te1 at *
  obtain ⟨hc0, hrep4, hpt4, hcur4, hlen4, -, hfr⟩ :=
    d1.rep.deleteStore_rep d1.len d1.cur d1.pt hsmall t ht hne
  rw [if_pos hc0]
  have hDlen : (hd ++ tl).length = hd.length + tl.length := by simp
  have hc1 := d1.cur
  have hl1 : ((hd ++ tl).take (min te1.current_pos t)).length = min te1.current_pos t := by
    rw [List.length_take, hDlen]; omega
  have hl2 : ((hd ++ tl).drop (max te1.current_pos t)).length
      = hd.length + tl.length - max te1.current_pos t := by
    rw [List.length_drop, hDlen]
  have d4 : Doc (deleteStore te1 (toInt32 (szSub t te1.current_pos)))
      ((hd ++ tl).take (min te1.current_pos t)) ((hd ++ tl).drop (max te1.current_pos t)) :=
    ⟨hrep4, by rw [hlen4, hl1, hl2]; omega, by rw [hcur4, hl1, hl2]; omega,
      Or.inr ⟨by rw [hcur4, hl1], hpt4⟩⟩
  have sd6 := (sameDoc_updateScreenLinesRange G (deleteStore te1 (toInt32 (szSub t te1.current_pos)))
      (Nat.min te1.gapstart (deleteStore te1 (toInt32 (szSub t te1.current_pos))).gapstart)
      (Nat.max te1.gapend (deleteStore te1 (toInt32 (szSub t te1.current_pos))).gapend)).same_trans
    (sameDoc_updateScreenCursor G _)
  refine ⟨(sd6.same_doc d4).doc_set_text_changes _, ?_, ?_, ?_, ?_, ?_, ?_, ?_, ?_, ?_⟩
  · show (updateScreenCursor G _).current_pos = _
    rw [sd6.current_pos, hcur4]
  · show (updateScreenCursor G _).text_length = _
    rw [sd6.text_length, hlen4]
  · show (updateScreenCursor G _).text_changes + 1 = _
    rw [sd6.text_changes, hfr.text_changes]
  · show (updateScreenCursor G _).editable = _
    rw [sd6.editable, hfr.editable]
  · show (updateScreenCursor G _).flags = _
    rw [sd6.flags, hfr.flags]
  · show (updateScreenCursor G _).masked = _
    rw [sd6.masked, hfr.masked]
  · show (updateScreenCursor G _).single_line_mode = _
    rw [sd6.single_line_mode, hfr.single_line_mode]
  · show (updateScreenCursor G _).accept_tabs = _
    rw [sd6.accept_tabs, hfr.accept_tabs]
  · show (updateScreenCursor G _).area = _
    rw [sd6.area, hfr.area]

end Doc

namespace Lay

variable {G : Glib} {te : TextEdit} {hd tl : List Nat} {ar : Area}

/-- `deleteFromCursor` with a target different from the cursor on a document with an up to
date cache: the invariant holds for the document without the codepoints between the cursor
and the target. -/
theorem delete_inv (hm : WidthMono G) (lay : Lay G te hd tl ar)
    (hsmall : hd.length + tl.length < 2147483648)
    (he : te.editable = true) (ty : DeleteType) (dir : Direction)
    (hne : deleteTarget G te ty dir ≠ te.current_pos) :
    Inv G (deleteFromCursor G te ty dir)
      ((hd ++ tl).take (min te.current_pos (deleteTarget G te ty dir)))
      ((hd ++ tl).drop (max te.current_pos (deleteTarget G te ty dir))) ar
    ∧ (deleteFromCursor G te ty dir).screen_lines_dirty = false := by
  obtain ⟨inv1, hd1⟩ := lay.lay_assertUpdated
  have sd := sameDoc_assertUpdated G te
  have ht : deleteTarget G te ty dir ≤ hd.length + tl.length := by
    rw [← lay.len]
    exact deleteTarget_le G te ty dir (by rw [lay.len]; exact lay.cur)
      (by rw [lay.len]; simp only [SIZE_MAX]; omega)
  rw [deleteFromCursor_eq G te ty dir he, sd.deleteTarget_eq]
  rw [← sd.current_pos] at *
  generalize deleteTarget G te ty dir = t at *
  generalize assertUpdatedScreenLines G te = te1 at *
  obtain ⟨hc0, hrep4, hpt4, hcur4, hlen4, hbuf4, hfr⟩ :=
    inv1.rep.deleteStore_rep inv1.len inv1.cur inv1.pt hsmall t ht hne
  rw [if_pos hc0]
  have hDlen : (hd ++ tl).length = hd.length + tl.length := by simp
  have hc1 := inv1.cur
  have hl1 : ((hd ++ tl).take (min te1.current_pos t)).length = min te1.current_pos t := by
    rw [List.length_take, hDlen]; omega
  have hl2 : ((hd ++ tl).drop (max te1.current_pos t)).length
      = hd.length + tl.length - max te1.current_pos t := by
    rw [List.length_drop, hDlen]
  have harea4 : (deleteStore te1 (toInt32 (szSub t te1.current_pos))).area = some ar := by
    rw [hfr.area]; exact inv1.area
  have er := EditRel.of_replace [] (min te1.current_pos t) (max te1.current_pos t) inv1.rep
    (by rw [List.append_nil]; exact hrep4) (by omega) (by omega) hbuf4.symm
  rw [List.append_nil, ← hrep4.gs] at er
  have h5 := updateScreenLinesRange_eq G (deleteStore te1 (toInt32 (szSub t te1.current_pos)))
    (Nat.min te1.gapstart (deleteStore te1 (toInt32 (szSub t te1.current_pos))).gapstart)
    (Nat.max te1.gapend (deleteStore te1 (toInt32 (szSub t te1.current_pos))).gapend)
  rw [er.range_correct G hm ar harea4 inv1.wide (by
    rw [hfr.screen_lines, hfr.masked]
    exact inv1.lines hd1)] at h5
  obtain ⟨inv6, h6⟩ := Inv.finish (G := G) hrep4 harea4 inv1.wide
    (by rw [hlen4, hl1, hl2]; omega) (by rw [hcur4, hl1, hl2]; omega)
    (Or.inr ⟨by rw [hcur4, hl1], hpt4⟩) _ h5
  exact ⟨inv6.inv_set_text_changes _, h6.1⟩

end Lay

end

section

/-! ### Reading the text -/

theorem utf8enc_ne_zero (c : Nat) (hv : validCp c) : ∀ b, b ∈ utf8enc c → b ≠ 0 := by
  intro b hb
  obtain ⟨h0, h1⟩ := hv
  unfold utf8enc at hb
  split_ifs at hb <;> simp at hb <;> omega

theorem encodeUtf8_ne_zero (cps : List Nat) (hv : ∀ c, c ∈ cps → validCp c) :
    ∀ b, b ∈ encodeUtf8 cps → b ≠ 0 := by
  intro b hb
  unfold encodeUtf8 at hb
  obtain ⟨c, hc, hb2⟩ := List.mem_flatMap.1 hb
  exact utf8enc_ne_zero c (hv c hc) b hb2

theorem encodeUtf8_snoc_LF (tl : List Nat) : encodeUtf8 (tl ++ [LF]) = encodeUtf8 tl ++ [LF] := by
  rw [encodeUtf8_append]
  rfl

/-- The string read from the start of the array is the stored bytes, when they are followed
by a NUL and contain none. -/
theorem cstring_seg (buf : Nat → Nat) (l : List Nat) (n : Nat) (hs : Seg buf 0 l)
    (hnz : ∀ b, b ∈ l → b ≠ 0) (h0 : buf l.length = 0) (hn : l.length < n) :
    cstring buf n = l := by
  obtain ⟨m, rfl⟩ : ∃ m, n = l.length + (m + 1) := ⟨n - l.length - 1, by omega⟩
  unfold cstring
  have h1 : (List.range l.length).map buf = l := by
    apply List.ext_getElem
    · simp
    · intro i hi1 hi2
      have := hs i hi2
      rw [List.getD_eq_getElem _ _ hi2] at this
      simpa using this
  rw [List.range_add, List.map_append, h1, List.takeWhile_append_of_pos (by
    intro a ha
    simpa using hnz a ha)]
  rw [List.range_succ_eq_map, List.map_cons, List.map_cons, List.takeWhile_cons_of_neg (by
    simp [h0])]
  simp

namespace Doc

variable {te : TextEdit} {hd tl : List Nat}

/-- `getText`: the gap is collapsed at the end of the buffer, the returned string is the
encoding of the document, and the document, the cursor and the position of the point are as
before. -/
theorem getText_spec (d : Doc te hd tl) :
    Doc (getText te).1 (hd ++ tl) []
    ∧ (getText te).2 = encodeUtf8 (hd ++ tl)
    ∧ (getText te).1.gapend = (getText te).1.bufend - 1
    ∧ (getText te).1.buffer ((getText te).1.bufend - 1) = LF
    ∧ (getText te).1.bufend = te.bufend
    ∧ (getText te).1.text_length = te.text_length
    ∧ (getText te).1.current_pos = te.current_pos
    ∧ (getText te).1.text_changes = te.text_changes
    ∧ (getText te).1.screen_lines_dirty = true
    ∧ (getText te).1.buffer (encodeUtf8 (hd ++ tl)).length = 0 := by
  have h := d.rep
  have hgap := h.gap
  have hgs := h.gs
  have hbe := h.be
  have htail := h.tail
  rw [encodeUtf8_snoc_LF] at hbe htail
  rw [List.length_append, List.length_singleton] at hbe
  rw [Seg_append] at htail
  have hn : te.bufend - te.gapend - 1 = (encodeUtf8 tl).length := by omega
  have hlf : te.buffer (te.bufend - 1) = LF := by
    have := htail.2 0 (by simp)
    simp only [Nat.add_zero, List.getD_cons_zero] at this
    rw [← this]
    congr 1
    omega
  -- the new array
  have hhead2 : Seg (poke (g_memmove te.buffer te.gapstart te.gapend (te.bufend - te.gapend - 1))
      (te.gapstart + (te.bufend - te.gapend - 1)) 0) 0 (encodeUtf8 (hd ++ tl)) := by
    rw [encodeUtf8_append, Seg_append]
    constructor
    · apply Seg_poke_other _ _ _ (Or.inr (by omega))
      exact Seg_memmove_other _ _ _ h.head (Or.inl (by omega))
    · apply Seg_poke_other _ _ _ (Or.inr (by omega))
      rw [Nat.zero_add, ← hgs]
      exact Seg_memmove_dst _ _ htail.1 (by omega)
  have hlf2 : poke (g_memmove te.buffer te.gapstart te.gapend (te.bufend - te.gapend - 1))
      (te.gapstart + (te.bufend - te.gapend - 1)) 0 (te.bufend - 1) = LF := by
    unfold poke g_memmove
    rw [if_neg (by omega), if_neg (by omega)]
    exact hlf
  have hnul : poke (g_memmove te.buffer te.gapstart te.gapend (te.bufend - te.gapend - 1))
      (te.gapstart + (te.bufend - te.gapend - 1)) 0 (encodeUtf8 (hd ++ tl)).length = 0 := by
    unfold poke
    rw [if_pos (by rw [encodeUtf8_append, List.length_append]; omega)]
  have hvalid : ∀ c, c ∈ hd ++ tl → validCp c := valid_append h.vhd h.vtl
  have hrep2 : Rep (getText te).1 (hd ++ tl) [] := by
    refine ⟨hhead2, ?_, ?_, ?_, ?_, hvalid, by simp⟩
    · show te.gapstart + (te.bufend - te.gapend - 1) = _
      rw [encodeUtf8_append, List.length_append]; omega
    · show te.gapstart + (te.bufend - te.gapend - 1) < te.bufend - 1
      omega
    · show Seg _ (te.bufend - 1) (encodeUtf8 ([] ++ [LF]))
      intro i hi
      have hi0 : i = 0 := by
        have : (encodeUtf8 ([] ++ [LF])).length = 1 := rfl
        omega
      subst hi0
      rw [Nat.add_zero]
      exact hlf2
    · show te.bufend = te.bufend - 1 + (encodeUtf8 ([] ++ [LF])).length
      have : (encodeUtf8 ([] ++ [LF])).length = 1 := rfl
      omega
  have hcur := d.cur
  refine ⟨⟨hrep2, ?_, ?_, ?_⟩, ?_, rfl, hlf2, rfl, rfl, rfl, rfl, rfl, hnul⟩
  · show te.text_length = _
    rw [d.len]; simp
  · show te.current_pos ≤ _
    simp only [List.length_append, List.length_nil]; omega
  · -- the point
    show (if decide (te.point ≥ te.gapend) = true then te.point - (te.gapend - te.gapstart)
        else te.point) = posOf (getText te).1 (hd ++ tl) [] te.current_pos
      ∨ (te.current_pos = (hd ++ tl).length
        ∧ (if decide (te.point ≥ te.gapend) = true then te.point - (te.gapend - te.gapstart)
          else te.point) = te.gapstart + (te.bufend - te.gapend - 1))
    have hDlen : (hd ++ tl).length = hd.length + tl.length := by simp
    rcases d.pt with hp | ⟨hc, hp⟩
    · by_cases h1 : te.current_pos < hd.length
      · have hlt := h.posOf_lt_gapstart h1
        rw [← hp] at hlt
        left
        rw [if_neg (by simp; omega), hp, Rep.posOf_head _ h1,
          Rep.posOf_head _ (by rw [hDlen]; omega), off_append_left _ _ _ (by omega)]
      · obtain ⟨j, hj⟩ : ∃ j, te.current_pos = hd.length + j := ⟨te.current_pos - hd.length, by omega⟩
        have hge := h.posOf_ge_gapend (k := te.current_pos) (by omega)
        rw [← hp] at hge
        rw [if_pos (by simpa using hge), hp, hj, Rep.posOf_tail]
        have hoff : off (tl ++ [LF]) j = off tl j := off_append_left _ _ _ (by omega)
        rw [hoff]
        by_cases h2 : j < tl.length
        · left
          rw [Rep.posOf_head _ (by rw [hDlen]; omega), off_append_right]
          omega
        · right
          have hjl : j = tl.length := by omega
          refine ⟨by rw [hDlen, hjl], ?_⟩
          rw [hjl, off_length]
          omega
    · rw [if_neg (by simp; omega), hp]
      by_cases h2 : tl = []
      · right
        subst h2
        refine ⟨by simpa using hc, ?_⟩
        simp only [encodeUtf8_nil, List.length_nil] at hn
        omega
      · left
        have hl : 0 < tl.length := List.length_pos.2 h2
        rw [hc, Rep.posOf_head _ (by rw [hDlen]; omega), off_append_left _ _ _ (Nat.le_refl _),
          off_length, hgs]
  · show cstring _ te.bufend = _
    apply cstring_seg _ _ _ hhead2 (encodeUtf8_ne_zero _ hvalid) hnul
    rw [encodeUtf8_append, List.length_append]
    omega

/-- Calling `getText` twice in a row returns the same string. -/
theorem getText_twice (d : Doc te hd tl) : (getText (getText te).1).2 = (getText te).2 := by
  obtain ⟨d2, h2, -⟩ := d.getText_spec
  obtain ⟨-, h3, -⟩ := d2.getText_spec
  rw [h3, h2, List.append_nil]

end Doc

end

section

/-! ### Moving the cursor -/

/-- The line found by the loop of `updateScreenCursor`: the line `i` whose codepoints include
the position, and the offset of the position in it. -/
theorem locLens_spec (pos : Nat) : ∀ (lens : List Nat) (acu line : Nat),
    acu ≤ pos → pos < acu + lens.sum →
    ∃ i, i < lens.length
      ∧ locLens pos lens acu line = (line + i, pos - (acu + (lens.take i).sum))
      ∧ acu + (lens.take i).sum ≤ pos
      ∧ pos < acu + (lens.take i).sum + lens.getD i 0 := by
  intro lens
  induction lens with
  | nil => intro acu line h1 h2; simp at h2; omega
  | cons n ns ih =>
    intro acu line h1 h2
    rw [List.sum_cons] at h2
    by_cases hc : acu ≤ pos ∧ pos < acu + n
    · refine ⟨0, by simp, ?_, ?_, ?_⟩
      · simp only [locLens, if_pos hc, List.take_zero, List.sum_nil, Nat.add_zero]
      · simpa using h1
      · simpa using hc.2
    · obtain ⟨i, hi, h3, h4, h5⟩ := ih (acu + n) (line + 1) (by omega) (by omega)
      refine ⟨i + 1, by simpa using hi, ?_, ?_, ?_⟩
      · simp only [locLens, if_neg hc, h3, List.take_succ_cons, List.sum_cons]
        congr 1
        · omega
        · omega
      · simp only [List.take_succ_cons, List.sum_cons]; omega
      · simp only [List.take_succ_cons, List.sum_cons, List.getD_cons_succ]; omega

theorem closeColumn_le (G : Glib) (te : TextEdit) (oldw bound : Nat) : ∀ (n ch i w : Nat),
    i ≤ bound → closeColumn_loop G te oldw bound n ch i w ≤ bound := by
  intro n
  induction n with
  | zero => intro ch i w h; exact h
  | succ n ih =>
    intro ch i w h
    simp only [closeColumn_loop]
    split
    · rename_i hc
      exact ih _ _ _ (by omega)
    · exact h

theorem getD_mem_of_lt (L : List Nat) (j : Nat) (hj : j < L.length) : L.getD j 0 ∈ L := by
  rw [List.getD_eq_getElem _ _ hj]
  exact List.getElem_mem hj

theorem szAdd_le_of (a r b K : Nat) (hr : r ≤ b) (h : a + b ≤ K) (hK : K < SIZE_MOD) :
    szAdd a r ≤ K := by
  rw [szAdd_of_lt (by omega)]
  omega

theorem moveCursorTarget_logical (G : Glib) (te : TextEdit) (dir : Direction) :
    moveCursorTarget G te CursorMovement.MOVE_LOGICAL_POSITIONS dir
      = moveLogicallyFromCursor te dir := rfl

theorem moveCursorTarget_words (G : Glib) (te : TextEdit) (dir : Direction) :
    moveCursorTarget G te CursorMovement.MOVE_WORDS dir = moveWordFromCursor G te dir false := rfl

theorem moveCursorTarget_lines_fwd (G : Glib) (te : TextEdit) :
    moveCursorTarget G te CursorMovement.MOVE_DISPLAY_LINES Direction.DIR_FORWARD
      = if te.current_sc_line + 1 < te.screen_lines.length then
          szAdd (szAdd te.current_pos
              (szSub (te.screen_lines.getD te.current_sc_line default).length
                te.current_sc_linepos))
            (closeColumn_loop G te
              (width G te (te.screen_lines.getD te.current_sc_line default).start
                te.current_sc_linepos)
              (szSub (te.screen_lines.getD (te.current_sc_line + 1) default).length 1)
              (szSub (te.screen_lines.getD (te.current_sc_line + 1) default).length 1)
              (te.screen_lines.getD (te.current_sc_line + 1) default).start 0 0)
        else te.current_pos := rfl

theorem moveCursorTarget_lines_back (G : Glib) (te : TextEdit) :
    moveCursorTarget G te CursorMovement.MOVE_DISPLAY_LINES Direction.DIR_BACK
      = if te.current_sc_line > 0 then
          szAdd (szSub (szSub te.current_pos te.current_sc_linepos)
              (te.screen_lines.getD (te.current_sc_line - 1) default).length)
            (closeColumn_loop G te
              (width G te (te.screen_lines.getD te.current_sc_line default).start
                te.current_sc_linepos)
              (szSub (te.screen_lines.getD (te.current_sc_line - 1) default).length 1)
              (szSub (te.screen_lines.getD (te.current_sc_line - 1) default).length 1)
              (te.screen_lines.getD (te.current_sc_line - 1) default).start 0 0)
        else te.current_pos := rfl

theorem moveCursorTarget_ends_fwd (G : Glib) (te : TextEdit) :
    moveCursorTarget G te CursorMovement.MOVE_DISPLAY_LINE_ENDS Direction.DIR_FORWARD
      = szAdd te.current_pos
          (szSub (szSub (te.screen_lines.getD te.current_sc_line default).length
            te.current_sc_linepos) 1) := rfl

theorem moveCursorTarget_ends_back (G : Glib) (te : TextEdit) :
    moveCursorTarget G te CursorMovement.MOVE_DISPLAY_LINE_ENDS Direction.DIR_BACK
      = szSub te.current_pos te.current_sc_linepos := rfl

/-- The position computed by `moveCursor` lies inside the document, for the four kinds of
movement and both directions, when the cache and the screen position of the cursor are up to
date. -/
theorem moveCursorTarget_le {G : Glib} {te : TextEdit} {hd tl : List Nat} {ar : Area}
    (inv : Inv G te hd tl ar) (hsmall : hd.length + tl.length < 2147483648)
    (hdirty : te.screen_lines_dirty = false)
    (step : CursorMovement) (dir : Direction) :
    moveCursorTarget G te step dir ≤ hd.length + tl.length := by
  have hlines := inv.lines hdirty
  have hsc := inv.sc
  have hcur := inv.cur
  have hsum := layout_sum G te.masked (ar.maxx - 1) _ (hd ++ tl ++ [LF]) (Nat.le_refl _)
  have hpos := layout_pos G te.masked (ar.maxx - 1) _ (hd ++ tl ++ [LF]) (Nat.le_refl _)
  generalize layout G te.masked (ar.maxx - 1) (hd ++ tl ++ [LF]) = lens at hlines hsc hsum hpos
  have hsum2 : lens.sum = hd.length + tl.length + 1 := by
    rw [hsum]; simp only [List.length_append, List.length_singleton]
  obtain ⟨i, hi, hloc, hlo, hhi⟩ := locLens_spec te.current_pos lens 0 0 (Nat.zero_le _)
    (by omega)
  rw [hloc] at hsc
  simp only [Nat.zero_add, Prod.mk.injEq] at hsc hlo hhi
  obtain ⟨hl, hlp⟩ := hsc
  have hlen : te.screen_lines.length = lens.length := by rw [hlines, render_length]
  have hget : ∀ j, j < lens.length → (te.screen_lines.getD j default).length = lens.getD j 0 := by
    intro j hj
    rw [hlines, render_getD _ _ _ hj]
  have hS1 : ∀ j, j < lens.length → ((lens.take j).sum + lens.getD j 0 ≤ hd.length + tl.length + 1
      ∧ 1 ≤ lens.getD j 0) := by
    intro j hj
    have h1 := take_sum_succ lens j hj
    have h2 := take_sum_le lens (j + 1)
    exact ⟨by omega, hpos _ (getD_mem_of_lt lens j hj)⟩
  have hM : hd.length + tl.length < SIZE_MOD := by simp only [SIZE_MOD]; omega
  have hM2 : hd.length + tl.length + 2 < SIZE_MOD := by simp only [SIZE_MOD]; omega
  have hi1 := hS1 i hi
  cases step with
  | MOVE_LOGICAL_POSITIONS =>
    rw [moveCursorTarget_logical, ← inv.len]
    exact (moveLogically_bounds te dir (by rw [inv.len]; exact hcur)).1
  | MOVE_WORDS =>
    rw [moveCursorTarget_words, ← inv.len]
    exact (moveWord_bounds G te dir false (by rw [inv.len]; exact hcur)
      (by rw [inv.len]; simp only [SIZE_MAX]; omega)).1
  | MOVE_DISPLAY_LINES =>
    cases dir with
    | DIR_FORWARD =>
      rw [moveCursorTarget_lines_fwd, hl, hlp, hlen]
      split
      · rename_i hnx
        have hi2 := hS1 (i + 1) hnx
        have hs2 := take_sum_succ lens i hi
        rw [hget i hi, hget (i + 1) hnx]
        have hA : szAdd te.current_pos (szSub (lens.getD i 0) (te.current_pos - (lens.take i).sum))
            = (lens.take (i + 1)).sum := by
          rw [szSub_of_le (by omega) (by omega), szAdd_of_lt (by omega)]
          omega
        have hB : szSub (lens.getD (i + 1) 0) 1 = lens.getD (i + 1) 0 - 1 :=
          szSub_of_le (by omega) (by omega)
        rw [hA, hB]
        exact szAdd_le_of _ _ (lens.getD (i + 1) 0 - 1) _
          (closeColumn_le G te _ _ _ _ _ _ (Nat.zero_le _)) (by omega) hM
      · exact hcur
    | DIR_BACK =>
      rw [moveCursorTarget_lines_back, hl, hlp]
      split
      · rename_i hpv
        obtain ⟨j, hj⟩ : ∃ j, i = j + 1 := ⟨i - 1, by omega⟩
        subst hj
        have hi0 := hS1 j (by omega)
        have hs2 := take_sum_succ lens j (by omega)
        rw [Nat.add_sub_cancel, hget j (by omega)]
        have hin : szSub te.current_pos (te.current_pos - (lens.take (j + 1)).sum)
            = (lens.take (j + 1)).sum := by
          rw [szSub_of_le (by omega) (by omega)]
          omega
        have hA : szSub (szSub te.current_pos (te.current_pos - (lens.take (j + 1)).sum))
            (lens.getD j 0) = (lens.take j).sum := by
          rw [hin, szSub_of_le (by omega) (by omega)]
          omega
        have hB : szSub (lens.getD j 0) 1 = lens.getD j 0 - 1 :=
          szSub_of_le (by omega) (by omega)
        rw [hA, hB]
        exact szAdd_le_of _ _ (lens.getD j 0 - 1) _
          (closeColumn_le G te _ _ _ _ _ _ (Nat.zero_le _)) (by omega) hM
      · exact hcur
  | MOVE_DISPLAY_LINE_ENDS =>
    cases dir with
    | DIR_FORWARD =>
      have hin : szSub (lens.getD i 0) (te.current_pos - (lens.take i).sum)
          = lens.getD i 0 - (te.current_pos - (lens.take i).sum) :=
        szSub_of_le (by omega) (by omega)
      rw [moveCursorTarget_ends_fwd, hl, hlp, hget i hi, hin,
        szSub_of_le (by omega) (by omega), szAdd_of_lt (by omega)]
      omega
    | DIR_BACK =>
      rw [moveCursorTarget_ends_back, hlp, szSub_of_le (by omega) (by omega)]
      omega

namespace Rep

variable {te : TextEdit} {hd tl : List Nat}

theorem next_at (h : Rep te hd tl) {p k : Nat}
    (hat : p = posOf te hd tl k ∨ (k = hd.length ∧ p = te.gapstart))
    (hk : k < hd.length + tl.length + 1) : nextChar te p = posOf te hd tl (k + 1) := by
  rcases hat with h1 | ⟨h1, h2⟩
  · rw [h1]; exact h.nextChar_posOf k hk
  · rw [h2, h1]; exact h.nextChar_gapstart

theorem prev_at (h : Rep te hd tl) {p k : Nat}
    (hat : p = posOf te hd tl (k + 1) ∨ (k + 1 = hd.length ∧ p = te.gapstart))
    (hk : k < hd.length + tl.length + 1) : prevChar te p = posOf te hd tl k := by
  rcases hat with h1 | ⟨h1, h2⟩
  · rw [h1]; exact h.prevChar_posOf k hk
  · rw [h2]; exact h.prevChar_gapstart k h1

theorem iter_next (h : Rep te hd tl) : ∀ (n p k : Nat),
    (p = posOf te hd tl k ∨ (k = hd.length ∧ p = te.gapstart)) →
    k + n ≤ hd.length + tl.length + 1 →
    ((nextChar te)^[n] p = posOf te hd tl (k + n)
      ∨ (k + n = hd.length ∧ (nextChar te)^[n] p = te.gapstart)) := by
  intro n
  induction n with
  | zero => intro p k hat _; exact hat
  | succ n ih =>
    intro p k hat hk
    rw [Function.iterate_succ_apply]
    have h1 := h.next_at hat (by omega)
    have h2 := ih (nextChar te p) (k + 1) (Or.inl h1) (by omega)
    rw [show k + (n + 1) = k + 1 + n by omega]
    exact h2

theorem iter_prev (h : Rep te hd tl) : ∀ (n p k : Nat),
    (p = posOf te hd tl (k + n) ∨ (k + n = hd.length ∧ p = te.gapstart)) →
    k + n ≤ hd.length + tl.length + 1 →
    ((prevChar te)^[n] p = posOf te hd tl k
      ∨ (k = hd.length ∧ (prevChar te)^[n] p = te.gapstart)) := by
  intro n
  induction n with
  | zero => intro p k hat _; exact hat
  | succ n ih =>
    intro p k hat hk
    rw [Function.iterate_succ_apply]
    have h1 := h.prev_at (k := k + n) hat (by omega)
    exact ih (prevChar te p) k (Or.inl h1) (by omega)

end Rep

theorem moveCursor_eq (G : Glib) (te : TextEdit) (step : CursorMovement) (dir : Direction) :
    moveCursor G te step dir
      = updateScreenCursor G { assertUpdatedScreenLines G te with
          current_pos := moveCursorTarget G (assertUpdatedScreenLines G te) step dir
          point := (nextChar (assertUpdatedScreenLines G te))^[
              moveCursorTarget G (assertUpdatedScreenLines G te) step dir
                - (assertUpdatedScreenLines G te).current_pos]
            ((prevChar (assertUpdatedScreenLines G te))^[
              (assertUpdatedScreenLines G te).current_pos
                - moveCursorTarget G (assertUpdatedScreenLines G te) step dir]
              (assertUpdatedScreenLines G te).point) } := rfl

namespace Inv

variable {G : Glib} {te : TextEdit} {hd tl : List Nat} {ar : Area}

theorem lay (inv : Inv G te hd tl ar) : Lay G te hd tl ar :=
  ⟨inv.rep, inv.len, inv.cur, inv.pt, inv.area, inv.wide, inv.lines⟩

theorem inv_doc (inv : Inv G te hd tl ar) : Doc te hd tl := ⟨inv.rep, inv.len, inv.cur, inv.pt⟩

/-- `moveCursor` keeps the invariant: the new cursor is the computed target, which lies inside
the document, the point follows it, and the document is not changed. -/
theorem moveCursor_spec (inv : Inv G te hd tl ar)
    (hsmall : hd.length + tl.length < 2147483648) (step : CursorMovement) (dir : Direction) :
    Inv G (moveCursor G te step dir) hd tl ar
    ∧ (moveCursor G te step dir).screen_lines_dirty = false
    ∧ (moveCursor G te step dir).current_pos
        = moveCursorTarget G (assertUpdatedScreenLines G te) step dir
    ∧ (moveCursor G te step dir).text_changes = te.text_changes
    ∧ (moveCursor G te step dir).text_length = te.text_length
    ∧ (moveCursor G te step dir).editable = te.editable
    ∧ (moveCursor G te step dir).flags = te.flags
    ∧ (moveCursor G te step dir).masked = te.masked
    ∧ (moveCursor G te step dir).single_line_mode = te.single_line_mode
    ∧ (moveCursor G te step dir).accept_tabs = te.accept_tabs := by
  obtain ⟨inv1, hd1, -⟩ := inv.inv_assertUpdated
  have sd := sameDoc_assertUpdated G te
  have ht := moveCursorTarget_le inv1 hsmall hd1 step dir
  rw [moveCursor_eq]
  rw [← sd.text_changes, ← sd.text_length, ← sd.editable, ← sd.flags, ← sd.masked,
    ← sd.single_line_mode, ← sd.accept_tabs]
  generalize moveCursorTarget G (assertUpdatedScreenLines G te) step dir = t at *
  generalize assertUpdatedScreenLines G te = te1 at *
  have hc1 := inv1.cur
  -- the point after the two loops
  have hpt : (nextChar te1)^[t - te1.current_pos] ((prevChar te1)^[te1.current_pos - t] te1.point)
        = posOf te1 hd tl t
      ∨ (t = hd.length ∧ (nextChar te1)^[t - te1.current_pos]
          ((prevChar te1)^[te1.current_pos - t] te1.point) = te1.gapstart) := by
    rcases Nat.le_total t te1.current_pos with hle | hle
    · have h0 : t - te1.current_pos = 0 := by omega
      rw [h0, Function.iterate_zero, id]
      exact inv1.rep.iter_prev (te1.current_pos - t) te1.point t
        (by rw [show t + (te1.current_pos - t) = te1.current_pos by omega]; exact inv1.pt)
        (by omega)
    · have h0 : te1.current_pos - t = 0 := by omega
      rw [h0, Function.iterate_zero, id]
      have := inv1.rep.iter_next (t - te1.current_pos) te1.point te1.current_pos inv1.pt
        (by omega)
      rw [show te1.current_pos + (t - te1.current_pos) = t by omega] at this
      exact this
  have s2 : SameStore te1 { te1 with
      current_pos := t
      point := (nextChar te1)^[t - te1.current_pos]
        ((prevChar te1)^[te1.current_pos - t] te1.point) } := ⟨rfl, rfl, rfl, rfl⟩
  have hl2 := inv1.lines hd1
  obtain ⟨inv6, h6a, h6b, h6c, h6d, h6e, h6f, h6g, h6h, h6i, -⟩ :=
    @Inv.finish G { te1 with
        current_pos := t
        point := (nextChar te1)^[t - te1.current_pos]
          ((prevChar te1)^[te1.current_pos - t] te1.point) } hd tl ar
      (s2.rep inv1.rep) inv1.area inv1.wide inv1.len ht
      (by rw [s2.posOf_eq]; exact hpt)
      { te1 with
        current_pos := t
        point := (nextChar te1)^[t - te1.current_pos]
          ((prevChar te1)^[te1.current_pos - t] te1.point) }
      (by
        rw [s2.render_eq]
        show _ = { te1 with
          current_pos := t
          point := (nextChar te1)^[t - te1.current_pos]
            ((prevChar te1)^[te1.current_pos - t] te1.point)
          screen_lines := render te1 hd tl 0 (layout G te1.masked (ar.maxx - 1) (hd ++ tl ++ [LF])) }
        rw [← hl2])
  exact ⟨inv6, h6a, h6b, h6c, h6d, h6e, h6f, h6g, h6h, h6i⟩

end Inv

end

section

/-! ### Initialising the buffer and revalidating the flags -/

theorem initBuffer_eq (G : Glib) (te : TextEdit) (size : Nat) :
    initBuffer G te size = updateScreenLines G (initStore te size) := rfl

theorem initStore_rep (te : TextEdit) (size : Nat) (hs : 2 ≤ size) :
    Rep (initStore te size) [] [] := by
  refine ⟨Seg_nil _ _, rfl, ?_, ?_, ?_, by simp, by simp⟩
  · show 0 < size - 1
    omega
  · show Seg (poke (fun _ => 0) (size - 1) LF) (size - 1) (encodeUtf8 ([] ++ [LF]))
    intro i hi
    have hi0 : i = 0 := by
      have : (encodeUtf8 ([] ++ [LF])).length = 1 := rfl
      omega
    subst hi0
    simp [poke]
    rfl
  · show size = size - 1 + (encodeUtf8 ([] ++ [LF])).length
    have : (encodeUtf8 ([] ++ [LF])).length = 1 := rfl
    omega

theorem layout_single (G : Glib) (masked : Bool) (mw : Nat) :
    layout G masked mw [LF] = [1] := by
  have h1 := brk_pos G masked mw [LF]
  have h2 := brk_le G masked mw [LF] (by simp)
  have h3 : brk G masked mw [LF] = 1 := by
    simp only [List.length_singleton] at h2
    omega
  rw [layout_cons G masked mw [LF] (by simp), h3]
  simp [layout_nil]

/-- `initBuffer` leaves an empty document: no codepoints, the cursor at 0. -/
theorem initBuffer_doc (G : Glib) (te : TextEdit) (size : Nat) (hs : 2 ≤ size) :
    Doc (initBuffer G te size) [] []
    ∧ (initBuffer G te size).current_pos = 0
    ∧ (initBuffer G te size).text_length = 0
    ∧ (initBuffer G te size).text_changes = te.text_changes
    ∧ (initBuffer G te size).editable = te.editable
    ∧ (initBuffer G te size).flags = te.flags
    ∧ (initBuffer G te size).masked = te.masked
    ∧ (initBuffer G te size).single_line_mode = te.single_line_mode
    ∧ (initBuffer G te size).accept_tabs = te.accept_tabs
    ∧ (initBuffer G te size).area = te.area
    ∧ (initBuffer G te size).screen_lines_dirty = te.screen_lines_dirty := by
  rw [initBuffer_eq]
  have sd := sameDoc_updateScreenLines G (initStore te size)
  have d0 : Doc (initStore te size) [] [] :=
    ⟨initStore_rep te size hs, rfl, Nat.le_refl _, Or.inr ⟨rfl, rfl⟩⟩
  exact ⟨sd.same_doc d0, rfl, rfl, rfl, rfl, rfl, rfl, rfl, rfl, rfl, rfl⟩

/-- `initBuffer` on a document with a viewport establishes the invariant for the empty
document. -/
theorem initBuffer_inv (G : Glib) (te : TextEdit) (size : Nat) (hs : 2 ≤ size) (ar : Area)
    (harea : te.area = some ar) (hw : 2 ≤ ar.maxx) :
    Inv G (initBuffer G te size) [] [] ar := by
  obtain ⟨d, -⟩ := initBuffer_doc G te size hs
  refine ⟨d.rep, d.len, d.cur, d.pt, harea, hw, ?_, ?_⟩
  · intro _
    rw [initBuffer_eq, updateScreenLines_eq,
      fullScreenLines_render G (initStore_rep te size hs) ar harea hw]
    exact (SameStore.render_eq ⟨rfl, rfl, rfl, rfl⟩ _ _).symm
  · have hc : (initBuffer G te size).current_pos = 0 := rfl
    have h1 : (initBuffer G te size).current_sc_line = 0 := rfl
    have h2 : (initBuffer G te size).current_sc_linepos = 0 := rfl
    rw [hc, h1, h2, show ([] : List Nat) ++ [] ++ [LF] = [LF] from rfl, layout_single]
    rfl

theorem strlen_enc (cps : List Nat) (hv : ∀ c, c ∈ cps → validCp c) :
    strlen (encodeUtf8 cps) = (encodeUtf8 cps).length := by
  unfold strlen
  rw [List.takeWhile_eq_self_iff.2]
  intro b hb
  simpa using encodeUtf8_ne_zero cps hv b hb

theorem setText_some_eq (G : Glib) (te : TextEdit) (cps : List Nat)
    (hv : ∀ c, c ∈ cps → validCp c) :
    setText G te (some (encodeUtf8 cps))
      = insertTextAtCursor G (initBuffer G te ((encodeUtf8 cps).length + GAP_SIZE_EXPAND))
          (encodeUtf8 cps) (encodeUtf8 cps).length := by
  unfold setText
  simp only [strlen_enc cps hv]

theorem setText_none_eq (G : Glib) (te : TextEdit) :
    setText G te none = initBuffer G te GAP_SIZE_EXPAND := rfl

/-- `setText` of the encoding of `cps`: the document is `cps`, the cursor stands at its
end. -/
theorem setText_doc (G : Glib) (te : TextEdit) (cps : List Nat)
    (hv : ∀ c, c ∈ cps → validCp c) :
    Doc (setText G te (some (encodeUtf8 cps))) cps []
    ∧ (setText G te (some (encodeUtf8 cps))).current_pos = cps.length
    ∧ (setText G te (some (encodeUtf8 cps))).text_length = cps.length
    ∧ (setText G te (some (encodeUtf8 cps))).editable = te.editable
    ∧ (setText G te (some (encodeUtf8 cps))).flags = te.flags
    ∧ (setText G te (some (encodeUtf8 cps))).area = te.area := by
  rw [setText_some_eq G te cps hv]
  obtain ⟨d0, h1, h2, -, h4, h5, -, -, -, h9, -⟩ :=
    initBuffer_doc G te ((encodeUtf8 cps).length + GAP_SIZE_EXPAND)
      (by simp only [GAP_SIZE_EXPAND]; omega)
  obtain ⟨d1, i1, i2, -, i4, i5, -, -, -, i9⟩ := d0.insert_doc G cps hv
  rw [h1] at d1 i1
  rw [h2] at i2
  simp only [List.append_nil, List.take_zero, List.drop_zero, List.nil_append] at d1
  exact ⟨d1, by rw [i1]; omega, by rw [i2]; omega, by rw [i4, h4], by rw [i5, h5],
    by rw [i9, h9]⟩

/-- `setText` on a document with a viewport establishes the invariant for `cps`. -/
theorem setText_inv (G : Glib) (hm : WidthMono G) (te : TextEdit) (cps : List Nat)
    (hv : ∀ c, c ∈ cps → validCp c) (ar : Area)
    (harea : te.area = some ar) (hw : 2 ≤ ar.maxx) :
    Inv G (setText G te (some (encodeUtf8 cps))) cps [] ar := by
  rw [setText_some_eq G te cps hv]
  have inv0 := initBuffer_inv G te ((encodeUtf8 cps).length + GAP_SIZE_EXPAND)
      (by simp only [GAP_SIZE_EXPAND]; omega) ar harea hw
  obtain ⟨-, h1, -⟩ := initBuffer_doc G te ((encodeUtf8 cps).length + GAP_SIZE_EXPAND)
      (by simp only [GAP_SIZE_EXPAND]; omega)
  obtain ⟨inv1, -⟩ := Inv.insert_inv hm inv0.lay cps hv
  rw [h1] at inv1
  simpa using inv1

namespace Rep

variable {te : TextEdit} {hd tl : List Nat}

theorem posOf_last (h : Rep te hd tl) :
    posOf te hd tl (hd.length + tl.length) = te.bufend - 1 := by
  rw [posOf_tail, off_append_left _ _ _ (Nat.le_refl _), off_length, h.be, encodeUtf8_snoc_LF]
  simp

theorem bufend_gt (h : Rep te hd tl) : hd.length + tl.length < te.bufend := by
  have h1 := h.be
  have h2 := h.gs
  have h3 := h.gap
  rw [encodeUtf8_snoc_LF, List.length_append, List.length_singleton] at h1
  have h4 := encodeUtf8_length_ge hd
  have h5 := encodeUtf8_length_ge tl
  omega

/-- The validation loop of `setFlags` from the codepoint with index `k` on: the result is
`true` exactly when the flags reject none of the remaining codepoints. -/
theorem setFlags_loop_spec (G : Glib) (h : Rep te hd tl) : ∀ (n k : Nat),
    k ≤ hd.length + tl.length → hd.length + tl.length - k < n →
    setFlags_loop G te n (posOf te hd tl k)
      = !((hd ++ tl).drop k).any (fun x => flagsReject G te.flags x) := by
  intro n
  induction n with
  | zero => intro k _ h2; omega
  | succ n ih =>
    intro k hk hn
    have hDlen : (hd ++ tl).length = hd.length + tl.length := by simp
    simp only [setFlags_loop]
    by_cases hlt : k < hd.length + tl.length
    · have h1 : posOf te hd tl k < te.bufend - 1 := by
        rw [← h.posOf_last]
        exact h.posOf_lt hlt (by omega)
      have h2 : g_utf8_get_char te.buffer (posOf te hd tl k) = (hd ++ tl)[k] := by
        rw [h.get_char_posOf k (by omega), List.getD_eq_getElem _ _ (by simp; omega)]
        exact List.getElem_append_left (by rw [hDlen]; exact hlt)
      have hdrop : (hd ++ tl).drop k = (hd ++ tl)[k] :: (hd ++ tl).drop (k + 1) :=
        List.drop_eq_getElem_cons (by rw [hDlen]; exact hlt)
      rw [hdrop, List.any_cons, if_pos h1, h2, h.nextChar_posOf k (by omega),
        ih (k + 1) (by omega) (by omega)]
      cases flagsReject G te.flags (hd ++ tl)[k] <;> simp
    · have hk2 : k = hd.length + tl.length := by omega
      rw [if_neg (by rw [hk2, h.posOf_last]; omega), List.drop_of_length_le (by rw [hDlen]; omega)]
      rfl

end Rep

theorem setFlags_same (G : Glib) (te : TextEdit) (rv : Bool) : setFlags G te te.flags rv = te := by
  unfold setFlags
  simp

/-- `setFlags (f, true)` with `f` different from the current flags: the document is cleared
when `f` rejects one of its codepoints, and only the flags change when it rejects none. -/
theorem setFlags_revalidate (G : Glib) {te : TextEdit} {hd tl : List Nat} (h : Rep te hd tl)
    (f : Nat) (hne : f ≠ te.flags) :
    ((∃ x, x ∈ hd ++ tl ∧ flagsReject G f x = true) →
      setFlags G te f true = clear G { te with flags := f })
    ∧ ((∀ x, x ∈ hd ++ tl → flagsReject G f x = false) →
      setFlags G te f true = { te with flags := f }) := by
  have s0 : SameStore te { te with flags := f } := ⟨rfl, rfl, rfl, rfl⟩
  have h2 := s0.rep h
  have hloop := h2.setFlags_loop_spec G te.bufend 0 (Nat.zero_le _) (by
    have := h.bufend_gt
    omega)
  rw [← h2.getTextStart_eq, List.drop_zero] at hloop
  have hloop2 : setFlags_loop G { te with flags := f } te.bufend (getTextStart { te with flags := f })
      = !(hd ++ tl).any (fun x => flagsReject G f x) := hloop
  constructor
  · rintro ⟨x, hx, hr⟩
    have hf0 : f ≠ 0 := by
      intro h0
      rw [h0, flagsReject_zero] at hr
      cases hr
    have hany : (hd ++ tl).any (fun x => flagsReject G f x) = true :=
      List.any_eq_true.2 ⟨x, hx, hr⟩
    unfold setFlags
    rw [if_neg hne]
    simp only
    rw [hloop2, hany]
    simp [hf0]
  · intro hall
    have hany : (hd ++ tl).any (fun x => flagsReject G f x) = false := by
      rw [List.any_eq_false]
      intro x hx
      simp [hall x hx]
    unfold setFlags
    rw [if_neg hne]
    simp only
    rw [hloop2, hany]
    simp

end

section

/-! ### Screen lines tile the text, runs of calls -/

theorem stdGlib_widthMono : WidthMono stdGlib := by
  intro uc w w2 h
  show w + curses_onscreen_width uc w ≤ w2 + curses_onscreen_width uc w2
  unfold curses_onscreen_width
  split_ifs <;> omega

theorem take_sum_mono (L : List Nat) {i j : Nat} (h : i ≤ j) : (L.take i).sum ≤ (L.take j).sum := by
  have h1 : L.take i = (L.take j).take i := by
    rw [List.take_take, Nat.min_eq_left h]
  rw [h1]
  exact take_sum_le _ _

theorem take_sum_all (L : List Nat) : (L.take L.length).sum = L.sum := by
  rw [List.take_length]

theorem cover_exists (f : Nat → Nat) (p : Nat) : ∀ (lens : List Nat) (k : Nat),
    f k ≤ p → p < f (k + lens.sum) →
    ∃ i, i < lens.length ∧ f (k + (lens.take i).sum) ≤ p ∧ p < f (k + (lens.take (i + 1)).sum) := by
  intro lens
  induction lens with
  | nil => intro k h1 h2; simp at h2; omega
  | cons n ns ih =>
    intro k h1 h2
    by_cases hc : p < f (k + n)
    · exact ⟨0, by simp, by simpa using h1, by simpa using hc⟩
    · rw [List.sum_cons, ← Nat.add_assoc] at h2
      obtain ⟨i, hi, h3, h4⟩ := ih (k + n) (by omega) h2
      refine ⟨i + 1, by simpa using hi, ?_, ?_⟩
      · simpa [Nat.add_assoc] using h3
      · simpa [Nat.add_assoc] using h4

namespace Rep

variable {te : TextEdit} {hd tl : List Nat}

theorem posOf_mono (h : Rep te hd tl) {j k : Nat} (hjk : j ≤ k) (hk : k ≤ hd.length + tl.length + 1) :
    posOf te hd tl j ≤ posOf te hd tl k := by
  rcases Nat.eq_or_lt_of_le hjk with h1 | h1
  · rw [h1]
  · exact Nat.le_of_lt (h.posOf_lt h1 hk)

/-- The screen lines with the lengths `lens` tile the stored text, when the lengths are
positive and add up to the number of codepoints, the final line feed included. -/
theorem render_tiles (h : Rep te hd tl) (lens : List Nat) (hpos : ∀ x, x ∈ lens → 1 ≤ x)
    (hsum : lens.sum = hd.length + tl.length + 1) :
    Tiles te hd tl (render te hd tl 0 lens) := by
  have hne : lens ≠ [] := by
    intro h0; rw [h0] at hsum; simp at hsum
  have hlen : 0 < lens.length := List.length_pos.2 hne
  have hget : ∀ i, i < lens.length → (render te hd tl 0 lens).getD i default
      = ⟨posOf te hd tl ((lens.take i).sum), posOf te hd tl ((lens.take (i + 1)).sum),
          lens.getD i 0⟩ := by
    intro i hi
    rw [render_getD 0 i lens hi]
    simp
  have hrl : (render te hd tl 0 lens).length = lens.length := render_length 0 lens
  have hS : ∀ i, i < lens.length → (lens.take (i + 1)).sum = (lens.take i).sum + lens.getD i 0
      ∧ (lens.take (i + 1)).sum ≤ hd.length + tl.length + 1 ∧ 1 ≤ lens.getD i 0 := by
    intro i hi
    refine ⟨take_sum_succ lens i hi, ?_, hpos _ (getD_mem_of_lt lens i hi)⟩
    rw [← hsum]
    exact take_sum_le lens (i + 1)
  refine ⟨?_, ?_, ?_, ?_, ?_, ?_, ?_⟩
  · intro h0
    have := congrArg List.length h0
    rw [hrl, List.length_nil] at this
    omega
  · rw [hget 0 hlen, h.getTextStart_eq]
    simp
  · intro i hi
    rw [hrl] at hi
    rw [hget i (by omega), hget (i + 1) hi]
  · rw [hrl, hget (lens.length - 1) (by omega)]
    show posOf te hd tl ((lens.take (lens.length - 1 + 1)).sum) = te.bufend
    rw [show lens.length - 1 + 1 = lens.length by omega, take_sum_all, hsum, h.posOf_end]
  · intro p hp
    have h0 : posOf te hd tl 0 ≤ p := by
      rw [← h.getTextStart_eq]
      unfold getTextStart
      split
      · rcases hp with h1 | h1
        · omega
        · exact h1.1
      · exact Nat.zero_le _
    have h1 : p < posOf te hd tl (0 + lens.sum) := by
      rw [Nat.zero_add, hsum, h.posOf_end]
      have := h.gap
      have hb : te.gapend ≤ te.bufend := by
        have := h.be
        omega
      rcases hp with h2 | h2
      · omega
      · exact h2.2
    obtain ⟨i, hi, h3, h4⟩ := cover_exists (posOf te hd tl) p lens 0 h0 h1
    simp only [Nat.zero_add] at h3 h4
    refine ⟨i, by rw [hrl]; exact hi, by rw [hget i hi]; exact h3, by rw [hget i hi]; exact h4, ?_⟩
    intro j hj hj1 hj2
    rw [hrl] at hj
    rw [hget j hj] at hj1 hj2
    simp only at hj1 hj2
    rcases Nat.lt_trichotomy j i with h5 | h5 | h5
    · have := take_sum_mono lens (show j + 1 ≤ i by omega)
      have := h.posOf_mono this (by rw [← hsum]; exact take_sum_le lens i)
      omega
    · exact h5
    · have := take_sum_mono lens (show i + 1 ≤ j by omega)
      have := h.posOf_mono this (by rw [← hsum]; exact take_sum_le lens j)
      omega
  · intro i hi
    rw [hrl] at hi
    rw [hget i hi]
    obtain ⟨e1, e2, e3⟩ := hS i hi
    refine ⟨e3, ?_⟩
    show posOf te hd tl _ < posOf te hd tl _
    exact h.posOf_lt (by omega) e2
  · intro i hi
    rw [hrl] at hi
    rw [hget i hi]
    obtain ⟨e1, e2, e3⟩ := hS i hi
    refine ⟨(lens.take i).sum, ?_, rfl, ?_⟩
    · show (lens.take i).sum + lens.getD i 0 ≤ _
      omega
    · show posOf te hd tl _ = posOf te hd tl ((lens.take i).sum + lens.getD i 0)
      rw [e1]

end Rep

namespace Doc

variable {te : TextEdit} {hd tl : List Nat}

/-- `moveCursor` by logical positions or by words, with or without a viewport: the document
is not changed and the cursor stays inside it. -/
theorem moveCursor_simple (G : Glib) (d : Doc te hd tl)
    (hsmall : hd.length + tl.length < 2147483648) (step : CursorMovement) (dir : Direction)
    (hstep : step = CursorMovement.MOVE_LOGICAL_POSITIONS ∨ step = CursorMovement.MOVE_WORDS) :
    Doc (moveCursor G te step dir) hd tl
    ∧ (moveCursor G te step dir).editable = te.editable
    ∧ (moveCursor G te step dir).area = te.area
    ∧ (moveCursor G te step dir).text_length = te.text_length := by
  have sd := sameDoc_assertUpdated G te
  have d1 := sd.same_doc d
  rw [moveCursor_eq]
  rw [← sd.editable, ← sd.area, ← sd.text_length]
  have ht : moveCursorTarget G (assertUpdatedScreenLines G te) step dir
      ≤ hd.length + tl.length := by
    rw [← d1.len]
    rcases hstep with h1 | h1
    · rw [h1, moveCursorTarget_logical]
      exact (moveLogically_bounds _ dir (by rw [d1.len]; exact d1.cur)).1
    · rw [h1, moveCursorTarget_words]
      exact (moveWord_bounds G _ dir false (by rw [d1.len]; exact d1.cur)
        (by rw [d1.len]; simp only [SIZE_MAX]; omega)).1
  generalize moveCursorTarget G (assertUpdatedScreenLines G te) step dir = t at *
  generalize assertUpdatedScreenLines G te = te1 at *
  have hc1 := d1.cur
  have hpt : (nextChar te1)^[t - te1.current_pos] ((prevChar te1)^[te1.current_pos - t] te1.point)
        = posOf te1 hd tl t
      ∨ (t = hd.length ∧ (nextChar te1)^[t - te1.current_pos]
          ((prevChar te1)^[te1.current_pos - t] te1.point) = te1.gapstart) := by
    rcases Nat.le_total t te1.current_pos with hle | hle
    · have h0 : t - te1.current_pos = 0 := by omega
      rw [h0, Function.iterate_zero, id]
      exact d1.rep.iter_prev (te1.current_pos - t) te1.point t
        (by rw [show t + (te1.current_pos - t) = te1.current_pos by omega]; exact d1.pt)
        (by omega)
    · have h0 : te1.current_pos - t = 0 := by omega
      rw [h0, Function.iterate_zero, id]
      have := d1.rep.iter_next (t - te1.current_pos) te1.point te1.current_pos d1.pt
        (by omega)
      rw [show te1.current_pos + (t - te1.current_pos) = t by omega] at this
      exact this
  have s2 : SameStore te1 { te1 with
      current_pos := t
      point := (nextChar te1)^[t - te1.current_pos]
        ((prevChar te1)^[te1.current_pos - t] te1.point) } := ⟨rfl, rfl, rfl, rfl⟩
  have d2 : Doc { te1 with
      current_pos := t
      point := (nextChar te1)^[t - te1.current_pos]
        ((prevChar te1)^[te1.current_pos - t] te1.point) } hd tl :=
    ⟨s2.rep d1.rep, d1.len, ht, by rw [s2.posOf_eq]; exact hpt⟩
  have sd6 := sameDoc_updateScreenCursor G { te1 with
      current_pos := t
      point := (nextChar te1)^[t - te1.current_pos]
        ((prevChar te1)^[te1.current_pos - t] te1.point) }
  exact ⟨sd6.same_doc d2, sd6.editable, sd6.area, sd6.text_length⟩

/-- `deleteFromCursor` on an editable document below 2^31 codepoints, with or without a
viewport, whatever the target: the remaining document, in some position of the gap. -/
theorem delete_any (G : Glib) (d : Doc te hd tl) (hsmall : hd.length + tl.length < 2147483648)
    (he : te.editable = true) (ty : DeleteType) (dir : Direction) :
    deleteTarget G te ty dir ≤ hd.length + tl.length
    ∧ (∃ hd2 tl2, Doc (deleteFromCursor G te ty dir) hd2 tl2
        ∧ hd2 ++ tl2 = (hd ++ tl).take (min te.current_pos (deleteTarget G te ty dir))
            ++ (hd ++ tl).drop (max te.current_pos (deleteTarget G te ty dir)))
    ∧ (deleteFromCursor G te ty dir).current_pos = min te.current_pos (deleteTarget G te ty dir)
    ∧ (deleteFromCursor G te ty dir).text_length
        = hd.length + tl.length
          - (max te.current_pos (deleteTarget G te ty dir)
            - min te.current_pos (deleteTarget G te ty dir))
    ∧ (deleteFromCursor G te ty dir).editable = true
    ∧ (deleteFromCursor G te ty dir).area = te.area := by
  have ht : deleteTarget G te ty dir ≤ hd.length + tl.length := by
    rw [← d.len]
    exact deleteTarget_le G te ty dir (by rw [d.len]; exact d.cur)
      (by rw [d.len]; simp only [SIZE_MAX]; omega)
  by_cases hne : deleteTarget G te ty dir = te.current_pos
  · have hc := d.cur
    rw [deleteFromCursor_noop G te ty dir he (by simp only [SIZE_MOD]; omega) hne, hne]
    have sd := sameDoc_assertUpdated G te
    refine ⟨d.cur, ⟨hd, tl, sd.same_doc d, ?_⟩, ?_, ?_, ?_, sd.area⟩
    · rw [Nat.min_self, Nat.max_self, List.take_append_drop]
    · rw [sd.current_pos, Nat.min_self]
    · rw [sd.text_length, d.len, Nat.min_self, Nat.max_self]; omega
    · rw [sd.editable]; exact he
  · obtain ⟨d2, h1, h2, -, h4, -, -, -, -, h9⟩ := d.delete_doc G hsmall he ty dir hne
    exact ⟨ht, ⟨_, _, d2, rfl⟩, h1, h2, by rw [h4]; exact he, h9⟩

end Doc

theorem take_drop_len (D : List Nat) (lo hi : Nat) (h1 : lo ≤ hi) (h2 : hi ≤ D.length) :
    (D.take lo).length + (D.drop hi).length = D.length - (hi - lo) := by
  rw [List.length_take, List.length_drop]
  omega

/-- A run of calls on a document with a viewport keeps the invariant, and the content stays
the reference string. -/
theorem run_inv (G : Glib) (hm : WidthMono G) (ar : Area) : ∀ (acts : List Action)
    (te : TextEdit) (hd tl s : List Nat), Inv G te hd tl ar → s = hd ++ tl →
    te.editable = true → (∀ a, a ∈ acts → a.valid = true) →
    hd.length + tl.length + insertedCount acts < 2147483648 →
    ∃ hd2 tl2, Inv G (runActions G te s acts).1 hd2 tl2 ar
      ∧ hd2 ++ tl2 = (runActions G te s acts).2 := by
  intro acts
  induction acts with
  | nil =>
    intro te hd tl s inv hs _ _ _
    exact ⟨hd, tl, inv, hs.symm⟩
  | cons a as ih =>
    intro te hd tl s inv hs he hv hsz
    have hDlen : (hd ++ tl).length = hd.length + tl.length := by simp
    have hvs : ∀ a, a ∈ as → a.valid = true := fun a ha => hv a (List.mem_cons_of_mem _ ha)
    subst hs
    cases a with
    | insert cps =>
      have hvc : ∀ x, x ∈ cps → validCp x := by
        have := hv (Action.insert cps) (List.mem_cons_self _ _)
        simpa [Action.valid] using this
      obtain ⟨inv2, -, -, -, -, h6, -⟩ := Inv.insert_inv hm inv.lay cps hvc
      have hl := Inv.take_drop_length (hd ++ tl) cps te.current_pos (by rw [hDlen]; exact inv.cur)
      simp only [insertedCount] at hsz
      exact ih _ _ _ _ inv2 rfl (h6.trans he) hvs (by rw [hl, hDlen]; omega)
    | delete ty dir =>
      simp only [insertedCount] at hsz
      have hc := inv.cur
      by_cases hne : deleteTarget G te ty dir = te.current_pos
      · have hnoop := deleteFromCursor_noop G te ty dir he (by simp only [SIZE_MOD]; omega) hne
        obtain ⟨inv2, -, -, -, -, h6, -⟩ := inv.inv_assertUpdated
        have hr : refAction G te (hd ++ tl) (Action.delete ty dir) = hd ++ tl := by
          simp only [refAction, hne, Nat.min_self, Nat.max_self, List.take_append_drop]
        simp only [runActions, applyAction]
        rw [hr, hnoop]
        exact ih _ _ _ _ inv2 rfl (h6.trans he) hvs hsz
      · have hsmall : hd.length + tl.length < 2147483648 := by omega
        obtain ⟨inv2, -⟩ := Lay.delete_inv hm inv.lay hsmall he ty dir hne
        obtain ⟨-, -, -, -, h4, -⟩ := inv.inv_doc.delete_doc G hsmall he ty dir hne
        have ht := deleteTarget_le G te ty dir (by rw [inv.len]; exact inv.cur)
          (by rw [inv.len]; simp only [SIZE_MAX]; omega)
        rw [inv.len] at ht
        have hl := take_drop_len (hd ++ tl) (min te.current_pos (deleteTarget G te ty dir))
          (max te.current_pos (deleteTarget G te ty dir)) (by omega) (by rw [hDlen]; omega)
        exact ih _ _ _ _ inv2 rfl (h4.trans he) hvs (by rw [hl, hDlen]; omega)
    | move step dir =>
      simp only [insertedCount] at hsz
      obtain ⟨inv2, -, -, -, -, h6, -⟩ := inv.moveCursor_spec (by omega) step dir
      exact ih _ _ _ _ inv2 rfl (h6.trans he) hvs hsz

/-- A run of calls without movements by display lines, with or without a viewport: the
content stays the reference string. -/
theorem run_doc (G : Glib) : ∀ (acts : List Action)
    (te : TextEdit) (hd tl s : List Nat), Doc te hd tl → s = hd ++ tl →
    te.editable = true → (∀ a, a ∈ acts → a.valid = true) →
    (∀ a, a ∈ acts → a.simple = true) →
    hd.length + tl.length + insertedCount acts < 2147483648 →
    ∃ hd2 tl2, Doc (runActions G te s acts).1 hd2 tl2
      ∧ hd2 ++ tl2 = (runActions G te s acts).2 := by
  intro acts
  induction acts with
  | nil =>
    intro te hd tl s d hs _ _ _ _
    exact ⟨hd, tl, d, hs.symm⟩
  | cons a as ih =>
    intro te hd tl s d hs he hv hsi hsz
    have hDlen : (hd ++ tl).length = hd.length + tl.length := by simp
    have hvs : ∀ a, a ∈ as → a.valid = true := fun a ha => hv a (List.mem_cons_of_mem _ ha)
    have hss : ∀ a, a ∈ as → a.simple = true := fun a ha => hsi a (List.mem_cons_of_mem _ ha)
    subst hs
    cases a with
    | insert cps =>
      have hvc : ∀ x, x ∈ cps → validCp x := by
        have := hv (Action.insert cps) (List.mem_cons_self _ _)
        simpa [Action.valid] using this
      obtain ⟨d2, -, -, -, h5, -⟩ := d.insert_doc G cps hvc
      have hl := Inv.take_drop_length (hd ++ tl) cps te.current_pos (by rw [hDlen]; exact d.cur)
      simp only [insertedCount] at hsz
      exact ih _ _ _ _ d2 rfl (h5.trans he) hvs hss (by rw [hl, hDlen]; omega)
    | delete ty dir =>
      simp only [insertedCount] at hsz
      have hsmall : hd.length + tl.length < 2147483648 := by omega
      obtain ⟨ht, ⟨hd2, tl2, d2, hcont⟩, -, h3, h4, -⟩ := d.delete_any G hsmall he ty dir
      have hlen2 : hd2.length + tl2.length ≤ hd.length + tl.length := by
        rw [← d2.len, h3]; omega
      simp only [runActions, applyAction, refAction]
      exact ih _ hd2 tl2 _ d2 hcont.symm h4 hvs hss (by omega)
    | move step dir =>
      simp only [insertedCount] at hsz
      have hst : step = CursorMovement.MOVE_LOGICAL_POSITIONS ∨ step = CursorMovement.MOVE_WORDS := by
        have := hsi (Action.move step dir) (List.mem_cons_self _ _)
        cases step <;> simp [Action.simple] at this ⊢
      obtain ⟨d2, h2, -⟩ := d.moveCursor_simple G (by omega) step dir hst
      exact ih _ _ _ _ d2 rfl (h2.trans he) hvs hss hsz

end

section

/-! ### The properties of the specification -/

theorem docHi_doc : Doc docHi [104, 105] [] :=
  (setText_doc stdGlib (blank (some ⟨10, 3⟩) false) [104, 105] (by decide)).1

/-- C3: `insertTextAtCursor` of the UTF-8 encoding of `k` codepoints `cps` on a document with
the content `hd ++ tl` (`hd` before the gap, `tl` after it, wherever the gap is) and the
cursor at index `c` leaves a document whose content is the first `c` codepoints, then `cps`,
then the rest; the cursor is `c + k` and `text_length` has grown by `k`; `getText` returns the
encoding of that content.  Both branches of the operation (gap large enough, gap expanded)
are covered, with or without a viewport. -/
theorem insertTextAtCursor_splices_at_cursor (G : Glib) (te : TextEdit) (hd tl : List Nat)
    (hdoc : Doc te hd tl) (cps : List Nat) (hv : ∀ x, x ∈ cps → validCp x) :
    (∃ hd2 tl2, Doc (insertTextAtCursor G te (encodeUtf8 cps) (encodeUtf8 cps).length) hd2 tl2
      ∧ hd2 ++ tl2
        = (hd ++ tl).take te.current_pos ++ cps ++ (hd ++ tl).drop te.current_pos)
    ∧ (insertTextAtCursor G te (encodeUtf8 cps) (encodeUtf8 cps).length).current_pos
        = te.current_pos + cps.length
    ∧ (insertTextAtCursor G te (encodeUtf8 cps) (encodeUtf8 cps).length).text_length
        = hd.length + tl.length + cps.length
    ∧ (getText (insertTextAtCursor G te (encodeUtf8 cps) (encodeUtf8 cps).length)).2
        = encodeUtf8 ((hd ++ tl).take te.current_pos ++ cps ++ (hd ++ tl).drop te.current_pos) := by
  obtain ⟨d2, h1, h2, -⟩ := hdoc.insert_doc G cps hv
  exact ⟨⟨_, _, d2, rfl⟩, h1, by rw [h2, hdoc.len], d2.getText_spec.2.1⟩

/-- The document "hi" with the cursor at 2: inserting "!" gives cursor 3 and length 3. -/
theorem insertTextAtCursor_splices_at_cursor_witness :
    (∃ hd2 tl2, Doc (insertTextAtCursor stdGlib docHi (encodeUtf8 [33]) (encodeUtf8 [33]).length)
        hd2 tl2
      ∧ hd2 ++ tl2 = ([104, 105] ++ []).take docHi.current_pos ++ [33]
          ++ ([104, 105] ++ []).drop docHi.current_pos)
    ∧ (insertTextAtCursor stdGlib docHi (encodeUtf8 [33]) (encodeUtf8 [33]).length).current_pos
        = docHi.current_pos + [33].length
    ∧ (insertTextAtCursor stdGlib docHi (encodeUtf8 [33]) (encodeUtf8 [33]).length).text_length
        = [104, 105].length + ([] : List Nat).length + [33].length
    ∧ (getText (insertTextAtCursor stdGlib docHi (encodeUtf8 [33]) (encodeUtf8 [33]).length)).2
        = encodeUtf8 (([104, 105] ++ []).take docHi.current_pos ++ [33]
            ++ ([104, 105] ++ []).drop docHi.current_pos) :=
  insertTextAtCursor_splices_at_cursor stdGlib docHi [104, 105] [] docHi_doc [33] (by decide)

/-- C4: on an editable document with the content `hd ++ tl` (`N` codepoints, below 2^31) and
the cursor at `c`, `deleteFromCursor` computes the target `t` (for `DELETE_CHARS` the index
`c + 1` or `c - 1` clamped to `[0, N]`, for `DELETE_WORD_ENDS` the result of
`moveWordFromCursor (dir, true)`), `t` lies in `[0, N]`, and the document left has the content
without the codepoints between `c` and `t` and nothing else changed in it; the cursor is
`min c t` and `text_length` is `N - |t - c|`.  On "ab" with the cursor at 1, deleting one
character forward leaves the content "a", the cursor 1 and the length 1. -/
theorem deleteFromCursor_removes_cursor_to_target (G : Glib) (te : TextEdit) (hd tl : List Nat)
    (hdoc : Doc te hd tl) (hsmall : hd.length + tl.length < 2147483648)
    (he : te.editable = true) (type : DeleteType) (dir : Direction) :
    deleteTarget G te type dir ≤ hd.length + tl.length
    ∧ (∃ hd2 tl2, Doc (deleteFromCursor G te type dir) hd2 tl2
        ∧ hd2 ++ tl2 = (hd ++ tl).take (min te.current_pos (deleteTarget G te type dir))
            ++ (hd ++ tl).drop (max te.current_pos (deleteTarget G te type dir)))
    ∧ (deleteFromCursor G te type dir).current_pos
        = min te.current_pos (deleteTarget G te type dir)
    ∧ (deleteFromCursor G te type dir).text_length
        = hd.length + tl.length
          - (max te.current_pos (deleteTarget G te type dir)
            - min te.current_pos (deleteTarget G te type dir))
    ∧ deleteTarget G te DeleteType.DELETE_CHARS Direction.DIR_FORWARD
        = (if te.current_pos < hd.length + tl.length then te.current_pos + 1 else te.current_pos)
    ∧ deleteTarget G te DeleteType.DELETE_CHARS Direction.DIR_BACK
        = (if te.current_pos > 0 then te.current_pos - 1 else te.current_pos)
    ∧ deleteTarget G te DeleteType.DELETE_WORD_ENDS dir = moveWordFromCursor G te dir true
    ∧ (docAb.current_pos = 1
      ∧ (getText docAb).2 = [97, 98]
      ∧ (getText (deleteFromCursor stdGlib docAb DeleteType.DELETE_CHARS
          Direction.DIR_FORWARD)).2 = [97]
      ∧ (deleteFromCursor stdGlib docAb DeleteType.DELETE_CHARS
          Direction.DIR_FORWARD).current_pos = 1
      ∧ (deleteFromCursor stdGlib docAb DeleteType.DELETE_CHARS
          Direction.DIR_FORWARD).text_length = 1) := by
  obtain ⟨h1, h2, h3, h4, -⟩ := hdoc.delete_any G hsmall he type dir
  refine ⟨h1, h2, h3, h4, ?_, ?_, rfl, ?_⟩
  · show moveLogicallyFromCursor te Direction.DIR_FORWARD = _
    rw [moveLogically_fwd, hdoc.len]
  · exact moveLogically_back te
  · set_option maxRecDepth 1000000 in decide

/-- The document "hi" with the cursor at 2: deleting one character backward. -/
theorem deleteFromCursor_removes_cursor_to_target_witness :
    (deleteFromCursor stdGlib docHi DeleteType.DELETE_CHARS Direction.DIR_BACK).current_pos
        = min docHi.current_pos
            (deleteTarget stdGlib docHi DeleteType.DELETE_CHARS Direction.DIR_BACK)
    ∧ (deleteFromCursor stdGlib docHi DeleteType.DELETE_CHARS Direction.DIR_BACK).text_length
        = [104, 105].length + ([] : List Nat).length
          - (max docHi.current_pos
              (deleteTarget stdGlib docHi DeleteType.DELETE_CHARS Direction.DIR_BACK)
            - min docHi.current_pos
              (deleteTarget stdGlib docHi DeleteType.DELETE_CHARS Direction.DIR_BACK)) :=
  ⟨(deleteFromCursor_removes_cursor_to_target stdGlib docHi [104, 105] [] docHi_doc
      (by decide) (by decide) DeleteType.DELETE_CHARS Direction.DIR_BACK).2.2.1,
    (deleteFromCursor_removes_cursor_to_target stdGlib docHi [104, 105] [] docHi_doc
      (by decide) (by decide) DeleteType.DELETE_CHARS Direction.DIR_BACK).2.2.2.1⟩

/-- C5: on a document with the content `hd ++ tl`, `getText` returns the UTF-8 encoding of
the whole content as one string read from the start of the array, with a NUL right after it;
it leaves the gap collapsed at the end of the buffer (`gapend = bufend - 1`, the sentinel line
feed still the last byte), the same content (now all before the gap), the same `text_length`
and `current_pos`, and the point at the offset of the cursor; a second call returns the same
string. -/
theorem getText_returns_content_and_collapses_gap (te : TextEdit) (hd tl : List Nat)
    (hdoc : Doc te hd tl) :
    (getText te).2 = encodeUtf8 (hd ++ tl)
    ∧ (getText te).1.buffer (encodeUtf8 (hd ++ tl)).length = 0
    ∧ (getText te).1.gapend = (getText te).1.bufend - 1
    ∧ (getText te).1.buffer ((getText te).1.bufend - 1) = LF
    ∧ Doc (getText te).1 (hd ++ tl) []
    ∧ (getText te).1.text_length = te.text_length
    ∧ (getText te).1.current_pos = te.current_pos
    ∧ ((getText te).1.point = posOf (getText te).1 (hd ++ tl) [] te.current_pos
      ∨ (te.current_pos = hd.length + tl.length
        ∧ (getText te).1.point = (getText te).1.gapstart))
    ∧ (getText (getText te).1).2 = (getText te).2 := by
  obtain ⟨d2, h2, h3, h4, -, h6, h7, -, -, h10⟩ := hdoc.getText_spec
  refine ⟨h2, h10, h3, h4, d2, h6, h7, ?_, hdoc.getText_twice⟩
  have := d2.pt
  rw [h7] at this
  simpa using this

/-- The document "hi": `getText` returns "hi", twice. -/
theorem getText_returns_content_and_collapses_gap_witness :
    (getText docHi).2 = encodeUtf8 ([104, 105] ++ [])
    ∧ (getText (getText docHi).1).2 = (getText docHi).2 :=
  ⟨(getText_returns_content_and_collapses_gap docHi [104, 105] [] docHi_doc).1,
    (getText_returns_content_and_collapses_gap docHi [104, 105] [] docHi_doc).2.2.2.2.2.2.2.2⟩

/-- C7, counterexample: the document "abc" constructed with the numeric-only flag holds three
codepoints that the flag rejects; `setFlags (FLAG_NUMERIC, true)` returns at once because the
flags are the current ones, and the content stays "abc". -/
theorem setFlags_current_flags_keeps_rejected_content :
    docAbcNumeric.flags = FLAG_NUMERIC
    ∧ (getText docAbcNumeric).2 = [97, 98, 99]
    ∧ flagsReject stdGlib FLAG_NUMERIC 97 = true
    ∧ (getText (setFlags stdGlib docAbcNumeric FLAG_NUMERIC true)).2 = [97, 98, 99]
    ∧ (setFlags stdGlib docAbcNumeric FLAG_NUMERIC true).text_length = 3
    ∧ (setFlags stdGlib docAbcNumeric FLAG_NUMERIC true).current_pos = 3 := by
  set_option maxRecDepth 1000000 in decide

/-- C7, amended: on a document with the content `hd ++ tl`, `setFlags (f, true)` with a flag
set `f` different from the current flags clears the whole document (content empty, cursor 0,
length 0) when `f` rejects at least one codepoint of the content; for every `f` it leaves
the content, the cursor and the length unchanged when `f` rejects none; and with `f` equal to
the current flags it returns without any change. -/
theorem setFlags_revalidate_clears_when_flags_change (G : Glib) (te : TextEdit)
    (hd tl : List Nat) (hdoc : Doc te hd tl) (f : Nat) :
    ((f ≠ te.flags ∧ ∃ x, x ∈ hd ++ tl ∧ flagsReject G f x = true) →
      Doc (setFlags G te f true) [] []
      ∧ (setFlags G te f true).current_pos = 0
      ∧ (setFlags G te f true).text_length = 0
      ∧ (getText (setFlags G te f true)).2 = [])
    ∧ ((∀ x, x ∈ hd ++ tl → flagsReject G f x = false) →
      Doc (setFlags G te f true) hd tl
      ∧ (setFlags G te f true).current_pos = te.current_pos
      ∧ (setFlags G te f true).text_length = te.text_length
      ∧ (getText (setFlags G te f true)).2 = encodeUtf8 (hd ++ tl))
    ∧ (f = te.flags → setFlags G te f true = te) := by
  refine ⟨?_, ?_, ?_⟩
  · rintro ⟨hne, hex⟩
    rw [(setFlags_revalidate G hdoc.rep f hne).1 hex]
    obtain ⟨d2, h1, h2, -⟩ := initBuffer_doc G { te with flags := f } GAP_SIZE_EXPAND (by decide)
    exact ⟨d2, h1, h2, d2.getText_spec.2.1⟩
  · intro hall
    by_cases hne : f = te.flags
    · rw [hne, setFlags_same]
      exact ⟨hdoc, rfl, rfl, hdoc.getText_spec.2.1⟩
    · rw [(setFlags_revalidate G hdoc.rep f hne).2 hall]
      have s0 : SameStore te { te with flags := f } := ⟨rfl, rfl, rfl, rfl⟩
      have d2 : Doc { te with flags := f } hd tl :=
        ⟨s0.rep hdoc.rep, hdoc.len, hdoc.cur, by rw [s0.posOf_eq]; exact hdoc.pt⟩
      exact ⟨d2, rfl, rfl, d2.getText_spec.2.1⟩
  · intro h
    rw [h, setFlags_same]

/-- The document "hi" without flags: the numeric-only flag rejects "h", the document is
cleared. -/
theorem setFlags_revalidate_clears_when_flags_change_witness :
    (setFlags stdGlib docHi FLAG_NUMERIC true).current_pos = 0
    ∧ (setFlags stdGlib docHi FLAG_NUMERIC true).text_length = 0
    ∧ (getText (setFlags stdGlib docHi FLAG_NUMERIC true)).2 = [] :=
  ((setFlags_revalidate_clears_when_flags_change stdGlib docHi [104, 105] [] docHi_doc
    FLAG_NUMERIC).1 ⟨by decide, 104, by decide, by decide⟩).2

theorem lay_of_cache (G : Glib) {te : TextEdit} {hd tl : List Nat} {ar : Area}
    (hdoc : Doc te hd tl) (harea : te.area = some ar) (hw : 2 ≤ ar.maxx)
    (hcache : te.screen_lines = (updateScreenLines G te).screen_lines) : Lay G te hd tl ar := by
  refine ⟨hdoc.rep, hdoc.len, hdoc.cur, hdoc.pt, harea, hw, fun _ => ?_⟩
  rw [hcache]
  exact fullScreenLines_render G hdoc.rep ar harea hw

theorem inv_cache (G : Glib) {te : TextEdit} {hd tl : List Nat} {ar : Area}
    (inv : Inv G te hd tl ar) (hdirty : te.screen_lines_dirty = false) :
    te.screen_lines = (updateScreenLines G te).screen_lines := by
  rw [inv.lines hdirty]
  exact (fullScreenLines_render G inv.rep ar inv.area inv.wide).symm

theorem lay_cache (G : Glib) {te : TextEdit} {hd tl : List Nat} {ar : Area}
    (lay : Lay G te hd tl ar) (hdirty : te.screen_lines_dirty = false) :
    te.screen_lines = (updateScreenLines G te).screen_lines := by
  rw [lay.lines hdirty]
  exact (fullScreenLines_render G lay.rep ar lay.area lay.wide).symm

/-- The cache left by `deleteFromCursor` is the layout of the document it leaves. -/
theorem delete_cache (G : Glib) (hm : WidthMono G) {te : TextEdit} {hd tl : List Nat} {ar : Area}
    (hdoc : Doc te hd tl) (harea : te.area = some ar) (hw : 2 ≤ ar.maxx)
    (hcache : te.screen_lines = (updateScreenLines G te).screen_lines)
    (hsmall : hd.length + tl.length < 2147483648) (type : DeleteType) (dir : Direction) :
    ∃ hd2 tl2, Rep (deleteFromCursor G te type dir) hd2 tl2
      ∧ (deleteFromCursor G te type dir).area = some ar
      ∧ (deleteFromCursor G te type dir).screen_lines
        = render (deleteFromCursor G te type dir) hd2 tl2 0
            (layout G (deleteFromCursor G te type dir).masked (ar.maxx - 1) (hd2 ++ tl2 ++ [LF])) := by
  have lay := lay_of_cache G hdoc harea hw hcache
  have hc := hdoc.cur
  cases he : te.editable
  · rw [deleteFromCursor_locked G te type dir he]
    refine ⟨hd, tl, hdoc.rep, harea, ?_⟩
    rw [hcache]
    exact fullScreenLines_render G hdoc.rep ar harea hw
  · by_cases hne : deleteTarget G te type dir = te.current_pos
    · rw [deleteFromCursor_noop G te type dir he (by simp only [SIZE_MOD]; omega) hne]
      obtain ⟨lay1, hd1⟩ := lay.lay_assertUpdated
      exact ⟨hd, tl, lay1.rep, lay1.area, lay1.lines hd1⟩
    · obtain ⟨inv2, hd2⟩ := Lay.delete_inv hm lay hsmall he type dir hne
      exact ⟨_, _, inv2.rep, inv2.area, inv2.lines hd2⟩

/-- C1: on a document (content `hd ++ tl`, below 2^31 codepoints) with a viewport of width at
least 2 whose screen-line cache is the result of the full `updateScreenLines ()`, and with a
cell-width function that is monotone in the column, the cache left by `insertTextAtCursor` of
any valid UTF-8 text and by `deleteFromCursor` with any unit and direction is equal, as a list
of `(start, end, length)` lines, to the cache that the full `updateScreenLines ()` computes on
the buffer after the edit.  The insertion is covered whether the text fits the gap (the edit
then calls the incremental `updateScreenLines (begin, end)`) or not. -/
theorem incremental_update_equals_full_rebuild (G : Glib) (hm : WidthMono G) (te : TextEdit)
    (hd tl : List Nat) (ar : Area) (hdoc : Doc te hd tl) (harea : te.area = some ar)
    (hw : 2 ≤ ar.maxx) (hcache : te.screen_lines = (updateScreenLines G te).screen_lines)
    (hsmall : hd.length + tl.length < 2147483648)
    (cps : List Nat) (hv : ∀ x, x ∈ cps → validCp x) (type : DeleteType) (dir : Direction) :
    (insertTextAtCursor G te (encodeUtf8 cps) (encodeUtf8 cps).length).screen_lines
      = (updateScreenLines G
          (insertTextAtCursor G te (encodeUtf8 cps) (encodeUtf8 cps).length)).screen_lines
    ∧ (deleteFromCursor G te type dir).screen_lines
      = (updateScreenLines G (deleteFromCursor G te type dir)).screen_lines := by
  have lay := lay_of_cache G hdoc harea hw hcache
  refine ⟨?_, ?_⟩
  · obtain ⟨inv2, -, -, -, hd2, -⟩ := Inv.insert_inv hm lay cps hv
    exact inv_cache G inv2 hd2
  · obtain ⟨hd2, tl2, hrep, harea2, hl⟩ := delete_cache G hm hdoc harea hw hcache hsmall type dir
    rw [hl]
    exact (fullScreenLines_render G hrep ar harea2 hw).symm

theorem docHi_cache : docHi.screen_lines = (updateScreenLines stdGlib docHi).screen_lines :=
  inv_cache stdGlib
    (setText_inv stdGlib stdGlib_widthMono (blank (some ⟨10, 3⟩) false) [104, 105] (by decide)
      ⟨10, 3⟩ rfl (by decide)) (by decide)

/-- The document "hi" in a viewport of width 10: inserting "!" and deleting one character
backward. -/
theorem incremental_update_equals_full_rebuild_witness :
    (insertTextAtCursor stdGlib docHi (encodeUtf8 [33]) (encodeUtf8 [33]).length).screen_lines
      = (updateScreenLines stdGlib
          (insertTextAtCursor stdGlib docHi (encodeUtf8 [33]) (encodeUtf8 [33]).length)).screen_lines
    ∧ (deleteFromCursor stdGlib docHi DeleteType.DELETE_CHARS Direction.DIR_BACK).screen_lines
      = (updateScreenLines stdGlib
          (deleteFromCursor stdGlib docHi DeleteType.DELETE_CHARS Direction.DIR_BACK)).screen_lines :=
  incremental_update_equals_full_rebuild stdGlib stdGlib_widthMono docHi [104, 105] []
    ⟨10, 3⟩ docHi_doc rfl (by decide) docHi_cache (by decide) [33] (by decide)
    DeleteType.DELETE_CHARS Direction.DIR_BACK

/-- C2: for every finite sequence `acts` of `insertTextAtCursor` (of valid UTF-8 texts),
`deleteFromCursor` and `moveCursor` calls made on the empty document `clear te0` (editable,
the texts adding up to less than 2^31 codepoints), `getText` returns the UTF-8 encoding of the
list of codepoints obtained by applying the same logical edits, from the empty list, to the
reference model `refAction`: insert at the cursor index, remove the codepoints between the
cursor and the delete target.  The document has a viewport of width at least 2 and a
cell-width function monotone in the column, or else the sequence has no movement by display
lines (which reads screen lines that exist only with such a viewport). -/
theorem getText_equals_reference_model (G : Glib) (te0 : TextEdit) (acts : List Action)
    (he : te0.editable = true) (hvalid : ∀ a, a ∈ acts → a.valid = true)
    (hsize : insertedCount acts < 2147483648)
    (hview : (WidthMono G ∧ ∃ ar, te0.area = some ar ∧ 2 ≤ ar.maxx)
      ∨ (∀ a, a ∈ acts → a.simple = true)) :
    (getText (runActions G (clear G te0) [] acts).1).2
      = encodeUtf8 (runActions G (clear G te0) [] acts).2 := by
  obtain ⟨d0, -, -, -, h4, -⟩ := initBuffer_doc G te0 GAP_SIZE_EXPAND (by decide)
  rcases hview with ⟨hm, ar, harea, hw⟩ | hsimple
  · have inv0 := initBuffer_inv G te0 GAP_SIZE_EXPAND (by decide) ar harea hw
    obtain ⟨hd2, tl2, inv2, hc⟩ := run_inv G hm ar acts (clear G te0) [] [] [] inv0 rfl
      (h4.trans he) hvalid (by simpa using hsize)
    rw [← hc]
    exact inv2.inv_doc.getText_spec.2.1
  · obtain ⟨hd2, tl2, d2, hc⟩ := run_doc G acts (clear G te0) [] [] [] d0 rfl
      (h4.trans he) hvalid hsimple (by simpa using hsize)
    rw [← hc]
    exact d2.getText_spec.2.1

/-- The example run on an empty document in a viewport of width 10. -/
theorem getText_equals_reference_model_witness :
    (getText (runActions stdGlib (clear stdGlib (blank (some ⟨10, 3⟩) false)) []
        exampleActions).1).2
      = encodeUtf8 (runActions stdGlib (clear stdGlib (blank (some ⟨10, 3⟩) false)) []
          exampleActions).2 :=
  getText_equals_reference_model stdGlib (blank (some ⟨10, 3⟩) false) exampleActions
    (by decide) (by decide) (by decide)
    (Or.inl ⟨stdGlib_widthMono, ⟨10, 3⟩, rfl, by decide⟩)

end

section

/-! ### The line breaker advances -/

/-- Once the accumulated width is above `max_width` with no break recorded (`res` still the
start of the line), the loop of `getScreenLine` leaves and forces one codepoint. -/
theorem getScreenLine_loop_forced (G : Glib) (te : TextEdit) (text mw : Nat) :
    ∀ (n cur cw cl : Nat) (sp : Bool), mw < cw →
      getScreenLine_loop G te text mw n cur text cw cl sp 0 = (nextChar te text, 1) := by
  intro n cur cw cl sp h
  cases n with
  | zero => simp [getScreenLine_loop, getScreenLine_finish]
  | succ n =>
    simp only [getScreenLine_loop]
    split
    · simp [getScreenLine_finish]
    · simp [getScreenLine_finish]

/-- A first codepoint wider than `max_width` is consumed alone. -/
theorem getScreenLine_first_wide (G : Glib) (te : TextEdit) (text mw : Nat)
    (ht : text < te.bufend)
    (hwide : mw < onScreenWidth G te (g_utf8_get_char te.buffer text) 0) :
    getScreenLine G te text mw = (nextChar te text, 1) := by
  unfold getScreenLine
  obtain ⟨n, hn⟩ : ∃ n, te.bufend - text + 1 = n + 1 := ⟨te.bufend - text, rfl⟩
  rw [hn]
  simp only [getScreenLine_loop, if_pos ht, Nat.zero_add]
  rw [if_neg (by omega)]
  have hlong : (decide (onScreenWidth G te (g_utf8_get_char te.buffer text) 0 > mw)
      && (0 : Nat) == 0) = true := by simp [hwide]
  simp only [hlong, if_true]
  split
  · rfl
  · split
    · exact getScreenLine_loop_forced G te text mw _ _ _ _ _ hwide
    · simp only [Bool.false_eq_true, if_false]
      exact getScreenLine_loop_forced G te text mw _ _ _ _ _ hwide

/-- The line breaker returns an end behind the start. -/
theorem getScreenLine_gt (G : Glib) (te : TextEdit) (text mw : Nat)
    (hg : te.gapstart < te.gapend) (ht : text < te.bufend) :
    text < (getScreenLine G te text mw).1 ∧ 1 ≤ (getScreenLine G te text mw).2 := by
  obtain ⟨h1, h2, h3⟩ := getScreenLine_iterate G te text mw ht
  have := iterate_nextChar_ge te hg _ text h3
  rw [h1] at this
  exact ⟨by omega, h2⟩

/-- The loop of `updateScreenLines ()` leaves before its counter runs out: every counter
above `bufend - p` gives the same lines. -/
theorem updateScreenLines_loop_fuel (G : Glib) (te : TextEdit) (realw : Nat)
    (hg : te.gapstart < te.gapend) :
    ∀ (n m p : Nat), te.bufend - p < n → te.bufend - p < m →
      updateScreenLines_loop G te realw n p = updateScreenLines_loop G te realw m p := by
  intro n
  induction n with
  | zero => intro m p h _; omega
  | succ n ih =>
    intro m p hn hm
    obtain ⟨m2, rfl⟩ : ∃ m2, m = m2 + 1 := ⟨m - 1, by omega⟩
    simp only [updateScreenLines_loop]
    split
    · rename_i hlt
      have := (getScreenLine_gt G te p (realw - 1) hg hlt).1
      rw [ih m2 _ (by omega) (by omega)]
    · rfl

/-- C11: for every start offset before the buffer end and every `max_width`, `getScreenLine`
returns an end offset strictly greater than the start offset and a codepoint count of at
least 1; the loop of the full `updateScreenLines ()` therefore terminates: it produces the
same lines for every iteration bound above `bufend - p`, in particular for the bound of the
embedding.  When the very first codepoint is wider than `max_width`, exactly one codepoint is
consumed: the end is `nextChar (text)` and the count is 1. -/
theorem getScreenLine_always_advances (G : Glib) (te : TextEdit) (text max_width : Nat)
    (hgap : te.gapstart < te.gapend) (htext : text < te.bufend) :
    text < (getScreenLine G te text max_width).1
    ∧ 1 ≤ (getScreenLine G te text max_width).2
    ∧ (max_width < onScreenWidth G te (g_utf8_get_char te.buffer text) 0 →
        getScreenLine G te text max_width = (nextChar te text, 1))
    ∧ (∀ realw n m p, te.bufend - p < n → te.bufend - p < m →
        updateScreenLines_loop G te realw n p = updateScreenLines_loop G te realw m p)
    ∧ (∀ realw n, te.bufend < n →
        updateScreenLines_loop G te realw n (getTextStart te)
          = updateScreenLines_loop G te realw (te.bufend + 1) (getTextStart te)) := by
  obtain ⟨h1, h2⟩ := getScreenLine_gt G te text max_width hgap htext
  refine ⟨h1, h2, getScreenLine_first_wide G te text max_width htext, ?_, ?_⟩
  · intro realw n m p hn hm
    exact updateScreenLines_loop_fuel G te realw hgap n m p hn hm
  · intro realw n hn
    exact updateScreenLines_loop_fuel G te realw hgap n _ _ (by omega) (by omega)

/-- A double-width codepoint with `max_width` 1: the line breaker consumes it alone. -/
theorem getScreenLine_always_advances_witness :
    0 < (getScreenLine stdGlib docWide 0 1).1
    ∧ 1 ≤ (getScreenLine stdGlib docWide 0 1).2
    ∧ getScreenLine stdGlib docWide 0 1 = (nextChar docWide 0, 1)
    ∧ getScreenLine stdGlib docWide 0 1 = (4098, 1) :=
  ⟨(getScreenLine_always_advances stdGlib docWide 0 1 (by decide) (by decide)).1,
    (getScreenLine_always_advances stdGlib docWide 0 1 (by decide) (by decide)).2.1,
    (getScreenLine_always_advances stdGlib docWide 0 1 (by decide) (by decide)).2.2.1
      (by decide),
    by decide⟩

/-- C12, counterexample: in a viewport of width 10 the line breaker receives 9 columns, and
"hello world wrap" inserted into the empty document gives three screen lines, not two:
"world wrap" needs ten columns. -/
theorem hello_world_wrap_has_three_lines :
    (getText docHello).2
      = [104, 101, 108, 108, 111, 32, 119, 111, 114, 108, 100, 32, 119, 114, 97, 112]
    ∧ docHello.area = some ⟨10, 3⟩
    ∧ docHello.screen_lines.length = 3
    ∧ docHello.screen_lines.length ≠ 2
    ∧ (updateScreenLines stdGlib docHello).screen_lines.length = 3 := by
  decide

/-- C12, amended: starting from an empty document with viewport width 10 (the line breaker
receives 9 columns), inserting "hello world wrap" produces exactly 3 screen lines, "hello ",
"world " and "wrap" (with the sentinel line feed), of 6, 6 and 5 codepoints; both breaks fall
at a word boundary: the second and the third line begin with the first codepoint of a word
(`w` after a space), not mid-word. -/
theorem hello_world_wrap_breaks_at_words :
    docHello.screen_lines = [⟨0, 6, 6⟩, ⟨6, 12, 6⟩, ⟨12, 4096, 5⟩]
    ∧ (updateScreenLines stdGlib docHello).screen_lines = [⟨0, 6, 6⟩, ⟨6, 12, 6⟩, ⟨12, 4096, 5⟩]
    ∧ docHello.bufend = 4096
    ∧ getScreenLine stdGlib docHello 0 (10 - 1) = (6, 6)
    ∧ getScreenLine stdGlib docHello 6 (10 - 1) = (12, 6)
    ∧ getScreenLine stdGlib docHello 12 (10 - 1) = (4096, 5)
    ∧ (docHello.buffer 5 = 32 ∧ docHello.buffer 6 = 119)
    ∧ (docHello.buffer 11 = 32 ∧ docHello.buffer 12 = 119) := by
  decide

/-! ### The screen position of the cursor -/

theorem render_map_length (te : TextEdit) (hd tl : List Nat) (k : Nat) (lens : List Nat) :
    (render te hd tl k lens).map ScreenLine.length = lens := by
  induction lens generalizing k with
  | nil => simp [render]
  | cons n ns ih => simp [render, ih]

theorem moveCursor_current_pos (G : Glib) (te : TextEdit) (step : CursorMovement)
    (dir : Direction) :
    (moveCursor G te step dir).current_pos
        = moveCursorTarget G (assertUpdatedScreenLines G te) step dir
    ∧ (moveCursor G te step dir).text_length = te.text_length := by
  rw [moveCursor_eq]
  have sd := sameDoc_updateScreenCursor G { assertUpdatedScreenLines G te with
    current_pos := moveCursorTarget G (assertUpdatedScreenLines G te) step dir
    point := (nextChar (assertUpdatedScreenLines G te))^[
        moveCursorTarget G (assertUpdatedScreenLines G te) step dir
          - (assertUpdatedScreenLines G te).current_pos]
      ((prevChar (assertUpdatedScreenLines G te))^[
        (assertUpdatedScreenLines G te).current_pos
          - moveCursorTarget G (assertUpdatedScreenLines G te) step dir]
        (assertUpdatedScreenLines G te).point) }
  exact ⟨sd.current_pos, sd.text_length.trans (sameDoc_assertUpdated G te).text_length⟩

theorem moveCursor_logical_pos (G : Glib) (te : TextEdit) (dir : Direction) :
    (moveCursor G te CursorMovement.MOVE_LOGICAL_POSITIONS dir).current_pos
      = moveLogicallyFromCursor te dir := by
  rw [(moveCursor_current_pos G te _ dir).1, moveCursorTarget_logical,
    (sameDoc_assertUpdated G te).moveLogically_eq]

theorem moveCursor_forward_at_end (G : Glib) : ∀ (n : Nat) (te : TextEdit),
    te.current_pos = te.text_length →
    ((fun t => moveCursor G t CursorMovement.MOVE_LOGICAL_POSITIONS Direction.DIR_FORWARD)^[n]
        te).current_pos = te.text_length
    ∧ ((fun t => moveCursor G t CursorMovement.MOVE_LOGICAL_POSITIONS Direction.DIR_FORWARD)^[n]
        te).text_length = te.text_length := by
  intro n
  induction n with
  | zero => intro te h; exact ⟨h, rfl⟩
  | succ n ih =>
    intro te h
    rw [Function.iterate_succ_apply]
    have h1 := moveCursor_logical_pos G te Direction.DIR_FORWARD
    have h2 := (moveCursor_current_pos G te CursorMovement.MOVE_LOGICAL_POSITIONS
      Direction.DIR_FORWARD).2
    rw [moveLogically_fwd, if_neg (by omega)] at h1
    have := ih (moveCursor G te CursorMovement.MOVE_LOGICAL_POSITIONS Direction.DIR_FORWARD)
      (by rw [h1, h2, h])
    rw [h2] at this
    exact this

theorem moveCursor_back_at_start (G : Glib) : ∀ (n : Nat) (te : TextEdit),
    te.current_pos = 0 →
    ((fun t => moveCursor G t CursorMovement.MOVE_LOGICAL_POSITIONS Direction.DIR_BACK)^[n]
        te).current_pos = 0
    ∧ ((fun t => moveCursor G t CursorMovement.MOVE_LOGICAL_POSITIONS Direction.DIR_BACK)^[n]
        te).text_length = te.text_length := by
  intro n
  induction n with
  | zero => intro te h; exact ⟨h, rfl⟩
  | succ n ih =>
    intro te h
    rw [Function.iterate_succ_apply]
    have h1 := moveCursor_logical_pos G te Direction.DIR_BACK
    have h2 := (moveCursor_current_pos G te CursorMovement.MOVE_LOGICAL_POSITIONS
      Direction.DIR_BACK).2
    rw [moveLogically_back, if_neg (by omega)] at h1
    have := ih (moveCursor G te CursorMovement.MOVE_LOGICAL_POSITIONS Direction.DIR_BACK)
      (by rw [h1, h])
    rw [h2] at this
    exact this

/-- C15: logical cursor motion is clamped at the ends.  With the cursor at `N = text_length`,
any number `n` of calls `moveCursor (MOVE_LOGICAL_POSITIONS, DIR_FORWARD)` leaves the cursor
at `N`; with the cursor at 0, any number of calls with `DIR_BACK` leaves it at 0; away from
the end a forward call adds exactly one to the cursor and away from the start a backward call
subtracts exactly one; `text_length` never changes, and on a document (content `hd ++ tl`,
below 2^31 codepoints) the content is unchanged and the point follows the cursor. -/
theorem moveCursor_logical_is_clamped (G : Glib) (te : TextEdit) (n : Nat) :
    (te.current_pos = te.text_length →
      ((fun t => moveCursor G t CursorMovement.MOVE_LOGICAL_POSITIONS Direction.DIR_FORWARD)^[n]
          te).current_pos = te.text_length
      ∧ ((fun t => moveCursor G t CursorMovement.MOVE_LOGICAL_POSITIONS
          Direction.DIR_FORWARD)^[n] te).text_length = te.text_length)
    ∧ (te.current_pos = 0 →
      ((fun t => moveCursor G t CursorMovement.MOVE_LOGICAL_POSITIONS Direction.DIR_BACK)^[n]
          te).current_pos = 0
      ∧ ((fun t => moveCursor G t CursorMovement.MOVE_LOGICAL_POSITIONS
          Direction.DIR_BACK)^[n] te).text_length = te.text_length)
    ∧ (te.current_pos < te.text_length →
      (moveCursor G te CursorMovement.MOVE_LOGICAL_POSITIONS Direction.DIR_FORWARD).current_pos
        = te.current_pos + 1)
    ∧ (0 < te.current_pos →
      (moveCursor G te CursorMovement.MOVE_LOGICAL_POSITIONS Direction.DIR_BACK).current_pos
        = te.current_pos - 1)
    ∧ (∀ dir, (moveCursor G te CursorMovement.MOVE_LOGICAL_POSITIONS dir).text_length
        = te.text_length)
    ∧ (∀ hd tl dir, Doc te hd tl → hd.length + tl.length < 2147483648 →
        Doc (moveCursor G te CursorMovement.MOVE_LOGICAL_POSITIONS dir) hd tl) := by
  refine ⟨moveCursor_forward_at_end G n te, moveCursor_back_at_start G n te, ?_, ?_, ?_, ?_⟩
  · intro h
    rw [moveCursor_logical_pos, moveLogically_fwd, if_pos h]
  · intro h
    rw [moveCursor_logical_pos, moveLogically_back, if_pos h]
  · intro dir
    exact (moveCursor_current_pos G te _ dir).2
  · intro hd tl dir d hs
    exact (d.moveCursor_simple G hs _ dir (Or.inl rfl)).1

/-- The document "hi" with the cursor at its end 2: three forward calls leave it at 2, and
one backward call moves it to 1. -/
theorem moveCursor_logical_is_clamped_witness :
    ((fun t => moveCursor stdGlib t CursorMovement.MOVE_LOGICAL_POSITIONS
        Direction.DIR_FORWARD)^[3] docHi).current_pos = docHi.text_length
    ∧ (moveCursor stdGlib docHi CursorMovement.MOVE_LOGICAL_POSITIONS
        Direction.DIR_BACK).current_pos = docHi.current_pos - 1
    ∧ docHi.current_pos = 2 :=
  ⟨((moveCursor_logical_is_clamped stdGlib docHi 3).1 (by decide)).1,
    (moveCursor_logical_is_clamped stdGlib docHi 3).2.2.2.1 (by decide),
    by decide⟩

end

section

/-! ### Navigation from every byte of the text -/

/-- `g_utf8_find_next_char` from any byte of the codepoint with index `k`: the start of the
next codepoint. -/
theorem run_next_mid (buf : Nat → Nat) (lo : Nat) (cs : List Nat) (k : Nat) (hk : k < cs.length)
    (hv : ∀ c, c ∈ cs → validCp c) (hs : Seg buf lo (encodeUtf8 cs)) (i : Nat)
    (hi : i < (utf8enc (cs.getD k 0)).length) :
    g_utf8_find_next_char buf (lo + off cs k + i) (lo + (encodeUtf8 cs).length)
      = if k + 1 < cs.length then some (lo + off cs (k + 1)) else none := by
  have hsh := utf8enc_shape buf _ _ (getD_valid hv hk) (Seg_char buf lo cs k hk hs)
  have hsucc := off_succ cs k hk
  have htot := off_le_total cs (k + 1)
  have hscan : find_next_scan buf (lo + (encodeUtf8 cs).length)
      (lo + (encodeUtf8 cs).length - (lo + off cs k + i)) (lo + off cs k + i + 1)
        = lo + off cs (k + 1) := by
    rw [find_next_scan_run buf _ ((utf8enc (cs.getD k 0)).length - 1 - i)]
    · omega
    · intro j hj
      refine ⟨by omega, ?_⟩
      have := hsh.2.1 (i + 1 + j) (by omega) (by omega)
      rwa [show lo + off cs k + i + 1 + j = lo + off cs k + (i + 1 + j) by omega]
    · intro hlt
      have hk1 : k + 1 < cs.length := by
        by_contra hcon
        have : off cs (k + 1) = (encodeUtf8 cs).length := off_ge_length cs _ (by omega)
        omega
      have := run_lead buf lo cs (k + 1) hk1 hv hs
      rwa [show lo + off cs k + i + 1 + ((utf8enc (cs.getD k 0)).length - 1 - i)
        = lo + off cs (k + 1) by omega]
    · omega
  unfold g_utf8_find_next_char
  simp only [hscan]
  by_cases hk1 : k + 1 < cs.length
  · have := off_lt_of_lt cs (show k + 1 < cs.length from hk1) (Nat.le_refl _)
    rw [off_length] at this
    rw [if_neg (by omega), if_pos hk1]
  · have : off cs (k + 1) = (encodeUtf8 cs).length := off_ge_length cs _ (by omega)
    rw [if_pos (by omega), if_neg hk1]

/-- `g_utf8_find_prev_char` from a byte after the first of the codepoint with index `k`: the
start of that codepoint. -/
theorem run_prev_mid (buf : Nat → Nat) (lo str : Nat) (cs : List Nat) (k : Nat)
    (hk : k < cs.length) (hv : ∀ c, c ∈ cs → validCp c) (hs : Seg buf lo (encodeUtf8 cs))
    (hstr : str ≤ lo + off cs k) (i : Nat) (hi1 : 1 ≤ i)
    (hi : i ≤ (utf8enc (cs.getD k 0)).length) :
    g_utf8_find_prev_char buf str (lo + off cs k + i) = some (lo + off cs k) := by
  have hsh := utf8enc_shape buf _ _ (getD_valid hv hk) (Seg_char buf lo cs k hk hs)
  exact find_prev_run buf str _ hstr hsh.1 i hi1 (fun j h1 h2 => hsh.2.1 j h1 (by omega))

namespace Rep

variable {te : TextEdit} {hd tl : List Nat}

theorem posOf_succ_tail (k : Nat) (hk : hd.length ≤ k) (hk2 : k < hd.length + tl.length + 1) :
    posOf te hd tl (k + 1)
      = posOf te hd tl k + (utf8enc ((hd ++ tl ++ [LF]).getD k 0)).length := by
  obtain ⟨j, rfl⟩ : ∃ j, k = hd.length + j := ⟨k - hd.length, by omega⟩
  rw [show hd.length + j + 1 = hd.length + (j + 1) by omega, posOf_tail, posOf_tail,
    off_succ _ j (by simp; omega), doc_getD_tail]
  omega

/-- The bytes of the codepoint with index `k` that belong to the text lie before the end of
its encoding. -/
theorem char_extent (h : Rep te hd tl) {k p : Nat} (hk : k < hd.length + tl.length + 1)
    (hp2 : p < posOf te hd tl (k + 1)) (htext : p < te.gapstart ∨ te.gapend ≤ p) :
    p < posOf te hd tl k + (utf8enc ((hd ++ tl ++ [LF]).getD k 0)).length := by
  by_cases h1 : k < hd.length
  · have hgap := h.gap
    have hp3 : p < te.gapstart := by
      rcases htext with h2 | h2
      · exact h2
      · have := h.posOf_gap
        by_cases h3 : k + 1 = hd.length
        · rw [h3] at hp2; omega
        · have := h.posOf_lt_gapstart (show k + 1 < hd.length by omega)
          omega
    rw [posOf_head k h1, doc_getD_head k h1, ← off_succ hd k h1]
    have := off_le_total hd (k + 1)
    by_cases h3 : k + 1 = hd.length
    · rw [h3, off_length, ← h.gs]; exact hp3
    · rw [← @posOf_head te hd tl (k + 1) (by omega)]; exact hp2
  · rw [← posOf_succ_tail k (by omega) hk]; exact hp2

end Rep

namespace Rep

variable {te : TextEdit} {hd tl : List Nat}

/-- `nextChar` from any byte of the codepoint with index `k`. -/
theorem nextChar_mid (h : Rep te hd tl) (k : Nat) (hk : k < hd.length + tl.length + 1)
    (i : Nat) (hi : i < (utf8enc ((hd ++ tl ++ [LF]).getD k 0)).length) :
    nextChar te (posOf te hd tl k + i) = posOf te hd tl (k + 1) := by
  have hgap := h.gap
  by_cases h1 : k < hd.length
  · rw [doc_getD_head k h1] at hi
    have hs := off_succ hd k h1
    have ht := off_le_total hd (k + 1)
    have hlt : posOf te hd tl k + i < te.gapstart := by
      rw [posOf_head k h1, h.gs]; omega
    unfold nextChar
    simp only [if_neg (Nat.ne_of_lt hlt), if_pos hlt]
    have := run_next_mid te.buffer 0 hd k h1 h.vhd h.head i hi
    simp only [Nat.zero_add] at this
    rw [posOf_head k h1, h.gs, this]
    by_cases h2 : k + 1 < hd.length
    · rw [if_pos h2, posOf_head (k + 1) h2]
    · rw [if_neg h2]
      have : k + 1 = hd.length := by omega
      rw [this, h.posOf_gap]
  · obtain ⟨j, rfl⟩ : ∃ j, k = hd.length + j := ⟨k - hd.length, by omega⟩
    rw [doc_getD_tail] at hi
    have hge := h.posOf_ge_gapend (show hd.length ≤ hd.length + j by omega)
    unfold nextChar
    simp only [if_neg (show posOf te hd tl (hd.length + j) + i ≠ te.gapstart by omega),
      if_neg (show ¬ posOf te hd tl (hd.length + j) + i < te.gapstart by omega)]
    have := run_next_mid te.buffer te.gapend (tl ++ [LF]) j (by simp; omega) h.vtl1 h.tail i hi
    rw [posOf_tail, h.be, this]
    by_cases h2 : j + 1 < (tl ++ [LF]).length
    · rw [if_pos h2, show hd.length + j + 1 = hd.length + (j + 1) by omega, posOf_tail]
    · rw [if_neg h2, show hd.length + j + 1 = hd.length + (j + 1) by omega, posOf_tail,
        off_ge_length _ _ (by omega)]

/-- `prevChar` from a byte after the first of the codepoint with index `k`. -/
theorem prevChar_mid (h : Rep te hd tl) (k : Nat) (hk : k < hd.length + tl.length + 1)
    (i : Nat) (hi1 : 1 ≤ i) (hi : i < (utf8enc ((hd ++ tl ++ [LF]).getD k 0)).length) :
    prevChar te (posOf te hd tl k + i) = posOf te hd tl k := by
  have hgap := h.gap
  by_cases h1 : k < hd.length
  · rw [doc_getD_head k h1] at hi
    have hs := off_succ hd k h1
    have ht := off_le_total hd (k + 1)
    have hlt : posOf te hd tl k + i < te.gapstart := by
      rw [posOf_head k h1, h.gs]; omega
    unfold prevChar
    rw [if_neg (by omega), posOf_head k h1]
    have := run_prev_mid te.buffer 0 0 hd k h1 h.vhd h.head (Nat.zero_le _) i hi1 (by omega)
    simp only [Nat.zero_add] at this
    rw [this]
  · obtain ⟨j, rfl⟩ : ∃ j, k = hd.length + j := ⟨k - hd.length, by omega⟩
    rw [doc_getD_tail] at hi
    rw [posOf_tail]
    unfold prevChar
    rw [if_pos (by omega)]
    have := run_prev_mid te.buffer te.gapend te.gapend (tl ++ [LF]) j (by simp; omega) h.vtl1
      h.tail (by omega) i hi1 (by omega)
    rw [this]

/-- `prevChar` from the start of the text returns the start of the array, which is the start
of the text or, when no codepoint stands before the gap, the start of the gap. -/
theorem prevChar_start (h : Rep te hd tl) :
    prevChar te (posOf te hd tl 0) = 0
    ∧ (getTextStart te = 0 ∨ (te.gapstart = 0 ∧ getTextStart te = te.gapend)) := by
  have hgap := h.gap
  by_cases h0 : hd = []
  · subst h0
    have hgs : te.gapstart = 0 := by
      have := h.gs
      simpa [encodeUtf8] using this
    have hp : posOf te [] tl 0 = te.gapend := h.posOf_gap
    refine ⟨?_, Or.inr ⟨hgs, by unfold getTextStart; rw [if_pos hgs.symm]⟩⟩
    rw [hp]
    unfold prevChar
    rw [if_pos (Nat.le_refl _), find_prev_at_str, hgs]
    simp [g_utf8_find_prev_char]
  · have hl : 0 < hd.length := List.length_pos.2 h0
    have hgs : 0 < te.gapstart := by
      have := h.gs
      have := encodeUtf8_length_ge hd
      omega
    refine ⟨?_, Or.inl (by unfold getTextStart; rw [if_neg (by omega)])⟩
    rw [posOf_head 0 hl, off_zero]
    unfold prevChar
    rw [if_neg (by omega)]
    simp [g_utf8_find_prev_char]

theorem prevChar_gapstart_eq (h : Rep te hd tl) :
    prevChar te te.gapstart = prevChar te te.gapend := by
  have hgap := h.gap
  unfold prevChar
  rw [if_neg (by omega), if_pos (Nat.le_refl _), find_prev_at_str]

theorem nextChar_gapstart_eq (te : TextEdit) (hgap : te.gapstart < te.gapend) :
    nextChar te te.gapstart = nextChar te te.gapend := by
  unfold nextChar
  simp only [if_true, if_neg (show te.gapend ≠ te.gapstart by omega)]

/-- Every byte of the text belongs to one codepoint. -/
theorem index_of (_h : Rep te hd tl) {p : Nat} (hp : posOf te hd tl 0 ≤ p) :
    ∀ (n : Nat), p < posOf te hd tl n →
      ∃ k, k < n ∧ posOf te hd tl k ≤ p ∧ p < posOf te hd tl (k + 1) := by
  intro n
  induction n with
  | zero => intro h2; omega
  | succ n ih =>
    intro h2
    by_cases h3 : p < posOf te hd tl n
    · obtain ⟨k, hk, h4⟩ := ih h3
      exact ⟨k, by omega, h4⟩
    · exact ⟨n, by omega, by omega, h2⟩

theorem text_ge_start (h : Rep te hd tl) {p : Nat}
    (htext : p < te.gapstart ∨ te.gapend ≤ p) : posOf te hd tl 0 ≤ p := by
  rw [← h.getTextStart_eq]
  unfold getTextStart
  split
  · rcases htext with h1 | h1
    · omega
    · exact h1
  · exact Nat.zero_le _

/-- The two navigation functions at a byte `p` of the codepoint with index `k`. -/
theorem navigate (h : Rep te hd tl) {k p : Nat} (hk : k < hd.length + tl.length + 1)
    (hp1 : posOf te hd tl k ≤ p) (hp2 : p < posOf te hd tl (k + 1))
    (htext : p < te.gapstart ∨ te.gapend ≤ p) :
    nextChar te p = posOf te hd tl (k + 1)
    ∧ (posOf te hd tl k < p → prevChar te p = posOf te hd tl k)
    ∧ (posOf te hd tl k = p → 0 < k → prevChar te p = posOf te hd tl (k - 1))
    ∧ (posOf te hd tl k = p → k = 0 → prevChar te p = 0) := by
  have hext := h.char_extent hk hp2 htext
  obtain ⟨i, rfl⟩ : ∃ i, p = posOf te hd tl k + i := ⟨p - posOf te hd tl k, by omega⟩
  refine ⟨h.nextChar_mid k hk i (by omega), ?_, ?_, ?_⟩
  · intro hlt
    exact h.prevChar_mid k hk i (by omega) (by omega)
  · intro he hk0
    have hi0 : i = 0 := by omega
    subst hi0
    obtain ⟨j, rfl⟩ : ∃ j, k = j + 1 := ⟨k - 1, by omega⟩
    rw [Nat.add_zero, Nat.add_sub_cancel]
    exact h.prevChar_posOf j (by omega)
  · intro he hk0
    have hi0 : i = 0 := by omega
    subst hi0
    subst hk0
    rw [Nat.add_zero]
    exact h.prevChar_start.1

end Rep

theorem Rep.posOf_outside_gap {te : TextEdit} {hd tl : List Nat} (h : Rep te hd tl) (j : Nat) :
    ¬ (te.gapstart < posOf te hd tl j ∧ posOf te hd tl j < te.gapend) := by
  by_cases h1 : j < hd.length
  · have := h.posOf_lt_gapstart h1
    omega
  · have := h.posOf_ge_gapend (show hd.length ≤ j by omega)
    omega

/-- C13: for a buffer that stores the valid codepoints `hd` before the gap and `tl` and the
sentinel line feed after it (`posOf j` is the offset where the codepoint with index `j` begins,
the sentinel has index `N = |hd| + |tl|`), and every offset `p` of a byte of the text:
`nextChar p` is greater than `p`, begins a codepoint or is `bufend`, is at most every codepoint
start greater than `p`, and is `bufend` when there is none; `prevChar p` is the largest codepoint
start smaller than `p`, and when there is none `p` is the start of the text and the result is
offset 0, which is the start of the text or, when the gap stands at the very start of the
array, the start of the gap (the other name of the same seam).  At the seam `gapstart` and
`gapend` give the same results, and no result lies strictly inside the gap. -/
theorem nextChar_prevChar_stop_at_codepoint_starts (te : TextEdit) (hd tl : List Nat)
    (h : Rep te hd tl) (p : Nat) (hp : p < te.gapstart ∨ (te.gapend ≤ p ∧ p < te.bufend)) :
    (p < nextChar te p
      ∧ ((∃ j, j ≤ hd.length + tl.length ∧ nextChar te p = posOf te hd tl j)
          ∨ nextChar te p = te.bufend)
      ∧ (∀ j, j ≤ hd.length + tl.length → p < posOf te hd tl j → nextChar te p ≤ posOf te hd tl j)
      ∧ ((∀ j, j ≤ hd.length + tl.length → ¬ p < posOf te hd tl j) → nextChar te p = te.bufend))
    ∧ (((∃ j, j ≤ hd.length + tl.length ∧ prevChar te p = posOf te hd tl j
            ∧ posOf te hd tl j < p)
          ∧ ∀ j, j ≤ hd.length + tl.length → posOf te hd tl j < p
              → posOf te hd tl j ≤ prevChar te p)
        ∨ ((∀ j, j ≤ hd.length + tl.length → ¬ posOf te hd tl j < p)
          ∧ p = getTextStart te ∧ prevChar te p = 0
          ∧ (getTextStart te = 0 ∨ (te.gapstart = 0 ∧ getTextStart te = te.gapend))))
    ∧ nextChar te te.gapstart = nextChar te te.gapend
    ∧ prevChar te te.gapstart = prevChar te te.gapend
    ∧ ¬ (te.gapstart < nextChar te p ∧ nextChar te p < te.gapend)
    ∧ ¬ (te.gapstart < prevChar te p ∧ prevChar te p < te.gapend) := by
  have hgap := h.gap
  have hend := h.posOf_end
  have hge := h.posOf_ge_gapend (show hd.length ≤ hd.length + tl.length + 1 by omega)
  have htext : p < te.gapstart ∨ te.gapend ≤ p := by omega
  have hp0 := h.text_ge_start htext
  obtain ⟨k, hk, hk1, hk2⟩ := h.index_of hp0 (hd.length + tl.length + 1) (by omega)
  obtain ⟨hn, hpm, hps, hpz⟩ := h.navigate hk hk1 hk2 htext
  have hnext : (p < nextChar te p
      ∧ ((∃ j, j ≤ hd.length + tl.length ∧ nextChar te p = posOf te hd tl j)
          ∨ nextChar te p = te.bufend)
      ∧ (∀ j, j ≤ hd.length + tl.length → p < posOf te hd tl j → nextChar te p ≤ posOf te hd tl j)
      ∧ ((∀ j, j ≤ hd.length + tl.length → ¬ p < posOf te hd tl j)
          → nextChar te p = te.bufend)) := by
    rw [hn]
    refine ⟨hk2, ?_, ?_, ?_⟩
    · by_cases hk3 : k + 1 ≤ hd.length + tl.length
      · exact Or.inl ⟨k + 1, hk3, rfl⟩
      · right
        rw [show k + 1 = hd.length + tl.length + 1 by omega, hend]
    · intro j hj hpj
      by_cases hjk : j ≤ k
      · have := h.posOf_mono hjk (by omega)
        omega
      · exact h.posOf_mono (show k + 1 ≤ j by omega) (by omega)
    · intro hall
      by_cases hk3 : k + 1 ≤ hd.length + tl.length
      · exact absurd hk2 (hall (k + 1) hk3)
      · rw [show k + 1 = hd.length + tl.length + 1 by omega, hend]
  have hprev : (((∃ j, j ≤ hd.length + tl.length ∧ prevChar te p = posOf te hd tl j
            ∧ posOf te hd tl j < p)
          ∧ ∀ j, j ≤ hd.length + tl.length → posOf te hd tl j < p
              → posOf te hd tl j ≤ prevChar te p)
        ∨ ((∀ j, j ≤ hd.length + tl.length → ¬ posOf te hd tl j < p)
          ∧ p = getTextStart te ∧ prevChar te p = 0
          ∧ (getTextStart te = 0 ∨ (te.gapstart = 0 ∧ getTextStart te = te.gapend)))) := by
    rcases Nat.eq_or_lt_of_le hk1 with he | hlt
    · by_cases hk0 : k = 0
      · right
        refine ⟨?_, ?_, hpz he hk0, h.prevChar_start.2⟩
        · intro j hj hlt
          have := h.posOf_mono (Nat.zero_le j) (show j ≤ hd.length + tl.length + 1 by omega)
          rw [hk0] at he
          omega
        · rw [h.getTextStart_eq, ← he, hk0]
      · left
        have hpk := hps he (by omega)
        have hlt := h.posOf_lt_succ (k - 1) (by omega)
        rw [show k - 1 + 1 = k by omega] at hlt
        refine ⟨⟨k - 1, by omega, hpk, by omega⟩, ?_⟩
        intro j hj hjp
        rw [hpk]
        by_cases hjk : j ≤ k - 1
        · exact h.posOf_mono hjk (by omega)
        · have := h.posOf_mono (show k ≤ j by omega) (by omega)
          omega
    · left
      have hpk := hpm hlt
      refine ⟨⟨k, by omega, hpk, hlt⟩, ?_⟩
      intro j hj hjp
      rw [hpk]
      by_cases hjk : j ≤ k
      · exact h.posOf_mono hjk (by omega)
      · have := h.posOf_mono (show k + 1 ≤ j by omega) (by omega)
        omega
  refine ⟨hnext, hprev, Rep.nextChar_gapstart_eq te hgap, h.prevChar_gapstart_eq, ?_, ?_⟩
  · rw [hn]
    exact h.posOf_outside_gap (k + 1)
  · rcases hprev with ⟨⟨j, _, hj, _⟩, _⟩ | ⟨_, _, hz, _⟩
    · rw [hj]
      exact h.posOf_outside_gap j
    · rw [hz]
      omega

/-- The three-byte codepoint U+4E16 alone in the buffer, from its second byte: `nextChar` is
the end of the gap, where the sentinel begins, and `prevChar` is the first byte. -/
theorem nextChar_prevChar_stop_at_codepoint_starts_witness :
    1 < nextChar docWide 1
    ∧ nextChar docWide 1 = 4098
    ∧ prevChar docWide 1 = 0
    ∧ docWide.gapstart = 3 ∧ docWide.gapend = 4098
    ∧ nextChar docWide docWide.gapstart = nextChar docWide docWide.gapend :=
  ⟨(nextChar_prevChar_stop_at_codepoint_starts docWide [19990] []
      (setText_doc stdGlib (blank (some ⟨2, 3⟩) false) [19990] (by decide)).1.rep 1
      (Or.inl (by decide))).1.1,
    by decide, by decide, by decide, by decide,
    (nextChar_prevChar_stop_at_codepoint_starts docWide [19990] []
      (setText_doc stdGlib (blank (some ⟨2, 3⟩) false) [19990] (by decide)).1.rep 1
      (Or.inl (by decide))).2.2.1⟩

end

section

/-! ### Word motion -/

theorem scanFwd_spec (t : Nat → Bool) (N : Nat) : ∀ (n c : Nat) (b : Bool), c ≤ N → N - c ≤ n →
    c ≤ scanFwd t N n c b ∧ scanFwd t N n c b ≤ N
    ∧ (scanFwd t N n c b = N
        ∨ (t (scanFwd t N n c b) = false
          ∧ (b = true ∨ ∃ k, c ≤ k ∧ k < scanFwd t N n c b ∧ t k = true)))
    ∧ ∀ e, c ≤ e → e < scanFwd t N n c b →
        ¬ (t e = false ∧ (b = true ∨ ∃ k, c ≤ k ∧ k < e ∧ t k = true)) := by
  intro n
  induction n with
  | zero =>
    intro c b hc hn
    simp only [scanFwd]
    exact ⟨Nat.le_refl _, hc, Or.inl (by omega), fun e h1 h2 => by omega⟩
  | succ n ih =>
    intro c b hc hn
    simp only [scanFwd]
    by_cases hcN : c < N
    · rw [if_pos hcN]
      by_cases htc : t c = true
      · rw [if_pos htc]
        obtain ⟨h1, h2, h3, h4⟩ := ih (c + 1) true (by omega) (by omega)
        refine ⟨by omega, h2, ?_, ?_⟩
        · rcases h3 with h3 | ⟨h3, -⟩
          · exact Or.inl h3
          · exact Or.inr ⟨h3, Or.inr ⟨c, Nat.le_refl _, by omega, htc⟩⟩
        · intro e he1 he2 ⟨hte, _⟩
          by_cases hec : e = c
          · rw [hec, htc] at hte
            cases hte
          · exact h4 e (by omega) he2 ⟨hte, Or.inl rfl⟩
      · rw [if_neg htc]
        have htc2 : t c = false := by simpa using htc
        by_cases hb : b = true
        · rw [if_pos hb]
          exact ⟨Nat.le_refl _, hc, Or.inr ⟨htc2, Or.inl hb⟩, fun e h1 h2 => by omega⟩
        · rw [if_neg hb]
          obtain ⟨h1, h2, h3, h4⟩ := ih (c + 1) b (by omega) (by omega)
          refine ⟨by omega, h2, ?_, ?_⟩
          · rcases h3 with h3 | ⟨h3, h5⟩
            · exact Or.inl h3
            · rcases h5 with h5 | ⟨k, hk1, hk2, hk3⟩
              · exact absurd h5 hb
              · exact Or.inr ⟨h3, Or.inr ⟨k, by omega, hk2, hk3⟩⟩
          · intro e he1 he2 ⟨hte, hx⟩
            rcases hx with hx | ⟨k, hk1, hk2, hk3⟩
            · exact hb hx
            · have hkc : k ≠ c := by
                intro hkc
                rw [hkc, htc2] at hk3
                cases hk3
              exact h4 e (by omega) he2 ⟨hte, Or.inr ⟨k, by omega, hk2, hk3⟩⟩
    · rw [if_neg hcN]
      exact ⟨Nat.le_refl _, hc, Or.inl (by omega), fun e h1 h2 => by omega⟩

theorem scanBack_spec (t : Nat → Bool) : ∀ (q : Nat) (b : Bool),
    scanBack t q b ≤ q
    ∧ (scanBack t q b = 0
        ∨ (0 < scanBack t q b ∧ t (scanBack t q b - 1) = false
          ∧ (b = true ∨ ∃ k, scanBack t q b ≤ k ∧ k < q ∧ t k = true)))
    ∧ ∀ r, scanBack t q b < r → r ≤ q →
        ¬ (t (r - 1) = false ∧ (b = true ∨ ∃ k, r ≤ k ∧ k < q ∧ t k = true)) := by
  intro q
  induction q with
  | zero =>
    intro b
    have h0 : scanBack t 0 b = 0 := rfl
    rw [h0]
    exact ⟨Nat.le_refl _, Or.inl rfl, fun r h1 h2 => by omega⟩
  | succ q ih =>
    intro b
    simp only [scanBack]
    by_cases htq : t q = true
    · rw [if_pos htq]
      obtain ⟨h1, h2, h3⟩ := ih true
      refine ⟨by omega, ?_, ?_⟩
      · rcases h2 with h2 | ⟨h0, h2, -⟩
        · exact Or.inl h2
        · exact Or.inr ⟨h0, h2, Or.inr ⟨q, h1, by omega, htq⟩⟩
      · intro r hr1 hr2 ⟨htr, _⟩
        by_cases hrq : r = q + 1
        · rw [hrq, Nat.add_sub_cancel, htq] at htr
          cases htr
        · exact h3 r hr1 (by omega) ⟨htr, Or.inl rfl⟩
    · rw [if_neg htq]
      have htq2 : t q = false := by simpa using htq
      by_cases hb : b = true
      · rw [if_pos hb]
        exact ⟨Nat.le_refl _, Or.inr ⟨by omega, by rw [Nat.add_sub_cancel]; exact htq2, Or.inl hb⟩,
          fun r h1 h2 => by omega⟩
      · rw [if_neg hb]
        obtain ⟨h1, h2, h3⟩ := ih b
        refine ⟨by omega, ?_, ?_⟩
        · rcases h2 with h2 | ⟨h0, h2, h5⟩
          · exact Or.inl h2
          · rcases h5 with h5 | ⟨k, hk1, hk2, hk3⟩
            · exact absurd h5 hb
            · exact Or.inr ⟨h0, h2, Or.inr ⟨k, hk1, by omega, hk3⟩⟩
        · intro r hr1 hr2 ⟨htr, hx⟩
          rcases hx with hx | ⟨k, hk1, hk2, hk3⟩
          · exact hb hx
          · have hkq : k ≠ q := by
              intro hkq
              rw [hkq, htq2] at hk3
              cases hk3
            exact h3 r hr1 (by omega) ⟨htr, Or.inr ⟨k, hk1, by omega, hk3⟩⟩

namespace Rep

variable {te : TextEdit} {hd tl : List Nat}

theorem nonwhiteAt_posOf (G : Glib) (h : Rep te hd tl) (k : Nat)
    (hk : k < hd.length + tl.length + 1) :
    nonwhiteAt G te (posOf te hd tl k) = nonwhiteCp G ((hd ++ tl ++ [LF]).getD k 0) := by
  unfold nonwhiteAt nonwhiteCp
  rw [h.get_char_posOf k hk]
  congr 1
  have hlf := h.lf_posOf k hk
  generalize (hd ++ tl ++ [LF]).getD k 0 = x at hlf
  generalize te.buffer (posOf te hd tl k) % 256 = y at hlf
  by_cases hx : x = 10
  · have h1 := hlf.2 hx
    rw [h1, hx]
    rfl
  · have h1 : ¬ y = LF := fun h2 => hx (hlf.1 h2)
    have hx2 : ¬ x = LF := hx
    rw [bne_iff_ne.2 h1, bne_iff_ne.2 hx2]

theorem wordEndFwd_scan (G : Glib) (h : Rep te hd tl) (hlen : te.text_length = hd.length + tl.length) :
    ∀ (n c : Nat) (b : Bool), c ≤ hd.length + tl.length →
      wordEndFwd_loop G te n (posOf te hd tl c) c b
        = scanFwd (fun k => nonwhiteCp G ((hd ++ tl ++ [LF]).getD k 0)) (hd.length + tl.length)
            n c b := by
  intro n
  induction n with
  | zero => intro c b _; rfl
  | succ n ih =>
    intro c b hc
    simp only [wordEndFwd_loop, scanFwd, hlen]
    by_cases hcN : c < hd.length + tl.length
    · rw [if_pos hcN, if_pos hcN, h.nonwhiteAt_posOf G c (by omega), h.nextChar_posOf c (by omega),
        ih (c + 1) true (by omega), ih (c + 1) b (by omega)]
    · rw [if_neg hcN, if_neg hcN]

theorem wordStartFwd_scan (G : Glib) (h : Rep te hd tl)
    (hlen : te.text_length = hd.length + tl.length) :
    ∀ (n c : Nat) (b : Bool), c ≤ hd.length + tl.length →
      wordStartFwd_loop G te n (posOf te hd tl c) c b
        = scanFwd (fun k => !nonwhiteCp G ((hd ++ tl ++ [LF]).getD k 0)) (hd.length + tl.length)
            n c b := by
  intro n
  induction n with
  | zero => intro c b _; rfl
  | succ n ih =>
    intro c b hc
    simp only [wordStartFwd_loop, scanFwd, hlen]
    by_cases hcN : c < hd.length + tl.length
    · rw [if_pos hcN, if_pos hcN, h.nonwhiteAt_posOf G c (by omega), h.nextChar_posOf c (by omega),
        ih (c + 1) true (by omega), ih (c + 1) b (by omega)]
    · rw [if_neg hcN, if_neg hcN]

theorem wordBack_scan (G : Glib) (h : Rep te hd tl)
    (hsmall : hd.length + tl.length < 2147483648) :
    ∀ (q n : Nat) (b : Bool) (cur : Nat), q ≤ hd.length + tl.length + 1 → q + 1 ≤ n →
      (0 < q → cur = posOf te hd tl (q - 1)) →
      szAdd (wordBack_loop G te n cur (szSub q 1) b) 1
        = scanBack (fun k => nonwhiteCp G ((hd ++ tl ++ [LF]).getD k 0)) q b := by
  intro q
  induction q with
  | zero =>
    intro n b cur _ hn _
    obtain ⟨m, rfl⟩ : ∃ m, n = m + 1 := ⟨n - 1, by omega⟩
    rw [szSub_zero_one]
    simp only [wordBack_loop, scanBack]
    rw [if_neg (by simp)]
    decide
  | succ q ih =>
    intro n b cur hq hn hcur
    obtain ⟨m, rfl⟩ : ∃ m, n = m + 1 := ⟨n - 1, by omega⟩
    have hq1 : szSub (q + 1) 1 = q := by
      rw [szSub_of_le (by omega) (by simp only [SIZE_MOD]; omega)]
      omega
    have hcq : cur = posOf te hd tl q := hcur (by omega)
    have hne : q ≠ SIZE_MAX := by simp only [SIZE_MAX]; omega
    have hprev : (0 < q → (if q > 0 then prevChar te cur else cur) = posOf te hd tl (q - 1)) := by
      intro h0
      rw [if_pos h0, hcq]
      have := h.prevChar_posOf (q - 1) (by omega)
      rwa [show q - 1 + 1 = q by omega] at this
    rw [hq1]
    simp only [wordBack_loop, scanBack]
    rw [if_pos hne]
    have hnw : nonwhiteAt G te cur = nonwhiteCp G ((hd ++ tl ++ [LF]).getD q 0) := by
      rw [hcq]
      exact h.nonwhiteAt_posOf G q (by omega)
    rw [hnw]
    by_cases ht : nonwhiteCp G ((hd ++ tl ++ [LF]).getD q 0) = true
    · rw [if_pos ht, if_pos ht]
      exact ih m true _ (by omega) (by omega) hprev
    · rw [if_neg ht, if_neg ht]
      by_cases hb : b = true
      · rw [if_pos hb, if_pos hb]
        exact szAdd_of_lt (by simp only [SIZE_MOD]; omega)
      · rw [if_neg hb, if_neg hb]
        exact ih m b _ (by omega) (by omega) hprev

end Rep

namespace Doc

variable {te : TextEdit} {hd tl : List Nat}

/-- The pointer from which `moveWordFromCursor` starts is the start of the codepoint at the
cursor. -/
theorem cur_start (d : Doc te hd tl) :
    (if te.point = te.gapstart then te.gapend else te.point)
      = posOf te hd tl te.current_pos := by
  have hgap := d.rep.gap
  rcases d.pt with h1 | ⟨h1, h2⟩
  · have := d.rep.posOf_outside_gap te.current_pos
    by_cases hc : te.current_pos < hd.length
    · have := d.rep.posOf_lt_gapstart hc
      rw [if_neg (by omega), h1]
    · have := d.rep.posOf_ge_gapend (show hd.length ≤ te.current_pos by omega)
      rw [if_neg (by omega), h1]
  · rw [if_pos h2, h1, d.rep.posOf_gap]

theorem moveWord_end_scan (G : Glib) (d : Doc te hd tl) :
    moveWordFromCursor G te Direction.DIR_FORWARD true
      = scanFwd (fun k => nonwhiteCp G ((hd ++ tl ++ [LF]).getD k 0)) (hd.length + tl.length)
          (hd.length + tl.length - te.current_pos) te.current_pos false := by
  rw [moveWord_fwd_end, d.cur_start, d.len]
  exact d.rep.wordEndFwd_scan G d.len _ _ _ d.cur

theorem moveWord_start_scan (G : Glib) (d : Doc te hd tl) :
    moveWordFromCursor G te Direction.DIR_FORWARD false
      = scanFwd (fun k => !nonwhiteCp G ((hd ++ tl ++ [LF]).getD k 0)) (hd.length + tl.length)
          (hd.length + tl.length - te.current_pos) te.current_pos false := by
  rw [moveWord_fwd_start, d.cur_start, d.len]
  exact d.rep.wordStartFwd_scan G d.len _ _ _ d.cur

theorem moveWord_back_scan (G : Glib) (d : Doc te hd tl)
    (hsmall : hd.length + tl.length < 2147483648) (we : Bool) :
    moveWordFromCursor G te Direction.DIR_BACK we
      = scanBack (fun k => nonwhiteCp G ((hd ++ tl ++ [LF]).getD k 0)) te.current_pos false := by
  have hcur := d.cur
  rw [moveWord_back, d.cur_start]
  by_cases h0 : te.current_pos = 0
  · rw [if_pos h0, h0]
    rfl
  · rw [if_neg h0]
    have hs : szSub te.current_pos 1 = te.current_pos - 1 :=
      szSub_of_le (by omega) (by simp only [SIZE_MOD]; omega)
    have hp : prevChar te (posOf te hd tl te.current_pos) = posOf te hd tl (te.current_pos - 1) := by
      have := d.rep.prevChar_posOf (te.current_pos - 1) (by omega)
      rwa [show te.current_pos - 1 + 1 = te.current_pos by omega] at this
    have hs2 : szSub te.current_pos 1 + 2 = te.current_pos + 1 := by omega
    rw [hs2, hp]
    exact d.rep.wordBack_scan G hsmall te.current_pos (te.current_pos + 1) false _ (by omega)
      (by omega) (fun _ => rfl)

end Doc

end

section

/-! ### The word targets -/

theorem getD_content (hd tl : List Nat) (k : Nat) (hk : k < hd.length + tl.length) :
    (hd ++ tl ++ [LF]).getD k 0 = (hd ++ tl).getD k 0 :=
  List.getD_append _ _ _ _ (by simp only [List.length_append]; exact hk)

theorem nonwhiteCp_false (G : Glib) (x : Nat) :
    nonwhiteCp G x = false ↔ (G.g_unichar_isspace x = true ∨ x = 10) := by
  unfold nonwhiteCp
  by_cases h1 : G.g_unichar_isspace x = true
  · simp [h1]
  · by_cases h2 : x = 10
    · simp [h2, LF]
    · have h3 : ¬ x = LF := h2
      simp [h1, h2, h3]

theorem docWords_doc : Doc docWords [97, 98, 32, 99, 100, 32, 101, 102] [] :=
  (Doc.moveCursor_simple stdGlib
    (Doc.moveCursor_simple stdGlib
      (setText_doc stdGlib (blank (some ⟨10, 3⟩) false) [97, 98, 32, 99, 100, 32, 101, 102]
        (by decide)).1
      (by decide) CursorMovement.MOVE_WORDS Direction.DIR_BACK (Or.inr rfl)).1
    (by decide) CursorMovement.MOVE_WORDS Direction.DIR_BACK (Or.inr rfl)).1

theorem docWordsAt5_doc : Doc docWordsAt5 [97, 98, 32, 99, 100, 32, 101, 102] [] :=
  (Doc.moveCursor_simple stdGlib
    (Doc.moveCursor_simple stdGlib
      (Doc.moveCursor_simple stdGlib
        (setText_doc stdGlib (blank (some ⟨10, 3⟩) false) [97, 98, 32, 99, 100, 32, 101, 102]
          (by decide)).1
        (by decide) CursorMovement.MOVE_LOGICAL_POSITIONS Direction.DIR_BACK (Or.inl rfl)).1
      (by decide) CursorMovement.MOVE_LOGICAL_POSITIONS Direction.DIR_BACK (Or.inl rfl)).1
    (by decide) CursorMovement.MOVE_LOGICAL_POSITIONS Direction.DIR_BACK (Or.inl rfl)).1

/-- The forward target for `word_end`, on the content. -/
theorem Doc.moveWord_end_spec {te : TextEdit} {hd tl : List Nat} (G : Glib) (hdoc : Doc te hd tl) :
    te.current_pos ≤ moveWordFromCursor G te Direction.DIR_FORWARD true
    ∧ moveWordFromCursor G te Direction.DIR_FORWARD true ≤ hd.length + tl.length
    ∧ (moveWordFromCursor G te Direction.DIR_FORWARD true = hd.length + tl.length
        ∨ (nonwhiteCp G ((hd ++ tl).getD (moveWordFromCursor G te Direction.DIR_FORWARD true) 0)
              = false
          ∧ ∃ k, te.current_pos ≤ k ∧ k < moveWordFromCursor G te Direction.DIR_FORWARD true
              ∧ nonwhiteCp G ((hd ++ tl).getD k 0) = true))
    ∧ (∀ e, te.current_pos ≤ e → e < moveWordFromCursor G te Direction.DIR_FORWARD true →
        ¬ (nonwhiteCp G ((hd ++ tl).getD e 0) = false
          ∧ ∃ k, te.current_pos ≤ k ∧ k < e ∧ nonwhiteCp G ((hd ++ tl).getD k 0) = true)) := by
  rw [hdoc.moveWord_end_scan G]
  obtain ⟨h1, h2, h3, h4⟩ := scanFwd_spec (fun k => nonwhiteCp G ((hd ++ tl ++ [LF]).getD k 0))
    (hd.length + tl.length) (hd.length + tl.length - te.current_pos) te.current_pos false
    hdoc.cur (Nat.le_refl _)
  refine ⟨h1, h2, ?_, ?_⟩
  · rcases h3 with h3 | ⟨h3, h5⟩
    · exact Or.inl h3
    · rcases Nat.eq_or_lt_of_le h2 with h6 | h6
      · exact Or.inl h6
      · right
        rcases h5 with h5 | ⟨k, hk1, hk2, hk3⟩
        · cases h5
        · rw [getD_content hd tl _ h6] at h3
          rw [getD_content hd tl k (by omega)] at hk3
          exact ⟨h3, k, hk1, hk2, hk3⟩
  · intro e he1 he2 ⟨he3, k, hk1, hk2, hk3⟩
    refine h4 e he1 he2 ⟨?_, Or.inr ⟨k, hk1, hk2, ?_⟩⟩
    · show nonwhiteCp G ((hd ++ tl ++ [LF]).getD e 0) = false
      rw [getD_content hd tl e (by omega)]
      exact he3
    · show nonwhiteCp G ((hd ++ tl ++ [LF]).getD k 0) = true
      rw [getD_content hd tl k (by omega)]
      exact hk3

/-- C16: for a document with the content `hd ++ tl` of `N` codepoints and the cursor at index
`c`, `moveWordFromCursor (DIR_FORWARD, true)` returns an index `e` with `c ≤ e ≤ N` such that
`e = N`, or the codepoint at `e` is whitespace or a line feed and some codepoint in `[c, e)` is
neither; and no index in `[c, e)` has that property, so `e` is the smallest one.  The test
`nonwhiteCp` is false exactly on whitespace and the line feed. -/
theorem moveWordFromCursor_forward_word_end_is_least (G : Glib) (te : TextEdit)
    (hd tl : List Nat) (hdoc : Doc te hd tl) :
    te.current_pos ≤ moveWordFromCursor G te Direction.DIR_FORWARD true
    ∧ moveWordFromCursor G te Direction.DIR_FORWARD true ≤ hd.length + tl.length
    ∧ (moveWordFromCursor G te Direction.DIR_FORWARD true = hd.length + tl.length
        ∨ (nonwhiteCp G ((hd ++ tl).getD (moveWordFromCursor G te Direction.DIR_FORWARD true) 0)
              = false
          ∧ ∃ k, te.current_pos ≤ k ∧ k < moveWordFromCursor G te Direction.DIR_FORWARD true
              ∧ nonwhiteCp G ((hd ++ tl).getD k 0) = true))
    ∧ (∀ e, te.current_pos ≤ e → e < moveWordFromCursor G te Direction.DIR_FORWARD true →
        ¬ (nonwhiteCp G ((hd ++ tl).getD e 0) = false
          ∧ ∃ k, te.current_pos ≤ k ∧ k < e ∧ nonwhiteCp G ((hd ++ tl).getD k 0) = true))
    ∧ (∀ x, nonwhiteCp G x = false ↔ (G.g_unichar_isspace x = true ∨ x = 10)) := by
  obtain ⟨h1, h2, h3, h4⟩ := hdoc.moveWord_end_spec G
  exact ⟨h1, h2, h3, h4, nonwhiteCp_false G⟩

/-- In "ab cd ef" from index 3 the end of the word "cd" is index 5, a space. -/
theorem moveWordFromCursor_forward_word_end_is_least_witness :
    docWords.current_pos ≤ moveWordFromCursor stdGlib docWords Direction.DIR_FORWARD true
    ∧ docWords.current_pos = 3
    ∧ moveWordFromCursor stdGlib docWords Direction.DIR_FORWARD true = 5 :=
  ⟨(moveWordFromCursor_forward_word_end_is_least stdGlib docWords
      [97, 98, 32, 99, 100, 32, 101, 102] [] docWords_doc).1,
    by decide, by decide⟩

/-- C17: for a document with the content `hd ++ tl` of `N` codepoints and the cursor at index
`c`, `moveWordFromCursor (DIR_FORWARD, false)` returns an index `e` with `c ≤ e ≤ N` such that
`e = N`, or the codepoint at `e` is neither whitespace nor a line feed and some codepoint in
`[c, e)` is whitespace or a line feed; and no index in `[c, e)` has that property, so `e` is the
smallest one.  The test `nonwhiteCp` is false exactly on whitespace and the line feed. -/
theorem moveWordFromCursor_forward_next_word_is_least (G : Glib) (te : TextEdit)
    (hd tl : List Nat) (hdoc : Doc te hd tl) :
    te.current_pos ≤ moveWordFromCursor G te Direction.DIR_FORWARD false
    ∧ moveWordFromCursor G te Direction.DIR_FORWARD false ≤ hd.length + tl.length
    ∧ (moveWordFromCursor G te Direction.DIR_FORWARD false = hd.length + tl.length
        ∨ (nonwhiteCp G ((hd ++ tl).getD (moveWordFromCursor G te Direction.DIR_FORWARD false) 0)
              = true
          ∧ ∃ k, te.current_pos ≤ k ∧ k < moveWordFromCursor G te Direction.DIR_FORWARD false
              ∧ nonwhiteCp G ((hd ++ tl).getD k 0) = false))
    ∧ (∀ e, te.current_pos ≤ e → e < moveWordFromCursor G te Direction.DIR_FORWARD false →
        ¬ (nonwhiteCp G ((hd ++ tl).getD e 0) = true
          ∧ ∃ k, te.current_pos ≤ k ∧ k < e ∧ nonwhiteCp G ((hd ++ tl).getD k 0) = false))
    ∧ (∀ x, nonwhiteCp G x = false ↔ (G.g_unichar_isspace x = true ∨ x = 10)) := by
  rw [hdoc.moveWord_start_scan G]
  obtain ⟨h1, h2, h3, h4⟩ := scanFwd_spec
    (fun k => !nonwhiteCp G ((hd ++ tl ++ [LF]).getD k 0))
    (hd.length + tl.length) (hd.length + tl.length - te.current_pos) te.current_pos false
    hdoc.cur (Nat.le_refl _)
  refine ⟨h1, h2, ?_, ?_, nonwhiteCp_false G⟩
  · rcases h3 with h3 | ⟨h3, h5⟩
    · exact Or.inl h3
    · rcases Nat.eq_or_lt_of_le h2 with h6 | h6
      · exact Or.inl h6
      · right
        rcases h5 with h5 | ⟨k, hk1, hk2, hk3⟩
        · cases h5
        · rw [getD_content hd tl _ h6, Bool.not_eq_false'] at h3
          rw [getD_content hd tl k (by omega), Bool.not_eq_true'] at hk3
          exact ⟨h3, k, hk1, hk2, hk3⟩
  · intro e he1 he2 ⟨he3, k, hk1, hk2, hk3⟩
    refine h4 e he1 he2 ⟨?_, Or.inr ⟨k, hk1, hk2, ?_⟩⟩
    · show (!nonwhiteCp G ((hd ++ tl ++ [LF]).getD e 0)) = false
      rw [getD_content hd tl e (by omega), he3]
      rfl
    · show (!nonwhiteCp G ((hd ++ tl ++ [LF]).getD k 0)) = true
      rw [getD_content hd tl k (by omega), hk3]
      rfl

/-- In "ab cd ef" from index 3 the next word "ef" starts at index 6. -/
theorem moveWordFromCursor_forward_next_word_is_least_witness :
    docWords.current_pos ≤ moveWordFromCursor stdGlib docWords Direction.DIR_FORWARD false
    ∧ docWords.current_pos = 3
    ∧ moveWordFromCursor stdGlib docWords Direction.DIR_FORWARD false = 6 :=
  ⟨(moveWordFromCursor_forward_next_word_is_least stdGlib docWords
      [97, 98, 32, 99, 100, 32, 101, 102] [] docWords_doc).1,
    by decide, by decide⟩

namespace Doc

variable {te : TextEdit} {hd tl : List Nat}

/-- The backward word target: the properties of the scan, on the content. -/
theorem moveWord_back_spec (G : Glib) (d : Doc te hd tl)
    (hsmall : hd.length + tl.length < 2147483648) (we : Bool) :
    (te.current_pos = 0 → moveWordFromCursor G te Direction.DIR_BACK we = 0)
    ∧ (0 < te.current_pos →
        moveWordFromCursor G te Direction.DIR_BACK we < te.current_pos
        ∧ (moveWordFromCursor G te Direction.DIR_BACK we = 0
          ∨ (nonwhiteCp G ((hd ++ tl).getD (moveWordFromCursor G te Direction.DIR_BACK we - 1) 0)
                = false
            ∧ nonwhiteCp G ((hd ++ tl).getD (moveWordFromCursor G te Direction.DIR_BACK we) 0)
                = true))
        ∧ ((∃ k, moveWordFromCursor G te Direction.DIR_BACK we ≤ k ∧ k < te.current_pos
            ∧ nonwhiteCp G ((hd ++ tl).getD k 0) = true)
          ∨ moveWordFromCursor G te Direction.DIR_BACK we = 0)
        ∧ ∀ j k, moveWordFromCursor G te Direction.DIR_BACK we ≤ j → j < k → k < te.current_pos →
            nonwhiteCp G ((hd ++ tl).getD j 0) = false →
            nonwhiteCp G ((hd ++ tl).getD k 0) = false) := by
  have hcur := d.cur
  rw [d.moveWord_back_scan G hsmall we]
  obtain ⟨h1, h2, h3⟩ := scanBack_spec (fun k => nonwhiteCp G ((hd ++ tl ++ [LF]).getD k 0))
    te.current_pos false
  generalize scanBack (fun k => nonwhiteCp G ((hd ++ tl ++ [LF]).getD k 0))
    te.current_pos false = r at h1 h2 h3
  have hconv : ∀ k, k < te.current_pos →
      nonwhiteCp G ((hd ++ tl ++ [LF]).getD k 0) = nonwhiteCp G ((hd ++ tl).getD k 0) := by
    intro k hk
    rw [getD_content hd tl k (by omega)]
  refine ⟨fun h0 => by omega, fun h0 => ?_⟩
  have hex : r = 0 ∨ (0 < r ∧ nonwhiteCp G ((hd ++ tl).getD (r - 1) 0) = false
      ∧ ∃ k, r ≤ k ∧ k < te.current_pos ∧ nonwhiteCp G ((hd ++ tl).getD k 0) = true) := by
    rcases h2 with h2 | ⟨h0r, h2, h4⟩
    · exact Or.inl h2
    · right
      rcases h4 with h4 | ⟨k, hk1, hk2, hk3⟩
      · cases h4
      · exact ⟨h0r, (hconv (r - 1) (by omega)) ▸ h2, k, hk1, hk2, (hconv k hk2) ▸ hk3⟩
  have hsuf : ∀ j k, r ≤ j → j < k → k < te.current_pos →
      nonwhiteCp G ((hd ++ tl).getD j 0) = false →
      nonwhiteCp G ((hd ++ tl).getD k 0) = false := by
    intro j k hj hjk hk hwj
    by_contra hnk
    have hnk2 : nonwhiteCp G ((hd ++ tl).getD k 0) = true := by simpa using hnk
    refine h3 (j + 1) (by omega) (by omega) ⟨?_, Or.inr ⟨k, by omega, hk, ?_⟩⟩
    · show nonwhiteCp G ((hd ++ tl ++ [LF]).getD (j + 1 - 1) 0) = false
      rw [Nat.add_sub_cancel, hconv j (by omega)]
      exact hwj
    · show nonwhiteCp G ((hd ++ tl ++ [LF]).getD k 0) = true
      rw [hconv k hk]
      exact hnk2
  have hlt : r < te.current_pos := by
    rcases hex with h | ⟨_, _, k, hk1, hk2, _⟩
    · omega
    · omega
  refine ⟨hlt, ?_, ?_, hsuf⟩
  · rcases hex with h | ⟨h0r, hw, k, hk1, hk2, hk3⟩
    · exact Or.inl h
    · right
      refine ⟨hw, ?_⟩
      by_contra hnr
      have hnr2 : nonwhiteCp G ((hd ++ tl).getD r 0) = false := by simpa using hnr
      have := hsuf r k (Nat.le_refl _) (by
        rcases Nat.eq_or_lt_of_le hk1 with h | h
        · rw [← h, hnr2] at hk3
          cases hk3
        · exact h) hk2 hnr2
      rw [this] at hk3
      cases hk3
  · rcases hex with h | ⟨_, _, k, hk1, hk2, hk3⟩
    · exact Or.inr h
    · exact Or.inl ⟨k, hk1, hk2, hk3⟩

/-- The cursor after `moveCursor (MOVE_WORDS, DIR_BACK)`. -/
theorem moveCursor_words_back (G : Glib) (d : Doc te hd tl)
    (hsmall : hd.length + tl.length < 2147483648) :
    Doc (moveCursor G te CursorMovement.MOVE_WORDS Direction.DIR_BACK) hd tl
    ∧ (moveCursor G te CursorMovement.MOVE_WORDS Direction.DIR_BACK).current_pos
        = moveWordFromCursor G te Direction.DIR_BACK false := by
  refine ⟨(d.moveCursor_simple G hsmall CursorMovement.MOVE_WORDS Direction.DIR_BACK
    (Or.inr rfl)).1, ?_⟩
  rw [(moveCursor_current_pos G te CursorMovement.MOVE_WORDS Direction.DIR_BACK).1,
    moveCursorTarget_words]
  exact (sameDoc_assertUpdated G te).moveWord_eq G Direction.DIR_BACK false

/-- Backward word motion repeated at least `current_pos` times ends at index 0. -/
theorem words_back_iterate (G : Glib) (hsmall : hd.length + tl.length < 2147483648) :
    ∀ (n : Nat) (te : TextEdit), Doc te hd tl → te.current_pos ≤ n →
      ((fun t => moveCursor G t CursorMovement.MOVE_WORDS Direction.DIR_BACK)^[n] te).current_pos
        = 0 := by
  intro n
  induction n with
  | zero =>
    intro te _ hc
    simp only [Function.iterate_zero, id_eq]
    omega
  | succ n ih =>
    intro te d hc
    rw [Function.iterate_succ_apply]
    obtain ⟨d2, hpos⟩ := d.moveCursor_words_back G hsmall
    obtain ⟨hz, hp⟩ := d.moveWord_back_spec G hsmall false
    refine ih _ d2 ?_
    rw [hpos]
    by_cases h0 : te.current_pos = 0
    · rw [hz h0]
      exact Nat.zero_le _
    · have := (hp (by omega)).1
      omega

end Doc

/-- C18: for a document with the content `hd ++ tl` (fewer than 2^31 codepoints) and the
cursor at index `c`, `moveWordFromCursor (DIR_BACK, _)` returns 0 when `c = 0`; when `c > 0` it
returns an index `r < c` such that `r = 0`, or the codepoint at `r - 1` is whitespace or a line
feed and the codepoint at `r` is neither; inside `[r, c)` no codepoint that is neither follows
one that is whitespace or a line feed, so `[r, c)` holds at most one word, at its start.
`moveCursor (MOVE_WORDS, DIR_BACK)` sets the cursor to that index, so it moves the cursor
strictly back while the cursor is not 0, and repeated at least `c` times it leaves the cursor
at exactly 0. -/
theorem moveWordFromCursor_back_stops_at_word_start (G : Glib) (te : TextEdit)
    (hd tl : List Nat) (hdoc : Doc te hd tl) (hsmall : hd.length + tl.length < 2147483648)
    (we : Bool) :
    (te.current_pos = 0 → moveWordFromCursor G te Direction.DIR_BACK we = 0)
    ∧ (0 < te.current_pos →
        moveWordFromCursor G te Direction.DIR_BACK we < te.current_pos
        ∧ (moveWordFromCursor G te Direction.DIR_BACK we = 0
          ∨ (nonwhiteCp G ((hd ++ tl).getD (moveWordFromCursor G te Direction.DIR_BACK we - 1) 0)
                = false
            ∧ nonwhiteCp G ((hd ++ tl).getD (moveWordFromCursor G te Direction.DIR_BACK we) 0)
                = true))
        ∧ ∀ j k, moveWordFromCursor G te Direction.DIR_BACK we ≤ j → j < k → k < te.current_pos →
            nonwhiteCp G ((hd ++ tl).getD j 0) = false →
            nonwhiteCp G ((hd ++ tl).getD k 0) = false)
    ∧ (moveCursor G te CursorMovement.MOVE_WORDS Direction.DIR_BACK).current_pos
        = moveWordFromCursor G te Direction.DIR_BACK false
    ∧ (0 < te.current_pos →
        (moveCursor G te CursorMovement.MOVE_WORDS Direction.DIR_BACK).current_pos
          < te.current_pos)
    ∧ (∀ n, te.current_pos ≤ n →
        ((fun t => moveCursor G t CursorMovement.MOVE_WORDS Direction.DIR_BACK)^[n]
          te).current_pos = 0)
    ∧ (∀ x, nonwhiteCp G x = false ↔ (G.g_unichar_isspace x = true ∨ x = 10)) := by
  obtain ⟨hz, hp⟩ := hdoc.moveWord_back_spec G hsmall we
  obtain ⟨_, hp2⟩ := hdoc.moveWord_back_spec G hsmall false
  obtain ⟨_, hpos⟩ := hdoc.moveCursor_words_back G hsmall
  refine ⟨hz, fun h0 => ⟨(hp h0).1, (hp h0).2.1, (hp h0).2.2.2⟩, hpos, ?_,
    fun n hn => Doc.words_back_iterate G hsmall n te hdoc hn, nonwhiteCp_false G⟩
  intro h0
  rw [hpos]
  exact (hp2 h0).1

/-- In "ab cd ef" from index 5, the space after "cd", the backward target is index 3, the
start of "cd"; five backward word motions leave the cursor at 0. -/
theorem moveWordFromCursor_back_stops_at_word_start_witness :
    moveWordFromCursor stdGlib docWordsAt5 Direction.DIR_BACK false < docWordsAt5.current_pos
    ∧ docWordsAt5.current_pos = 5
    ∧ moveWordFromCursor stdGlib docWordsAt5 Direction.DIR_BACK false = 3
    ∧ ((fun t => moveCursor stdGlib t CursorMovement.MOVE_WORDS Direction.DIR_BACK)^[5]
        docWordsAt5).current_pos = 0 :=
  ⟨((moveWordFromCursor_back_stops_at_word_start stdGlib docWordsAt5
      [97, 98, 32, 99, 100, 32, 101, 102] [] docWordsAt5_doc (by decide) false).2.1
      (by decide)).1,
    by decide, by decide,
    (moveWordFromCursor_back_stops_at_word_start stdGlib docWordsAt5
      [97, 98, 32, 99, 100, 32, 101, 102] [] docWordsAt5_doc (by decide) false).2.2.2.2.1 5
      (by decide)⟩

/-- C19: let `te` be a document with the content `hd ++ tl` and the cursor at `c`, let `e` be
the target of `moveWordFromCursor (DIR_FORWARD, true)` from `c`, and let `te2` be a document
with the same content and the cursor at `e`.  The target `r` of
`moveWordFromCursor (DIR_BACK, _)` from `e` satisfies `r ≤ c`, or every codepoint in `[c, r)`
is whitespace or a line feed: `r` is not after the start of the word that the forward motion
passed over.  This holds for every `c`, the edges of the document included. -/
theorem forward_word_end_then_back_skips_no_word (G : Glib) (te : TextEdit) (hd tl : List Nat)
    (hdoc : Doc te hd tl) (hsmall : hd.length + tl.length < 2147483648)
    (te2 : TextEdit) (hd2 tl2 : List Nat) (hdoc2 : Doc te2 hd2 tl2)
    (hsame : hd2 ++ tl2 = hd ++ tl)
    (hcur : te2.current_pos = moveWordFromCursor G te Direction.DIR_FORWARD true) (we : Bool) :
    (moveWordFromCursor G te2 Direction.DIR_BACK we ≤ te.current_pos
      ∨ ∀ k, te.current_pos ≤ k → k < moveWordFromCursor G te2 Direction.DIR_BACK we →
          nonwhiteCp G ((hd ++ tl).getD k 0) = false)
    ∧ moveWordFromCursor G te2 Direction.DIR_BACK we
        ≤ moveWordFromCursor G te Direction.DIR_FORWARD true
    ∧ (∀ x, nonwhiteCp G x = false ↔ (G.g_unichar_isspace x = true ∨ x = 10)) := by
  have hlen : hd2.length + tl2.length = hd.length + tl.length := by
    have := congrArg List.length hsame
    simpa [List.length_append] using this
  obtain ⟨f1, f2, -, f4⟩ := hdoc.moveWord_end_spec G
  obtain ⟨bz, bp⟩ := hdoc2.moveWord_back_spec G (by omega) we
  rw [hsame, hcur] at bp
  rw [hcur] at bz
  generalize moveWordFromCursor G te Direction.DIR_FORWARD true = e at *
  generalize moveWordFromCursor G te2 Direction.DIR_BACK we = r at *
  have hre : r ≤ e := by
    by_cases h0 : e = 0
    · have := bz h0
      omega
    · have := (bp (by omega)).1
      omega
  refine ⟨?_, hre, nonwhiteCp_false G⟩
  by_cases hrc : r ≤ te.current_pos
  · exact Or.inl hrc
  · right
    have he0 : 0 < e := by omega
    obtain ⟨b1, b2, -, -⟩ := bp he0
    rcases b2 with b2 | ⟨b2, -⟩
    · omega
    · intro k hk1 hk2
      by_cases hk : k = r - 1
      · rw [hk]
        exact b2
      · by_contra hnk
        have hnk2 : nonwhiteCp G ((hd ++ tl).getD k 0) = true := by simpa using hnk
        exact f4 (r - 1) (by omega) (by omega) ⟨b2, k, hk1, by omega, hnk2⟩

/-- In "ab cd ef" the word end after index 3 is index 5, and the backward target from 5 is
index 3 again. -/
theorem forward_word_end_then_back_skips_no_word_witness :
    (moveWordFromCursor stdGlib docWordsAt5 Direction.DIR_BACK false ≤ docWords.current_pos
      ∨ ∀ k, docWords.current_pos ≤ k →
          k < moveWordFromCursor stdGlib docWordsAt5 Direction.DIR_BACK false →
          nonwhiteCp stdGlib
            (([97, 98, 32, 99, 100, 32, 101, 102] ++ ([] : List Nat)).getD k 0) = false)
    ∧ docWords.current_pos = 3
    ∧ moveWordFromCursor stdGlib docWords Direction.DIR_FORWARD true = 5
    ∧ moveWordFromCursor stdGlib docWordsAt5 Direction.DIR_BACK false = 3 :=
  ⟨(forward_word_end_then_back_skips_no_word stdGlib docWords
      [97, 98, 32, 99, 100, 32, 101, 102] [] docWords_doc (by decide) docWordsAt5
      [97, 98, 32, 99, 100, 32, 101, 102] [] docWordsAt5_doc rfl (by decide) false).1,
    by decide, by decide, by decide⟩

end

section

/-! ### Motion to the adjacent screen line -/

/-- One more codepoint in `width`: the width of the codepoint reached after `n` steps is
added. -/
theorem width_loop_succ (G : Glib) (te : TextEdit) : ∀ (n s w : Nat),
    width_loop G te (n + 1) s w
      = width_loop G te n s w
        + onScreenWidth G te (g_utf8_get_char te.buffer ((nextChar te)^[n] s))
            (width_loop G te n s w) := by
  intro n
  induction n with
  | zero => intro s w; rfl
  | succ n ih =>
    intro s w
    have h1 : width_loop G te (n + 1 + 1) s w
        = width_loop G te (n + 1) (nextChar te s)
            (w + onScreenWidth G te (g_utf8_get_char te.buffer s) w) := rfl
    have h2 : width_loop G te (n + 1) s w
        = width_loop G te n (nextChar te s)
            (w + onScreenWidth G te (g_utf8_get_char te.buffer s) w) := rfl
    rw [h1, ih, h2, Function.iterate_succ_apply]

theorem width_succ (G : Glib) (te : TextEdit) (s n : Nat) :
    width G te s (n + 1)
      = width G te s n
        + onScreenWidth G te (g_utf8_get_char te.buffer ((nextChar te)^[n] s)) (width G te s n) :=
  width_loop_succ G te n s 0

namespace Inv

variable {G : Glib} {te : TextEdit} {hd tl : List Nat} {ar : Area}

/-- The cursor of a document with an up-to-date cache stands on the screen line
`current_sc_line` at the position `current_sc_linepos`. -/
theorem cursor_on_line (inv : Inv G te hd tl ar) (hclean : te.screen_lines_dirty = false) :
    te.current_sc_line < te.screen_lines.length
    ∧ te.current_sc_linepos < (te.screen_lines.getD te.current_sc_line default).length
    ∧ te.current_pos
        = ((te.screen_lines.take te.current_sc_line).map ScreenLine.length).sum
          + te.current_sc_linepos := by
  have hlines := inv.lines hclean
  have hsc := inv.sc
  have hcur := inv.cur
  have hsum := layout_sum G te.masked (ar.maxx - 1) _ (hd ++ tl ++ [LF]) (Nat.le_refl _)
  generalize layout G te.masked (ar.maxx - 1) (hd ++ tl ++ [LF]) = lens at hlines hsc hsum
  have hsum2 : lens.sum = hd.length + tl.length + 1 := by
    rw [hsum]; simp only [List.length_append, List.length_singleton]
  obtain ⟨i, hi, hloc, hlo, hhi⟩ := locLens_spec te.current_pos lens 0 0 (Nat.zero_le _)
    (by omega)
  rw [hloc] at hsc
  simp only [Nat.zero_add, Prod.mk.injEq] at hsc hlo hhi
  obtain ⟨hl, hlp⟩ := hsc
  have hlen : te.screen_lines.length = lens.length := by rw [hlines, render_length]
  have hmap : ((te.screen_lines.take i).map ScreenLine.length).sum = (lens.take i).sum := by
    rw [List.map_take, hlines, render_map_length]
  have hget : (te.screen_lines.getD i default).length = lens.getD i 0 := by
    rw [hlines, render_getD _ _ _ hi]
  rw [hl, hlp, hmap, hget]
  exact ⟨by omega, by omega, by omega⟩

end Inv

theorem docLines_inv :
    Inv stdGlib docLines
      [104, 101, 108, 108, 111, 32, 119, 111, 114, 108, 100, 32, 119, 114, 97, 112] []
      ⟨10, 3⟩ :=
  setText_inv stdGlib stdGlib_widthMono (blank (some ⟨10, 3⟩) false)
    [104, 101, 108, 108, 111, 32, 119, 111, 114, 108, 100, 32, 119, 114, 97, 112] (by decide)
    ⟨10, 3⟩ rfl (by decide)

end

section

/-! ### Motion to the ends of the screen line -/

namespace Inv

variable {G : Glib} {te : TextEdit} {hd tl : List Nat} {ar : Area}

end Inv

end

section

/-! ### Navigation over bytes that are not well-formed UTF-8 -/

end

section

/-! ### Notifications, the bound newline action and the masked width -/

theorem initBuffer_text_changes (G : Glib) (te : TextEdit) (size : Nat) :
    (initBuffer G te size).text_changes = te.text_changes := rfl

/-- C22: `setFlags` never emits the text-changed notification, also when its revalidation
clears the document, because `clear` (`initBuffer` and `redraw`) does not emit it.  On the
document "abc" (one notification so far, from the insertion of the seed text),
`setFlags (FLAG_NUMERIC, true)` empties the content and emits nothing, where one notification
is specified; an insertion and a delete that removes a codepoint emit one each, and a delete at
the end of the document emits none. -/
theorem setFlags_clear_emits_no_text_change :
    (∀ (G : Glib) (te : TextEdit) (f : Nat) (rv : Bool),
        (setFlags G te f rv).text_changes = te.text_changes)
    ∧ (∀ (G : Glib) (te : TextEdit), (clear G te).text_changes = te.text_changes)
    ∧ (getText docAbc).2 = [97, 98, 99]
    ∧ docAbc.text_changes = 1
    ∧ (getText (setFlags stdGlib docAbc FLAG_NUMERIC true)).2 = []
    ∧ (setFlags stdGlib docAbc FLAG_NUMERIC true).text_length = 0
    ∧ (setFlags stdGlib docAbc FLAG_NUMERIC true).text_changes = 1
    ∧ (insertTextAtCursor stdGlib docAbc [100] 1).text_changes = 2
    ∧ (deleteFromCursor stdGlib docAbc DeleteType.DELETE_CHARS Direction.DIR_BACK).text_changes
        = 2
    ∧ (deleteFromCursor stdGlib docAbc DeleteType.DELETE_CHARS
        Direction.DIR_FORWARD).text_changes = 1 := by
  refine ⟨?_, fun G te => rfl, by decide, by decide, by decide, by decide, by decide,
    by decide, by decide, by decide⟩
  intro G te f rv
  unfold setFlags
  by_cases h1 : f = te.flags
  · rw [if_pos h1]
  · rw [if_neg h1]
    simp only
    split
    · split
      · rfl
      · rfl
    · rfl

/-- C29: the bindable "newline" is `insertTextAtCursor ("\n")` without any test.  On the empty
document in single-line mode `processInputText` rejects the line feed and leaves the content
empty, but the bound action inserts it: the content becomes one line feed; the same happens
when the document is not editable. -/
theorem bound_newline_inserts_in_single_line_mode :
    (∀ (G : Glib) (te : TextEdit), bindableNewline G te = insertTextAtCursor G te [LF] 1)
    ∧ docSingleLine.single_line_mode = true
    ∧ (getText docSingleLine).2 = []
    ∧ (processInputText stdGlib docSingleLine ⟨10, [10]⟩).1 = false
    ∧ (getText (processInputText stdGlib docSingleLine ⟨10, [10]⟩).2).2 = []
    ∧ (getText (bindableNewline stdGlib docSingleLine)).2 = [10]
    ∧ (bindableNewline stdGlib docSingleLine).text_length = 1
    ∧ (processInputText stdGlib { docAbc with editable := false } ⟨10, [10]⟩).1 = false
    ∧ (getText (bindableNewline stdGlib { docAbc with editable := false })).2
        = [97, 98, 99, 10] := by
  refine ⟨fun G te => rfl, by decide, by decide, by decide, by decide, by decide, by decide,
    by decide, by decide⟩

theorem width_loop_masked (G : Glib) (te : TextEdit) (hm : te.masked = true) :
    ∀ (n start w : Nat), width_loop G te n start w = w + n := by
  intro n
  induction n with
  | zero => intro start w; rfl
  | succ n ih =>
    intro start w
    simp only [width_loop, onScreenWidth, hm, if_true]
    rw [ih]
    omega

/-- C24: in masked mode `onScreenWidth` is 1 for every codepoint and every column, and
`width (start, n)` is `n` for every start offset and every number `n` of codepoints, whatever
the buffer holds there. -/
theorem width_is_count_when_masked (G : Glib) (te : TextEdit) (hm : te.masked = true)
    (start n : Nat) :
    width G te start n = n
    ∧ ∀ uc w, onScreenWidth G te uc w = 1 := by
  refine ⟨?_, fun uc w => by simp [onScreenWidth, hm]⟩
  unfold width
  rw [width_loop_masked G te hm]
  omega

/-- The masked document "secret": the width of its 6 codepoints is 6; the masked document
that holds a tab and a double-width codepoint: the width of the two is 2, where the cells of
the terminal would be 8 and 2. -/
theorem width_is_count_when_masked_witness :
    width stdGlib docSecret 0 6 = 6
    ∧ (getText docSecret).2 = [115, 101, 99, 114, 101, 116]
    ∧ width stdGlib docMaskedWide 0 2 = 2
    ∧ stdGlib.onscreen_width 9 0 = 8 ∧ stdGlib.onscreen_width 19990 8 = 2 :=
  ⟨(width_is_count_when_masked stdGlib docSecret (by decide) 0 6).1,
    by decide,
    (width_is_count_when_masked stdGlib docMaskedWide (by decide) 0 2).1,
    by decide, by decide⟩

end

section

/-! ### Seeding and clearing the document -/

theorem strlen_of_nul_free (t : List Nat) (hnz : ∀ b, b ∈ t → b ≠ 0) : strlen t = t.length := by
  unfold strlen
  rw [List.takeWhile_eq_self_iff.2]
  intro b hb
  simpa using hnz b hb

/-- The store after `insertTextAtCursor` is the store left by its copying part. -/
theorem insertTextAtCursor_store (G : Glib) (te : TextEdit) (t : List Nat) (n : Nat) :
    SameStore (insertStore (assertUpdatedScreenLines G te) t n) (insertTextAtCursor G te t n)
    ∧ (insertTextAtCursor G te t n).point
        = (insertStore (assertUpdatedScreenLines G te) t n).point
    ∧ (insertTextAtCursor G te t n).current_pos
        = (insertStore (assertUpdatedScreenLines G te) t n).current_pos
    ∧ (insertTextAtCursor G te t n).text_length
        = (insertStore (assertUpdatedScreenLines G te) t n).text_length := by
  rw [insertTextAtCursor_eq]
  generalize assertUpdatedScreenLines G te = te1
  have sd5 : SameDoc (insertStore te1 t n)
      (if n > getGapSize (moveGapToCursor te1) then updateScreenLines G (insertStore te1 t n)
      else
        updateScreenLinesRange G (insertStore te1 t n)
          (Nat.min te1.gapstart (moveGapToCursor te1).gapstart)
          (Nat.max te1.gapend (insertStore te1 t n).gapend)) := by
    split
    · exact sameDoc_updateScreenLines G _
    · exact sameDoc_updateScreenLinesRange G _ _ _
  have sd6 := sd5.same_trans (sameDoc_updateScreenCursor G _)
  exact ⟨⟨sd6.buffer, sd6.bufend, sd6.gapstart, sd6.gapend⟩, sd6.point, sd6.current_pos,
    sd6.text_length⟩

/-- The store after `setText` of a NUL-free string `t`, whatever the bytes of `t` are: the
bytes stand at the start of the array, the gap follows them and the sentinel is last. -/
theorem setText_store (G : Glib) (te : TextEdit) (t : List Nat) (hnz : ∀ b, b ∈ t → b ≠ 0) :
    Seg (setText G te (some t)).buffer 0 t
    ∧ (setText G te (some t)).gapstart = t.length
    ∧ (setText G te (some t)).gapend = t.length + GAP_SIZE_EXPAND - 1
    ∧ (setText G te (some t)).bufend = t.length + GAP_SIZE_EXPAND
    ∧ (setText G te (some t)).buffer (t.length + GAP_SIZE_EXPAND - 1) = LF
    ∧ (setText G te (some t)).point = t.length
    ∧ (setText G te (some t)).current_pos = g_utf8_strlen t t.length
    ∧ (setText G te (some t)).text_length = g_utf8_strlen t t.length := by
  have hset : setText G te (some t)
      = insertTextAtCursor G (initBuffer G te (t.length + GAP_SIZE_EXPAND)) t t.length := by
    unfold setText
    simp only [strlen_of_nul_free t hnz]
  rw [hset]
  obtain ⟨ss, hp, hc, hl⟩ :=
    insertTextAtCursor_store G (initBuffer G te (t.length + GAP_SIZE_EXPAND)) t t.length
  have sd := sameDoc_assertUpdated G (initBuffer G te (t.length + GAP_SIZE_EXPAND))
  rw [ss.buffer, ss.gapstart, ss.gapend, ss.bufend, hp, hc, hl]
  generalize assertUpdatedScreenLines G (initBuffer G te (t.length + GAP_SIZE_EXPAND)) = x
    at sd
  have hb : x.buffer = poke (fun _ => 0) (t.length + GAP_SIZE_EXPAND - 1) LF := sd.buffer
  have hbe : x.bufend = t.length + GAP_SIZE_EXPAND := sd.bufend
  have hgs : x.gapstart = 0 := sd.gapstart
  have hge : x.gapend = t.length + GAP_SIZE_EXPAND - 1 := sd.gapend
  have hpt : x.point = 0 := sd.point
  have hcp : x.current_pos = 0 := sd.current_pos
  have htl : x.text_length = 0 := sd.text_length
  have hmv : moveGapToCursor x = x := by
    unfold moveGapToCursor
    rw [if_pos (by rw [hpt, hgs])]
  have hgap : ¬ t.length > getGapSize x := by
    unfold getGapSize
    rw [hge, hgs]
    simp only [GAP_SIZE_EXPAND]
    omega
  have hst : insertStore x t t.length
      = { x with
          text_length := x.text_length + g_utf8_strlen t t.length
          current_pos := x.current_pos + g_utf8_strlen t t.length
          buffer := (copy_loop t t.length 0 x.buffer x.gapstart).1
          gapstart := (copy_loop t t.length 0 x.buffer x.gapstart).2
          point := (copy_loop t t.length 0 x.buffer x.gapstart).2 } := by
    unfold insertStore
    simp only [hmv, if_neg hgap]
  rw [hst]
  have hcopy := copy_loop_spec t t.length 0 x.buffer x.gapstart
  refine ⟨?_, ?_, hge, hbe, ?_, ?_, ?_, ?_⟩
  · show Seg (copy_loop t t.length 0 x.buffer x.gapstart).1 0 t
    rw [hgs]
    exact Seg_copy t x.buffer 0
  · show (copy_loop t t.length 0 x.buffer x.gapstart).2 = t.length
    rw [hcopy, hgs]
    simp
  · show (copy_loop t t.length 0 x.buffer x.gapstart).1 (t.length + GAP_SIZE_EXPAND - 1) = LF
    rw [hcopy, hgs, hb]
    simp only [GAP_SIZE_EXPAND, poke]
    rw [if_neg (by omega)]
    simp
  · show (copy_loop t t.length 0 x.buffer x.gapstart).2 = t.length
    rw [hcopy, hgs]
    simp
  · show x.current_pos + g_utf8_strlen t t.length = _
    rw [hcp, Nat.zero_add]
  · show x.text_length + g_utf8_strlen t t.length = _
    rw [htl, Nat.zero_add]

/-- `getText` on a store whose gap already stands at the end: the returned string is the
NUL-free bytes before the gap. -/
theorem getText_gap_at_end (te : TextEdit) (t : List Nat) (hnz : ∀ b, b ∈ t → b ≠ 0)
    (hs : Seg te.buffer 0 t) (hgs : te.gapstart = t.length)
    (hge : te.gapend = te.bufend - 1) (hgap : te.gapstart < te.gapend) :
    (getText te).2 = t := by
  unfold getText
  simp only
  have hz : te.bufend - te.gapend - 1 = 0 := by omega
  rw [hz, Nat.add_zero]
  apply cstring_seg _ t te.bufend
  · intro i hi
    rw [Nat.zero_add]
    simp only [poke, g_memmove]
    rw [if_neg (by omega), if_neg (by omega)]
    have := hs i hi
    rwa [Nat.zero_add] at this
  · exact hnz
  · simp only [poke]
    rw [if_pos hgs.symm]
  · omega

/-- C23: for every document `te` and every NUL-free string `t` (any bytes), after
`setText (t)` the string returned by `getText` is `t`, `text_length` is the count
`g_utf8_strlen (t)` of the code, which is the number of codepoints when `t` is the UTF-8
encoding of valid codepoints, and `current_pos = text_length`.  After `setText (NULL)` and
after `clear` the string returned by `getText` is empty, and `current_pos`, `text_length` and
`view_top` are 0. -/
theorem setText_replaces_the_content (G : Glib) (te : TextEdit) (t : List Nat)
    (hnz : ∀ b, b ∈ t → b ≠ 0) :
    (getText (setText G te (some t))).2 = t
    ∧ (setText G te (some t)).text_length = g_utf8_strlen t t.length
    ∧ (setText G te (some t)).current_pos = (setText G te (some t)).text_length
    ∧ (∀ cps, (∀ c, c ∈ cps → validCp c) → t = encodeUtf8 cps →
        (setText G te (some t)).text_length = cps.length)
    ∧ ((getText (setText G te none)).2 = []
      ∧ (setText G te none).current_pos = 0
      ∧ (setText G te none).text_length = 0
      ∧ (setText G te none).view_top = 0)
    ∧ ((getText (clear G te)).2 = []
      ∧ (clear G te).current_pos = 0
      ∧ (clear G te).text_length = 0
      ∧ (clear G te).view_top = 0) := by
  obtain ⟨h1, h2, h3, h4, h5, h6, h7, h8⟩ := setText_store G te t hnz
  have hclear : (getText (clear G te)).2 = [] := by
    obtain ⟨d, -⟩ := initBuffer_doc G te GAP_SIZE_EXPAND (by decide)
    have := d.getText_spec.2.1
    simpa [encodeUtf8] using this
  refine ⟨?_, h8, by rw [h7, h8], ?_, ⟨hclear, rfl, rfl, rfl⟩, ⟨hclear, rfl, rfl, rfl⟩⟩
  · refine getText_gap_at_end _ t hnz h1 h2 (by rw [h3, h4])
      (by rw [h2, h3]; simp only [GAP_SIZE_EXPAND]; omega)
  · intro cps hv ht
    rw [h8, ht]
    exact g_utf8_strlen_enc cps hv

/-- The document "abc" set to "hi": `getText` returns "hi", the length and the cursor are 2;
set to the three bytes `0x80 0x80 'b'`, which are not well-formed UTF-8, it returns these
bytes. -/
theorem setText_replaces_the_content_witness :
    (getText (setText stdGlib docAbc (some [104, 105]))).2 = [104, 105]
    ∧ (setText stdGlib docAbc (some [104, 105])).text_length = 2
    ∧ (setText stdGlib docAbc (some [104, 105])).current_pos = 2
    ∧ (getText docAbc).2 = [97, 98, 99]
    ∧ (getText (setText stdGlib docAbc (some [128, 128, 98]))).2 = [128, 128, 98] :=
  ⟨(setText_replaces_the_content stdGlib docAbc [104, 105] (by decide)).1,
    by decide, by decide, by decide,
    (setText_replaces_the_content stdGlib docAbc [128, 128, 98] (by decide)).1⟩

end

section

/-! ### Where the line breaker ends a line -/

variable (G : Glib) (masked : Bool) (mw : Nat)

theorem widthL_ge : ∀ (t : List Nat) (w : Nat), w ≤ widthL G masked t w := by
  intro t
  induction t with
  | nil => intro w; exact Nat.le_refl _
  | cons c cs ih =>
    intro w
    have := ih (w + oswL G masked c w)
    simp only [widthL]
    omega

theorem widthL_append (a b : List Nat) (w : Nat) :
    widthL G masked (a ++ b) w = widthL G masked b (widthL G masked a w) := by
  induction a generalizing w with
  | nil => rfl
  | cons c cs ih =>
    show widthL G masked (cs ++ b) (w + oswL G masked c w) = _
    rw [ih]
    rfl

theorem widthL_take_mono (t : List Nat) (w : Nat) {i j : Nat} (hij : i ≤ j) :
    widthL G masked (t.take i) w ≤ widthL G masked (t.take j) w := by
  have h : t.take j = t.take i ++ (t.drop i).take (j - i) := by
    rw [← List.take_add]
    congr 1
    omega
  rw [h, widthL_append]
  exact widthL_ge G masked _ _

theorem widthL_take_succ_cons (c : Nat) (cs : List Nat) (w i : Nat) :
    widthL G masked ((c :: cs).take (i + 1)) w
      = widthL G masked (cs.take i) (w + oswL G masked c w) := rfl

theorem wordStartAt_succ (c : Nat) (cs : List Nat) (cw : Nat) (sp : Bool) (i : Nat) :
    wordStartAt G masked mw (c :: cs) cw sp (i + 1)
      ↔ wordStartAt G masked mw cs (cw + oswL G masked c cw) (G.g_unichar_isspace c) i := by
  unfold wordStartAt
  rw [widthL_take_succ_cons, if_neg (Nat.succ_ne_zero i), Nat.add_sub_cancel,
    List.getD_cons_succ]
  cases i with
  | zero => simp
  | succ i => simp

theorem brkLoop_over (t : List Nat) (cw cl rl : Nat) (sp : Bool) (h : cw > mw) :
    brkLoop G masked mw t cw cl sp rl = brkFinish rl := by
  cases t with
  | nil => rfl
  | cons c cs => simp only [brkLoop, if_pos h]

/-- One iteration of the line breaker on a codepoint that is reached and is not the line
feed. -/
theorem brkLoop_step (c : Nat) (cs : List Nat) (cw cl rl : Nat) (sp : Bool) (hw : ¬ cw > mw)
    (hc : c ≠ 10) :
    brkLoop G masked mw (c :: cs) cw cl sp rl
      = brkLoop G masked mw cs (cw + oswL G masked c cw) (cl + 1) (G.g_unichar_isspace c)
          (if G.g_unichar_isspace c = false ∧ sp = true then cl
            else if decide (cw + oswL G masked c cw > mw) && rl == 0 then cl else rl) := by
  simp only [brkLoop, if_neg hw, if_neg hc]
  by_cases h1 : G.g_unichar_isspace c = true
  · have hn : ¬ (G.g_unichar_isspace c = false ∧ sp = true) := by simp [h1]
    rw [if_pos h1, if_neg hn, h1]
  · have h2 : G.g_unichar_isspace c = false := by simpa using h1
    rw [if_neg h1]
    by_cases h3 : sp = true
    · rw [if_pos h3, if_pos ⟨h2, h3⟩, h2]
    · have h4 : sp = false := by simpa using h3
      have hn : ¬ (G.g_unichar_isspace c = false ∧ sp = true) := by simp [h4]
      rw [if_neg h3, if_neg hn, h2, h4]

theorem wordStartAt_zero (c : Nat) (cs : List Nat) (cw : Nat) (sp : Bool) (hw : ¬ cw > mw) :
    wordStartAt G masked mw (c :: cs) cw sp 0
      ↔ (G.g_unichar_isspace c = false ∧ sp = true) := by
  unfold wordStartAt
  simp only [if_true, List.getD_cons_zero, List.take_zero, widthL]
  constructor
  · intro h; exact ⟨h.2.1, h.1⟩
  · intro h; exact ⟨h.2, h.1, by omega⟩

/-- Without a word start among the codepoints scanned before the width runs over, a length
recorded earlier is the result. -/
theorem brkLoop_keeps : ∀ (t : List Nat) (cw cl rl f : Nat) (sp : Bool),
    (∀ j, j < f → t.getD j 0 ≠ 10) → mw < widthL G masked (t.take f) cw →
    (∀ i, i < f → ¬ wordStartAt G masked mw t cw sp i) → rl ≠ 0 →
    brkLoop G masked mw t cw cl sp rl = rl := by
  intro t
  induction t with
  | nil =>
    intro cw cl rl f sp _ _ _ hrl
    simp only [brkLoop, brkFinish, if_neg hrl]
  | cons c cs ih =>
    intro cw cl rl f sp hnl hov hno hrl
    by_cases hw : cw > mw
    · rw [brkLoop_over G masked mw _ _ _ _ _ hw]
      simp only [brkFinish, if_neg hrl]
    · obtain ⟨g, rfl⟩ : ∃ g, f = g + 1 := by
        cases f with
        | zero => simp only [List.take_zero, widthL] at hov; omega
        | succ g => exact ⟨g, rfl⟩
      have hc : c ≠ 10 := by simpa using hnl 0 (by omega)
      have h0 := hno 0 (by omega)
      rw [wordStartAt_zero G masked mw c cs cw sp hw] at h0
      rw [brkLoop_step G masked mw c cs cw cl rl sp hw hc, if_neg h0]
      have hrl2 : (if decide (cw + oswL G masked c cw > mw) && rl == 0 then cl else rl) = rl := by
        have : (rl == 0) = false := by simpa using hrl
        rw [this, Bool.and_false]
        rfl
      rw [hrl2]
      refine ih _ _ _ g _ (fun j hj => ?_) ?_ (fun i hi => ?_) hrl
      · have := hnl (j + 1) (by omega)
        simpa using this
      · rwa [widthL_take_succ_cons] at hov
      · rw [← wordStartAt_succ]
        exact hno (i + 1) (by omega)

theorem brkFinish_eq_max (rl : Nat) : brkFinish rl = max 1 rl := by
  unfold brkFinish
  by_cases h : rl = 0
  · rw [if_pos h, h]; rfl
  · rw [if_neg h]; omega

/-- Without a word start among the codepoints that fit, the line is the `n` codepoints that
fit, or the first codepoint alone when none fits. -/
theorem brkLoop_long_word : ∀ (t : List Nat) (cw cl n : Nat) (sp : Bool),
    (∀ j, j ≤ n → t.getD j 0 ≠ 10) → widthL G masked (t.take n) cw ≤ mw →
    mw < widthL G masked (t.take (n + 1)) cw →
    (∀ i, i ≤ n → ¬ wordStartAt G masked mw t cw sp i) →
    brkLoop G masked mw t cw cl sp 0 = max 1 (cl + n) := by
  intro t
  induction t with
  | nil =>
    intro cw cl n sp _ h1 h2 _
    simp only [List.take_nil, widthL] at h1 h2
    omega
  | cons c cs ih =>
    intro cw cl n sp hnl h1 h2 hno
    have hw : ¬ cw > mw := by
      have := widthL_ge G masked ((c :: cs).take n) cw
      omega
    have hc : c ≠ 10 := by simpa using hnl 0 (Nat.zero_le _)
    have h0 := hno 0 (Nat.zero_le _)
    rw [wordStartAt_zero G masked mw c cs cw sp hw] at h0
    rw [brkLoop_step G masked mw c cs cw cl 0 sp hw hc, if_neg h0]
    cases n with
    | zero =>
      have hov : cw + oswL G masked c cw > mw := by
        simpa [widthL] using h2
      rw [brkLoop_over G masked mw _ _ _ _ _ hov, brkFinish_eq_max]
      simp [hov]
    | succ n =>
      rw [widthL_take_succ_cons] at h1 h2
      have hfit : ¬ cw + oswL G masked c cw > mw := by
        have := widthL_ge G masked (cs.take n) (cw + oswL G masked c cw)
        omega
      have hrl : (if decide (cw + oswL G masked c cw > mw) && (0 : Nat) == 0 then cl else 0)
          = 0 := by
        simp [hfit]
      rw [hrl, ih _ _ n _ (fun j hj => ?_) h1 h2 (fun i hi => ?_)]
      · congr 1
        omega
      · have := hnl (j + 1) (by omega)
        simpa using this
      · rw [← wordStartAt_succ]
        exact hno (i + 1) (by omega)

/-- With a word start among the codepoints scanned before the width runs over, the line ends
before the last of them. -/
theorem brkLoop_word_start : ∀ (t : List Nat) (cw cl rl f i : Nat) (sp : Bool),
    (sp = true → 1 ≤ cl) →
    (∀ j, j < f → t.getD j 0 ≠ 10) → mw < widthL G masked (t.take f) cw →
    wordStartAt G masked mw t cw sp i → i < f →
    (∀ j, i < j → j < f → ¬ wordStartAt G masked mw t cw sp j) →
    brkLoop G masked mw t cw cl sp rl = cl + i := by
  intro t
  induction t with
  | nil =>
    intro cw cl rl f i sp _ _ hov hws _ _
    have := hws.2.2
    simp only [List.take_nil, widthL] at hov this
    omega
  | cons c cs ih =>
    intro cw cl rl f i sp hsp hnl hov hws hif hlast
    have hw : ¬ cw > mw := by
      have := widthL_ge G masked ((c :: cs).take i) cw
      have := hws.2.2
      omega
    obtain ⟨g, rfl⟩ : ∃ g, f = g + 1 := ⟨f - 1, by omega⟩
    have hc : c ≠ 10 := by simpa using hnl 0 (by omega)
    have hnl2 : ∀ j, j < g → cs.getD j 0 ≠ 10 := by
      intro j hj
      have := hnl (j + 1) (by omega)
      simpa using this
    rw [widthL_take_succ_cons] at hov
    rw [brkLoop_step G masked mw c cs cw cl rl sp hw hc]
    cases i with
    | zero =>
      have h0 := (wordStartAt_zero G masked mw c cs cw sp hw).1 hws
      rw [if_pos h0]
      refine brkLoop_keeps G masked mw cs _ _ cl g _ hnl2 hov (fun j hj => ?_) ?_
      · rw [← wordStartAt_succ]
        exact hlast (j + 1) (by omega) (by omega)
      · have := hsp h0.2
        omega
    | succ i =>
      rw [wordStartAt_succ] at hws
      rw [ih _ _ _ g i _ (fun _ => by omega) hnl2 hov hws (by omega) (fun j hj1 hj2 => ?_)]
      · omega
      · rw [← wordStartAt_succ]
        exact hlast (j + 1) (by omega) (by omega)

/-- When the first line feed is preceded by codepoints that fit, the line ends after it. -/
theorem brkLoop_line_feed : ∀ (t : List Nat) (cw cl rl f : Nat) (sp : Bool),
    f < t.length → t.getD f 0 = 10 → (∀ j, j < f → t.getD j 0 ≠ 10) →
    widthL G masked (t.take f) cw ≤ mw →
    brkLoop G masked mw t cw cl sp rl = cl + f + 1 := by
  intro t
  induction t with
  | nil => intro cw cl rl f sp hf; simp at hf
  | cons c cs ih =>
    intro cw cl rl f sp hf hlf hnl hfit
    have hw : ¬ cw > mw := by
      have := widthL_ge G masked ((c :: cs).take f) cw
      omega
    cases f with
    | zero =>
      have hc : c = 10 := by simpa using hlf
      simp only [brkLoop, if_neg hw, if_pos hc]
    | succ f =>
      have hc : c ≠ 10 := by simpa using hnl 0 (by omega)
      rw [brkLoop_step G masked mw c cs cw cl rl sp hw hc,
        ih _ _ _ f _ (by simpa using hf) (by simpa using hlf) (fun j hj => ?_)
          (by rwa [widthL_take_succ_cons] at hfit)]
      · omega
      · have := hnl (j + 1) (by omega)
        simpa using this

/-- A line never extends past the first line feed. -/
theorem brkLoop_stops_at_line_feed : ∀ (t : List Nat) (cw cl rl f : Nat) (sp : Bool),
    f < t.length → t.getD f 0 = 10 → rl ≤ cl →
    brkLoop G masked mw t cw cl sp rl ≤ cl + f + 1 := by
  intro t
  induction t with
  | nil => intro cw cl rl f sp hf; simp at hf
  | cons c cs ih =>
    intro cw cl rl f sp hf hlf hrl
    by_cases hw : cw > mw
    · rw [brkLoop_over G masked mw _ _ _ _ _ hw, brkFinish_eq_max]
      omega
    · by_cases hc : c = 10
      · simp only [brkLoop, if_neg hw, if_pos hc]
        omega
      · cases f with
        | zero => exact absurd (by simpa using hlf) hc
        | succ f =>
          rw [brkLoop_step G masked mw c cs cw cl rl sp hw hc]
          have := ih (cw + oswL G masked c cw) (cl + 1)
            (if G.g_unichar_isspace c = false ∧ sp = true then cl
              else if decide (cw + oswL G masked c cw > mw) && rl == 0 then cl else rl)
            f (G.g_unichar_isspace c) (by simpa using hf) (by simpa using hlf)
            (by split <;> [omega; (split <;> omega)])
          omega

namespace Rep

variable {te : TextEdit} {hd tl : List Nat}

/-- On a well-formed buffer `width` from the codepoint `k` is the width on codepoints. -/
theorem width_loop_posOf (G : Glib) (h : Rep te hd tl) : ∀ (j k w : Nat),
    k + j ≤ hd.length + tl.length + 1 →
    width_loop G te j (posOf te hd tl k) w
      = widthL G te.masked (((hd ++ tl ++ [LF]).drop k).take j) w := by
  intro j
  induction j with
  | zero => intro k w _; rfl
  | succ j ih =>
    intro k w hk
    have hlen : (hd ++ tl ++ [LF]).length = hd.length + tl.length + 1 := by simp; omega
    rw [drop_doc _ k (by omega)]
    simp only [width_loop, List.take_succ_cons, widthL]
    rw [h.get_char_posOf k (by omega), h.nextChar_posOf k (by omega), ih (k + 1) _ (by omega)]
    rfl

theorem width_posOf (G : Glib) (h : Rep te hd tl) (j k : Nat)
    (hk : k + j ≤ hd.length + tl.length + 1) :
    width G te (posOf te hd tl k) j
      = widthL G te.masked (((hd ++ tl ++ [LF]).drop k).take j) 0 :=
  h.width_loop_posOf G j k 0 hk

/-- The sentinel is a line feed: a run of codepoints without a line feed ends before it. -/
theorem no_line_feed_extent (k f : Nat) (hk : k ≤ hd.length + tl.length)
    (hnl : ∀ i, i < f → (hd ++ tl ++ [LF]).getD (k + i) 0 ≠ 10) :
    k + f ≤ hd.length + tl.length := by
  by_contra hc
  have := hnl (hd.length + tl.length - k) (by omega)
  rw [show k + (hd.length + tl.length - k) = hd.length + tl.length by omega] at this
  apply this
  rw [List.getD_append_right _ _ _ _ (by simp)]
  simp [LF]

/-- The recorded word starts from the codepoint `k`, on the codepoints of the document. -/
theorem wordStartAt_doc (G : Glib) (h : Rep te hd tl) (mw k i : Nat)
    (hi : k + i ≤ hd.length + tl.length + 1) :
    wordStartAt G te.masked mw ((hd ++ tl ++ [LF]).drop k) 0 false i
      ↔ (1 ≤ i ∧ G.g_unichar_isspace ((hd ++ tl ++ [LF]).getD (k + i - 1) 0) = true
        ∧ G.g_unichar_isspace ((hd ++ tl ++ [LF]).getD (k + i) 0) = false
        ∧ width G te (posOf te hd tl k) i ≤ mw) := by
  unfold wordStartAt
  rw [h.width_posOf G i k hi, getD_drop]
  cases i with
  | zero => simp
  | succ i =>
    rw [if_neg (Nat.succ_ne_zero i), getD_drop, Nat.add_sub_cancel,
      show k + (i + 1) - 1 = k + i by omega]
    simp

end Rep

end

section

/-! ### The three ways a screen line ends -/

theorem docLongWord_rep :
    Rep docLongWord [97, 98, 99, 100, 101, 102, 103, 104, 105, 106, 107, 108] [] :=
  (setText_doc stdGlib (blank (some ⟨10, 3⟩) false)
    [97, 98, 99, 100, 101, 102, 103, 104, 105, 106, 107, 108] (by decide)).1.rep

/-- C25: let the buffer be well formed and let the scan start at the codepoint `k`.  Suppose
that the first `f` codepoints from `k` hold no line feed and are wider than `max_width` (the
width runs over before a line terminator is reached), and that `j < f` is the last word start
met: the codepoint `j` is not white space, the codepoint `j - 1` is, the `j` codepoints before
it are not wider than `max_width`, and no later index below `f` is such a word start.  Then
`getScreenLine` returns the offset of the codepoint `j` and the count `j`: the next line
begins with the first codepoint of that word and the white space before it stays on this
line. -/
theorem getScreenLine_breaks_at_last_word_start (G : Glib) (te : TextEdit) (hd tl : List Nat)
    (h : Rep te hd tl) (mw k f j : Nat) (hk : k ≤ hd.length + tl.length)
    (hnl : ∀ i, i < f → (hd ++ tl ++ [LF]).getD (k + i) 0 ≠ 10)
    (hover : mw < width G te (posOf te hd tl k) f)
    (hj : 1 ≤ j) (hjf : j < f)
    (hsp : G.g_unichar_isspace ((hd ++ tl ++ [LF]).getD (k + j - 1) 0) = true)
    (hns : G.g_unichar_isspace ((hd ++ tl ++ [LF]).getD (k + j) 0) = false)
    (hfit : width G te (posOf te hd tl k) j ≤ mw)
    (hlast : ∀ i, j < i → i < f →
      ¬ (G.g_unichar_isspace ((hd ++ tl ++ [LF]).getD (k + i - 1) 0) = true
        ∧ G.g_unichar_isspace ((hd ++ tl ++ [LF]).getD (k + i) 0) = false
        ∧ width G te (posOf te hd tl k) i ≤ mw)) :
    getScreenLine G te (posOf te hd tl k) mw = (posOf te hd tl (k + j), j) := by
  have hext := Rep.no_line_feed_extent k f hk hnl
  rw [h.getScreenLine_posOf G mw k (by omega)]
  have hb : brk G te.masked mw ((hd ++ tl ++ [LF]).drop k) = j := by
    have := brkLoop_word_start G te.masked mw ((hd ++ tl ++ [LF]).drop k) 0 0 0 f j false
      (fun hh => by cases hh)
      (fun i hi => by rw [getD_drop]; exact hnl i hi)
      (by rw [← h.width_posOf G f k (by omega)]; exact hover)
      ((h.wordStartAt_doc G mw k j (by omega)).2 ⟨hj, hsp, hns, hfit⟩) hjf
      (fun i h1 h2 hw =>
        hlast i h1 h2 ((h.wordStartAt_doc G mw k i (by omega)).1 hw).2)
    rw [Nat.zero_add] at this
    exact this
  rw [hb]

/-- In "hello world wrap" with 9 columns, from the codepoint 6 (the word "world"): the ten
codepoints "world wrap" are wider than 9, the last word start is the `w` of "wrap", six
codepoints on, and the line is "world ". -/
theorem getScreenLine_breaks_at_last_word_start_witness :
    getScreenLine stdGlib docLines
        (posOf docLines
          [104, 101, 108, 108, 111, 32, 119, 111, 114, 108, 100, 32, 119, 114, 97, 112] [] 6) 9
      = (posOf docLines
          [104, 101, 108, 108, 111, 32, 119, 111, 114, 108, 100, 32, 119, 114, 97, 112] []
          (6 + 6), 6) :=
  getScreenLine_breaks_at_last_word_start stdGlib docLines
    [104, 101, 108, 108, 111, 32, 119, 111, 114, 108, 100, 32, 119, 114, 97, 112] []
    docLines_inv.rep 9 6 10 6 (by decide)
    (fun i hi => by interval_cases i <;> decide)
    (by decide) (by decide) (by decide) (by decide) (by decide) (by decide)
    (fun i h1 h2 => by interval_cases i <;> decide)

/-- C26, counterexample: the buffer holds the double-width codepoint U+4E16 and
`max_width` is 1, so the width runs over at the first codepoint, before any word start and
before the line feed.  The longest prefix that is not wider than 1 is the empty one, and the
returned line is the first codepoint, of width 2: it is not a prefix whose width is at most
`max_width`. -/
theorem wide_first_codepoint_line_is_wider_than_max_width :
    (getText docWide).2 = encodeUtf8 [19990]
    ∧ width stdGlib docWide 0 0 = 0
    ∧ width stdGlib docWide 0 1 = 2
    ∧ (getScreenLine stdGlib docWide 0 1).2 = 1
    ∧ ¬ width stdGlib docWide 0 (getScreenLine stdGlib docWide 0 1).2 ≤ 1 := by
  decide

/-- C26, amended: let the buffer be well formed and let the scan start at the codepoint `k`.
Suppose that `n` codepoints from `k` are not wider than `max_width` and `n + 1` are (the
width runs over at the codepoint `n`), that none of these `n + 1` codepoints is a line feed
and that none of them is a word start (not white space, after white space).  Then
`getScreenLine` breaks in the middle of the word: when `n ≥ 1` the line is these `n`
codepoints, the longest prefix that is not wider than `max_width`; when `n = 0`, the first
codepoint being wider than `max_width`, the line is that codepoint alone.  The line is never
empty. -/
theorem getScreenLine_breaks_long_word (G : Glib) (te : TextEdit) (hd tl : List Nat)
    (h : Rep te hd tl) (mw k n : Nat) (hk : k ≤ hd.length + tl.length)
    (hnl : ∀ i, i ≤ n → (hd ++ tl ++ [LF]).getD (k + i) 0 ≠ 10)
    (hfit : width G te (posOf te hd tl k) n ≤ mw)
    (hover : mw < width G te (posOf te hd tl k) (n + 1))
    (hnone : ∀ i, 1 ≤ i → i ≤ n →
      ¬ (G.g_unichar_isspace ((hd ++ tl ++ [LF]).getD (k + i - 1) 0) = true
        ∧ G.g_unichar_isspace ((hd ++ tl ++ [LF]).getD (k + i) 0) = false
        ∧ width G te (posOf te hd tl k) i ≤ mw)) :
    getScreenLine G te (posOf te hd tl k) mw = (posOf te hd tl (k + max 1 n), max 1 n)
    ∧ (1 ≤ n → (getScreenLine G te (posOf te hd tl k) mw).2 = n)
    ∧ (n = 0 → getScreenLine G te (posOf te hd tl k) mw = (nextChar te (posOf te hd tl k), 1))
    ∧ 1 ≤ (getScreenLine G te (posOf te hd tl k) mw).2 := by
  have hext := Rep.no_line_feed_extent k (n + 1) hk (fun i hi => hnl i (by omega))
  have hb : brk G te.masked mw ((hd ++ tl ++ [LF]).drop k) = max 1 n := by
    have := brkLoop_long_word G te.masked mw ((hd ++ tl ++ [LF]).drop k) 0 0 n false
      (fun i hi => by rw [getD_drop]; exact hnl i hi)
      (by rw [← h.width_posOf G n k (by omega)]; exact hfit)
      (by rw [← h.width_posOf G (n + 1) k (by omega)]; exact hover)
      (fun i hi hw => by
        have := (h.wordStartAt_doc G mw k i (by omega)).1 hw
        exact hnone i this.1 hi this.2)
    rw [Nat.zero_add] at this
    exact this
  have hgs := h.getScreenLine_posOf G mw k (by omega)
  rw [hb] at hgs
  rw [hgs]
  refine ⟨rfl, fun h1 => by simp only []; omega, fun h0 => ?_, by simp only []; omega⟩
  subst h0
  rw [h.nextChar_posOf k (by omega)]
  rfl

/-- The word "abcdefghijkl" with 9 columns: nine letters fit and ten do not, so the line is
the first nine letters. -/
theorem getScreenLine_breaks_long_word_witness :
    getScreenLine stdGlib docLongWord
        (posOf docLongWord [97, 98, 99, 100, 101, 102, 103, 104, 105, 106, 107, 108] [] 0) 9
      = (posOf docLongWord [97, 98, 99, 100, 101, 102, 103, 104, 105, 106, 107, 108] []
          (0 + max 1 9), max 1 9)
    ∧ getScreenLine stdGlib docLongWord 0 9 = (9, 9) :=
  ⟨(getScreenLine_breaks_long_word stdGlib docLongWord
      [97, 98, 99, 100, 101, 102, 103, 104, 105, 106, 107, 108] [] docLongWord_rep 9 0 9
      (by decide) (fun i hi => by interval_cases i <;> decide) (by decide) (by decide)
      (fun i h1 h2 => by interval_cases i <;> decide)).1,
    by decide⟩

/-- C27: let the buffer be well formed and let the scan start at the codepoint `k`.  When the
first line feed from `k` is the codepoint `f` on and the `f` codepoints before it are not
wider than `max_width`, `getScreenLine` returns the count `f + 1` and the offset after the
line feed: the line feed is the last codepoint of the line.  For every start and every
`max_width`, no codepoint of the returned line but the last is a line feed. -/
theorem getScreenLine_ends_after_line_feed (G : Glib) (te : TextEdit) (hd tl : List Nat)
    (h : Rep te hd tl) (mw k f : Nat) (hk : k + f ≤ hd.length + tl.length)
    (hlf : (hd ++ tl ++ [LF]).getD (k + f) 0 = 10)
    (hfirst : ∀ i, i < f → (hd ++ tl ++ [LF]).getD (k + i) 0 ≠ 10)
    (hfit : width G te (posOf te hd tl k) f ≤ mw) :
    getScreenLine G te (posOf te hd tl k) mw = (posOf te hd tl (k + f + 1), f + 1)
    ∧ posOf te hd tl (k + f + 1) = nextChar te (posOf te hd tl (k + f))
    ∧ te.buffer (posOf te hd tl (k + f)) % 256 = LF
    ∧ (∀ mw2 k2 i, k2 ≤ hd.length + tl.length →
        i + 1 < (getScreenLine G te (posOf te hd tl k2) mw2).2 →
        (hd ++ tl ++ [LF]).getD (k2 + i) 0 ≠ 10) := by
  have hlen : (hd ++ tl ++ [LF]).length = hd.length + tl.length + 1 := by simp; omega
  have hb : brk G te.masked mw ((hd ++ tl ++ [LF]).drop k) = f + 1 := by
    have := brkLoop_line_feed G te.masked mw ((hd ++ tl ++ [LF]).drop k) 0 0 0 f false
      (by rw [List.length_drop, hlen]; omega)
      (by rw [getD_drop]; exact hlf)
      (fun i hi => by rw [getD_drop]; exact hfirst i hi)
      (by rw [← h.width_posOf G f k (by omega)]; exact hfit)
    rw [Nat.zero_add] at this
    exact this
  refine ⟨?_, (h.nextChar_posOf (k + f) (by omega)).symm,
    (h.lf_posOf (k + f) (by omega)).2 hlf, ?_⟩
  · rw [h.getScreenLine_posOf G mw k (by omega), hb]
    rfl
  · intro mw2 k2 i hk2 hi hten
    rw [h.getScreenLine_posOf G mw2 k2 (by omega)] at hi
    simp only [] at hi
    have hin : i < ((hd ++ tl ++ [LF]).drop k2).length := by
      rw [List.length_drop, hlen]
      by_contra hc
      rw [List.getD_eq_default _ _ (by rw [hlen]; omega)] at hten
      cases hten
    have := brkLoop_stops_at_line_feed G te.masked mw2 ((hd ++ tl ++ [LF]).drop k2) 0 0 0 i
      false hin (by rw [getD_drop]; exact hten) (Nat.le_refl _)
    unfold brk at hi
    omega

/-- In "hello world wrap" with 9 columns, from the codepoint 12 (the word "wrap"): the four
letters fit, the sentinel line feed is the codepoint 4 on, and the line is "wrap" with the
line feed, five codepoints, ending at `bufend`. -/
theorem getScreenLine_ends_after_line_feed_witness :
    getScreenLine stdGlib docLines
        (posOf docLines
          [104, 101, 108, 108, 111, 32, 119, 111, 114, 108, 100, 32, 119, 114, 97, 112] [] 12)
        9
      = (posOf docLines
          [104, 101, 108, 108, 111, 32, 119, 111, 114, 108, 100, 32, 119, 114, 97, 112] []
          (12 + 4 + 1), 4 + 1)
    ∧ getScreenLine stdGlib docLines 12 9 = (docLines.bufend, 5) :=
  ⟨(getScreenLine_ends_after_line_feed stdGlib docLines
      [104, 101, 108, 108, 111, 32, 119, 111, 114, 108, 100, 32, 119, 114, 97, 112] []
      docLines_inv.rep 9 12 4 (by decide) (by decide)
      (fun i hi => by interval_cases i <;> decide) (by decide)).1,
    by decide⟩

end

section

/-! ### The buffer invariant in every reachable state -/

/-- One operation keeps the invariant, given what it does to a document without a viewport
and to a document with one. -/
theorem ContentInv.step {G : Glib} {te te2 : TextEdit} {s s2 : List Nat}
    (hc : ContentInv G te s) (harea : te2.area = te.area) (hlen : s2.length < 2147483648)
    (hed : te2.editable = true)
    (hdoc : (¬ ∃ ar, te.area = some ar ∧ 2 ≤ ar.maxx) → ∀ hd tl, Doc te hd tl → hd ++ tl = s →
      ∃ hd2 tl2, Doc te2 hd2 tl2 ∧ hd2 ++ tl2 = s2)
    (hinv : ∀ hd tl ar, Inv G te hd tl ar → hd ++ tl = s →
      ∃ hd2 tl2, Inv G te2 hd2 tl2 ar ∧ hd2 ++ tl2 = s2) :
    ContentInv G te2 s2 := by
  obtain ⟨hd, tl, d, hs, -, -, hI⟩ := hc
  by_cases hA : ∃ ar, te.area = some ar ∧ 2 ≤ ar.maxx
  · obtain ⟨ar, ha, hw⟩ := hA
    obtain ⟨hd2, tl2, inv2, hs2⟩ := hinv hd tl ar (hI ar ha hw) hs
    refine ⟨hd2, tl2, inv2.inv_doc, hs2, hlen, hed, fun ar2 ha2 _ => ?_⟩
    rw [harea, ha] at ha2
    cases ha2
    exact inv2
  · obtain ⟨hd2, tl2, d2, hs2⟩ := hdoc hA hd tl d hs
    refine ⟨hd2, tl2, d2, hs2, hlen, hed, fun ar2 ha2 hw2 => ?_⟩
    rw [harea] at ha2
    exact absurd ⟨ar2, ha2, hw2⟩ hA

/-- `getText` keeps the invariant of a document with a viewport: the cache is marked dirty
and the screen position of the cursor is untouched. -/
theorem Inv.getText_inv {G : Glib} {te : TextEdit} {hd tl : List Nat} {ar : Area}
    (inv : Inv G te hd tl ar) : Inv G (getText te).1 (hd ++ tl) [] ar := by
  obtain ⟨d, -, -, -, -, -, hcp, -, hdirty, -⟩ := inv.inv_doc.getText_spec
  refine ⟨d.rep, d.len, d.cur, d.pt, inv.area, inv.wide, fun hh => ?_, ?_⟩
  · rw [hdirty] at hh
    cases hh
  · have hsc := inv.sc
    have h1 : (getText te).1.current_sc_line = te.current_sc_line := rfl
    have h2 : (getText te).1.current_sc_linepos = te.current_sc_linepos := rfl
    have h3 : (getText te).1.masked = te.masked := rfl
    rw [h1, h2, h3, hcp, List.append_nil]
    exact hsc

/-- `deleteFromCursor` on an editable document with a viewport, whatever the target. -/
theorem Inv.delete_whatever {G : Glib} {te : TextEdit} {hd tl : List Nat} {ar : Area}
    (hm : WidthMono G) (inv : Inv G te hd tl ar) (hsmall : hd.length + tl.length < 2147483648)
    (he : te.editable = true) (ty : DeleteType) (dir : Direction) :
    ∃ hd2 tl2, Inv G (deleteFromCursor G te ty dir) hd2 tl2 ar
      ∧ hd2 ++ tl2 = (hd ++ tl).take (min te.current_pos (deleteTarget G te ty dir))
          ++ (hd ++ tl).drop (max te.current_pos (deleteTarget G te ty dir)) := by
  have hc := inv.cur
  by_cases hne : deleteTarget G te ty dir = te.current_pos
  · rw [deleteFromCursor_noop G te ty dir he (by simp only [SIZE_MOD]; omega) hne, hne]
    refine ⟨hd, tl, inv.inv_assertUpdated.1, ?_⟩
    rw [Nat.min_self, Nat.max_self, List.take_append_drop]
  · obtain ⟨inv2, -⟩ := Lay.delete_inv hm inv.lay hsmall he ty dir hne
    exact ⟨_, _, inv2, rfl⟩

theorem take_drop_le_length (s : List Nat) (a b : Nat) :
    (s.take a ++ s.drop b).length ≤ s.length + (a - b) := by
  rw [List.length_append, List.length_take, List.length_drop]
  omega

/-- Every reachable state satisfies the invariant for its logical content. -/
theorem reachableWith_inv (G : Glib) (hm : WidthMono G) (te : TextEdit) (s : List Nat)
    (hr : ReachableWith G te s) : ContentInv G te s := by
  induction hr with
  | construct_null a fl sl at_ m =>
    obtain ⟨d, -, -, -, he, -, -, -, -, ha, -⟩ := initBuffer_doc G
      ⟨fl, true, false, sl, at_, m, fun _ => 0, 0, 0, 0, 0, 0, 0, 0, 0, 0, [], false, a, 0⟩
      GAP_SIZE_EXPAND (by decide)
    exact ⟨[], [], d, rfl, by simp, he, fun ar har hw =>
      initBuffer_inv G _ GAP_SIZE_EXPAND (by decide) ar (ha.symm.trans har) hw⟩
  | construct_text a cps fl sl at_ m hv hs =>
    obtain ⟨d, -, -, he, -, ha⟩ := setText_doc G
      ⟨fl, true, false, sl, at_, m, fun _ => 0, 0, 0, 0, 0, 0, 0, 0, 0, 0, [], false, a, 0⟩
      cps hv
    exact ⟨cps, [], d, by simp, hs, he, fun ar har hw =>
      setText_inv G hm _ cps hv ar (ha.symm.trans har) hw⟩
  | initBuffer te s size _ hsz ih =>
    obtain ⟨d, -, -, -, he, -, -, -, -, ha, -⟩ := initBuffer_doc G te size hsz
    refine ih.step ha (by simp) (he.trans ih.choose_spec.choose_spec.2.2.2.1)
      (fun _ hd tl _ _ => ⟨[], [], d, rfl⟩)
      (fun hd tl ar inv _ => ⟨[], [], initBuffer_inv G te size hsz ar inv.area inv.wide, rfl⟩)
  | setText_null te s _ ih =>
    obtain ⟨d, -, -, -, he, -, -, -, -, ha, -⟩ :=
      initBuffer_doc G te GAP_SIZE_EXPAND (by decide)
    refine ih.step ha (by simp) (he.trans ih.choose_spec.choose_spec.2.2.2.1)
      (fun _ hd tl _ _ => ⟨[], [], d, rfl⟩)
      (fun hd tl ar inv _ =>
        ⟨[], [], initBuffer_inv G te GAP_SIZE_EXPAND (by decide) ar inv.area inv.wide, rfl⟩)
  | setText_text te s cps _ hv hs ih =>
    obtain ⟨d, -, -, he, -, ha⟩ := setText_doc G te cps hv
    refine ih.step ha hs (he.trans ih.choose_spec.choose_spec.2.2.2.1)
      (fun _ hd tl _ _ => ⟨cps, [], d, by simp⟩)
      (fun hd tl ar inv _ => ⟨cps, [], setText_inv G hm te cps hv ar inv.area inv.wide, by simp⟩)
  | clear te s _ ih =>
    obtain ⟨d, -, -, -, he, -, -, -, -, ha, -⟩ :=
      initBuffer_doc G te GAP_SIZE_EXPAND (by decide)
    refine ih.step ha (by simp) (he.trans ih.choose_spec.choose_spec.2.2.2.1)
      (fun _ hd tl _ _ => ⟨[], [], d, rfl⟩)
      (fun hd tl ar inv _ =>
        ⟨[], [], initBuffer_inv G te GAP_SIZE_EXPAND (by decide) ar inv.area inv.wide, rfl⟩)
  | insert te s cps _ hv hs ih =>
    obtain ⟨hd, tl, d, hst, hsm, hed, hI⟩ := ih
    obtain ⟨-, -, -, -, he, -, -, -, -, ha⟩ := d.insert_doc G cps hv
    have hcur : te.current_pos ≤ s.length := by
      rw [← hst, List.length_append]; exact d.cur
    refine ContentInv.step ⟨hd, tl, d, hst, hsm, hed, hI⟩ ha ?_ (he.trans hed) ?_ ?_
    · simp only [List.length_append, List.length_take, List.length_drop]
      omega
    · intro _ hd2 tl2 d2 hs2
      exact ⟨_, _, (d2.insert_doc G cps hv).1, by rw [hs2, List.append_assoc]⟩
    · intro hd2 tl2 ar inv2 hs2
      exact ⟨_, _, (Inv.insert_inv hm inv2.lay cps hv).1, by rw [hs2, List.append_assoc]⟩
  | delete te s ty dir _ ih =>
    obtain ⟨hd, tl, d, hst, hsm, hed, hI⟩ := ih
    have hsm2 : hd.length + tl.length < 2147483648 := by
      rw [← List.length_append, hst]; exact hsm
    obtain ⟨ht, -, -, -, he, ha⟩ := d.delete_any G hsm2 hed ty dir
    refine ContentInv.step ⟨hd, tl, d, hst, hsm, hed, hI⟩ ha ?_ he ?_ ?_
    · have := take_drop_le_length s (min te.current_pos (deleteTarget G te ty dir))
        (max te.current_pos (deleteTarget G te ty dir))
      omega
    · intro _ hd2 tl2 d2 hs2
      have hsm3 : hd2.length + tl2.length < 2147483648 := by
        rw [← List.length_append, hs2]; exact hsm
      obtain ⟨-, ⟨a, b, d3, hab⟩, -⟩ := d2.delete_any G hsm3 hed ty dir
      exact ⟨a, b, d3, by rw [hab, hs2]⟩
    · intro hd2 tl2 ar inv2 hs2
      have hsm3 : hd2.length + tl2.length < 2147483648 := by
        rw [← List.length_append, hs2]; exact hsm
      obtain ⟨a, b, inv3, hab⟩ := inv2.delete_whatever hm hsm3 hed ty dir
      exact ⟨a, b, inv3, by rw [hab, hs2]⟩
  | move te s step dir _ hstep ih =>
    obtain ⟨hd, tl, d, hst, hsm, hed, hI⟩ := ih
    have harea : (moveCursor G te step dir).area = te.area := by
      rw [moveCursor_eq]
      exact (sameDoc_updateScreenCursor G _).area.trans (sameDoc_assertUpdated G te).area
    have hedit : (moveCursor G te step dir).editable = te.editable := by
      rw [moveCursor_eq]
      exact (sameDoc_updateScreenCursor G _).editable.trans
        (sameDoc_assertUpdated G te).editable
    refine ContentInv.step ⟨hd, tl, d, hst, hsm, hed, hI⟩ harea hsm (hedit.trans hed) ?_ ?_
    · intro hno hd2 tl2 d2 hs2
      have hsm3 : hd2.length + tl2.length < 2147483648 := by
        rw [← List.length_append, hs2]; exact hsm
      rcases hstep with h1 | h1 | h1
      · exact ⟨hd2, tl2, (d2.moveCursor_simple G hsm3 step dir (Or.inl h1)).1, hs2⟩
      · exact ⟨hd2, tl2, (d2.moveCursor_simple G hsm3 step dir (Or.inr h1)).1, hs2⟩
      · exact absurd h1 hno
    · intro hd2 tl2 ar inv2 hs2
      have hsm3 : hd2.length + tl2.length < 2147483648 := by
        rw [← List.length_append, hs2]; exact hsm
      exact ⟨hd2, tl2, (inv2.moveCursor_spec hsm3 step dir).1, hs2⟩
  | getText te s _ ih =>
    obtain ⟨hd, tl, d, hst, hsm, hed, hI⟩ := ih
    refine ContentInv.step ⟨hd, tl, d, hst, hsm, hed, hI⟩ rfl hsm hed ?_ ?_
    · intro _ hd2 tl2 d2 hs2
      exact ⟨hd2 ++ tl2, [], d2.getText_spec.1, by rw [List.append_nil, hs2]⟩
    · intro hd2 tl2 ar inv2 hs2
      exact ⟨hd2 ++ tl2, [], inv2.getText_inv, by rw [List.append_nil, hs2]⟩

theorem seg_range (buf : Nat → Nat) (lo : Nat) (l : List Nat) (hs : Seg buf lo l) :
    (List.range l.length).map (fun i => buf (lo + i)) = l := by
  apply List.ext_getElem
  · simp
  · intro i h1 h2
    simp only [List.getElem_map, List.getElem_range]
    rw [hs i h2, List.getD_eq_getElem _ _ h2]

/-- The bytes before the gap and the bytes after it, without the sentinel, are the encoding
of the document; the sentinel is the last byte of the array. -/
theorem Rep.bytes {te : TextEdit} {hd tl : List Nat} (h : Rep te hd tl) :
    headBytes te ++ tailBytes te = encodeUtf8 (hd ++ tl)
    ∧ te.gapend < te.bufend
    ∧ te.buffer (te.bufend - 1) = LF := by
  have hbe := h.be
  rw [encodeUtf8_snoc_LF, List.length_append, List.length_singleton] at hbe
  have htail := h.tail
  rw [encodeUtf8_snoc_LF] at htail
  refine ⟨?_, by omega, ?_⟩
  · rw [encodeUtf8_append]
    congr 1
    · unfold headBytes
      rw [h.gs]
      have := seg_range te.buffer 0 (encodeUtf8 hd) h.head
      simpa using this
    · unfold tailBytes
      rw [show te.bufend - 1 - te.gapend = (encodeUtf8 tl).length by omega]
      apply seg_range te.buffer te.gapend (encodeUtf8 tl)
      intro i hi
      rw [htail i (by rw [List.length_append]; omega), List.getD_append _ _ _ _ hi]
  · have := htail (encodeUtf8 tl).length (by simp)
    rw [show te.bufend - 1 = te.gapend + (encodeUtf8 tl).length by omega, this,
      List.getD_append_right _ _ _ _ (Nat.le_refl _)]
    simp

/-- C28, counterexample: insert the two bytes `'a' 0x80`, which are not well-formed UTF-8
(`g_utf8_strlen` counts two codepoints, `nextChar` steps over both bytes at once), into the
empty document, move the cursor back twice and delete forward twice: the second delete moves
`gapend` over the sentinel, so `gapend = bufend` and `gapend < bufend` fails.  And
`initBuffer (1)`, which its assertion `size > 0` admits, leaves an empty gap. -/
theorem malformed_insert_lets_delete_consume_sentinel :
    (insertTextAtCursor stdGlib (construct stdGlib (some ⟨10, 3⟩) none 0 false true false)
        [97, 128] 2).text_length = 2
    ∧ docConsumed.bufend = 4096
    ∧ docConsumed.gapend = 4096
    ∧ docConsumed.gapend = docConsumed.bufend
    ∧ ¬ docConsumed.gapend < docConsumed.bufend
    ∧ docConsumed.text_length = 0
    ∧ ¬ (initBuffer stdGlib (blank (some ⟨10, 3⟩) false) 1).gapstart
        < (initBuffer stdGlib (blank (some ⟨10, 3⟩) false) 1).gapend := by
  decide

/-- C28, amended: in every state reachable through `initBuffer`, `setText`, `clear`,
`insertTextAtCursor`, `deleteFromCursor`, `moveCursor` and `getText` in which every text
passed in is well-formed UTF-8 (the content below 2^31 codepoints, movement by display lines
only with a viewport of width at least 2, the cell width monotone in the column),
`buffer ≤ gapstart < gapend < bufend`, the byte at `bufend - 1` is the line feed sentinel, the
bytes before the gap followed by the bytes after it without the sentinel are the encoding of
the logical content `s`, which is also what `getText` returns, `text_length` is the number of
codepoints of `s`, and the assertion `gapend > gapstart` of `getText` holds. -/
theorem reachable_buffer_keeps_gap_and_sentinel (G : Glib) (hm : WidthMono G) (te : TextEdit)
    (s : List Nat) (hr : ReachableWith G te s) :
    0 ≤ te.gapstart ∧ te.gapstart < te.gapend ∧ te.gapend < te.bufend
    ∧ te.buffer (te.bufend - 1) = LF
    ∧ headBytes te ++ tailBytes te = encodeUtf8 s
    ∧ (getText te).2 = encodeUtf8 s
    ∧ te.text_length = s.length
    ∧ te.current_pos ≤ te.text_length := by
  obtain ⟨hd, tl, d, hs, -, -, -⟩ := reachableWith_inv G hm te s hr
  obtain ⟨b1, b2, b3⟩ := d.rep.bytes
  rw [hs] at b1
  have hg := d.getText_spec.2.1
  rw [hs] at hg
  have hl := d.len
  rw [← List.length_append, hs] at hl
  have hc := d.cur
  rw [← List.length_append, hs, ← hl] at hc
  exact ⟨Nat.zero_le _, d.rep.gap, b2, b3, b1, hg, hl, hc⟩

/-- Insert "hi" into the empty document and delete the last codepoint: the gap is not empty,
it ends before `bufend`, and `getText` returns "h". -/
theorem reachable_buffer_keeps_gap_and_sentinel_witness :
    docEdited.gapstart < docEdited.gapend
    ∧ docEdited.gapend < docEdited.bufend
    ∧ docEdited.buffer (docEdited.bufend - 1) = LF
    ∧ (getText docEdited).2 = [104] :=
  ⟨(reachable_buffer_keeps_gap_and_sentinel stdGlib stdGlib_widthMono docEdited _
      (ReachableWith.delete _ _ DeleteType.DELETE_CHARS Direction.DIR_BACK
        (ReachableWith.insert _ _ [104, 105]
          (ReachableWith.construct_null (some ⟨10, 3⟩) 0 false true false)
          (by decide) (by decide)))).2.1,
    (reachable_buffer_keeps_gap_and_sentinel stdGlib stdGlib_widthMono docEdited _
      (ReachableWith.delete _ _ DeleteType.DELETE_CHARS Direction.DIR_BACK
        (ReachableWith.insert _ _ [104, 105]
          (ReachableWith.construct_null (some ⟨10, 3⟩) 0 false true false)
          (by decide) (by decide)))).2.2.1,
    (reachable_buffer_keeps_gap_and_sentinel stdGlib stdGlib_widthMono docEdited _
      (ReachableWith.delete _ _ DeleteType.DELETE_CHARS Direction.DIR_BACK
        (ReachableWith.insert _ _ [104, 105]
          (ReachableWith.construct_null (some ⟨10, 3⟩) 0 false true false)
          (by decide) (by decide)))).2.2.2.1,
    by decide⟩

end

section

/-! ### A screen line is not wider than `max_width` -/

/-- One codepoint less is not wider. -/
theorem width_pred_le (G : Glib) (te : TextEdit) (s n : Nat) :
    width G te s (n - 1) ≤ width G te s n := by
  cases n with
  | zero => exact Nat.le_refl _
  | succ n =>
    rw [width_succ]
    exact Nat.le_add_right _ _

/-- The code after the loop returns one codepoint, or the recorded length, whose codepoints
are not wider than `mw`. -/
theorem getScreenLine_finish_fits (G : Glib) (te : TextEdit) (text mw res rl : Nat)
    (hrl : width G te text rl ≤ mw) :
    (getScreenLine_finish te text res rl).2 = 1
    ∨ width G te text (getScreenLine_finish te text res rl).2 ≤ mw := by
  unfold getScreenLine_finish
  split
  · exact Or.inl rfl
  · exact Or.inr hrl

/-- The loop of the line breaker returns one codepoint, a recorded length whose codepoints are
not wider than `mw`, or a line that ends with a line feed and whose codepoints before it are
not wider than `mw`. -/
theorem getScreenLine_loop_fits (G : Glib) (te : TextEdit) (text mw : Nat) :
    ∀ (n cur res cw cl : Nat) (sp : Bool) (rl : Nat),
      (nextChar te)^[cl] text = cur → cw = width G te text cl → width G te text rl ≤ mw →
      (getScreenLine_loop G te text mw n cur res cw cl sp rl).2 = 1
      ∨ width G te text (getScreenLine_loop G te text mw n cur res cw cl sp rl).2 ≤ mw
      ∨ (te.buffer
            ((nextChar te)^[(getScreenLine_loop G te text mw n cur res cw cl sp rl).2 - 1] text)
            % 256 = LF
          ∧ width G te text ((getScreenLine_loop G te text mw n cur res cw cl sp rl).2 - 1)
              ≤ mw) := by
  intro n
  induction n with
  | zero =>
    intro cur res cw cl sp rl _ _ hrl
    have := getScreenLine_finish_fits G te text mw res rl hrl
    simp only [getScreenLine_loop]
    tauto
  | succ n ih =>
    intro cur res cw cl sp rl hcur hcw hrl
    have hfin := getScreenLine_finish_fits G te text mw res rl hrl
    have hnext : (nextChar te)^[cl + 1] text = nextChar te cur := by
      rw [Function.iterate_succ_apply', hcur]
    have hcw2 : cw + onScreenWidth G te (g_utf8_get_char te.buffer cur) cw
        = width G te text (cl + 1) := by
      rw [width_succ, hcur, ← hcw]
    simp only [getScreenLine_loop]
    split
    · split
      · tauto
      · rename_i hle
        have hle2 : width G te text cl ≤ mw := by rw [← hcw]; omega
        have hrl2 : width G te text
            (if (decide (cw + onScreenWidth G te (g_utf8_get_char te.buffer cur) cw > mw)
                && rl == 0) = true then cl + 1 - 1 else rl) ≤ mw := by
          split
          · simpa using hle2
          · exact hrl
        split
        · rename_i hlf
          refine Or.inr (Or.inr ⟨?_, ?_⟩)
          · show te.buffer ((nextChar te)^[cl + 1 - 1] text) % 256 = LF
            rw [Nat.add_sub_cancel, hcur]
            exact hlf
          · show width G te text (cl + 1 - 1) ≤ mw
            rw [Nat.add_sub_cancel]
            exact hle2
        · split
          · exact ih _ _ _ _ _ _ hnext hcw2 hrl2
          · split
            · exact ih _ _ _ _ _ _ hnext hcw2 (by simpa using hle2)
            · exact ih _ _ _ _ _ _ hnext hcw2 hrl2
    · tauto

/-- C31: for every buffer, every start offset and every `max_width`, the screen line returned
by `getScreenLine` either consists of a single codepoint, or its codepoints, not counting the
line feed when the line ends with one, have a display width (`width` from the start offset,
accumulated from column 0 with `onScreenWidth`) of at most `max_width`. -/
theorem getScreenLine_line_fits_max_width (G : Glib) (te : TextEdit) (text max_width : Nat) :
    (getScreenLine G te text max_width).2 = 1
    ∨ width G te text
        (if te.buffer ((nextChar te)^[(getScreenLine G te text max_width).2 - 1] text) % 256 = LF
          then (getScreenLine G te text max_width).2 - 1
          else (getScreenLine G te text max_width).2) ≤ max_width := by
  have h := getScreenLine_loop_fits G te text max_width (te.bufend - text + 1) text text 0 0
    false 0 rfl rfl (Nat.zero_le _)
  have hmono := width_pred_le G te text (getScreenLine G te text max_width).2
  unfold getScreenLine at hmono ⊢
  rcases h with h | h | ⟨h1, h2⟩
  · exact Or.inl h
  · right
    split
    · exact Nat.le_trans hmono h
    · exact h
  · right
    rw [if_pos h1]
    exact h2

/-! ### The screen line of the cursor exists -/

/-- C32, counterexample: construct the document with the two bytes `0x80 0x80`, which are not
well-formed UTF-8, in a viewport of width 10.  `g_utf8_strlen` counts two codepoints, so
`current_pos = 2`, but `nextChar` steps over both bytes at once, so the only screen line has
two codepoints, the line feed at the end included.  The cache is up to date and
`updateScreenCursor` leaves `current_sc_line = 1`, the number of screen lines:
`screen_lines[current_sc_line]` is out of range. -/
theorem stray_bytes_put_cursor_line_past_the_cache :
    docTwoStray.area = some ⟨10, 3⟩
    ∧ docTwoStray.screen_lines_dirty = false
    ∧ docTwoStray.text_length = 2
    ∧ docTwoStray.current_pos = 2
    ∧ docTwoStray.screen_lines.map ScreenLine.length = [2]
    ∧ docTwoStray.screen_lines.length = 1
    ∧ docTwoStray.current_sc_line = 1
    ∧ ¬ docTwoStray.current_sc_line < docTwoStray.screen_lines.length := by
  decide

/-- C32, amended: in every state reachable through `initBuffer`, `setText`, `clear`,
`insertTextAtCursor`, `deleteFromCursor`, `moveCursor` and `getText` in which every text
passed in is well-formed UTF-8 (the content below 2^31 codepoints, the cell width monotone in
the column), with a viewport of width at least 2 and an up-to-date cache, the screen-line
cache is not empty and `current_sc_line` is smaller than the number of screen lines: the
access `screen_lines[current_sc_line]` of `moveCursor` is in range, and so are the guarded
accesses to the lines `current_sc_line + 1` and `current_sc_line - 1`; `moveCursor` makes them
on this cache, which `assertUpdatedScreenLines` leaves as it is. -/
theorem reachable_screen_line_accesses_in_range (G : Glib) (hm : WidthMono G) (te : TextEdit)
    (s : List Nat) (hr : ReachableWith G te s) (ar : Area) (ha : te.area = some ar)
    (hw : 2 ≤ ar.maxx) (hclean : te.screen_lines_dirty = false) :
    te.screen_lines ≠ []
    ∧ te.current_sc_line < te.screen_lines.length
    ∧ (te.screen_lines[te.current_sc_line]?).isSome = true
    ∧ (te.current_sc_line + 1 < te.screen_lines.length →
        (te.screen_lines[te.current_sc_line + 1]?).isSome = true)
    ∧ (0 < te.current_sc_line → (te.screen_lines[te.current_sc_line - 1]?).isSome = true)
    ∧ assertUpdatedScreenLines G te = te := by
  obtain ⟨hd, tl, -, -, -, -, hinv⟩ := reachableWith_inv G hm te s hr
  have inv := hinv ar ha hw
  have hlt := (inv.cursor_on_line hclean).1
  refine ⟨?_, hlt, ?_, ?_, ?_, assertUpdated_clean G te hclean⟩
  · intro hnil
    rw [hnil] at hlt
    exact Nat.not_lt_zero _ hlt
  · rw [List.getElem?_eq_getElem hlt]; rfl
  · intro h
    rw [List.getElem?_eq_getElem h]; rfl
  · intro h
    rw [List.getElem?_eq_getElem (show te.current_sc_line - 1 < te.screen_lines.length by omega)]
    rfl

/-- Insert "hi" into the empty document in a viewport of width 10 and delete the last
codepoint: the cache holds one screen line and the cursor is on it. -/
theorem reachable_screen_line_accesses_in_range_witness :
    docEdited.screen_lines.length = 1
    ∧ docEdited.current_sc_line = 0
    ∧ docEdited.current_sc_line < docEdited.screen_lines.length :=
  ⟨by decide, by decide,
    (reachable_screen_line_accesses_in_range stdGlib stdGlib_widthMono docEdited _
      (ReachableWith.delete _ _ DeleteType.DELETE_CHARS Direction.DIR_BACK
        (ReachableWith.insert _ _ [104, 105]
          (ReachableWith.construct_null (some ⟨10, 3⟩) 0 false true false)
          (by decide) (by decide)))
      ⟨10, 3⟩ (by decide) (by decide) (by decide)).2.1⟩

end

section

/-! ### The screen lines tile the content and its sentinel -/

/-- A line of the layout that starts at the sentinel is the last one and holds the sentinel
alone. -/
theorem Rep.render_sentinel_line {te : TextEdit} {hd tl : List Nat} (h : Rep te hd tl)
    (G : Glib) (masked : Bool) (mw : Nat) (i : Nat)
    (hi : i < (layout G masked mw (hd ++ tl ++ [LF])).length)
    (hs : ((layout G masked mw (hd ++ tl ++ [LF])).take i).sum = hd.length + tl.length) :
    i + 1 = (layout G masked mw (hd ++ tl ++ [LF])).length
    ∧ (render te hd tl 0 (layout G masked mw (hd ++ tl ++ [LF]))).getD i default
        = ⟨te.bufend - 1, te.bufend, 1⟩ := by
  have hsum := layout_sum G masked mw _ (hd ++ tl ++ [LF]) (Nat.le_refl _)
  have hlen : (hd ++ tl ++ [LF]).length = hd.length + tl.length + 1 := by
    simp only [List.length_append, List.length_singleton]
  have hpos := layout_pos G masked mw _ (hd ++ tl ++ [LF]) (Nat.le_refl _)
  generalize layout G masked mw (hd ++ tl ++ [LF]) = lens at hi hs hsum hpos
  have h1 := take_sum_succ lens i hi
  have h2 := take_sum_le lens (i + 1)
  have h3 : 1 ≤ lens.getD i 0 := hpos _ (getD_mem_of_lt lens i hi)
  have h4 : lens.getD i 0 = 1 := by omega
  have h5 : i + 1 = lens.length := by
    by_contra hne
    have hlt : i + 1 < lens.length := by omega
    have h6 := take_sum_succ lens (i + 1) hlt
    have h7 := take_sum_le lens (i + 1 + 1)
    have h8 : 1 ≤ lens.getD (i + 1) 0 := hpos _ (getD_mem_of_lt lens (i + 1) hlt)
    omega
  refine ⟨h5, ?_⟩
  rw [render_getD 0 i lens hi, h1, hs, h4, Nat.zero_add, Nat.zero_add, h.posOf_last,
    h.posOf_end]

/-- The screen lines of the layout and the content: only the last line can hold the sentinel
alone, and it does when the content is empty or ends with a line feed. -/
theorem Rep.render_content_lines {te : TextEdit} {hd tl : List Nat} (h : Rep te hd tl)
    (G : Glib) (masked : Bool) (mw : Nat) :
    ContentLines te hd tl (render te hd tl 0 (layout G masked mw (hd ++ tl ++ [LF]))) := by
  have hlen : (hd ++ tl ++ [LF]).length = hd.length + tl.length + 1 := by
    simp only [List.length_append, List.length_singleton]
  have hne : layout G masked mw (hd ++ tl ++ [LF]) ≠ [] :=
    layout_ne_nil G masked mw _ (by simp)
  have hsum := layout_sum G masked mw _ (hd ++ tl ++ [LF]) (Nat.le_refl _)
  refine ⟨?_, ?_⟩
  · intro i hi
    rw [render_length] at hi
    have hlt := layout_take_sum_lt G masked mw (hd ++ tl ++ [LF]) i hi
    rw [hlen] at hlt
    by_cases hk : ((layout G masked mw (hd ++ tl ++ [LF])).take i).sum < hd.length + tl.length
    · left
      refine ⟨_, hk, ?_⟩
      rw [render_getD 0 i _ hi, Nat.zero_add]
    · right
      have := h.render_sentinel_line G masked mw i hi (by omega)
      rw [render_length]
      exact this
  · intro hc
    rw [render_length]
    have hpos : 0 < (layout G masked mw (hd ++ tl ++ [LF])).length :=
      List.length_pos.2 hne
    have hj : (layout G masked mw (hd ++ tl ++ [LF])).length - 1
        < (layout G masked mw (hd ++ tl ++ [LF])).length := by omega
    have hlt := layout_take_sum_lt G masked mw (hd ++ tl ++ [LF]) _ hj
    rw [hlen] at hlt
    have hs : ((layout G masked mw (hd ++ tl ++ [LF])).take
        ((layout G masked mw (hd ++ tl ++ [LF])).length - 1)).sum = hd.length + tl.length := by
      by_contra hne2
      rcases hc with hc | ⟨pre, hc⟩
      · have : hd.length + tl.length = 0 := by
          rw [← List.length_append, hc]; rfl
        omega
      · have hN : hd.length + tl.length = pre.length + 1 := by
          rw [← List.length_append, hc, List.length_append, List.length_singleton]
        have hget := layout_getD G masked mw (hd ++ tl ++ [LF]) _ hj
        have hsucc := take_sum_succ (layout G masked mw (hd ++ tl ++ [LF])) _ hj
        have hall : (layout G masked mw (hd ++ tl ++ [LF])).length - 1 + 1
            = (layout G masked mw (hd ++ tl ++ [LF])).length := by omega
        rw [hall, List.take_length, hsum, hlen] at hsucc
        generalize ((layout G masked mw (hd ++ tl ++ [LF])).take
          ((layout G masked mw (hd ++ tl ++ [LF])).length - 1)).sum = s at hlt hne2 hget hsucc
        have hstop := brkLoop_stops_at_line_feed G masked mw ((hd ++ tl ++ [LF]).drop s) 0 0 0
          (pre.length - s) false
          (by rw [List.length_drop, hlen]; omega)
          (by
            rw [getD_drop, hc]
            have : s + (pre.length - s) = pre.length := by omega
            rw [this, List.append_assoc, List.getD_append_right _ _ _ _ (Nat.le_refl _)]
            simp)
          (Nat.le_refl 0)
        have hbrk : brk G masked mw ((hd ++ tl ++ [LF]).drop s)
            = brkLoop G masked mw ((hd ++ tl ++ [LF]).drop s) 0 0 false 0 := rfl
        rw [hbrk] at hget
        omega
    exact (h.render_sentinel_line G masked mw _ hj hs).2

/-- C9, counterexample: the document "a\n" in a viewport of width 10.  The content is the two
bytes at the offsets 0 and 1, and the sentinel line feed is at `bufend - 1 = 4097`.  The full
rebuild and the cache left by the edit both hold two screen lines; the last one is
`[4097, 4098)`, which holds the sentinel alone and no byte of the content, although the
content is not empty, and it ends at `bufend`, after the sentinel, not at the end of the
content. -/
theorem trailing_line_feed_leaves_sentinel_only_line :
    (getText docTrailingLF).2 = [97, 10]
    ∧ docTrailingLF.text_length = 2
    ∧ docTrailingLF.gapstart = 2 ∧ docTrailingLF.gapend = 4097 ∧ docTrailingLF.bufend = 4098
    ∧ docTrailingLF.buffer 4097 = LF
    ∧ (updateScreenLines stdGlib docTrailingLF).screen_lines = [⟨0, 4097, 2⟩, ⟨4097, 4098, 1⟩]
    ∧ docTrailingLF.screen_lines = [⟨0, 4097, 2⟩, ⟨4097, 4098, 1⟩] := by
  decide

/-- C9, amended: on a document with the content `hd ++ tl` and a viewport of width at least 2,
the screen lines computed by the full `updateScreenLines ()` tile the stored text, which is
the content followed by the sentinel line feed, in order: there is at least one line, the
first starts at the start of the content, each line ends where the next starts, the last ends
at `bufend`, after the sentinel, every stored byte (so every byte of the content) lies in
exactly one line, every line holds at least one codepoint of the stored text, and every line
starts and ends at the offset of a codepoint.  No line but the last is empty of content: every
line starts with a codepoint of the content, except that the last line may hold the sentinel
alone, which it does when the content is empty (it is then the only line) and when the content
ends with a line feed.  The same holds for the cache left by `insertTextAtCursor` and by
`deleteFromCursor` on a document whose cache was up to date (below 2^31 codepoints, cell
widths monotone in the column). -/
theorem screen_lines_tile_text (G : Glib) (te : TextEdit) (hd tl : List Nat) (ar : Area)
    (hdoc : Doc te hd tl) (harea : te.area = some ar) (hw : 2 ≤ ar.maxx) :
    (Tiles te hd tl (updateScreenLines G te).screen_lines
      ∧ ContentLines te hd tl (updateScreenLines G te).screen_lines)
    ∧ (hd ++ tl = [] →
        (updateScreenLines G te).screen_lines = [⟨getTextStart te, te.bufend, 1⟩])
    ∧ (WidthMono G → te.screen_lines = (updateScreenLines G te).screen_lines →
        hd.length + tl.length < 2147483648 →
        (∀ cps, (∀ x, x ∈ cps → validCp x) →
          Rep (insertTextAtCursor G te (encodeUtf8 cps) (encodeUtf8 cps).length)
            ((hd ++ tl).take te.current_pos ++ cps) ((hd ++ tl).drop te.current_pos)
          ∧ Tiles (insertTextAtCursor G te (encodeUtf8 cps) (encodeUtf8 cps).length)
            ((hd ++ tl).take te.current_pos ++ cps) ((hd ++ tl).drop te.current_pos)
            (insertTextAtCursor G te (encodeUtf8 cps) (encodeUtf8 cps).length).screen_lines
          ∧ ContentLines (insertTextAtCursor G te (encodeUtf8 cps) (encodeUtf8 cps).length)
            ((hd ++ tl).take te.current_pos ++ cps) ((hd ++ tl).drop te.current_pos)
            (insertTextAtCursor G te (encodeUtf8 cps) (encodeUtf8 cps).length).screen_lines)
        ∧ (∀ type dir, ∃ hd2 tl2, Rep (deleteFromCursor G te type dir) hd2 tl2
          ∧ Tiles (deleteFromCursor G te type dir) hd2 tl2
            (deleteFromCursor G te type dir).screen_lines
          ∧ ContentLines (deleteFromCursor G te type dir) hd2 tl2
            (deleteFromCursor G te type dir).screen_lines)) := by
  have key : ∀ (te : TextEdit) (hd tl : List Nat), Rep te hd tl →
      Tiles te hd tl (render te hd tl 0 (layout G te.masked (ar.maxx - 1) (hd ++ tl ++ [LF])))
      ∧ ContentLines te hd tl
          (render te hd tl 0 (layout G te.masked (ar.maxx - 1) (hd ++ tl ++ [LF]))) := by
    intro te hd tl h
    exact ⟨h.render_tiles _ (layout_pos G te.masked (ar.maxx - 1) _ _ (Nat.le_refl _))
      (by rw [layout_sum G te.masked (ar.maxx - 1) _ _ (Nat.le_refl _)]
          simp only [List.length_append, List.length_singleton]),
      h.render_content_lines G te.masked (ar.maxx - 1)⟩
  refine ⟨?_, ?_, ?_⟩
  · show Tiles te hd tl (fullScreenLines G te) ∧ ContentLines te hd tl (fullScreenLines G te)
    rw [fullScreenLines_render G hdoc.rep ar harea hw]
    exact key te hd tl hdoc.rep
  · intro h0
    obtain ⟨h1, h2⟩ := List.append_eq_nil.1 h0
    subst h1
    subst h2
    show fullScreenLines G te = _
    rw [fullScreenLines_render G hdoc.rep ar harea hw,
      show ([] : List Nat) ++ [] ++ [LF] = [LF] from rfl, layout_single,
      hdoc.rep.getTextStart_eq, ← hdoc.rep.posOf_end]
    rfl
  · intro hm hcache hsmall
    have lay := lay_of_cache G hdoc harea hw hcache
    refine ⟨?_, ?_⟩
    · intro cps hv
      obtain ⟨inv2, -, -, -, hd2, -⟩ := Inv.insert_inv hm lay cps hv
      refine ⟨inv2.rep, ?_⟩
      rw [inv2.lines hd2]
      exact key _ _ _ inv2.rep
    · intro type dir
      obtain ⟨hd2, tl2, hrep, -, hl⟩ := delete_cache G hm hdoc harea hw hcache hsmall type dir
      refine ⟨hd2, tl2, hrep, ?_⟩
      rw [hl]
      exact key _ _ _ hrep

/-- The document "hi" in a viewport of width 10: the lines of the full rebuild tile the stored
text and start with content, and so does the cache after inserting "!". -/
theorem screen_lines_tile_text_witness :
    (Tiles docHi [104, 105] [] (updateScreenLines stdGlib docHi).screen_lines
      ∧ ContentLines docHi [104, 105] [] (updateScreenLines stdGlib docHi).screen_lines)
    ∧ Tiles (insertTextAtCursor stdGlib docHi (encodeUtf8 [33]) (encodeUtf8 [33]).length)
        (([104, 105] ++ []).take docHi.current_pos ++ [33])
        (([104, 105] ++ []).drop docHi.current_pos)
        (insertTextAtCursor stdGlib docHi (encodeUtf8 [33]) (encodeUtf8 [33]).length).screen_lines :=
  ⟨(screen_lines_tile_text stdGlib docHi [104, 105] [] ⟨10, 3⟩ docHi_doc rfl (by decide)).1,
    (((screen_lines_tile_text stdGlib docHi [104, 105] [] ⟨10, 3⟩ docHi_doc rfl (by decide)).2.2
      stdGlib_widthMono docHi_cache (by decide)).1 [33] (by decide)).2.1⟩

end

end CppConsUI
